import Mathlib

/-!
# A verification development for the task planner

Shallow embedding of `task.cc`, `compute.cc` and `planner.cc`.

Conventions of the embedding.

* A `task*` is the position of the task in the id table `task::by_id`; tasks are
  created by `pparse::read_tasks_file` one after the other, so the id table and the
  planner's task list hold the same tasks in the same order and `get_id()` of the
  task at position `i` is `i`.
* A `compute*` is the position of the node in the planner's compute list.
* `uint64_t` quantities are naturals and `int64_t` quantities are integers; all
  inputs are taken to fit their machine types, so that no arithmetic wraps.
* A failing `assert` aborts the run.
-/

namespace PlannerModel

/-! ## Generic helpers -/

/-- Update through a pointer: apply `f` to the element at position `i`. -/
def modify_at {α : Type} (f : α → α) : Nat → List α → List α
  | _, [] => []
  | 0, a :: l => f a :: l
  | i + 1, a :: l => a :: modify_at f i l

/-! ## task.h / task.cc -/

/-- The enum `task::_state`. -/
inductive TaskState where
  | not_started
  | running
  | complete
  | no_resources
  deriving DecidableEq, Repr

/-- The data members of `class task`; `deps` and `waiter_list` hold task pointers. -/
structure Task where
  name : String
  reqd_cores : Nat
  reqd_ticks : Nat
  ticks_remaining : Nat
  id : Nat
  dep_str : String
  deps : List Nat
  state : TaskState
  mapped_deps : Bool
  waiters : Nat
  waiter_list : List Nat
  deriving DecidableEq, Repr

instance : Inhabited Task :=
  ⟨⟨"", 0, 0, 0, 0, "", [], TaskState.not_started, false, 0, []⟩⟩

/-- The struct `task::_tick_stat`. -/
structure TickStat where
  remaining_ticks : Nat
  busy_ticks : Nat
  idle_ticks : Nat
  deriving DecidableEq, Repr

/-- The constructor `task::task(name, reqd_cores, reqd_ticks)`; `id` is the value
returned by `next_id()`. -/
def Task.new (name : String) (reqd_cores reqd_ticks id : Nat) : Task :=
  { name := name, reqd_cores := reqd_cores, reqd_ticks := reqd_ticks,
    ticks_remaining := reqd_ticks, id := id, dep_str := "", deps := [],
    state := TaskState.not_started, mapped_deps := false, waiters := 0, waiter_list := [] }

/-- The method `task::set_dep_str`. -/
def Task.set_dep_str (t : Task) (deps : String) : Task :=
  { t with dep_str := deps }

/-- The method `task::run_for`: the returned statistics and the task afterwards. -/
def Task.run_for (t : Task) (ticks : Nat) : TickStat × Task :=
  if t.ticks_remaining = ticks then
    (⟨0, ticks, 0⟩, { t with state := TaskState.complete, ticks_remaining := 0 })
  else if t.ticks_remaining < ticks then
    (⟨0, ticks, ticks - t.ticks_remaining⟩,
      { t with state := TaskState.complete, ticks_remaining := 0 })
  else
    (⟨t.ticks_remaining - ticks, ticks, 0⟩,
      { t with ticks_remaining := t.ticks_remaining - ticks })

/-- The method `task::set_state` (its assertion is that the new state is not
`not_started`; the only caller passes `running`). -/
def Task.set_state (t : Task) (s : TaskState) : Task :=
  { t with state := s }

/-- Dereference of a task pointer, `task::lookup_task(id_t)`. -/
def lookup_task (tasks : List Task) (p : Nat) : Task :=
  tasks.getD p default

/-- The method `task::dependencies_met`: `find_if(task_incomplete)` reaches the end. -/
def dependencies_met (tasks : List Task) (t : Task) : Bool :=
  t.deps.all (fun d => decide ((lookup_task tasks d).state = TaskState.complete))

/-- The function `boost::split(deps, s, is_any_of(","))` on a character list:
adjacent separators are not compressed. -/
def split_commas : List Char → List (List Char)
  | [] => [[]]
  | c :: cs =>
    if c = ',' then [] :: split_commas cs
    else
      match split_commas cs with
      | [] => [[c]]
      | w :: ws => (c :: w) :: ws

/-- The classification `std::isspace` in the classic locale. -/
def is_space (c : Char) : Bool :=
  c = ' ' || c = '\t' || c = '\n' || c = '\x0b' || c = '\x0c' || c = '\r'

/-- The function `boost::trim`: drop the white space at both ends. -/
def trim (w : List Char) : List Char :=
  ((w.dropWhile is_space).reverse.dropWhile is_space).reverse

/-- The method `task::_get_dep_str`: the parent names written in `dep_str`. -/
def _get_dep_str (t : Task) : List String :=
  if t.dep_str.data = [] then []
  else (split_commas t.dep_str.data).map (fun w => String.mk (trim w))

/-- The search `by_name.find(name)` of `task::lookup_task(const std::string&)`,
counting positions from `i`. -/
def lookup_name_from (nm : String) : List Task → Nat → Option Nat
  | [], _ => none
  | t :: ts, i => if t.name = nm then some i else lookup_name_from nm ts (i + 1)

/-- The function `task::lookup_task(const std::string&)`: the pointer of the task
called `nm`, or `none` for `NULL`. -/
def lookup_task_name (tasks : List Task) (nm : String) : Option Nat :=
  lookup_name_from nm tasks 0

/-- The method `task::_incr_waiters`, called on the task `t` with waiter `w`. -/
def _incr_waiters (w : Nat) (t : Task) : Task :=
  { t with waiter_list := t.waiter_list ++ [w], waiters := t.waiters + 1 }

/-- The statement `_deps.push_back(t)` of `task::map_dependencies`. -/
def _push_dep (t : Nat) (me : Task) : Task :=
  { me with deps := me.deps ++ [t] }

/-- The statement `_mapped_deps = true` of `task::map_dependencies`. -/
def _set_mapped (me : Task) : Task :=
  { me with mapped_deps := true }

/-- The loop of `task::map_dependencies` over the parsed names, run by the task at
`self`: the flag `found_all` and the id table afterwards. -/
def map_deps_loop (self : Nat) : List String → Bool × List Task → Bool × List Task
  | [], acc => acc
  | nm :: rest, (found_all, tasks) =>
    match lookup_task_name tasks nm with
    | some t =>
      let tasks1 := modify_at (_incr_waiters self) t tasks
      let tasks2 := modify_at (_push_dep t) self tasks1
      map_deps_loop self rest (found_all, tasks2)
    | none => map_deps_loop self rest (false, tasks)

/-- The method `task::map_dependencies`, called on the task at `self`. -/
def map_dependencies (tasks : List Task) (self : Nat) : Bool × List Task :=
  let r := map_deps_loop self (_get_dep_str (lookup_task tasks self)) (true, tasks)
  (r.1, modify_at _set_mapped self r.2)

/-- The method `task::get_dependency_count`; the sentinel `-1` is `2^64 - 1`. -/
def Task.get_dependency_count (t : Task) : Nat :=
  if t.mapped_deps then t.deps.length else 2 ^ 64 - 1

/-- The method `task::get_waiter_count`. -/
def Task.get_waiter_count (t : Task) : Nat := t.waiters

/-- The method `task::get_waiter_list`. -/
def Task.get_waiter_list (t : Task) : List Nat := t.waiter_list

/-! ## compute.h / compute.cc -/

/-- The enum `compute::_state`. -/
inductive ComputeState where
  | busy
  | free
  | partially_available
  deriving DecidableEq, Repr

/-- The data members of `class compute`; `current_tasks` holds task pointers. -/
structure Compute where
  name : String
  cores_total : Int
  cores_available : Int
  cumulative_busy_ticks : Nat
  cumulative_idle_ticks : Nat
  completed_tasks : Nat
  current_tasks : List Nat
  state : ComputeState
  assign_count : Nat
  deriving DecidableEq, Repr

instance : Inhabited Compute :=
  ⟨⟨"", 0, 0, 0, 0, 0, [], ComputeState.free, 0⟩⟩

/-- The constructor `compute::compute(name, cores)`. -/
def Compute.new (name : String) (cores : Nat) : Compute :=
  { name := name, cores_total := cores, cores_available := cores,
    cumulative_busy_ticks := 0, cumulative_idle_ticks := 0, completed_tasks := 0,
    current_tasks := [], state := ComputeState.free, assign_count := 0 }

/-- The method `compute::get_cores`. -/
def Compute.get_cores (c : Compute) : Nat := c.cores_total.toNat

/-- The method `compute::get_state`: it returns the member `_state`. -/
def Compute.get_state (c : Compute) : ComputeState := c.state

/-- The method `compute::assign_task` on node `c` for the task pointer `t`: the node
and the id table afterwards, or `none` when an assertion fails. -/
def assign_task (c : Compute) (tasks : List Task) (t : Nat) : Option (Compute × List Task) :=
  if (lookup_task tasks t).state ≠ TaskState.not_started then none
  else
    let tasks1 := modify_at (fun x => x.set_state TaskState.running) t tasks
    let avail := c.cores_available - ((lookup_task tasks1 t).reqd_cores : Int)
    if avail < 0 then none
    else
      some ({ c with current_tasks := c.current_tasks ++ [t], cores_available := avail,
                     assign_count := c.assign_count + 1 }, tasks1)

/-- The local variables of `compute::tick` that its loop updates, together with the
two members it changes (`kept` is what is left of `_current_tasks`). -/
structure TickLoop where
  tasks : List Task
  cores_used : Int
  tasks_completed : Int
  this_run_idle_ticks : Nat
  this_run_busy_ticks : Nat
  cores_available : Int
  kept : List Nat
  deriving DecidableEq, Repr

/-- The loop of `compute::tick` over `_current_tasks`; `none` when the assertion
`_cores_available <= _cores_total` fails. -/
def tick_loop (cores_total : Int) (ticks : Nat) : List Nat → TickLoop → Option TickLoop
  | [], a => some a
  | t :: rest, a =>
    let r := (lookup_task a.tasks t).run_for ticks
    let ts := r.1
    let tasks1 := modify_at (fun _ => r.2) t a.tasks
    let req := (lookup_task tasks1 t).reqd_cores
    let a1 : TickLoop :=
      { a with tasks := tasks1, cores_used := a.cores_used + (req : Int),
               this_run_idle_ticks := a.this_run_idle_ticks + ts.idle_ticks * req,
               this_run_busy_ticks := a.this_run_busy_ticks + ts.busy_ticks * req }
    if ts.remaining_ticks = 0 then
      let avail := a1.cores_available + (req : Int)
      if avail ≤ cores_total then
        tick_loop cores_total ticks rest
          { a1 with cores_available := avail, tasks_completed := a1.tasks_completed + 1 }
      else none
    else
      tick_loop cores_total ticks rest { a1 with kept := a1.kept ++ [t] }

/-- The method `compute::tick(ticks)` on node `c`: the number of completed tasks, the
node and the id table afterwards, or `none` when an assertion fails. -/
def tick (c : Compute) (tasks : List Task) (ticks : Nat) : Option (Int × Compute × List Task) :=
  if ¬ (ticks > 0) then none
  else
    match tick_loop c.cores_total ticks c.current_tasks
        ⟨tasks, 0, 0, 0, 0, c.cores_available, []⟩ with
    | none => none
    | some a =>
      if ¬ (c.cores_total ≥ a.cores_used) then none
      else
        let idle := ((c.cores_total - a.cores_used) * (ticks : Int)).toNat
        if ¬ (c.cores_total * (ticks : Int) = ((idle + a.this_run_busy_ticks : Nat) : Int)) then none
        else
          some (a.tasks_completed,
            { c with cores_available := a.cores_available, current_tasks := a.kept,
                     cumulative_idle_ticks := c.cumulative_idle_ticks + idle,
                     cumulative_busy_ticks := c.cumulative_busy_ticks + a.this_run_busy_ticks,
                     completed_tasks := c.completed_tasks + a.tasks_completed.toNat },
            a.tasks)

/-- The assertions of `compute::tick`, in the order of the source: `ticks>0`,
`_cores_available <= _cores_total`, `_cores_total >= cores_used`, and the accounting
assertion `(_cores_total * ticks) == (this_run_idle_ticks + this_run_busy_ticks)`. -/
inductive TickAssertion where
  | ticks_positive
  | available_le_total
  | total_ge_used
  | accounting
  deriving DecidableEq, Repr

/-- The assertion at which `compute::tick(ticks)` on node `c` aborts, `none` when the
call passes all four. -/
def tick_violation (c : Compute) (tasks : List Task) (ticks : Nat) : Option TickAssertion :=
  if ¬ (ticks > 0) then some TickAssertion.ticks_positive
  else
    match tick_loop c.cores_total ticks c.current_tasks
        ⟨tasks, 0, 0, 0, 0, c.cores_available, []⟩ with
    | none => some TickAssertion.available_le_total
    | some a =>
      if ¬ (c.cores_total ≥ a.cores_used) then some TickAssertion.total_ge_used
      else
        let idle := ((c.cores_total - a.cores_used) * (ticks : Int)).toNat
        if ¬ (c.cores_total * (ticks : Int) = ((idle + a.this_run_busy_ticks : Nat) : Int)) then
          some TickAssertion.accounting
        else none

/-! ## The graph library: `boost::adjacency_list<vecS, vecS, directedS>` -/

/-- A graph with vector storage: the entry at position `u` is the list of the
targets of the out-edges of vertex `u`, in the order the edges were added. -/
abbrev TaskGraph := List (List Nat)

/-- The function `boost::add_edge(u, v, g)`: with vector storage the vertex set
grows to `max(u, v) + 1` vertices when `u` or `v` is not a vertex yet. -/
def add_edge (u v : Nat) (g : TaskGraph) : TaskGraph :=
  modify_at (fun out => out ++ [v]) u (g ++ List.replicate (max u v + 1 - g.length) [])

/-- The state of the depth-first search of `boost::topological_sort`: the vertices
coloured gray (discovered, not finished) and the output sequence, which holds the
vertices coloured black in the order they finished. -/
structure DfsState where
  gray : List Nat
  out : List Nat
  deriving DecidableEq, Repr

/-- The outcome of a depth-first search. -/
inductive DfsResult where
  | done (s : DfsState)
  | not_a_dag
  | no_fuel
  deriving DecidableEq, Repr

/-- Sequencing of searches: run `f` on the state `r` holds. -/
def DfsResult.andThen (r : DfsResult) (f : DfsState → DfsResult) : DfsResult :=
  match r with
  | DfsResult.done s => f s
  | DfsResult.not_a_dag => DfsResult.not_a_dag
  | DfsResult.no_fuel => DfsResult.no_fuel

/-- Examine the vertices of `vs` one after the other with `visit`. -/
def dfs_each (visit : Nat → DfsState → DfsResult) : List Nat → DfsState → DfsResult
  | [], s => DfsResult.done s
  | v :: vs, s => (visit v s).andThen (dfs_each visit vs)

/-- The examination of vertex `u` by the depth-first search with the visitor of
`boost::topological_sort`: a gray `u` is the target of a back edge and raises
`not_a_dag`, a black `u` is left alone, a white `u` is coloured gray, its out-edges are
examined in order, and it is then coloured black and written to the output.  The
recursion depth is bounded by `fuel`. -/
def dfs_visit (g : TaskGraph) : Nat → Nat → DfsState → DfsResult
  | 0, _, _ => DfsResult.no_fuel
  | fuel + 1, u, s =>
    if u ∈ s.gray then DfsResult.not_a_dag
    else if u ∈ s.out then DfsResult.done s
    else
      (dfs_each (dfs_visit g fuel) (g.getD u []) { s with gray := u :: s.gray }).andThen
        (fun s1 => DfsResult.done { gray := s1.gray.erase u, out := s1.out ++ [u] })

/-- The function `boost::topological_sort(g, back_inserter(out))`: a depth-first
search started at every vertex in index order, deep enough for every path of
distinct vertices; the result `not_a_dag` stands for the exception of that name. -/
def topological_sort (g : TaskGraph) : DfsResult :=
  dfs_each (dfs_visit g (g.length + 1)) (List.range g.length) ⟨[], []⟩

/-! ## planner.h / planner.cc -/

/-- The enum `planner::_status`. -/
inductive Status where
  | ok
  | compute_exceeded
  | missing_dependency
  | circular_dependency
  deriving DecidableEq, Repr

/-- The data members of `class planner`.  `comp` is the compute list, `tasks` the
task list (which is also the id table); a schedule entry is a pair of a task pointer
and a compute pointer. -/
structure Planner where
  comp : List Compute
  tasks : List Task
  tasks_validated : Bool
  tg : TaskGraph
  job_sequence : List Nat
  edge : List (Nat × Nat)
  schedule : List (Nat × Nat)
  required_ticks : Nat
  count_dep_wait : Nat
  count_comp_unavail : Nat
  all_cores_busy : Nat
  last_task : Option Nat
  deriving DecidableEq, Repr

/-- The constructor `planner::planner(comp, task)`. -/
def Planner.new (comp : List Compute) (tasks : List Task) : Planner :=
  { comp := comp, tasks := tasks, tasks_validated := false, tg := [], job_sequence := [],
    edge := [], schedule := [], required_ticks := 0, count_dep_wait := 0,
    count_comp_unavail := 0, all_cores_busy := 0, last_task := none }

/-- The predicate `sort_max_cores`. -/
def sort_max_cores (rhs lhs : Compute) : Bool :=
  decide (rhs.cores_available < lhs.cores_available)

/-- The algorithm `std::max_element(first, last, comp)`: the first largest element,
`none` for the end iterator of an empty range. -/
def max_element {α : Type} (comp : α → α → Bool) : List α → Option α
  | [] => none
  | a :: l => some (l.foldl (fun largest x => if comp largest x then x else largest) a)

/-- The local variables of `planner::validate_tasks` that its first loop updates,
with the members it changes. -/
structure ValidateLoop where
  tasks : List Task
  edge : List (Nat × Nat)
  disconnected_nodes : List Nat
  artificial_dep : Option Nat
  deriving DecidableEq, Repr

/-- How the first loop of `planner::validate_tasks` ends. -/
inductive ValidateExit where
  | finished (v : ValidateLoop)
  | returned (s : Status) (last_task : Option Nat) (v : ValidateLoop)
  | bad_deref
  deriving DecidableEq, Repr

/-- The first loop of `planner::validate_tasks`, over the task pointers of the task
list; `max_comp` is the iterator found by `std::max_element`, whose dereference is
undefined (`bad_deref`) when the compute list is empty. -/
def validate_loop (max_comp : Option Compute) : List Nat → ValidateLoop → ValidateExit
  | [], v => ValidateExit.finished v
  | itr :: rest, v =>
    match max_comp with
    | none => ValidateExit.bad_deref
    | some mc =>
      if (lookup_task v.tasks itr).reqd_cores > mc.get_cores then
        ValidateExit.returned Status.compute_exceeded none v
      else
        let r := map_dependencies v.tasks itr
        if ¬ r.1 then
          ValidateExit.returned Status.missing_dependency (some itr) { v with tasks := r.2 }
        else
          let me := lookup_task r.2 itr
          let edge1 := v.edge ++ me.deps.map (fun dep => (me.id, (lookup_task r.2 dep).id))
          let dis1 :=
            if me.waiters = 0 ∧ me.get_dependency_count = 0 then v.disconnected_nodes ++ [itr]
            else v.disconnected_nodes
          let art1 := match v.artificial_dep with
            | none => some itr
            | some a => some a
          validate_loop max_comp rest
            { tasks := r.2, edge := edge1, disconnected_nodes := dis1, artificial_dep := art1 }

/-- The second loop of `planner::validate_tasks`: the artificial edges of the
disconnected tasks other than `artificial_dep`. -/
def artificial_edges (tasks : List Task) (artificial_dep : Option Nat) (dis : List Nat) :
    List (Nat × Nat) :=
  match artificial_dep with
  | none => []
  | some a =>
    (dis.filter (fun d => decide (d ≠ a))).map
      (fun d => ((lookup_task tasks d).id, (lookup_task tasks a).id))

/-- The third loop of `planner::validate_tasks`: every edge is added to the graph. -/
def add_edges (edges : List (Nat × Nat)) (g : TaskGraph) : TaskGraph :=
  edges.foldl (fun g e => add_edge e.1 e.2 g) g

/-- The part of `planner::validate_tasks` after its first loop: the artificial edges
join the edge list, the graph is built and sorted; `none` when the search runs out of
fuel. -/
def validate_finish (p : Planner) (v : ValidateLoop) : Option (Status × Planner) :=
  let edge1 := v.edge ++ artificial_edges v.tasks v.artificial_dep v.disconnected_nodes
  let tg1 := add_edges edge1 p.tg
  match topological_sort tg1 with
  | DfsResult.no_fuel => none
  | DfsResult.not_a_dag =>
    some (Status.circular_dependency, { p with tasks := v.tasks, edge := edge1, tg := tg1 })
  | DfsResult.done s =>
    some (Status.ok, { p with tasks := v.tasks, edge := edge1, tg := tg1,
                              job_sequence := p.job_sequence ++ s.out,
                              tasks_validated := true })

/-- The method `planner::validate_tasks`: the status it returns and the planner
afterwards; `none` when it dereferences the end iterator of an empty compute list
or the search runs out of fuel. -/
def validate_tasks (p : Planner) : Option (Status × Planner) :=
  match validate_loop (max_element sort_max_cores p.comp) (List.range p.tasks.length)
      ⟨p.tasks, p.edge, [], none⟩ with
  | ValidateExit.bad_deref => none
  | ValidateExit.returned s last v =>
    some (s, { p with tasks := v.tasks, edge := v.edge,
                      last_task := match last with
                        | some t => some t
                        | none => p.last_task })
  | ValidateExit.finished v => validate_finish p v

/-- A task as `pparse::read_tasks_file` reads it: name, `cores_required`,
`execution_time` and `parent_tasks`. -/
structure TaskInput where
  name : String
  cores_required : Nat
  execution_time : Nat
  parent_tasks : String
  deriving DecidableEq, Repr

/-- The task `pparse::read_tasks_file` builds for an entry of the input, with id
`id`: `set_dep_str` is called when `parent_tasks` is not empty. -/
def Task.of_input (x : TaskInput) (id : Nat) : Task :=
  if x.parent_tasks.data = [] then Task.new x.name x.cores_required x.execution_time id
  else (Task.new x.name x.cores_required x.execution_time id).set_dep_str x.parent_tasks

/-- The tasks built by `pparse::read_tasks_file`, the first of which gets id `i`. -/
def read_tasks_from : List TaskInput → Nat → List Task
  | [], _ => []
  | x :: xs, i => Task.of_input x i :: read_tasks_from xs (i + 1)

/-- The task list built by `pparse::read_tasks_file`. -/
def read_tasks (xs : List TaskInput) : List Task := read_tasks_from xs 0

/-- The compute list built by `pparse::read_compute_file` from pairs of a name and a
core count. -/
def read_compute (xs : List (String × Nat)) : List Compute :=
  xs.map (fun x => Compute.new x.1 x.2)

/-- The planner `main` constructs from the two inputs. -/
def Planner.of_input (nodes : List (String × Nat)) (tasks : List TaskInput) : Planner :=
  Planner.new (read_compute nodes) (read_tasks tasks)

/-! ### `planner::schedule_tasks` -/

/-- The algorithm `std::sort(first, last, comp)` on a vector of pointers.  The C++
standard fixes the result up to the order of equivalent elements, so the scheduler is
embedded for any function that returns a rearrangement of its input which is ascending
whenever `comp` compares a key. -/
structure StdSort where
  sort : (Nat → Nat → Bool) → List Nat → List Nat
  perm : ∀ comp l, List.Perm (sort comp l) l
  sorted : ∀ (key : Nat → Int) (l : List Nat),
    List.Pairwise (fun a b => key a ≤ key b) (sort (fun a b => decide (key a < key b)) l)

/-- Insertion of `a` into an ascending list, behind the elements below it. -/
def insert_sorted (comp : Nat → Nat → Bool) (a : Nat) : List Nat → List Nat
  | [] => [a]
  | b :: l => if comp b a then b :: insert_sorted comp a l else a :: b :: l

/-- Insertion sort, which is what `std::sort` of libstdc++ runs on short ranges. -/
def insertion_sort (comp : Nat → Nat → Bool) : List Nat → List Nat
  | [] => []
  | a :: l => insert_sorted comp a (insertion_sort comp l)

/-- Insertion sort as an implementation of `std::sort`. -/
def insertion_sorter : StdSort where
  sort := insertion_sort
  perm := by
    intro comp l
    induction l with
    | nil => exact List.Perm.refl _
    | cons a l ih =>
      have hins : ∀ m : List Nat, List.Perm (insert_sorted comp a m) (a :: m) := by
        intro m
        induction m with
        | nil => exact List.Perm.refl _
        | cons b m ihm =>
          by_cases hc : comp b a = true
          · simp only [insert_sorted, hc, if_true]
            exact (List.Perm.cons b ihm).trans (List.Perm.swap a b m)
          · simp only [insert_sorted, hc]
            exact List.Perm.refl _
      exact (hins _).trans (List.Perm.cons a ih)
  sorted := by
    intro key l
    induction l with
    | nil => exact List.Pairwise.nil
    | cons a l ih =>
      have hins : ∀ m : List Nat, List.Pairwise (fun x y => key x ≤ key y) m →
          List.Pairwise (fun x y => key x ≤ key y)
            (insert_sorted (fun x y => decide (key x < key y)) a m) ∧
          ∀ z ∈ insert_sorted (fun x y => decide (key x < key y)) a m, z = a ∨ z ∈ m := by
        intro m
        induction m with
        | nil =>
          intro _
          simp [insert_sorted]
        | cons b m ihm =>
          intro hm
          have hm2 := List.pairwise_cons.mp hm
          by_cases hc : key b < key a
          · have h1 := ihm hm2.2
            simp only [insert_sorted, hc, decide_True, if_true]
            refine ⟨List.pairwise_cons.mpr ⟨?_, h1.1⟩, ?_⟩
            · intro z hz
              rcases h1.2 z hz with rfl | hz2
              · exact le_of_lt hc
              · exact hm2.1 z hz2
            · intro z hz
              rcases List.mem_cons.mp hz with rfl | hz2
              · exact Or.inr (List.mem_cons_self _ _)
              · rcases h1.2 z hz2 with rfl | hz3
                · exact Or.inl rfl
                · exact Or.inr (List.mem_cons_of_mem _ hz3)
          · simp only [insert_sorted, hc, decide_False]
            refine ⟨List.pairwise_cons.mpr ⟨?_, hm⟩, ?_⟩
            · intro z hz
              rcases List.mem_cons.mp hz with rfl | hz2
              · exact not_lt.mp hc
              · exact le_trans (not_lt.mp hc) (hm2.1 z hz2)
            · intro z hz
              rcases List.mem_cons.mp hz with rfl | hz2
              · exact Or.inl rfl
              · exact Or.inr hz2
      exact (hins _ ih).1

/-- Dereference of a compute pointer. -/
def lookup_comp (comp : List Compute) (c : Nat) : Compute :=
  comp.getD c default

/-- The predicate `runnable_task_sort`. -/
def runnable_task_sort (rt lt : Task) : Bool :=
  if rt.reqd_cores = lt.reqd_cores then decide (rt.waiters < lt.waiters)
  else decide (rt.reqd_cores < lt.reqd_cores)

/-- Where control is in `planner::schedule_tasks`: at the test of the `while` loop,
inside the loop over the runnable tasks (with the local variables `comp_avail` and
`cores_available`, and the tasks the loop has still to examine), after the `return`,
or aborted by a failed assertion. -/
inductive Control where
  | loop_head
  | placing (comp_avail : List Nat) (todo : List Nat) (cores_available : Int)
  | returned
  | aborted
  deriving DecidableEq, Repr

/-- The state of a run of `planner::schedule_tasks`: the planner, the locals
`tasks_remaining` and `running`, and the point of control.  (`tasks_remaining` is
unsigned in the source; an integer that is not zero stands for a value that is not
zero.) -/
structure SchedState where
  p : Planner
  tasks_remaining : Int
  running : List Nat
  pc : Control
  deriving DecidableEq, Repr

/-- The state on entry of `planner::schedule_tasks`. -/
def schedule_start (p : Planner) : SchedState :=
  { p := p, tasks_remaining := p.tasks.length, running := [],
    pc := if p.tasks_validated then Control.loop_head else Control.aborted }

/-- Step A of an iteration, before sorting: the nodes with a core available. -/
def find_available (comp : List Compute) : List Nat :=
  (List.range comp.length).filter (fun c => decide ((lookup_comp comp c).cores_available > 0))

/-- Step B of an iteration: the walk over `_job_sequence` that builds `runnable` and
counts the tasks waiting for a dependency. -/
def build_runnable (tasks : List Task) : List Nat → List Nat × Nat → List Nat × Nat
  | [], acc => acc
  | itr :: rest, (runnable, dep_wait) =>
    let t := lookup_task tasks itr
    if t.state = TaskState.not_started then
      if dependencies_met tasks t then build_runnable tasks rest (runnable ++ [itr], dep_wait)
      else build_runnable tasks rest (runnable, dep_wait + 1)
    else build_runnable tasks rest (runnable, dep_wait)

/-- The inner loop of step D for a task that needs `req` cores: the walk over
`comp_avail`, which ends at the end of the list or at a node without a core available.
It gives the node that takes the task, if there is one, and the new value of
`_count_comp_unavail`. -/
def find_node (comp : List Compute) (req : Nat) : List Nat → Nat → Option Nat × Nat
  | [], unavail => (none, unavail)
  | c :: rest, unavail =>
    if ¬ ((lookup_comp comp c).cores_available > 0) then (none, unavail)
    else if (req : Int) ≤ (lookup_comp comp c).cores_available then (some c, unavail)
    else find_node comp req rest (unavail + 1)

/-- Step E of an iteration: the loop over `running` that computes `skip_ticks`. -/
def find_skip (tasks : List Task) : List Nat → Nat → Nat
  | [], skip => skip
  | r :: rest, skip =>
    let rem := (lookup_task tasks r).ticks_remaining
    let skip1 := min skip rem
    find_skip tasks rest (if skip1 = 0 then rem else min skip1 rem)

/-- Step F of an iteration: `tick(skip_ticks)` on the nodes `todo`, the completions
being taken off `tasks_remaining`; `none` when an assertion of `tick` fails. -/
def tick_all (skip : Nat) : List Nat → List Compute × List Task × Int →
    Option (List Compute × List Task × Int)
  | [], acc => some acc
  | c :: rest, (comp, tasks, remaining) =>
    match tick (lookup_comp comp c) tasks skip with
    | none => none
    | some (done, c1, tasks1) =>
      tick_all skip rest (modify_at (fun _ => c1) c comp, tasks1, remaining - done)

/-- The assertion of `tick` at which Step F aborts on the nodes `todo`, `none` when
every call of `tick` passes. -/
def tick_all_violation (skip : Nat) : List Nat → List Compute × List Task × Int →
    Option TickAssertion
  | [], _ => none
  | c :: rest, (comp, tasks, remaining) =>
    match tick (lookup_comp comp c) tasks skip with
    | none => tick_violation (lookup_comp comp c) tasks skip
    | some (done, c1, tasks1) =>
      tick_all_violation skip rest (modify_at (fun _ => c1) c comp, tasks1, remaining - done)

/-- Step G of an iteration: the completed tasks leave `running`. -/
def harvest (tasks : List Task) (running : List Nat) : List Nat :=
  running.filter (fun r => decide ((lookup_task tasks r).state ≠ TaskState.complete))

/-- One step of `planner::schedule_tasks`.

* At the loop head with no task remaining the schedule is returned; otherwise steps A
  to C run and control enters the loop over the runnable tasks, largest first.
* Inside that loop the body runs for the next task: a task that is not `not_started`
  is passed over; otherwise `find_node` walks the nodes, a node found takes the task,
  and the loop is left when the counter `cores_available` is zero.
* When that loop is over, steps E to G run and control is back at the loop head. -/
def step (srt : StdSort) (s : SchedState) : SchedState :=
  match s.pc with
  | Control.returned => s
  | Control.aborted => s
  | Control.loop_head =>
    if s.tasks_remaining = 0 then { s with pc := Control.returned }
    else
      let comp_avail := srt.sort
        (fun a b => sort_max_cores (lookup_comp s.p.comp a) (lookup_comp s.p.comp b))
        (find_available s.p.comp)
      let r := build_runnable s.p.tasks s.p.job_sequence ([], s.p.count_dep_wait)
      let runnable := srt.sort
        (fun a b => runnable_task_sort (lookup_task s.p.tasks a) (lookup_task s.p.tasks b)) r.1
      { s with p := { s.p with count_dep_wait := r.2 },
               pc := Control.placing comp_avail runnable.reverse comp_avail.length }
  | Control.placing comp_avail (t :: rest) cores_available =>
    if (lookup_task s.p.tasks t).state ≠ TaskState.not_started then
      { s with pc := Control.placing comp_avail rest cores_available }
    else
      let r := find_node s.p.comp (lookup_task s.p.tasks t).reqd_cores comp_avail
        s.p.count_comp_unavail
      match r.1 with
      | none =>
        if cores_available = 0 then
          { s with p := { s.p with count_comp_unavail := r.2,
                                   all_cores_busy := s.p.all_cores_busy + 1 },
                   pc := Control.placing comp_avail [] cores_available }
        else
          { s with p := { s.p with count_comp_unavail := r.2 },
                   pc := Control.placing comp_avail rest cores_available }
      | some c =>
        match assign_task (lookup_comp s.p.comp c) s.p.tasks t with
        | none => { s with pc := Control.aborted }
        | some (c1, tasks1) =>
          let cores_available1 :=
            if c1.cores_available = 0 then cores_available - 1 else cores_available
          let p1 : Planner :=
            { s.p with schedule := s.p.schedule ++ [(t, c)],
                       comp := modify_at (fun _ => c1) c s.p.comp,
                       tasks := tasks1, count_comp_unavail := r.2 }
          if cores_available1 = 0 then
            { s with p := { p1 with all_cores_busy := p1.all_cores_busy + 1 },
                     running := s.running ++ [t],
                     pc := Control.placing comp_avail [] cores_available1 }
          else
            { s with p := p1, running := s.running ++ [t],
                     pc := Control.placing comp_avail rest cores_available1 }
  | Control.placing _ [] _ =>
    let skip_ticks := find_skip s.p.tasks s.running 0
    match tick_all skip_ticks (List.range s.p.comp.length)
        (s.p.comp, s.p.tasks, s.tasks_remaining) with
    | none => { s with pc := Control.aborted }
    | some (comp1, tasks1, remaining1) =>
      { p := { s.p with comp := comp1, tasks := tasks1,
                        required_ticks := s.p.required_ticks + skip_ticks },
        tasks_remaining := remaining1,
        running := harvest tasks1 s.running,
        pc := Control.loop_head }

/-- The state of the run of `planner::schedule_tasks` on planner `p` after `k` steps. -/
def run (srt : StdSort) (p : Planner) : Nat → SchedState
  | 0 => schedule_start p
  | k + 1 => step srt (run srt p k)

/-- The method `planner::schedule_tasks`, run for at most `fuel` steps: the schedule
it returns and the planner afterwards, or `none` when the run is aborted or has not
returned yet. -/
def schedule_tasks (srt : StdSort) (p : Planner) (fuel : Nat) :
    Option (List (Nat × Nat) × Planner) :=
  match (run srt p fuel).pc with
  | Control.returned => some ((run srt p fuel).p.schedule, (run srt p fuel).p)
  | _ => none

/-- The placement made by the step taken from state `s`, if it makes one: the task
and the node of the entry the step appends to the schedule. -/
def placement (s : SchedState) : Option (Nat × Nat) :=
  match s.pc with
  | Control.placing comp_avail (t :: _) _ =>
    if (lookup_task s.p.tasks t).state ≠ TaskState.not_started then none
    else
      match (find_node s.p.comp (lookup_task s.p.tasks t).reqd_cores comp_avail
          s.p.count_comp_unavail).1 with
      | none => none
      | some c =>
        match assign_task (lookup_comp s.p.comp c) s.p.tasks t with
        | none => none
        | some _ => some (t, c)
  | _ => none

/-! ## Predicates used in the statements -/

/-- In the list `l`, an occurrence of `a` comes before an occurrence of `b`. -/
def Before (l : List Nat) (a b : Nat) : Prop :=
  ∃ l1 l2 l3, l = l1 ++ a :: l2 ++ b :: l3

/-- Every out-edge of the graph leads to a vertex of the graph. -/
def GraphClosed (g : TaskGraph) : Prop :=
  ∀ u v, v ∈ g.getD u [] → v < g.length

/-- The invariant of the depth-first search: a finished vertex is a vertex of the
graph, is not gray, occurs once in the output, and the targets of its out-edges occur
in the output before it. -/
def DfsInv (g : TaskGraph) (s : DfsState) : Prop :=
  (∀ x ∈ s.out, x < g.length ∧ x ∉ s.gray ∧ ∀ y ∈ g.getD x [], Before s.out y x) ∧
  s.out.Nodup

/-- What a successful search started in state `s` guarantees of its final state `r`. -/
def DfsPost (g : TaskGraph) (s r : DfsState) : Prop :=
  DfsInv g r ∧ (∃ ext, r.out = s.out ++ ext) ∧ r.gray = s.gray

/-- A field projection `π` of a task that dependency mapping leaves alone: neither
`_incr_waiters` nor the growth of `deps` nor the flag `mapped_deps` changes it. -/
def DepsFrame {β : Type} (π : Task → β) : Prop :=
  (∀ w t, π (_incr_waiters w t) = π t) ∧ (∀ d t, π (_push_dep d t) = π t) ∧
  (∀ t, π (_set_mapped t) = π t)

/-- The invariant of the first loop of `planner::validate_tasks` on a list of `n`
tasks: the table keeps its length, ids are positions, no task has started, every
resolved dependency is a task of the table and has its edge in the edge list, and the
edge list, the disconnected tasks and the anchor stay inside the table. -/
def ValidInv (n : Nat) (v : ValidateLoop) : Prop :=
  v.tasks.length = n ∧
  (∀ i, i < n → (lookup_task v.tasks i).id = i) ∧
  (∀ i, (lookup_task v.tasks i).state = TaskState.not_started) ∧
  (∀ U T, T ∈ (lookup_task v.tasks U).deps → T < n ∧ (U, T) ∈ v.edge) ∧
  (∀ e ∈ v.edge, e.1 < n ∧ e.2 < n) ∧
  (∀ d ∈ v.disconnected_nodes, d < n) ∧
  (∀ a, v.artificial_dep = some a → a < n)

/-- Every parent name written in the `dep_str` of the task at `i` is the name of a
task of the table. -/
def resolves (tasks : List Task) (i : Nat) : Bool :=
  (_get_dep_str (lookup_task tasks i)).all (fun nm => (lookup_task_name tasks nm).isSome)

/-- The first failure the first loop of `planner::validate_tasks` meets on the task
pointers `todo`, when `max_cores` is the core count of the largest node. -/
def first_failure (max_cores : Nat) (tasks : List Task) : List Nat → Option Status
  | [] => none
  | i :: rest =>
    if (lookup_task tasks i).reqd_cores > max_cores then some Status.compute_exceeded
    else if ¬ resolves tasks i then some Status.missing_dependency
    else first_failure max_cores tasks rest

/-- The status with which the first loop of `planner::validate_tasks` returns, if it
does. -/
def ValidateExit.status : ValidateExit → Option Status
  | ValidateExit.finished _ => none
  | ValidateExit.returned s _ _ => some s
  | ValidateExit.bad_deref => none

/-- The parent names written for a task of the input, as `task::_get_dep_str` parses
them from `parent_tasks`. -/
def parent_names (x : TaskInput) : List String :=
  _get_dep_str ((Task.new x.name x.cores_required x.execution_time 0).set_dep_str x.parent_tasks)

/-- A parent name of the input task `x` is the name of no task of the input `xs`. -/
def has_unresolved_parent (xs : List TaskInput) (x : TaskInput) : Prop :=
  ∃ nm ∈ parent_names x, ∀ y ∈ xs, y.name ≠ nm

/-- The largest `cores_total` of the nodes of the input (`0` for no node). -/
def largest_cores_total (nodes : List (String × Nat)) : Nat :=
  (nodes.map Prod.snd).foldl max 0

/-- What a successful validation of the input establishes of the planner `p`: the
nodes are as constructed, nothing is scheduled, no task has started, ids are positions,
the job sequence lists tasks of the table without repetition, and every resolved
dependency is a task of the table that comes earlier in the job sequence. -/
def Validated (nodes : List (String × Nat)) (tasks : List TaskInput) (p : Planner) : Prop :=
  p.comp = read_compute nodes ∧ p.schedule = [] ∧ p.required_ticks = 0 ∧
  p.tasks_validated = true ∧ p.tasks.length = tasks.length ∧
  (∀ i, (lookup_task p.tasks i).state = TaskState.not_started) ∧
  (∀ i, i < tasks.length → (lookup_task p.tasks i).id = i) ∧
  (∀ v ∈ p.job_sequence, v < tasks.length) ∧ p.job_sequence.Nodup ∧
  (∀ U T, T ∈ (lookup_task p.tasks U).deps →
    T < tasks.length ∧ Before p.job_sequence T U)

/-- The sum of `cores_required` over the task pointers `cur`. -/
def cores_in_use (tasks : List Task) (cur : List Nat) : Nat :=
  (cur.map (fun t => (lookup_task tasks t).reqd_cores)).sum

/-- The task is not in state `complete`. -/
def incomplete (t : Task) : Bool :=
  decide (t.state ≠ TaskState.complete)

/-- The task at `t` completes within `k` ticks: its `ticks_remaining` is at most `k`. -/
def finishes_within (tasks : List Task) (k : Nat) (t : Nat) : Bool :=
  decide ((lookup_task tasks t).ticks_remaining ≤ k)

/-- The idle core ticks `run_for(k)` reports for the tasks `cur`, each weighted by the
cores of its task. -/
def idle_reported (tasks : List Task) (k : Nat) (cur : List Nat) : Nat :=
  (cur.map (fun t => (k - (lookup_task tasks t).ticks_remaining) *
    (lookup_task tasks t).reqd_cores)).sum

/-- The invariant of a node `nd` over the task table: `cores_available` is
`cores_total` less the cores of the current tasks and is not negative, no task is
listed twice, and the current tasks are tasks of the table in state `running`. -/
def NodeInv (tasks : List Task) (nd : Compute) : Prop :=
  nd.cores_available = nd.cores_total - (cores_in_use tasks nd.current_tasks : Int) ∧
  0 ≤ nd.cores_available ∧ nd.current_tasks.Nodup ∧
  ∀ t ∈ nd.current_tasks, t < tasks.length ∧ (lookup_task tasks t).state = TaskState.running

/-- The invariant that ties the nodes, the task table and `tasks_remaining`: every
node satisfies `NodeInv`, no task is current on two nodes, `tasks_remaining` counts the
tasks that are not complete, and a complete task has no tick remaining. -/
def CoreInv (comp : List Compute) (tasks : List Task) (remaining : Int) : Prop :=
  (∀ c, NodeInv tasks (lookup_comp comp c)) ∧
  (∀ c1 c2 t, t ∈ (lookup_comp comp c1).current_tasks →
    t ∈ (lookup_comp comp c2).current_tasks → c1 = c2) ∧
  remaining = (tasks.countP incomplete : Int) ∧
  (∀ t, (lookup_task tasks t).state = TaskState.complete →
    (lookup_task tasks t).ticks_remaining = 0)

/-- What a step of the scheduler leaves alone in the task table: the length, the
cores and the dependencies of every task, and whether a task is `not_started`; a
complete task stays complete. -/
def TasksFrame (tasks tasks2 : List Task) : Prop :=
  tasks2.length = tasks.length ∧
  ∀ j, (lookup_task tasks2 j).reqd_cores = (lookup_task tasks j).reqd_cores ∧
    (lookup_task tasks2 j).deps = (lookup_task tasks j).deps ∧
    ((lookup_task tasks2 j).state = TaskState.not_started ↔
      (lookup_task tasks j).state = TaskState.not_started) ∧
    ((lookup_task tasks j).state = TaskState.complete →
      (lookup_task tasks2 j).state = TaskState.complete)

/-- The task at `i` is runnable: `not_started` with every dependency complete. -/
def runnable_now (tasks : List Task) (i : Nat) : Bool :=
  decide ((lookup_task tasks i).state = TaskState.not_started) &&
    dependencies_met tasks (lookup_task tasks i)

/-- The task at `i` waits for a dependency: `not_started` with a dependency that is
not complete. -/
def blocked_now (tasks : List Task) (i : Nat) : Bool :=
  decide ((lookup_task tasks i).state = TaskState.not_started) &&
    ! dependencies_met tasks (lookup_task tasks i)

/-- The invariant of the run of `planner::schedule_tasks`: the invariant of nodes and
tasks, the conservation of ticks on every node, an entry in the schedule for every
task that has left `not_started`, a job sequence inside the task table, and, inside the
loop over the runnable tasks, tasks still to examine whose dependencies are complete. -/
def SchedInv (s : SchedState) : Prop :=
  CoreInv s.p.comp s.p.tasks s.tasks_remaining ∧
  (∀ c, (((lookup_comp s.p.comp c).cumulative_busy_ticks +
      (lookup_comp s.p.comp c).cumulative_idle_ticks : Nat) : Int) =
    (lookup_comp s.p.comp c).cores_total * (s.p.required_ticks : Int)) ∧
  (∀ t, t < s.p.tasks.length → (lookup_task s.p.tasks t).state ≠ TaskState.not_started →
    ∃ c, (t, c) ∈ s.p.schedule) ∧
  (∀ v ∈ s.p.job_sequence, v < s.p.tasks.length) ∧
  (∀ ca todo n, s.pc = Control.placing ca todo n → ∀ t ∈ todo, t < s.p.tasks.length ∧
    ∀ d ∈ (lookup_task s.p.tasks t).deps,
      (lookup_task s.p.tasks d).state = TaskState.complete)

/-- A state of the run from which `schedule_tasks` cannot return: tasks remain, none
is running, the job sequence is empty (so no task is ever runnable), there is a node
to tick, and control is at the loop head, at the end of the loop over the runnable
tasks, or aborted. -/
def Stuck (s : SchedState) : Prop :=
  s.p.job_sequence = [] ∧ s.running = [] ∧ s.tasks_remaining ≠ 0 ∧ 0 < s.p.comp.length ∧
  (s.pc = Control.loop_head ∨ s.pc = Control.aborted ∨ ∃ ca n, s.pc = Control.placing ca [] n)

/-- The local variable `comp_avail` of `schedule_tasks` when control is inside the loop
over the runnable tasks (the empty list elsewhere). -/
def comp_avail_of (s : SchedState) : List Nat :=
  match s.pc with
  | Control.placing comp_avail _ _ => comp_avail
  | _ => []

/-- Every parent name written in the input resolves to a task of the input. -/
def parents_resolve (tasks : List TaskInput) : Prop :=
  ∀ x ∈ tasks, ∀ nm ∈ parent_names x, ∃ y ∈ tasks, y.name = nm

/-- The dependency relation of the input is acyclic: the task names can be ranked so
that every parent ranks below the tasks that name it. -/
def input_acyclic (tasks : List TaskInput) : Prop :=
  ∃ rank : String → Nat, ∀ x ∈ tasks, ∀ nm ∈ parent_names x, rank nm < rank x.name

/-- The gray vertices are distinct vertices of the graph. -/
def GrayOK (g : TaskGraph) (s : DfsState) : Prop :=
  s.gray.Nodup ∧ ∀ x ∈ s.gray, x < g.length

/-- A task with a waiter is a dependency of some task. -/
def WaitersInv (tasks : List Task) : Prop :=
  ∀ T, (lookup_task tasks T).waiters ≠ 0 → ∃ U, T ∈ (lookup_task tasks U).deps

/-- What a successful validation of the input establishes for scheduling: unless the
input is a single task, every task is in the job sequence; every task fits on some
node; cores and ticks of the tasks are those of the input. -/
def Schedulable (tasks : List TaskInput) (p : Planner) : Prop :=
  (tasks.length ≠ 1 → ∀ i, i < tasks.length → i ∈ p.job_sequence) ∧
  (∀ i, i < tasks.length → ∃ c, c < p.comp.length ∧
    ((lookup_task p.tasks i).reqd_cores : Int) ≤ (lookup_comp p.comp c).cores_total) ∧
  (∀ i, ∀ h : i < tasks.length,
    (lookup_task p.tasks i).reqd_cores = tasks[i].cores_required ∧
    (lookup_task p.tasks i).ticks_remaining = tasks[i].execution_time)

/-- The invariant of the run that gives progress, on top of `SchedInv`: a task is
`not_started`, `running` or `complete`; `running` lists the tasks in state `running`,
each of which is current on a node; a task that is not complete has a tick remaining;
the job sequence lists every task once, parents first; every task needs a core and fits
on some node; inside the loop over the runnable tasks either a task is running or the
next task to examine will be placed; the run is not aborted. -/
def TermInv (s : SchedState) : Prop :=
  SchedInv s ∧
  (∀ t, (lookup_task s.p.tasks t).state = TaskState.not_started ∨
    (lookup_task s.p.tasks t).state = TaskState.running ∨
    (lookup_task s.p.tasks t).state = TaskState.complete) ∧
  (∀ t, t ∈ s.running ↔ (lookup_task s.p.tasks t).state = TaskState.running) ∧
  (∀ t, (lookup_task s.p.tasks t).state = TaskState.running →
    ∃ c, t ∈ (lookup_comp s.p.comp c).current_tasks) ∧
  (∀ t, t < s.p.tasks.length → (lookup_task s.p.tasks t).state ≠ TaskState.complete →
    1 ≤ (lookup_task s.p.tasks t).ticks_remaining) ∧
  (s.p.job_sequence.Nodup ∧ (∀ i, i < s.p.tasks.length → i ∈ s.p.job_sequence) ∧
    ∀ U T, T ∈ (lookup_task s.p.tasks U).deps → Before s.p.job_sequence T U) ∧
  (∀ t, t < s.p.tasks.length → 1 ≤ (lookup_task s.p.tasks t).reqd_cores ∧
    ∃ c, c < s.p.comp.length ∧
      ((lookup_task s.p.tasks t).reqd_cores : Int) ≤ (lookup_comp s.p.comp c).cores_total) ∧
  (∀ ca todo m, s.pc = Control.placing ca todo m → s.running ≠ [] ∨
    ∃ t rest, todo = t :: rest ∧ (lookup_task s.p.tasks t).state = TaskState.not_started ∧
      (find_node s.p.comp (lookup_task s.p.tasks t).reqd_cores ca
        s.p.count_comp_unavail).1 ≠ none) ∧
  s.pc ≠ Control.aborted

/-- A bound on the number of steps the run still takes before it returns. -/
def steps_left (s : SchedState) : Nat :=
  match s.pc with
  | Control.loop_head =>
    s.tasks_remaining.toNat * (s.p.job_sequence.length + 2) + s.p.job_sequence.length + 1
  | Control.placing _ todo _ =>
    s.tasks_remaining.toNat * (s.p.job_sequence.length + 2) + todo.length
  | Control.returned => 0
  | Control.aborted => 0

/-- The idle core ticks the loop of `compute::tick(k)` collects over the tasks `cur`:
for every task the idle ticks its `run_for(k)` reports, times the cores of the task. -/
def reported_idle (tasks : List Task) (k : Nat) (cur : List Nat) : Nat :=
  (cur.map (fun t => ((lookup_task tasks t).run_for k).1.idle_ticks *
    (lookup_task tasks t).reqd_cores)).sum

/-- The node predicate on the cores: `cores_available` is `cores_total` less the sum of
`cores_required` over `current_tasks`. -/
def cores_accounted (tasks : List Task) (nd : Compute) : Prop :=
  nd.cores_available = nd.cores_total - (cores_in_use tasks nd.current_tasks : Int)

/-- The name `nm` resolves to the task at position `j` of the input: the task is called
`nm` and no task before it is (`by_name.insert` keeps the task that registered first;
the names of a task list are distinct when the assertion of `_register_task` holds, and
`j` is then the one task called `nm`). -/
def resolves_to (tasks : List TaskInput) (nm : String) (j : Nat) : Prop :=
  ∃ h : j < tasks.length, tasks[j].name = nm ∧ ∀ i, ∀ hi : i < j, tasks[i].name ≠ nm

/-- The dependency relation of the input: the task at position `i` names the task at
position `j` as a parent. -/
def depends_on (tasks : List TaskInput) (i j : Nat) : Prop :=
  ∃ h : i < tasks.length, ∃ nm ∈ parent_names tasks[i], resolves_to tasks nm j

/-- A task table for the runs of the node contracts: `A(1, 2)` and `B(2, 5)`, both
running. -/
def two_running_tasks : List Task :=
  [(Task.new "A" 1 2 0).set_state TaskState.running,
   (Task.new "B" 2 5 1).set_state TaskState.running]

/-- The node `n1` with 4 cores after `assign_task` of the two tasks of
`two_running_tasks`. -/
def node_with_two_tasks : Compute :=
  { Compute.new "n1" 4 with cores_available := 1, current_tasks := [0, 1], assign_count := 2 }

/-- The lists with `a` put into `l` at one position, the first position first. -/
def insert_all (a : Nat) : List Nat → List (List Nat)
  | [] => [[a]]
  | b :: l => (a :: b :: l) :: (insert_all a l).map (fun m => b :: m)

/-- The rearrangements of a list: every order in which `std::sort` may leave it. -/
def rearrangements : List Nat → List (List Nat)
  | [] => [[]]
  | a :: l => (rearrangements l).flatMap (insert_all a)

/-- The state in which an iteration of `schedule_tasks` enters the loop over the
runnable tasks, when the two calls of `std::sort` have left `comp_avail` and `runnable`
in the orders `ca` and `rn`. -/
def enter_placing (ca rn : List Nat) (s : SchedState) : SchedState :=
  { s with p := { s.p with count_dep_wait :=
                    (build_runnable s.p.tasks s.p.job_sequence ([], s.p.count_dep_wait)).2 },
           pc := Control.placing ca rn.reverse ca.length }

/-- The check that `q` holds after `k` steps from state `s` whatever orders the calls
of `std::sort` produce: at the loop head every rearrangement of the available nodes and
of the runnable tasks is followed up. -/
def all_runs (q : SchedState → Bool) : Nat → SchedState → Bool
  | 0, s => q s
  | k + 1, s =>
    match s.pc with
    | Control.loop_head =>
      if s.tasks_remaining = 0 then all_runs q k { s with pc := Control.returned }
      else
        (rearrangements (find_available s.p.comp)).all (fun ca =>
          (rearrangements
            (build_runnable s.p.tasks s.p.job_sequence ([], s.p.count_dep_wait)).1).all
              (fun rn => all_runs q k (enter_placing ca rn s)))
    | _ => all_runs q k (step insertion_sorter s)

/-- Control is at the end of the loop over the runnable tasks. -/
def at_loop_end (s : SchedState) : Bool :=
  match s.pc with
  | Control.placing _ [] _ => true
  | _ => false

/-- The task predicate on the ticks: `ticks_remaining` is 0 exactly in state
`complete`, and it is at most `ticks_required`. -/
def ticks_consistent (t : Task) : Prop :=
  (t.ticks_remaining = 0 ↔ t.state = TaskState.complete) ∧ t.ticks_remaining ≤ t.reqd_ticks

/-- The waiters mirror the dependencies: `U` occurs in the waiter list of `T` as often
as `T` occurs in the dependencies of `U`, and `_waiters` is the length of the waiter
list. -/
def waiters_match (tasks : List Task) : Prop :=
  ∀ T U, (lookup_task tasks T).waiter_list.count U = (lookup_task tasks U).deps.count T ∧
    (lookup_task tasks T).waiters = (lookup_task tasks T).waiter_list.length

/-- The invariant of the schedule on a table of `n` tasks: no task has two entries, and
every entry is for a task of the table that has left `not_started`. -/
def ScheduleInv (n : Nat) (s : SchedState) : Prop :=
  s.p.tasks.length = n ∧ (s.p.schedule.map Prod.fst).Nodup ∧
  ∀ e ∈ s.p.schedule, e.1 < n ∧ (lookup_task s.p.tasks e.1).state ≠ TaskState.not_started

/-! ## Lemmas on the helpers -/

theorem length_modify_at {α : Type} (f : α → α) :
    ∀ (i : Nat) (l : List α), (modify_at f i l).length = l.length
  | 0, [] => rfl
  | _ + 1, [] => rfl
  | 0, _ :: _ => rfl
  | i + 1, a :: l => by simp [modify_at, length_modify_at f i l]

theorem getD_modify_at {α : Type} (f : α → α) (d : α) :
    ∀ (i : Nat) (l : List α) (j : Nat),
      (modify_at f i l).getD j d = if j = i ∧ i < l.length then f (l.getD i d) else l.getD j d
  | _, [], j => by simp [modify_at]
  | 0, a :: l, 0 => by simp [modify_at]
  | 0, a :: l, j + 1 => by simp [modify_at]
  | i + 1, a :: l, 0 => by simp [modify_at]
  | i + 1, a :: l, j + 1 => by
    simp only [modify_at, List.getD_cons_succ, getD_modify_at f d i l j, List.length_cons,
      Nat.add_lt_add_iff_right, Nat.add_right_cancel_iff]

theorem getD_modify_at_ne {α : Type} (f : α → α) (d : α) (i : Nat) (l : List α) (j : Nat)
    (h : j ≠ i) : (modify_at f i l).getD j d = l.getD j d := by
  rw [getD_modify_at]; simp [h]

theorem getD_modify_at_self {α : Type} (f : α → α) (d : α) (i : Nat) (l : List α)
    (h : i < l.length) : (modify_at f i l).getD i d = f (l.getD i d) := by
  rw [getD_modify_at]; simp [h]

/-! ## The depth-first search -/

theorem before_append {l : List Nat} {a b : Nat} (h : Before l a b) (ext : List Nat) :
    Before (l ++ ext) a b := by
  obtain ⟨l1, l2, l3, rfl⟩ := h
  exact ⟨l1, l2, l3 ++ ext, by simp⟩

theorem before_snoc_of_mem {l : List Nat} {a : Nat} (h : a ∈ l) (b : Nat) :
    Before (l ++ [b]) a b := by
  obtain ⟨l1, l2, rfl⟩ := List.append_of_mem h
  exact ⟨l1, l2, [], by simp⟩

theorem dfsPost_refl (g : TaskGraph) (s : DfsState) (h : DfsInv g s) : DfsPost g s s :=
  ⟨h, ⟨[], by simp⟩, rfl⟩

theorem dfsPost_trans {g : TaskGraph} {s r q : DfsState} (h1 : DfsPost g s r)
    (h2 : DfsPost g r q) : DfsPost g s q := by
  obtain ⟨_, ⟨e1, he1⟩, hg1⟩ := h1
  obtain ⟨hi2, ⟨e2, he2⟩, hg2⟩ := h2
  exact ⟨hi2, ⟨e1 ++ e2, by rw [he2, he1, List.append_assoc]⟩, hg2.trans hg1⟩

/-- A loop of searches keeps what each search keeps, and finishes every vertex it is
run on. -/
theorem dfs_each_spec (g : TaskGraph) (visit : Nat → DfsState → DfsResult)
    (hvisit : ∀ v s r, DfsInv g s → v < g.length → visit v s = DfsResult.done r →
      DfsPost g s r ∧ v ∈ r.out) :
    ∀ (vs : List Nat) (s r : DfsState), DfsInv g s → (∀ v ∈ vs, v < g.length) →
      dfs_each visit vs s = DfsResult.done r → DfsPost g s r ∧ ∀ v ∈ vs, v ∈ r.out := by
  intro vs
  induction vs with
  | nil =>
    intro s r hs _ h
    simp only [dfs_each, DfsResult.done.injEq] at h
    subst h
    exact ⟨dfsPost_refl g s hs, by simp⟩
  | cons v vs ih =>
    intro s r hs hvs h
    simp only [dfs_each] at h
    cases hv : visit v s with
    | not_a_dag => rw [hv] at h; simp [DfsResult.andThen] at h
    | no_fuel => rw [hv] at h; simp [DfsResult.andThen] at h
    | done s1 =>
      rw [hv] at h
      simp only [DfsResult.andThen] at h
      have h1 := hvisit v s s1 hs (hvs v (List.mem_cons_self _ _)) hv
      have h2 := ih s1 r h1.1.1 (fun w hw => hvs w (List.mem_cons_of_mem _ hw)) h
      refine ⟨dfsPost_trans h1.1 h2.1, ?_⟩
      intro w hw
      rcases List.mem_cons.mp hw with rfl | hw2
      · obtain ⟨ext, hext⟩ := h2.1.2.1
        rw [hext]
        exact List.mem_append_left _ h1.2
      · exact h2.2 w hw2

/-- A successful examination of a vertex keeps the invariant of the search and leaves
the vertex finished. -/
theorem dfs_visit_spec (g : TaskGraph) (hg : GraphClosed g) :
    ∀ (fuel u : Nat) (s r : DfsState), DfsInv g s → u < g.length →
      dfs_visit g fuel u s = DfsResult.done r → DfsPost g s r ∧ u ∈ r.out := by
  intro fuel
  induction fuel with
  | zero => intro u s r _ _ h; simp [dfs_visit] at h
  | succ fuel ih =>
    intro u s r hs hu h
    simp only [dfs_visit] at h
    by_cases hgray : u ∈ s.gray
    · simp [hgray] at h
    · by_cases hout : u ∈ s.out
      · simp only [hgray, hout, if_true, if_false, DfsResult.done.injEq] at h
        subst h
        exact ⟨dfsPost_refl g s hs, hout⟩
      · simp only [hgray, hout, if_false] at h
        cases hc : dfs_each (dfs_visit g fuel) (g.getD u []) { s with gray := u :: s.gray } with
        | not_a_dag => rw [hc] at h; simp [DfsResult.andThen] at h
        | no_fuel => rw [hc] at h; simp [DfsResult.andThen] at h
        | done s1 =>
          rw [hc] at h
          simp only [DfsResult.andThen, DfsResult.done.injEq] at h
          subst h
          have hs0 : DfsInv g { s with gray := u :: s.gray } := by
            refine ⟨?_, hs.2⟩
            intro x hx
            obtain ⟨h1, h2, h3⟩ := hs.1 x hx
            refine ⟨h1, ?_, h3⟩
            intro hmem
            rcases List.mem_cons.mp hmem with rfl | hm
            · exact hout hx
            · exact h2 hm
          have hsp := dfs_each_spec g (dfs_visit g fuel) ih (g.getD u [])
            { s with gray := u :: s.gray } s1 hs0 (fun v hv => hg u v hv) hc
          obtain ⟨⟨hinv1, ⟨ext, hext⟩, hgray1⟩, hall⟩ := hsp
          simp only at hext hgray1
          have hu1 : u ∉ s1.out := by
            intro hmem
            have := (hinv1.1 u hmem).2.1
            rw [hgray1] at this
            exact this (List.mem_cons_self _ _)
          refine ⟨⟨⟨?_, ?_⟩, ⟨ext ++ [u], by simp [hext]⟩, ?_⟩, by simp⟩
          · intro x hx
            simp only [List.mem_append, List.mem_singleton] at hx
            rcases hx with hx | rfl
            · obtain ⟨h1, h2, h3⟩ := hinv1.1 x hx
              refine ⟨h1, ?_, fun y hy => before_append (h3 y hy) [u]⟩
              simp only [hgray1, List.erase_cons_head]
              intro hm
              exact h2 (by rw [hgray1]; exact List.mem_cons_of_mem _ hm)
            · refine ⟨hu, ?_, fun y hy => before_snoc_of_mem (hall y hy) x⟩
              simp only [hgray1, List.erase_cons_head]
              exact hgray
          · exact List.nodup_append.mpr ⟨hinv1.2, List.nodup_singleton u, by
              intro a ha hb
              simp only [List.mem_singleton] at hb
              subst hb
              exact hu1 ha⟩
          · simp only [hgray1, List.erase_cons_head]

/-- A search from every vertex that succeeds puts every vertex in the output, each
behind the targets of its out-edges. -/
theorem topological_sort_spec (g : TaskGraph) (hg : GraphClosed g) (r : DfsState)
    (h : topological_sort g = DfsResult.done r) :
    r.out.Nodup ∧ (∀ x, x ∈ r.out ↔ x < g.length) ∧
      ∀ x y, y ∈ g.getD x [] → Before r.out y x := by
  have hinit : DfsInv g ⟨[], []⟩ := ⟨by simp, by simp⟩
  have hsp := dfs_each_spec g (dfs_visit g (g.length + 1))
    (dfs_visit_spec g hg (g.length + 1)) (List.range g.length) ⟨[], []⟩ r hinit
    (fun v hv => List.mem_range.mp hv) h
  obtain ⟨⟨hinv, _, _⟩, hall⟩ := hsp
  refine ⟨hinv.2, ?_, ?_⟩
  · intro x
    exact ⟨fun hx => (hinv.1 x hx).1, fun hx => hall x (List.mem_range.mpr hx)⟩
  · intro x y hy
    have hx : x < g.length := by
      by_contra hcon
      rw [List.getD_eq_default _ _ (not_lt.mp hcon)] at hy
      simp at hy
    exact (hinv.1 x (hall x (List.mem_range.mpr hx))).2.2 y hy

theorem dfsInv_push_gray (g : TaskGraph) (s : DfsState) (u : Nat) (hs : DfsInv g s)
    (hout : u ∉ s.out) : DfsInv g { s with gray := u :: s.gray } := by
  refine ⟨?_, hs.2⟩
  intro x hx
  obtain ⟨h1, h2, h3⟩ := hs.1 x hx
  refine ⟨h1, ?_, h3⟩
  intro hmem
  rcases List.mem_cons.mp hmem with rfl | hm
  · exact hout hx
  · exact h2 hm

theorem length_le_of_grayOK (g : TaskGraph) (s : DfsState) (h : GrayOK g s) :
    s.gray.length ≤ g.length := by
  have hsub : s.gray ⊆ List.range g.length := fun x hx => List.mem_range.mpr (h.2 x hx)
  have := (h.1.subperm hsub).length_le
  simpa using this

theorem dfs_each_fuel (g : TaskGraph) (hg : GraphClosed g) (fuel : Nat)
    (hvisit : ∀ u s, DfsInv g s → GrayOK g s → u < g.length →
      g.length + 1 ≤ fuel + s.gray.length → dfs_visit g fuel u s ≠ DfsResult.no_fuel) :
    ∀ (vs : List Nat) (s : DfsState), DfsInv g s → GrayOK g s → (∀ v ∈ vs, v < g.length) →
      g.length + 1 ≤ fuel + s.gray.length →
      dfs_each (dfs_visit g fuel) vs s ≠ DfsResult.no_fuel := by
  intro vs
  induction vs with
  | nil => intro s _ _ _ _; simp [dfs_each]
  | cons v vs ih =>
    intro s hs hgr hvs hfuel
    have hv := hvisit v s hs hgr (hvs v (List.mem_cons_self _ _)) hfuel
    simp only [dfs_each]
    cases hr : dfs_visit g fuel v s with
    | no_fuel => exact absurd hr hv
    | not_a_dag => simp [DfsResult.andThen]
    | done s1 =>
      simp only [DfsResult.andThen]
      obtain ⟨⟨hinv1, _, hgray1⟩, _⟩ :=
        dfs_visit_spec g hg fuel v s s1 hs (hvs v (List.mem_cons_self _ _)) hr
      exact ih s1 hinv1 (by simpa only [GrayOK, hgray1] using hgr)
        (fun w hw => hvs w (List.mem_cons_of_mem _ hw)) (by rw [hgray1]; exact hfuel)

/-- The search never runs out of fuel when the fuel and the number of gray vertices
add up to more than the number of vertices. -/
theorem dfs_visit_fuel (g : TaskGraph) (hg : GraphClosed g) :
    ∀ (fuel u : Nat) (s : DfsState), DfsInv g s → GrayOK g s → u < g.length →
      g.length + 1 ≤ fuel + s.gray.length → dfs_visit g fuel u s ≠ DfsResult.no_fuel := by
  intro fuel
  induction fuel with
  | zero =>
    intro u s _ hgr _ hfuel
    have := length_le_of_grayOK g s hgr
    omega
  | succ fuel ih =>
    intro u s hs hgr hu hfuel
    simp only [dfs_visit]
    by_cases hgray : u ∈ s.gray
    · simp [hgray]
    · by_cases hout : u ∈ s.out
      · simp [hgray, hout]
      · simp only [hgray, hout, if_false]
        have hgr2 : GrayOK g { s with gray := u :: s.gray } := by
          refine ⟨List.nodup_cons.mpr ⟨hgray, hgr.1⟩, ?_⟩
          intro x hx
          rcases List.mem_cons.mp hx with rfl | hx2
          · exact hu
          · exact hgr.2 x hx2
        have hne := dfs_each_fuel g hg fuel ih (g.getD u []) { s with gray := u :: s.gray }
          (dfsInv_push_gray g s u hs hout) hgr2 (fun v hv => hg u v hv)
          (by simp only [List.length_cons]; omega)
        cases hr : dfs_each (dfs_visit g fuel) (g.getD u []) { s with gray := u :: s.gray } with
        | no_fuel => exact absurd hr hne
        | not_a_dag => simp [DfsResult.andThen]
        | done s1 => simp [DfsResult.andThen]

/-- The depth-first search of `topological_sort` has fuel enough: it ends with an
order or with `not_a_dag`. -/
theorem topological_sort_fuel (g : TaskGraph) (hg : GraphClosed g) :
    topological_sort g ≠ DfsResult.no_fuel :=
  dfs_each_fuel g hg (g.length + 1) (dfs_visit_fuel g hg (g.length + 1)) (List.range g.length)
    ⟨[], []⟩ ⟨by simp, by simp⟩ ⟨by simp, by simp⟩ (fun v hv => List.mem_range.mp hv)
    (by simp)

/-! ## The graph built from the edge list -/

theorem getD_append_replicate {α : Type} (d : α) (k : Nat) :
    ∀ (l : List α) (w : Nat), (l ++ List.replicate k d).getD w d = l.getD w d
  | [], w => by
    by_cases hw : w < k
    · simp [List.getD_eq_getElem?_getD, List.getElem?_replicate, hw]
    · simp [List.getD_eq_getElem?_getD, List.getElem?_replicate, hw]
  | a :: l, 0 => by simp
  | a :: l, w + 1 => by
    simpa using getD_append_replicate d k l w

theorem length_add_edge (u v : Nat) (g : TaskGraph) :
    (add_edge u v g).length = max g.length (max u v + 1) := by
  simp only [add_edge, length_modify_at, List.length_append, List.length_replicate]
  omega

theorem getD_add_edge (u v : Nat) (g : TaskGraph) (w : Nat) :
    (add_edge u v g).getD w [] = if w = u then g.getD u [] ++ [v] else g.getD w [] := by
  have hlen : u < (g ++ List.replicate (max u v + 1 - g.length) []).length := by
    simp only [List.length_append, List.length_replicate]
    omega
  simp only [add_edge, getD_modify_at, hlen, and_true, getD_append_replicate]

theorem graphClosed_add_edge (u v : Nat) (g : TaskGraph) (hg : GraphClosed g) :
    GraphClosed (add_edge u v g) := by
  intro w y hy
  rw [getD_add_edge] at hy
  rw [length_add_edge]
  by_cases hw : w = u
  · simp only [hw, if_true, List.mem_append, List.mem_singleton] at hy
    rcases hy with hy | rfl
    · have := hg u y hy
      omega
    · omega
  · simp only [hw, if_false] at hy
    have := hg w y hy
    omega

/-- The graph built from an edge list is closed, has an out-edge for every edge of
the list, and has no vertex beyond a bound on the ends of the edges. -/
theorem add_edges_spec (n : Nat) :
    ∀ (edges : List (Nat × Nat)) (g : TaskGraph), GraphClosed g → g.length ≤ n →
      (∀ e ∈ edges, e.1 < n ∧ e.2 < n) →
      GraphClosed (add_edges edges g) ∧ (add_edges edges g).length ≤ n ∧
      (∀ w y, y ∈ g.getD w [] → y ∈ (add_edges edges g).getD w []) ∧
      (∀ e ∈ edges, e.2 ∈ (add_edges edges g).getD e.1 []) ∧
      (g.length ≤ (add_edges edges g).length) ∧
      (∀ e ∈ edges, e.1 < (add_edges edges g).length ∧ e.2 < (add_edges edges g).length) := by
  intro edges
  induction edges with
  | nil =>
    intro g hg hn _
    simp only [add_edges, List.foldl_nil]
    exact ⟨hg, hn, fun _ _ h => h, by simp, le_refl _, by simp⟩
  | cons e edges ih =>
    intro g hg hn he
    have he1 := he e (List.mem_cons_self _ _)
    have hlen : (add_edge e.1 e.2 g).length ≤ n := by
      rw [length_add_edge]; omega
    have hstep : ∀ w y, y ∈ g.getD w [] → y ∈ (add_edge e.1 e.2 g).getD w [] := by
      intro w y hy
      rw [getD_add_edge]
      by_cases hw : w = e.1
      · subst hw
        rw [if_pos rfl]
        exact List.mem_append_left _ hy
      · rw [if_neg hw]
        exact hy
    have h := ih (add_edge e.1 e.2 g) (graphClosed_add_edge e.1 e.2 g hg) hlen
      (fun x hx => he x (List.mem_cons_of_mem _ hx))
    obtain ⟨h1, h2, h3, h4, h5, h6⟩ := h
    have hl1 : (add_edge e.1 e.2 g).length = max g.length (max e.1 e.2 + 1) :=
      length_add_edge _ _ _
    simp only [add_edges, List.foldl_cons] at h1 h2 h3 h4 h5 h6 ⊢
    refine ⟨h1, h2, fun w y hy => h3 w y (hstep w y hy), ?_, by omega, ?_⟩
    · intro x hx
      rcases List.mem_cons.mp hx with rfl | hx2
      · apply h3
        rw [getD_add_edge, if_pos rfl]
        exact List.mem_append_right _ (List.mem_singleton_self _)
      · exact h4 x hx2
    · intro x hx
      rcases List.mem_cons.mp hx with rfl | hx2
      · constructor <;> omega
      · exact h6 x hx2

/-! ## Task tables -/

theorem lookup_task_modify_at (f : Task → Task) (i : Nat) (l : List Task) (j : Nat) :
    lookup_task (modify_at f i l) j =
      if j = i ∧ i < l.length then f (lookup_task l i) else lookup_task l j :=
  getD_modify_at f default i l j

/-- An update that keeps a field of every task keeps that field in the table. -/
theorem lookup_task_modify_at_proj {β : Type} (π : Task → β) (f : Task → Task)
    (hf : ∀ t, π (f t) = π t) (i : Nat) (l : List Task) (j : Nat) :
    π (lookup_task (modify_at f i l) j) = π (lookup_task l j) := by
  rw [lookup_task_modify_at]
  split
  · next h => rw [hf, h.1]
  · rfl

theorem lookup_name_from_congr (nm : String) :
    ∀ (l l2 : List Task) (i : Nat), l.map Task.name = l2.map Task.name →
      lookup_name_from nm l i = lookup_name_from nm l2 i
  | [], [], _, _ => rfl
  | [], _ :: _, _, h => by simp at h
  | _ :: _, [], _, h => by simp at h
  | a :: l, b :: l2, i, h => by
    simp only [List.map_cons, List.cons.injEq] at h
    simp only [lookup_name_from, h.1, lookup_name_from_congr nm l l2 (i + 1) h.2]

theorem lookup_name_from_bound (nm : String) :
    ∀ (l : List Task) (i t : Nat), lookup_name_from nm l i = some t →
      i ≤ t ∧ t < i + l.length
  | [], _, _, h => by simp [lookup_name_from] at h
  | a :: l, i, t, h => by
    simp only [lookup_name_from] at h
    by_cases hn : a.name = nm
    · simp only [hn, if_true, Option.some.injEq] at h
      subst h
      simp
    · simp only [hn, if_false] at h
      have := lookup_name_from_bound nm l (i + 1) t h
      simp only [List.length_cons]
      omega

theorem lookup_task_name_lt (tasks : List Task) (nm : String) (t : Nat)
    (h : lookup_task_name tasks nm = some t) : t < tasks.length := by
  have := lookup_name_from_bound nm tasks 0 t h
  omega

theorem map_name_modify_at (f : Task → Task) (hf : ∀ t, (f t).name = t.name) :
    ∀ (i : Nat) (l : List Task), (modify_at f i l).map Task.name = l.map Task.name
  | 0, [] => rfl
  | _ + 1, [] => rfl
  | 0, a :: l => by simp [modify_at, hf]
  | i + 1, a :: l => by simp [modify_at, map_name_modify_at f hf i l]

theorem map_deps_loop_spec (self : Nat) :
    ∀ (names : List String) (b : Bool) (tasks : List Task),
      (map_deps_loop self names (b, tasks)).2.length = tasks.length ∧
      (map_deps_loop self names (b, tasks)).2.map Task.name = tasks.map Task.name ∧
      (∀ j, j ≠ self → (lookup_task (map_deps_loop self names (b, tasks)).2 j).deps =
        (lookup_task tasks j).deps) ∧
      (∀ T ∈ (lookup_task (map_deps_loop self names (b, tasks)).2 self).deps,
        T ∈ (lookup_task tasks self).deps ∨ T < tasks.length) ∧
      (map_deps_loop self names (b, tasks)).1 =
        (b && names.all (fun nm => (lookup_task_name tasks nm).isSome)) := by
  intro names
  induction names with
  | nil =>
    intro b tasks
    refine ⟨rfl, rfl, fun _ _ => rfl, fun T h => Or.inl h, ?_⟩
    simp [map_deps_loop]
  | cons nm rest ih =>
    intro b tasks
    cases hl : lookup_task_name tasks nm with
    | none =>
      simp only [map_deps_loop, hl]
      obtain ⟨h1, h2, h3, h4, h5⟩ := ih false tasks
      refine ⟨h1, h2, h3, h4, ?_⟩
      rw [h5]
      simp [hl]
    | some t =>
      simp only [map_deps_loop, hl]
      have ht := lookup_task_name_lt tasks nm t hl
      obtain ⟨h1, h2, h3, h4, h5⟩ := ih b
        (modify_at (_push_dep t) self
          (modify_at (_incr_waiters self) t tasks))
      have hnames : (modify_at (_push_dep t) self
          (modify_at (_incr_waiters self) t tasks)).map Task.name = tasks.map Task.name := by
        rw [map_name_modify_at (_push_dep t) (fun _ => rfl),
          map_name_modify_at (_incr_waiters self) (fun _ => rfl)]
      have hlen : (modify_at (_push_dep t) self
          (modify_at (_incr_waiters self) t tasks)).length = tasks.length := by
        rw [length_modify_at, length_modify_at]
      refine ⟨h1.trans hlen, h2.trans hnames, ?_, ?_, ?_⟩
      · intro j hj
        rw [h3 j hj, lookup_task_modify_at, if_neg (fun h => hj h.1)]
        exact lookup_task_modify_at_proj Task.deps (_incr_waiters self) (fun _ => rfl) t tasks j
      · intro T hT
        rcases h4 T hT with h | h
        · rw [lookup_task_modify_at] at h
          split at h
          · simp only [_push_dep, List.mem_append, List.mem_singleton] at h
            rcases h with h | rfl
            · left
              rw [← lookup_task_modify_at_proj Task.deps (_incr_waiters self)
                (fun _ => rfl) t tasks self]
              exact h
            · exact Or.inr ht
          · left
            rw [← lookup_task_modify_at_proj Task.deps (_incr_waiters self)
              (fun _ => rfl) t tasks self]
            exact h
        · exact Or.inr (hlen ▸ h)
      · rw [h5]
        have hcongr : ∀ x, lookup_task_name
            (modify_at (_push_dep t) self
              (modify_at (_incr_waiters self) t tasks)) x = lookup_task_name tasks x :=
          fun x => lookup_name_from_congr x _ _ 0 hnames
        simp [hcongr, hl]

theorem map_deps_loop_proj {β : Type} (π : Task → β) (hπ : DepsFrame π) (self : Nat) :
    ∀ (names : List String) (b : Bool) (tasks : List Task) (j : Nat),
      π (lookup_task (map_deps_loop self names (b, tasks)).2 j) = π (lookup_task tasks j) := by
  intro names
  induction names with
  | nil => intro b tasks j; simp [map_deps_loop]
  | cons nm rest ih =>
    intro b tasks j
    cases hl : lookup_task_name tasks nm with
    | none =>
      simp only [map_deps_loop, hl]
      exact ih false tasks j
    | some t =>
      simp only [map_deps_loop, hl]
      rw [ih, lookup_task_modify_at_proj π (_push_dep t) (fun x => hπ.2.1 t x),
        lookup_task_modify_at_proj π (_incr_waiters self) (fun x => hπ.1 self x)]

theorem map_dependencies_spec (tasks : List Task) (self : Nat) :
    (map_dependencies tasks self).2.length = tasks.length ∧
    (map_dependencies tasks self).2.map Task.name = tasks.map Task.name ∧
    (∀ j, j ≠ self → (lookup_task (map_dependencies tasks self).2 j).deps =
      (lookup_task tasks j).deps) ∧
    (∀ T ∈ (lookup_task (map_dependencies tasks self).2 self).deps,
      T ∈ (lookup_task tasks self).deps ∨ T < tasks.length) ∧
    (map_dependencies tasks self).1 = resolves tasks self := by
  obtain ⟨h1, h2, h3, h4, h5⟩ :=
    map_deps_loop_spec self (_get_dep_str (lookup_task tasks self)) true tasks
  simp only [map_dependencies]
  refine ⟨by rw [length_modify_at, h1], by rw [map_name_modify_at _set_mapped (fun _ => rfl), h2],
    ?_, ?_, ?_⟩
  · intro j hj
    rw [lookup_task_modify_at_proj Task.deps _set_mapped (fun _ => rfl)]
    exact h3 j hj
  · intro T hT
    rw [lookup_task_modify_at_proj Task.deps _set_mapped (fun _ => rfl)] at hT
    exact h4 T hT
  · rw [h5]
    simp [resolves]

theorem map_dependencies_proj {β : Type} (π : Task → β) (hπ : DepsFrame π)
    (tasks : List Task) (self j : Nat) :
    π (lookup_task (map_dependencies tasks self).2 j) = π (lookup_task tasks j) := by
  simp only [map_dependencies]
  rw [lookup_task_modify_at_proj π _set_mapped hπ.2.2, map_deps_loop_proj π hπ]

theorem depsFrame_id : DepsFrame Task.id := ⟨fun _ _ => rfl, fun _ _ => rfl, fun _ => rfl⟩
theorem depsFrame_state : DepsFrame Task.state := ⟨fun _ _ => rfl, fun _ _ => rfl, fun _ => rfl⟩
theorem depsFrame_name : DepsFrame Task.name := ⟨fun _ _ => rfl, fun _ _ => rfl, fun _ => rfl⟩
theorem depsFrame_dep_str : DepsFrame Task.dep_str :=
  ⟨fun _ _ => rfl, fun _ _ => rfl, fun _ => rfl⟩
theorem depsFrame_reqd_cores : DepsFrame Task.reqd_cores :=
  ⟨fun _ _ => rfl, fun _ _ => rfl, fun _ => rfl⟩
theorem depsFrame_ticks_remaining : DepsFrame Task.ticks_remaining :=
  ⟨fun _ _ => rfl, fun _ _ => rfl, fun _ => rfl⟩
theorem depsFrame_reqd_ticks : DepsFrame Task.reqd_ticks :=
  ⟨fun _ _ => rfl, fun _ _ => rfl, fun _ => rfl⟩

/-! ## The first loop of `validate_tasks` -/

/-- The first loop of `validate_tasks` keeps its invariant, however it ends. -/
theorem validate_loop_inv (n : Nat) (mco : Option Compute) :
    ∀ (todo : List Nat) (v : ValidateLoop), ValidInv n v → (∀ i ∈ todo, i < n) →
      (∀ v2, validate_loop mco todo v = ValidateExit.finished v2 → ValidInv n v2) := by
  intro todo
  induction todo with
  | nil =>
    intro v hv _ v2 h
    simp only [validate_loop, ValidateExit.finished.injEq] at h
    exact h ▸ hv
  | cons itr rest ih =>
    intro v hv htodo v2 h
    have hitr : itr < n := htodo itr (List.mem_cons_self _ _)
    cases mco with
    | none => simp [validate_loop] at h
    | some mc =>
    simp only [validate_loop] at h
    split at h
    · exact absurd h (by simp)
    · split at h
      · exact absurd h (by simp)
      · refine ih _ ?_ (fun i hi => htodo i (List.mem_cons_of_mem _ hi)) v2 h
        obtain ⟨hlen, hid, hst, hdeps, hedge, hdis, hart⟩ := hv
        obtain ⟨m1, _, m3, m4, _⟩ := map_dependencies_spec v.tasks itr
        have hidq : ∀ j, (lookup_task (map_dependencies v.tasks itr).2 j).id =
            (lookup_task v.tasks j).id := map_dependencies_proj Task.id depsFrame_id _ _
        have hmedeps : ∀ T ∈ (lookup_task (map_dependencies v.tasks itr).2 itr).deps, T < n := by
          intro T hT
          rcases m4 T hT with h1 | h1
          · exact (hdeps itr T h1).1
          · exact hlen ▸ h1
        refine ⟨m1.trans hlen, ?_, ?_, ?_, ?_, ?_, ?_⟩
        · intro i hi
          rw [hidq]
          exact hid i hi
        · intro i
          rw [map_dependencies_proj Task.state depsFrame_state]
          exact hst i
        · intro U T hT
          by_cases hU : U = itr
          · subst hU
            refine ⟨hmedeps T hT, List.mem_append_right _ ?_⟩
            refine List.mem_map.mpr ⟨T, hT, ?_⟩
            rw [hidq, hidq, hid U hitr, hid T (hmedeps T hT)]
          · rw [m3 U hU] at hT
            exact ⟨(hdeps U T hT).1, List.mem_append_left _ (hdeps U T hT).2⟩
        · intro e he
          rcases List.mem_append.mp he with he1 | he1
          · exact hedge e he1
          · obtain ⟨T, hT, rfl⟩ := List.mem_map.mp he1
            simp only [hidq]
            rw [hid itr hitr, hid T (hmedeps T hT)]
            exact ⟨hitr, hmedeps T hT⟩
        · intro d hd
          split at hd
          · rcases List.mem_append.mp hd with h1 | h1
            · exact hdis d h1
            · simp only [List.mem_singleton] at h1
              exact h1 ▸ hitr
          · exact hdis d hd
        · intro a ha
          cases hva : v.artificial_dep with
          | none =>
            simp only [hva, Option.some.injEq] at ha
            exact ha ▸ hitr
          | some a0 =>
            simp only [hva, Option.some.injEq] at ha
            exact ha ▸ hart a0 hva

theorem get_dep_str_congr (a b : Task) (h : a.dep_str = b.dep_str) :
    _get_dep_str a = _get_dep_str b := by
  simp only [_get_dep_str, h]

theorem resolves_congr (tasks tasks2 : List Task) (i : Nat)
    (hn : tasks.map Task.name = tasks2.map Task.name)
    (hd : (lookup_task tasks i).dep_str = (lookup_task tasks2 i).dep_str) :
    resolves tasks i = resolves tasks2 i := by
  simp only [resolves, get_dep_str_congr _ _ hd]
  congr 1
  funext nm
  simp only [lookup_task_name, lookup_name_from_congr nm tasks tasks2 0 hn]

theorem first_failure_congr (m : Nat) (tasks tasks2 : List Task)
    (hn : tasks.map Task.name = tasks2.map Task.name)
    (hd : ∀ i, (lookup_task tasks i).dep_str = (lookup_task tasks2 i).dep_str)
    (hc : ∀ i, (lookup_task tasks i).reqd_cores = (lookup_task tasks2 i).reqd_cores) :
    ∀ todo, first_failure m tasks todo = first_failure m tasks2 todo := by
  intro todo
  induction todo with
  | nil => rfl
  | cons i rest ih =>
    simp only [first_failure, hc i, resolves_congr tasks tasks2 i hn (hd i), ih]

/-- The first loop of `validate_tasks` returns with the first failure of the list. -/
theorem validate_loop_status (mc : Compute) :
    ∀ (todo : List Nat) (v : ValidateLoop),
      (validate_loop (some mc) todo v).status = first_failure mc.get_cores v.tasks todo := by
  intro todo
  induction todo with
  | nil => intro v; rfl
  | cons itr rest ih =>
    intro v
    simp only [validate_loop, first_failure]
    by_cases hex : (lookup_task v.tasks itr).reqd_cores > mc.get_cores
    · simp only [hex, if_true, ValidateExit.status]
    · obtain ⟨_, m2, _, _, m5⟩ := map_dependencies_spec v.tasks itr
      simp only [hex, if_false, m5]
      by_cases hr : resolves v.tasks itr = true
      · simp only [hr, not_true_eq_false, if_false]
        rw [ih]
        exact first_failure_congr _ _ _ m2
          (map_dependencies_proj Task.dep_str depsFrame_dep_str v.tasks itr)
          (map_dependencies_proj Task.reqd_cores depsFrame_reqd_cores v.tasks itr) rest
      · simp [hr, ValidateExit.status]

theorem first_failure_ne_ok (m : Nat) (tasks : List Task) :
    ∀ todo s, first_failure m tasks todo = some s →
      s = Status.compute_exceeded ∨ s = Status.missing_dependency := by
  intro todo
  induction todo with
  | nil => intro s h; simp [first_failure] at h
  | cons i rest ih =>
    intro s h
    simp only [first_failure] at h
    split at h
    · exact Or.inl (Option.some.inj h).symm
    · split at h
      · exact Or.inr (Option.some.inj h).symm
      · exact ih s h

/-- The status of `validate_tasks` is `compute_exceeded` exactly when that is the
first failure of its first loop. -/
theorem validate_tasks_compute_exceeded (p : Planner) (mc : Compute)
    (hmc : max_element sort_max_cores p.comp = some mc) :
    (∃ p2, validate_tasks p = some (Status.compute_exceeded, p2)) ↔
      first_failure mc.get_cores p.tasks (List.range p.tasks.length) =
        some Status.compute_exceeded := by
  have hst := validate_loop_status mc (List.range p.tasks.length) ⟨p.tasks, p.edge, [], none⟩
  simp only [validate_tasks, hmc]
  cases hloop : validate_loop (some mc) (List.range p.tasks.length) ⟨p.tasks, p.edge, [], none⟩ with
  | bad_deref =>
    rw [hloop] at hst
    simp only [ValidateExit.status] at hst
    simp [← hst]
  | returned s last v =>
    rw [hloop] at hst
    simp only [ValidateExit.status] at hst
    rw [← hst]
    simp only [Option.some.injEq, Prod.mk.injEq, exists_and_left, exists_eq', and_true]
  | finished v =>
    rw [hloop] at hst
    simp only [ValidateExit.status] at hst
    rw [← hst]
    constructor
    · rintro ⟨p2, h⟩
      simp only [validate_finish] at h
      cases htopo : topological_sort
        (add_edges (v.edge ++ artificial_edges v.tasks v.artificial_dep v.disconnected_nodes)
          p.tg) with
      | no_fuel => simp [htopo] at h
      | not_a_dag => simp [htopo] at h
      | done r => simp [htopo] at h
    · intro h
      simp at h

/-! ## The input -/

theorem length_read_tasks_from : ∀ (xs : List TaskInput) (i : Nat),
    (read_tasks_from xs i).length = xs.length
  | [], _ => rfl
  | _ :: xs, i => by simp [read_tasks_from, length_read_tasks_from xs (i + 1)]

theorem length_read_tasks (xs : List TaskInput) : (read_tasks xs).length = xs.length :=
  length_read_tasks_from xs 0

theorem lookup_read_tasks_from : ∀ (xs : List TaskInput) (i j : Nat) (h : j < xs.length),
    lookup_task (read_tasks_from xs i) j = Task.of_input xs[j] (i + j)
  | [], _, _, h => by simp at h
  | x :: xs, i, 0, _ => by simp [read_tasks_from, lookup_task]
  | x :: xs, i, j + 1, h => by
    have h2 : j < xs.length := by simpa using h
    have := lookup_read_tasks_from xs (i + 1) j h2
    simp only [lookup_task] at this
    simp only [read_tasks_from, lookup_task, List.getD_cons_succ, this, List.getElem_cons_succ]
    congr 1
    omega

theorem lookup_read_tasks (xs : List TaskInput) (j : Nat) (h : j < xs.length) :
    lookup_task (read_tasks xs) j = Task.of_input xs[j] j := by
  rw [read_tasks, lookup_read_tasks_from xs 0 j h, Nat.zero_add]

theorem lookup_task_beyond (tasks : List Task) (j : Nat) (h : tasks.length ≤ j) :
    lookup_task tasks j = default :=
  List.getD_eq_default _ _ h

theorem of_input_fields (x : TaskInput) (k : Nat) :
    (Task.of_input x k).name = x.name ∧ (Task.of_input x k).reqd_cores = x.cores_required ∧
    (Task.of_input x k).id = k ∧ (Task.of_input x k).state = TaskState.not_started ∧
    (Task.of_input x k).deps = [] ∧ (Task.of_input x k).dep_str = x.parent_tasks ∧
    (Task.of_input x k).ticks_remaining = x.execution_time ∧
    (Task.of_input x k).waiters = 0 ∧ (Task.of_input x k).waiter_list = [] ∧
    (Task.of_input x k).mapped_deps = false := by
  by_cases h : x.parent_tasks.data = []
  · have hs : x.parent_tasks = "" := String.ext h
    simp [Task.of_input, h, Task.new, hs]
  · simp [Task.of_input, h, Task.new, Task.set_dep_str]

theorem get_dep_str_of_input (x : TaskInput) (k : Nat) :
    _get_dep_str (Task.of_input x k) = parent_names x := by
  apply get_dep_str_congr
  rw [(of_input_fields x k).2.2.2.2.2.1]
  rfl

theorem map_name_read_tasks_from : ∀ (xs : List TaskInput) (i : Nat),
    (read_tasks_from xs i).map Task.name = xs.map TaskInput.name
  | [], _ => rfl
  | x :: xs, i => by
    simp [read_tasks_from, map_name_read_tasks_from xs (i + 1), (of_input_fields x i).1]

theorem lookup_name_from_isSome (nm : String) : ∀ (l : List Task) (i : Nat),
    (lookup_name_from nm l i).isSome = true ↔ nm ∈ l.map Task.name
  | [], _ => by simp [lookup_name_from]
  | a :: l, i => by
    by_cases h : a.name = nm
    · simp [lookup_name_from, h]
    · have h2 : ¬ nm = a.name := fun e => h e.symm
      simp [lookup_name_from, h, h2, lookup_name_from_isSome nm l (i + 1)]

theorem resolves_read_tasks (xs : List TaskInput) (j : Nat) (h : j < xs.length) :
    resolves (read_tasks xs) j = true ↔ ¬ has_unresolved_parent xs xs[j] := by
  simp only [resolves, lookup_read_tasks xs j h, get_dep_str_of_input, List.all_eq_true,
    lookup_task_name, lookup_name_from_isSome, has_unresolved_parent]
  simp only [read_tasks, map_name_read_tasks_from, List.mem_map]
  constructor
  · rintro hall ⟨nm, hnm, hno⟩
    obtain ⟨y, hy, hyn⟩ := hall nm hnm
    exact hno y hy hyn
  · intro hno nm hnm
    by_contra hcon
    exact hno ⟨nm, hnm, fun y hy hyn => hcon ⟨y, hy, hyn⟩⟩

theorem foldl_pick_get_cores : ∀ (l : List (String × Nat)) (acc : Compute) (k : Nat),
    acc.cores_available = k → acc.cores_total = k →
    (List.foldl (fun largest x => if sort_max_cores largest x then x else largest) acc
      (read_compute l)).get_cores = (l.map Prod.snd).foldl max k := by
  intro l
  induction l with
  | nil => intro acc k _ h2; simp [read_compute, Compute.get_cores, h2]
  | cons x l ih =>
    intro acc k h1 h2
    simp only [read_compute, List.map_cons, List.foldl_cons] at ih ⊢
    by_cases hlt : k < x.2
    · have hc : sort_max_cores acc (Compute.new x.1 x.2) = true := by
        simp [sort_max_cores, Compute.new, h1, hlt]
      rw [hc, if_pos rfl, ih (Compute.new x.1 x.2) x.2 rfl rfl, max_eq_right (le_of_lt hlt)]
    · have hc : sort_max_cores acc (Compute.new x.1 x.2) = false := by
        simp [sort_max_cores, Compute.new, h1, hlt]
      rw [hc, if_neg (by simp), ih acc k h1 h2, max_eq_left (not_lt.mp hlt)]

/-- On a compute list fresh from the input, `std::max_element` finds a node with the
largest `cores_total`. -/
theorem max_element_read_compute (nodes : List (String × Nat)) (hne : nodes ≠ []) :
    ∃ mc, max_element sort_max_cores (read_compute nodes) = some mc ∧
      mc.get_cores = largest_cores_total nodes := by
  cases nodes with
  | nil => exact absurd rfl hne
  | cons x l =>
    refine ⟨_, rfl, ?_⟩
    have := foldl_pick_get_cores l (Compute.new x.1 x.2) x.2 rfl rfl
    simp only [read_compute] at this
    simp only [this, largest_cores_total, List.map_cons, List.foldl_cons, Nat.zero_max]

theorem first_failure_compute_exceeded (m : Nat) (tasks : List Task) :
    ∀ todo : List Nat, first_failure m tasks todo = some Status.compute_exceeded ↔
      ∃ k, k < todo.length ∧ (lookup_task tasks (todo.getD k 0)).reqd_cores > m ∧
        ∀ k2, k2 < k → resolves tasks (todo.getD k2 0) = true := by
  intro todo
  induction todo with
  | nil => simp [first_failure]
  | cons a rest ih =>
    simp only [first_failure]
    by_cases hex : (lookup_task tasks a).reqd_cores > m
    · simp only [hex, if_true, true_iff]
      exact ⟨0, by simp, by simpa using hex, fun k2 hk2 => absurd hk2 (Nat.not_lt_zero _)⟩
    · simp only [hex, if_false]
      by_cases hr : resolves tasks a = true
      · simp only [hr, not_true_eq_false, if_false, ih]
        constructor
        · rintro ⟨k, hk, h1, h2⟩
          refine ⟨k + 1, by simpa using hk, by simpa using h1, ?_⟩
          intro k2 hk2
          cases k2 with
          | zero => simpa using hr
          | succ k3 => simpa using h2 k3 (by omega)
        · rintro ⟨k, hk, h1, h2⟩
          cases k with
          | zero => exact absurd (by simpa using h1) hex
          | succ k3 =>
            refine ⟨k3, by simpa using hk, by simpa using h1, ?_⟩
            intro k2 hk2
            simpa using h2 (k2 + 1) (by omega)
      · simp only [hr, not_false_eq_true, if_true, Option.some.injEq, reduceCtorEq, false_iff,
          not_exists, not_and]
        intro k hk h1 h2
        cases k with
        | zero => exact hex (by simpa using h1)
        | succ k3 => exact hr (by simpa using h2 0 (by omega))

/-- C10. For a non-empty node list, `validate_tasks` returns `compute_exceeded` if and
only if some task needs more cores than the largest `cores_total` of the nodes and no
task earlier in the list has an unresolved parent name; it is returned for the single
task `Big(4,1)` on the node `n1` with 2 cores. -/
theorem C10_compute_exceeded_iff (nodes : List (String × Nat)) (tasks : List TaskInput)
    (hne : nodes ≠ []) :
    ((∃ p, validate_tasks (Planner.of_input nodes tasks) = some (Status.compute_exceeded, p)) ↔
      ∃ i, ∃ h : i < tasks.length, largest_cores_total nodes < tasks[i].cores_required ∧
        ∀ j, ∀ hj : j < i, ¬ has_unresolved_parent tasks tasks[j]) ∧
    ∃ p, validate_tasks (Planner.of_input [("n1", 2)] [⟨"Big", 4, 1, ""⟩]) =
      some (Status.compute_exceeded, p) := by
  refine ⟨?_, ⟨_, rfl⟩⟩
  obtain ⟨mc, hmc, hcores⟩ := max_element_read_compute nodes hne
  have hiff := validate_tasks_compute_exceeded (Planner.of_input nodes tasks) mc hmc
  rw [hiff, first_failure_compute_exceeded, hcores]
  simp only [Planner.of_input, Planner.new, length_read_tasks, List.length_range]
  constructor
  · rintro ⟨k, hk, h1, h2⟩
    refine ⟨k, hk, ?_, ?_⟩
    · rw [List.getD_eq_getElem _ 0 (by simpa using hk), List.getElem_range,
        lookup_read_tasks tasks k hk, (of_input_fields _ _).2.1] at h1
      exact h1
    · intro j hj
      have hjl : j < tasks.length := by omega
      have := h2 j hj
      rw [List.getD_eq_getElem _ 0 (by simpa using hjl), List.getElem_range] at this
      exact (resolves_read_tasks tasks j hjl).mp this
  · rintro ⟨i, hi, h1, h2⟩
    refine ⟨i, hi, ?_, ?_⟩
    · rw [List.getD_eq_getElem _ 0 (by simpa using hi), List.getElem_range,
        lookup_read_tasks tasks i hi, (of_input_fields _ _).2.1]
      exact h1
    · intro j hj
      have hjl : j < tasks.length := by omega
      rw [List.getD_eq_getElem _ 0 (by simpa using hjl), List.getElem_range]
      exact (resolves_read_tasks tasks j hjl).mpr (h2 j hj)

/-- A run of C10: two nodes of 2 and 8 cores, a task in the second position that
needs 9 cores. -/
theorem C10_compute_exceeded_iff_witness :
    ((∃ p, validate_tasks (Planner.of_input [("n1", 2), ("n2", 8)]
        [⟨"A", 1, 1, ""⟩, ⟨"B", 9, 1, "A"⟩]) = some (Status.compute_exceeded, p)) ↔
      ∃ i, ∃ h : i < [(⟨"A", 1, 1, ""⟩ : TaskInput), ⟨"B", 9, 1, "A"⟩].length,
        largest_cores_total [("n1", 2), ("n2", 8)] <
          [(⟨"A", 1, 1, ""⟩ : TaskInput), ⟨"B", 9, 1, "A"⟩][i].cores_required ∧
        ∀ j, ∀ hj : j < i, ¬ has_unresolved_parent [⟨"A", 1, 1, ""⟩, ⟨"B", 9, 1, "A"⟩]
          [(⟨"A", 1, 1, ""⟩ : TaskInput), ⟨"B", 9, 1, "A"⟩][j]) ∧
    ∃ p, validate_tasks (Planner.of_input [("n1", 2)] [⟨"Big", 4, 1, ""⟩]) =
      some (Status.compute_exceeded, p) :=
  C10_compute_exceeded_iff [("n1", 2), ("n2", 8)] [⟨"A", 1, 1, ""⟩, ⟨"B", 9, 1, "A"⟩]
    (by simp)

/-! ## Successful validation -/

theorem validInv_read_tasks (xs : List TaskInput) :
    ValidInv xs.length ⟨read_tasks xs, [], [], none⟩ := by
  have hdef : ∀ i, xs.length ≤ i → lookup_task (read_tasks xs) i = default := fun i hi =>
    lookup_task_beyond _ i (by rw [length_read_tasks]; exact hi)
  refine ⟨length_read_tasks xs, ?_, ?_, ?_, by simp, by simp, by simp⟩
  · intro i hi
    rw [lookup_read_tasks xs i hi]
    exact (of_input_fields _ _).2.2.1
  · intro i
    by_cases hi : i < xs.length
    · rw [lookup_read_tasks xs i hi]
      exact (of_input_fields _ _).2.2.2.1
    · rw [hdef i (not_lt.mp hi)]
      rfl
  · intro U T hT
    by_cases hU : U < xs.length
    · rw [lookup_read_tasks xs U hU, (of_input_fields _ _).2.2.2.2.1] at hT
      simp at hT
    · rw [hdef U (not_lt.mp hU)] at hT
      simp [default] at hT

theorem validate_finish_ok (n : Nat) (p p2 : Planner) (v : ValidateLoop) (hv : ValidInv n v)
    (htg : p.tg = []) (hjs : p.job_sequence = [])
    (h : validate_finish p v = some (Status.ok, p2)) :
    p2.comp = p.comp ∧ p2.schedule = p.schedule ∧ p2.required_ticks = p.required_ticks ∧
    p2.tasks_validated = true ∧ p2.tasks = v.tasks ∧
    (∀ x ∈ p2.job_sequence, x < n) ∧ p2.job_sequence.Nodup ∧
    (∀ U T, T ∈ (lookup_task v.tasks U).deps → Before p2.job_sequence T U) ∧
    (∀ x, x ∈ p2.job_sequence ↔ x < p2.tg.length) ∧
    p2.edge = v.edge ++ artificial_edges v.tasks v.artificial_dep v.disconnected_nodes ∧
    p2.tg = add_edges p2.edge [] := by
  obtain ⟨hlen, hid, hst, hdeps, hedge, hdis, hart⟩ := hv
  have hall : ∀ e ∈ v.edge ++ artificial_edges v.tasks v.artificial_dep v.disconnected_nodes,
      e.1 < n ∧ e.2 < n := by
    intro e he
    rcases List.mem_append.mp he with h1 | h1
    · exact hedge e h1
    · cases ha : v.artificial_dep with
      | none => simp [artificial_edges, ha] at h1
      | some a =>
        simp only [artificial_edges, ha, List.mem_map, List.mem_filter] at h1
        obtain ⟨d, ⟨hd, _⟩, rfl⟩ := h1
        simp only
        rw [hid d (hdis d hd), hid a (hart a ha)]
        exact ⟨hdis d hd, hart a ha⟩
  have hclosed : GraphClosed ([] : TaskGraph) := by
    intro u w hw
    simp at hw
  obtain ⟨g1, g2, _, g4, _, _⟩ := add_edges_spec n _ [] hclosed (Nat.zero_le n) hall
  simp only [validate_finish, htg, hjs] at h
  cases htopo : topological_sort (add_edges
      (v.edge ++ artificial_edges v.tasks v.artificial_dep v.disconnected_nodes) []) with
  | no_fuel => simp [htopo] at h
  | not_a_dag => simp [htopo] at h
  | done r =>
    simp only [htopo, Option.some.injEq, Prod.mk.injEq, true_and] at h
    subst h
    obtain ⟨t1, t2, t3⟩ := topological_sort_spec _ g1 r htopo
    refine ⟨rfl, rfl, rfl, rfl, rfl, ?_, ?_, ?_, ?_, rfl, rfl⟩
    · intro x hx
      simp only [List.nil_append] at hx
      exact lt_of_lt_of_le ((t2 x).mp hx) g2
    · simpa only [List.nil_append] using t1
    · intro U T hT
      simp only [List.nil_append]
      exact t3 U T (g4 (U, T) (List.mem_append_left _ (hdeps U T hT).2))
    · simpa only [List.nil_append] using t2

/-- A validation of the input that returns `ok` establishes `Validated`. -/
theorem validate_ok_validated (nodes : List (String × Nat)) (tasks : List TaskInput)
    (p : Planner) (h : validate_tasks (Planner.of_input nodes tasks) = some (Status.ok, p)) :
    Validated nodes tasks p := by
  simp only [validate_tasks, Planner.of_input, Planner.new] at h
  cases hloop : validate_loop (max_element sort_max_cores (read_compute nodes))
      (List.range (read_tasks tasks).length) ⟨read_tasks tasks, [], [], none⟩ with
  | bad_deref => simp [hloop] at h
  | returned s last v =>
    have hst := congrArg ValidateExit.status hloop
    simp only [hloop, Option.some.injEq, Prod.mk.injEq] at h
    cases hm : max_element sort_max_cores (read_compute nodes) with
    | none =>
      rw [hm] at hloop
      cases htl : List.range (read_tasks tasks).length with
      | nil => simp [htl, validate_loop] at hloop
      | cons a l => simp [htl, validate_loop] at hloop
    | some mc =>
      rw [hm, validate_loop_status] at hst
      simp only [ValidateExit.status] at hst
      rcases first_failure_ne_ok _ _ _ _ hst with h1 | h1
      · rw [h1] at h; simp at h
      · rw [h1] at h; simp at h
  | finished v =>
    simp only [hloop] at h
    have hinv := validate_loop_inv tasks.length _ _ _ (validInv_read_tasks tasks)
      (fun i hi => by simpa [length_read_tasks] using hi) v hloop
    obtain ⟨f1, f2, f3, f4, f5, f6, f7, f8, _, _, _⟩ :=
      validate_finish_ok tasks.length _ p v hinv rfl rfl h
    obtain ⟨hlen, hid, hst, hdeps, _, _, _⟩ := hinv
    refine ⟨f1, f2, f3, f4, by rw [f5, hlen], ?_, ?_, f6, f7, ?_⟩
    · intro i; rw [f5]; exact hst i
    · intro i hi; rw [f5]; exact hid i hi
    · intro U T hT
      rw [f5] at hT
      exact ⟨(hdeps U T hT).1, f8 U T hT⟩

/-- C9. Whenever `validate_tasks` returns `ok`, for every task `U` and every parent `T`
among the resolved dependencies of `U`, the id of `T` occurs in `_job_sequence` before
the id of `U`. -/
theorem C9_parents_before_dependents (nodes : List (String × Nat)) (tasks : List TaskInput)
    (p : Planner) (h : validate_tasks (Planner.of_input nodes tasks) = some (Status.ok, p))
    (U T : Nat) (hU : U < p.tasks.length) (hT : T ∈ (lookup_task p.tasks U).deps) :
    Before p.job_sequence (lookup_task p.tasks T).id (lookup_task p.tasks U).id := by
  obtain ⟨_, _, _, _, hlen, _, hid, _, _, hdeps⟩ := validate_ok_validated nodes tasks p h
  rw [hid U (hlen ▸ hU), hid T (hdeps U T hT).1]
  exact (hdeps U T hT).2

/-- A run of C9 on the chain `A`, `B` (parent `A`), `C` (parent `B`): `A` is a parent of
`B` and comes before it in the job sequence. -/
theorem C9_parents_before_dependents_witness :
    ∃ p, validate_tasks (Planner.of_input [("n1", 4)]
        [⟨"A", 1, 2, ""⟩, ⟨"B", 1, 3, "A"⟩, ⟨"C", 1, 1, "B"⟩]) = some (Status.ok, p) ∧
      (0 ∈ (lookup_task p.tasks 1).deps ∧ p.job_sequence = [0, 1, 2]) ∧
      Before p.job_sequence (lookup_task p.tasks 0).id (lookup_task p.tasks 1).id := by
  refine ⟨_, rfl, ⟨by decide, by decide⟩, ?_⟩
  exact C9_parents_before_dependents [("n1", 4)]
    [⟨"A", 1, 2, ""⟩, ⟨"B", 1, 3, "A"⟩, ⟨"C", 1, 1, "B"⟩] _ rfl 1 0 (by decide) (by decide)

/-! ## `task::run_for` and `compute::tick` -/

theorem run_for_spec (t : Task) (k : Nat) :
    (t.run_for k).1.remaining_ticks = t.ticks_remaining - k ∧
    (t.run_for k).1.busy_ticks = k ∧
    (t.run_for k).1.idle_ticks = k - t.ticks_remaining ∧
    (t.run_for k).2.ticks_remaining = t.ticks_remaining - k ∧
    (t.run_for k).2.state = (if t.ticks_remaining ≤ k then TaskState.complete else t.state) ∧
    (t.run_for k).2.reqd_cores = t.reqd_cores ∧ (t.run_for k).2.deps = t.deps ∧
    (t.run_for k).2.id = t.id ∧ (t.run_for k).2.name = t.name ∧
    (t.run_for k).2.waiters = t.waiters := by
  by_cases h1 : t.ticks_remaining = k
  · simp [Task.run_for, h1]
  · by_cases h2 : t.ticks_remaining < k
    · have h3 : t.ticks_remaining ≤ k := le_of_lt h2
      simp only [Task.run_for, h1, h2, h3, if_true, if_false, and_self, and_true]
      exact ⟨by omega, trivial, trivial, by omega⟩
    · have h3 : ¬ t.ticks_remaining ≤ k := by omega
      simp only [Task.run_for, h1, h2, h3, if_false, and_self, and_true, true_and]
      omega

theorem cores_in_use_append (tasks : List Task) (l1 l2 : List Nat) :
    cores_in_use tasks (l1 ++ l2) = cores_in_use tasks l1 + cores_in_use tasks l2 := by
  simp [cores_in_use]

theorem cores_in_use_congr (tasks tasks2 : List Task) (cur : List Nat)
    (h : ∀ t ∈ cur, (lookup_task tasks2 t).reqd_cores = (lookup_task tasks t).reqd_cores) :
    cores_in_use tasks2 cur = cores_in_use tasks cur := by
  simp only [cores_in_use]
  congr 1
  exact List.map_congr_left h

theorem cores_in_use_filter (tasks : List Task) (q : Nat → Bool) :
    ∀ cur : List Nat, cores_in_use tasks cur =
      cores_in_use tasks (cur.filter q) + cores_in_use tasks (cur.filter (fun t => ! q t))
  | [] => rfl
  | t :: cur => by
    have ih := cores_in_use_filter tasks q cur
    simp only [cores_in_use] at ih ⊢
    by_cases hq : q t = true
    · simp only [List.filter, hq, List.map_cons, List.sum_cons, Bool.not_true]
      omega
    · have hq2 : q t = false := by simpa using hq
      simp only [List.filter, hq2, List.map_cons, List.sum_cons, Bool.not_false]
      omega

theorem countP_modify_at (q : Task → Bool) (f : Task → Task) :
    ∀ (i : Nat) (l : List Task), i < l.length →
      ((modify_at f i l).countP q : Int) =
        (l.countP q : Int) - (if q (lookup_task l i) then 1 else 0) +
          (if q (f (lookup_task l i)) then 1 else 0)
  | _, [], h => by simp at h
  | 0, a :: l, _ => by
    simp only [modify_at, lookup_task, List.getD_cons_zero, List.countP_cons]
    split <;> split <;> simp
  | i + 1, a :: l, h => by
    have h2 : i < l.length := by simpa using h
    have ih := countP_modify_at q f i l h2
    simp only [lookup_task] at ih
    simp only [modify_at, lookup_task, List.getD_cons_succ, List.countP_cons, Nat.cast_add, ih]
    omega

/-- What the loop of `compute::tick` does on the tasks `todo`, when its assertion
holds throughout: every task of `todo` is run for `k` ticks, those with more than `k`
ticks remaining are kept in order, the others are counted as completed and give their
cores back. -/
theorem tick_loop_spec (total : Int) (k : Nat) :
    ∀ (todo : List Nat) (a r : TickLoop), todo.Nodup → (∀ t ∈ todo, t < a.tasks.length) →
      tick_loop total k todo a = some r →
      r.tasks.length = a.tasks.length ∧
      (∀ j, lookup_task r.tasks j =
        if j ∈ todo then ((lookup_task a.tasks j).run_for k).2 else lookup_task a.tasks j) ∧
      r.kept = a.kept ++ todo.filter (fun t => ! finishes_within a.tasks k t) ∧
      r.tasks_completed =
        a.tasks_completed + ((todo.filter (finishes_within a.tasks k)).length : Int) ∧
      r.cores_available = a.cores_available +
        (cores_in_use a.tasks (todo.filter (finishes_within a.tasks k)) : Int) ∧
      r.cores_used = a.cores_used + (cores_in_use a.tasks todo : Int) ∧
      r.this_run_busy_ticks = a.this_run_busy_ticks + k * cores_in_use a.tasks todo ∧
      r.this_run_idle_ticks = a.this_run_idle_ticks + idle_reported a.tasks k todo ∧
      r.cores_available ≤ (if todo.filter (finishes_within a.tasks k) = [] then
        r.cores_available else total) ∧
      (r.tasks.countP incomplete : Int) = (a.tasks.countP incomplete : Int) -
        ((todo.filter (fun t => finishes_within a.tasks k t &&
          incomplete (lookup_task a.tasks t))).length : Int) := by
  intro todo
  induction todo with
  | nil =>
    intro a r _ _ h
    simp only [tick_loop, Option.some.injEq] at h
    subst h
    simp [cores_in_use, idle_reported]
  | cons t rest ih =>
    intro a r hnd hlt h
    have htl : t < a.tasks.length := hlt t (List.mem_cons_self _ _)
    have hnd2 := List.nodup_cons.mp hnd
    obtain ⟨f1, f2, f3, f4, f5, f6, _, _, _, _⟩ := run_for_spec (lookup_task a.tasks t) k
    have hself : lookup_task (modify_at (fun _ => ((lookup_task a.tasks t).run_for k).2) t
        a.tasks) t = ((lookup_task a.tasks t).run_for k).2 := by
      rw [lookup_task_modify_at, if_pos ⟨rfl, htl⟩]
    have hother : ∀ j, j ≠ t → lookup_task (modify_at
        (fun _ => ((lookup_task a.tasks t).run_for k).2) t a.tasks) j = lookup_task a.tasks j := by
      intro j hj
      rw [lookup_task_modify_at, if_neg (fun hh => hj hh.1)]
    have hfw : ∀ j ∈ rest, finishes_within (modify_at
        (fun _ => ((lookup_task a.tasks t).run_for k).2) t a.tasks) k j =
        finishes_within a.tasks k j := by
      intro j hj
      have hjt : j ≠ t := fun e => hnd2.1 (e ▸ hj)
      simp only [finishes_within, hother j hjt]
    have hfilt1 : rest.filter (finishes_within (modify_at
        (fun _ => ((lookup_task a.tasks t).run_for k).2) t a.tasks) k) =
        rest.filter (finishes_within a.tasks k) :=
      List.filter_congr hfw
    have hfilt2 : rest.filter (fun j => ! finishes_within (modify_at
        (fun _ => ((lookup_task a.tasks t).run_for k).2) t a.tasks) k j) =
        rest.filter (fun j => ! finishes_within a.tasks k j) :=
      List.filter_congr (fun j hj => by rw [hfw j hj])
    have hreq : ∀ l : List Nat, (∀ j ∈ l, j ≠ t) → cores_in_use (modify_at
        (fun _ => ((lookup_task a.tasks t).run_for k).2) t a.tasks) l = cores_in_use a.tasks l :=
      fun l hl => cores_in_use_congr _ _ l (fun j hj => by rw [hother j (hl j hj)])
    have hidle : idle_reported (modify_at
        (fun _ => ((lookup_task a.tasks t).run_for k).2) t a.tasks) k rest =
        idle_reported a.tasks k rest := by
      simp only [idle_reported]
      congr 1
      apply List.map_congr_left
      intro j hj
      rw [hother j (fun e => hnd2.1 (e ▸ hj))]
    have hrest_ne : ∀ j ∈ rest, j ≠ t := fun j hj e => hnd2.1 (e ▸ hj)
    have hfilt3 : rest.filter (fun j => finishes_within (modify_at
        (fun _ => ((lookup_task a.tasks t).run_for k).2) t a.tasks) k j &&
        incomplete (lookup_task (modify_at
          (fun _ => ((lookup_task a.tasks t).run_for k).2) t a.tasks) j)) =
        rest.filter (fun j => finishes_within a.tasks k j && incomplete (lookup_task a.tasks j)) :=
      List.filter_congr (fun j hj => by rw [hfw j hj, hother j (hrest_ne j hj)])
    have hcnt := countP_modify_at incomplete
      (fun _ => ((lookup_task a.tasks t).run_for k).2) t a.tasks htl
    have hlen1 : (modify_at (fun _ => ((lookup_task a.tasks t).run_for k).2) t
        a.tasks).length = a.tasks.length := length_modify_at _ _ _
    simp only [tick_loop, hself, f6, f1, f2, f3] at h
    by_cases hfin : (lookup_task a.tasks t).ticks_remaining ≤ k
    · have hz : (lookup_task a.tasks t).ticks_remaining - k = 0 := by omega
      have hfwt : finishes_within a.tasks k t = true := by simp [finishes_within, hfin]
      simp only [hz, if_true] at h
      split at h
      · next hle =>
        obtain ⟨g1, g2, g3, g4, g5, g6, g7, g8, g9, g10⟩ := ih _ r hnd2.2
          (fun j hj => by rw [hlen1]; exact hlt j (List.mem_cons_of_mem _ hj)) h
        simp only [hfilt1, hfilt2, hfilt3, hreq rest hrest_ne, hidle,
          hreq _ (fun j hj => hrest_ne j (List.mem_of_mem_filter hj))]
          at g3 g4 g5 g6 g7 g8 g9 g10
        have hnew : incomplete ((lookup_task a.tasks t).run_for k).2 = false := by
          simp [incomplete, f5, hfin]
        refine ⟨g1.trans hlen1, ?_, ?_, ?_, ?_, ?_, ?_, ?_, ?_, ?_⟩
        · intro j
          rw [g2 j]
          by_cases hjt : j = t
          · subst hjt
            simp only [hnd2.1, if_false, hself, List.mem_cons, true_or, if_true]
          · simp only [hother j hjt, List.mem_cons, hjt, false_or]
        · rw [g3]
          simp [List.filter, hfwt]
        · rw [g4]
          simp only [List.filter, hfwt, List.length_cons, Nat.cast_add, Nat.cast_one]
          ring
        · rw [g5]
          simp only [List.filter, hfwt, cores_in_use, List.map_cons, List.sum_cons,
            Nat.cast_add]
          ring
        · rw [g6]
          simp only [cores_in_use, List.map_cons, List.sum_cons, Nat.cast_add]
          ring
        · rw [g7]
          simp only [cores_in_use, List.map_cons, List.sum_cons]
          ring
        · rw [g8]
          simp only [idle_reported, List.map_cons, List.sum_cons]
          ring
        · simp only [List.filter, hfwt, reduceCtorEq, if_false]
          split at g9
          · next hnil =>
            rw [g5, hnil]
            simpa [cores_in_use] using hle
          · exact g9
        · rw [g10, hcnt, hnew]
          cases hinc : incomplete (lookup_task a.tasks t) with
          | false => simp [List.filter, hfwt, hinc]
          | true =>
            simp [List.filter, hfwt, hinc]
            ring
      · exact absurd h (by simp)
    · have hz : ¬ ((lookup_task a.tasks t).ticks_remaining - k = 0) := by omega
      have hfwt : finishes_within a.tasks k t = false := by simp [finishes_within, hfin]
      simp only [hz, if_false] at h
      obtain ⟨g1, g2, g3, g4, g5, g6, g7, g8, g9, g10⟩ := ih _ r hnd2.2
        (fun j hj => by rw [hlen1]; exact hlt j (List.mem_cons_of_mem _ hj)) h
      simp only [hfilt1, hfilt2, hfilt3, hreq rest hrest_ne, hidle,
        hreq _ (fun j hj => hrest_ne j (List.mem_of_mem_filter hj))]
        at g3 g4 g5 g6 g7 g8 g9 g10
      have hnew : incomplete ((lookup_task a.tasks t).run_for k).2 =
          incomplete (lookup_task a.tasks t) := by
        simp [incomplete, f5, hfin]
      refine ⟨g1.trans hlen1, ?_, ?_, ?_, ?_, ?_, ?_, ?_, ?_, ?_⟩
      · intro j
        rw [g2 j]
        by_cases hjt : j = t
        · subst hjt
          simp only [hnd2.1, if_false, hself, List.mem_cons, true_or, if_true]
        · simp only [hother j hjt, List.mem_cons, hjt, false_or]
      · rw [g3]
        simp [List.filter, hfwt]
      · rw [g4]
        simp only [List.filter, hfwt]
      · rw [g5]
        simp only [List.filter, hfwt]
      · rw [g6]
        simp only [cores_in_use, List.map_cons, List.sum_cons, Nat.cast_add]
        ring
      · rw [g7]
        simp only [cores_in_use, List.map_cons, List.sum_cons]
        ring
      · rw [g8]
        simp only [idle_reported, List.map_cons, List.sum_cons]
        ring
      · simpa only [List.filter, hfwt] using g9
      · rw [g10, hcnt, hnew]
        cases hinc : incomplete (lookup_task a.tasks t) <;>
          simp [List.filter, hfwt, hinc]

theorem lookup_comp_modify_at (f : Compute → Compute) (i : Nat) (l : List Compute) (j : Nat) :
    lookup_comp (modify_at f i l) j =
      if j = i ∧ i < l.length then f (lookup_comp l i) else lookup_comp l j :=
  getD_modify_at f default i l j

/-- What `compute::tick(k)` does on a node whose current tasks are distinct tasks of
the table, when no assertion fails. -/
theorem tick_spec (c : Compute) (tasks : List Task) (k : Nat) (done : Int) (c1 : Compute)
    (tasks1 : List Task) (hnd : c.current_tasks.Nodup)
    (hlt : ∀ t ∈ c.current_tasks, t < tasks.length)
    (h : tick c tasks k = some (done, c1, tasks1)) :
    0 < k ∧ tasks1.length = tasks.length ∧
    (∀ j, lookup_task tasks1 j =
      if j ∈ c.current_tasks then ((lookup_task tasks j).run_for k).2 else lookup_task tasks j) ∧
    c1.current_tasks = c.current_tasks.filter (fun t => ! finishes_within tasks k t) ∧
    done = ((c.current_tasks.filter (finishes_within tasks k)).length : Int) ∧
    c1.cores_available = c.cores_available +
      (cores_in_use tasks (c.current_tasks.filter (finishes_within tasks k)) : Int) ∧
    c1.cores_total = c.cores_total ∧
    (cores_in_use tasks c.current_tasks : Int) ≤ c.cores_total ∧
    c1.cumulative_busy_ticks = c.cumulative_busy_ticks + k * cores_in_use tasks c.current_tasks ∧
    c1.cumulative_idle_ticks = c.cumulative_idle_ticks +
      ((c.cores_total - (cores_in_use tasks c.current_tasks : Int)) * (k : Int)).toNat ∧
    ((c1.cumulative_busy_ticks + c1.cumulative_idle_ticks : Nat) : Int) =
      ((c.cumulative_busy_ticks + c.cumulative_idle_ticks : Nat) : Int) + c.cores_total * (k : Int) ∧
    (tasks1.countP incomplete : Int) = (tasks.countP incomplete : Int) -
      ((c.current_tasks.filter (fun t => finishes_within tasks k t &&
        incomplete (lookup_task tasks t))).length : Int) ∧
    c1.name = c.name ∧ c1.assign_count = c.assign_count ∧ c1.state = c.state := by
  simp only [tick] at h
  by_cases hk : k > 0
  · simp only [hk, not_true_eq_false, if_false] at h
    cases hloop : tick_loop c.cores_total k c.current_tasks
        ⟨tasks, 0, 0, 0, 0, c.cores_available, []⟩ with
    | none => simp [hloop] at h
    | some a =>
      simp only [hloop] at h
      obtain ⟨g1, g2, g3, g4, g5, g6, g7, _, _, g10⟩ :=
        tick_loop_spec c.cores_total k c.current_tasks _ a hnd hlt hloop
      simp only [List.nil_append, zero_add] at g1 g2 g3 g4 g5 g6 g7 g10
      split at h
      · exact absurd h (by simp)
      · next hused =>
        split at h
        · exact absurd h (by simp)
        · next hacc =>
          simp only [not_not] at hused hacc
          simp only [Option.some.injEq, Prod.mk.injEq] at h
          obtain ⟨rfl, rfl, rfl⟩ := h
          rw [g6] at hused hacc
          refine ⟨hk, g1, g2, g3, g4, g5, rfl, hused, ?_, ?_, ?_, g10, rfl, rfl, rfl⟩
          · simp only [g7]
          · simp only [g6]
          · simp only [g6]
            push_cast at hacc ⊢
            rw [hacc]
            ring
  · simp [hk] at h

theorem tasksFrame_refl (tasks : List Task) : TasksFrame tasks tasks :=
  ⟨rfl, fun _ => ⟨rfl, rfl, Iff.rfl, id⟩⟩

theorem tasksFrame_trans {a b c : List Task} (h1 : TasksFrame a b) (h2 : TasksFrame b c) :
    TasksFrame a c := by
  refine ⟨h2.1.trans h1.1, fun j => ?_⟩
  obtain ⟨x1, x2, x3, x4⟩ := h1.2 j
  obtain ⟨y1, y2, y3, y4⟩ := h2.2 j
  exact ⟨y1.trans x1, y2.trans x2, y3.trans x3, fun h => y4 (x4 h)⟩

/-- A tick of one node keeps the invariant of nodes and tasks, takes the completed
tasks off `tasks_remaining`, and adds `cores_total * k` to the tick counters. -/
theorem tick_preserves (comp : List Compute) (tasks : List Task) (remaining : Int) (c k : Nat)
    (done : Int) (c1 : Compute) (tasks1 : List Task) (hinv : CoreInv comp tasks remaining)
    (hc : c < comp.length) (h : tick (lookup_comp comp c) tasks k = some (done, c1, tasks1)) :
    CoreInv (modify_at (fun _ => c1) c comp) tasks1 (remaining - done) ∧
    TasksFrame tasks tasks1 ∧ 0 < k ∧ c1.cores_total = (lookup_comp comp c).cores_total ∧
    ((c1.cumulative_busy_ticks + c1.cumulative_idle_ticks : Nat) : Int) =
      (((lookup_comp comp c).cumulative_busy_ticks +
        (lookup_comp comp c).cumulative_idle_ticks : Nat) : Int) +
        (lookup_comp comp c).cores_total * (k : Int) := by
  obtain ⟨hA, hB, hC, hD⟩ := hinv
  obtain ⟨a1, a2, a3, a4⟩ := hA c
  obtain ⟨s1, s2, s3, s4, s5, s6, s7, s8, _, _, s11, s12, _, _, _⟩ :=
    tick_spec (lookup_comp comp c) tasks k done c1 tasks1 a3 (fun t ht => (a4 t ht).1) h
  have hreq : ∀ j, (lookup_task tasks1 j).reqd_cores = (lookup_task tasks j).reqd_cores := by
    intro j
    rw [s3 j]
    split
    · exact (run_for_spec _ k).2.2.2.2.2.1
    · rfl
  have hstate : ∀ j, j ∈ (lookup_comp comp c).current_tasks →
      (lookup_task tasks1 j).state = (if (lookup_task tasks j).ticks_remaining ≤ k then
        TaskState.complete else TaskState.running) := by
    intro j hj
    rw [s3 j, if_pos hj, (run_for_spec _ k).2.2.2.2.1, (a4 j hj).2]
  have hframe : TasksFrame tasks tasks1 := by
    refine ⟨s2, fun j => ⟨hreq j, ?_, ?_, ?_⟩⟩
    · rw [s3 j]
      split
      · exact (run_for_spec _ k).2.2.2.2.2.2.1
      · rfl
    · by_cases hj : j ∈ (lookup_comp comp c).current_tasks
      · rw [hstate j hj, (a4 j hj).2]
        split <;> simp
      · rw [s3 j, if_neg hj]
    · intro hcomp
      by_cases hj : j ∈ (lookup_comp comp c).current_tasks
      · rw [(a4 j hj).2] at hcomp
        exact absurd hcomp (by simp)
      · rw [s3 j, if_neg hj]
        exact hcomp
  have hcur : ∀ c2, (lookup_comp (modify_at (fun _ => c1) c comp) c2).current_tasks ⊆
      (lookup_comp comp c2).current_tasks := by
    intro c2 t ht
    rw [lookup_comp_modify_at] at ht
    split at ht
    · next hh =>
      rw [s4] at ht
      rw [hh.1]
      exact List.mem_of_mem_filter ht
    · exact ht
  refine ⟨⟨?_, ?_, ?_, ?_⟩, hframe, s1, s7, s11⟩
  · intro c2
    rw [lookup_comp_modify_at]
    split
    · refine ⟨?_, ?_, ?_, ?_⟩
      · rw [s6, s7, s4, a1, cores_in_use_congr tasks tasks1 _ (fun t _ => hreq t)]
        have := cores_in_use_filter tasks (finishes_within tasks k)
          (lookup_comp comp c).current_tasks
        omega
      · rw [s6]
        omega
      · rw [s4]
        exact a3.filter _
      · intro t ht
        rw [s4] at ht
        have htc := List.mem_of_mem_filter ht
        have hnf := (List.mem_filter.mp ht).2
        simp only [finishes_within, Bool.not_eq_true', decide_eq_false_iff_not] at hnf
        refine ⟨by rw [s2]; exact (a4 t htc).1, ?_⟩
        rw [hstate t htc, if_neg hnf]
    · next hne =>
      have hc2 : c2 ≠ c := fun e => hne ⟨e, hc⟩
      obtain ⟨b1, b2, b3, b4⟩ := hA c2
      have hnot : ∀ t ∈ (lookup_comp comp c2).current_tasks,
          t ∉ (lookup_comp comp c).current_tasks := fun t ht htc => hc2 (hB c2 c t ht htc)
      refine ⟨?_, b2, b3, ?_⟩
      · rw [cores_in_use_congr tasks tasks1 _ (fun t _ => hreq t)]
        exact b1
      · intro t ht
        refine ⟨by rw [s2]; exact (b4 t ht).1, ?_⟩
        rw [s3 t, if_neg (hnot t ht)]
        exact (b4 t ht).2
  · intro x y t hx hy
    exact hB x y t (hcur x hx) (hcur y hy)
  · rw [s12, hC, s5]
    have hfe : (lookup_comp comp c).current_tasks.filter (fun t => finishes_within tasks k t &&
        incomplete (lookup_task tasks t)) =
        (lookup_comp comp c).current_tasks.filter (finishes_within tasks k) := by
      apply List.filter_congr
      intro t ht
      simp [incomplete, (a4 t ht).2]
    rw [hfe]
  · intro t ht
    by_cases hj : t ∈ (lookup_comp comp c).current_tasks
    · rw [hstate t hj] at ht
      rw [s3 t, if_pos hj, (run_for_spec _ k).2.2.2.1]
      split at ht
      · omega
      · exact absurd ht (by simp)
    · rw [s3 t, if_neg hj] at ht ⊢
      exact hD t ht

/-- Step F keeps the invariant of nodes and tasks; every node it ticks has
`cores_total * k` added to its tick counters, the other nodes are left alone. -/
theorem tick_all_spec (k : Nat) :
    ∀ (todo : List Nat) (comp : List Compute) (tasks : List Task) (remaining : Int)
      (comp1 : List Compute) (tasks1 : List Task) (remaining1 : Int),
      CoreInv comp tasks remaining → todo.Nodup → (∀ c ∈ todo, c < comp.length) →
      tick_all k todo (comp, tasks, remaining) = some (comp1, tasks1, remaining1) →
      CoreInv comp1 tasks1 remaining1 ∧ TasksFrame tasks tasks1 ∧ comp1.length = comp.length ∧
      (todo ≠ [] → 0 < k) ∧
      ∀ c, (lookup_comp comp1 c).cores_total = (lookup_comp comp c).cores_total ∧
        (((lookup_comp comp1 c).cumulative_busy_ticks +
          (lookup_comp comp1 c).cumulative_idle_ticks : Nat) : Int) =
        (((lookup_comp comp c).cumulative_busy_ticks +
          (lookup_comp comp c).cumulative_idle_ticks : Nat) : Int) +
          (if c ∈ todo then (lookup_comp comp c).cores_total * (k : Int) else 0) := by
  intro todo
  induction todo with
  | nil =>
    intro comp tasks remaining comp1 tasks1 remaining1 hinv _ _ h
    simp only [tick_all, Option.some.injEq, Prod.mk.injEq] at h
    obtain ⟨rfl, rfl, rfl⟩ := h
    exact ⟨hinv, tasksFrame_refl _, rfl, fun h => absurd rfl h, fun c => by simp⟩
  | cons c rest ih =>
    intro comp tasks remaining comp1 tasks1 remaining1 hinv hnd hlt h
    have hc : c < comp.length := hlt c (List.mem_cons_self _ _)
    have hnd2 := List.nodup_cons.mp hnd
    simp only [tick_all] at h
    cases htick : tick (lookup_comp comp c) tasks k with
    | none => simp [htick] at h
    | some r =>
      obtain ⟨done, cn, tasksn⟩ := r
      simp only [htick] at h
      obtain ⟨p1, p2, p3, p4, p5⟩ := tick_preserves comp tasks remaining c k done cn tasksn
        hinv hc htick
      have hlen : (modify_at (fun _ => cn) c comp).length = comp.length := length_modify_at _ _ _
      obtain ⟨q1, q2, q3, _, q5⟩ := ih (modify_at (fun _ => cn) c comp) tasksn
        (remaining - done) comp1 tasks1 remaining1 p1 hnd2.2
        (fun x hx => by rw [hlen]; exact hlt x (List.mem_cons_of_mem _ hx)) h
      refine ⟨q1, tasksFrame_trans p2 q2, q3.trans hlen, fun _ => p3, ?_⟩
      intro x
      obtain ⟨r1, r2⟩ := q5 x
      rw [r1, r2, lookup_comp_modify_at]
      by_cases hx : x = c
      · subst hx
        simp only [hc, and_self, if_true, hnd2.1, if_false, List.mem_cons, true_or, p4, p5,
          add_zero]
      · simp only [hx, false_and, if_false, List.mem_cons, false_or, true_and]

/-- What a successful `compute::assign_task` does. -/
theorem assign_task_spec (c : Compute) (tasks : List Task) (t : Nat) (c1 : Compute)
    (tasks1 : List Task) (h : assign_task c tasks t = some (c1, tasks1)) :
    (lookup_task tasks t).state = TaskState.not_started ∧
    tasks1 = modify_at (fun x => x.set_state TaskState.running) t tasks ∧
    c1.current_tasks = c.current_tasks ++ [t] ∧
    c1.cores_available = c.cores_available - ((lookup_task tasks t).reqd_cores : Int) ∧
    0 ≤ c1.cores_available ∧ c1.cores_total = c.cores_total ∧
    c1.cumulative_busy_ticks = c.cumulative_busy_ticks ∧
    c1.cumulative_idle_ticks = c.cumulative_idle_ticks ∧
    c1.assign_count = c.assign_count + 1 ∧ c1.name = c.name ∧ c1.state = c.state ∧
    c1.completed_tasks = c.completed_tasks := by
  simp only [assign_task] at h
  split at h
  · exact absurd h (by simp)
  · next hst =>
    simp only [not_not] at hst
    split at h
    · exact absurd h (by simp)
    · next hav =>
      simp only [Option.some.injEq, Prod.mk.injEq] at h
      obtain ⟨rfl, rfl⟩ := h
      have hreq : (lookup_task (modify_at (fun x => x.set_state TaskState.running) t tasks)
          t).reqd_cores = (lookup_task tasks t).reqd_cores :=
        lookup_task_modify_at_proj Task.reqd_cores
        (fun x => x.set_state TaskState.running) (fun _ => rfl) _ _ _
      rw [hreq] at hav ⊢
      exact ⟨hst, rfl, rfl, rfl, not_lt.mp hav, rfl, rfl, rfl, rfl, rfl, rfl, rfl⟩

/-- A placement keeps the invariant of nodes and tasks. -/
theorem assign_preserves (comp : List Compute) (tasks : List Task) (remaining : Int)
    (c t : Nat) (c1 : Compute) (tasks1 : List Task) (hinv : CoreInv comp tasks remaining)
    (ht : t < tasks.length)
    (h : assign_task (lookup_comp comp c) tasks t = some (c1, tasks1)) :
    CoreInv (modify_at (fun _ => c1) c comp) tasks1 remaining ∧
    tasks1.length = tasks.length ∧
    (∀ j, (lookup_task tasks1 j).reqd_cores = (lookup_task tasks j).reqd_cores ∧
      (lookup_task tasks1 j).deps = (lookup_task tasks j).deps ∧
      (lookup_task tasks1 j).state =
        (if j = t then TaskState.running else (lookup_task tasks j).state)) := by
  obtain ⟨hA, hB, hC, hD⟩ := hinv
  obtain ⟨s1, s2, s3, s4, s5, s6, _⟩ := assign_task_spec _ _ _ _ _ h
  subst s2
  have hreq : ∀ j, (lookup_task (modify_at (fun x => x.set_state TaskState.running) t tasks)
      j).reqd_cores = (lookup_task tasks j).reqd_cores :=
    fun j => lookup_task_modify_at_proj Task.reqd_cores
        (fun x => x.set_state TaskState.running) (fun _ => rfl) _ _ _
  have hstate : ∀ j, (lookup_task (modify_at (fun x => x.set_state TaskState.running) t tasks)
      j).state = (if j = t then TaskState.running else (lookup_task tasks j).state) := by
    intro j
    rw [lookup_task_modify_at]
    by_cases hj : j = t
    · simp [hj, ht, Task.set_state]
    · simp [hj]
  have hnotcur : ∀ x, t ∉ (lookup_comp comp x).current_tasks := by
    intro x hx
    have := ((hA x).2.2.2 t hx).2
    rw [s1] at this
    exact absurd this (by simp)
  refine ⟨⟨?_, ?_, ?_, ?_⟩, length_modify_at _ _ _, fun j => ⟨hreq j, ?_, hstate j⟩⟩
  · intro x
    obtain ⟨b1, b2, b3, b4⟩ := hA x
    rw [lookup_comp_modify_at]
    split
    · next hh =>
      obtain ⟨a1, a2, a3, a4⟩ := hA c
      refine ⟨?_, s5, ?_, ?_⟩
      · rw [s4, s6, s3, cores_in_use_congr tasks _ _ (fun j _ => hreq j), cores_in_use_append,
          a1]
        simp only [cores_in_use, List.map_cons, List.map_nil, List.sum_cons, List.sum_nil,
          add_zero, Nat.cast_add]
        ring
      · rw [s3]
        exact List.nodup_append.mpr ⟨a3, List.nodup_singleton t, by
          intro y hy hy2
          simp only [List.mem_singleton] at hy2
          exact hnotcur c (hy2 ▸ hy)⟩
      · intro y hy
        rw [s3] at hy
        rw [length_modify_at, hstate y]
        rcases List.mem_append.mp hy with hy1 | hy1
        · refine ⟨(a4 y hy1).1, ?_⟩
          split
          · rfl
          · exact (a4 y hy1).2
        · simp only [List.mem_singleton] at hy1
          exact ⟨hy1 ▸ ht, by simp [hy1]⟩
    · refine ⟨?_, b2, b3, ?_⟩
      · rw [cores_in_use_congr tasks _ _ (fun j _ => hreq j)]
        exact b1
      · intro y hy
        rw [length_modify_at, hstate y]
        refine ⟨(b4 y hy).1, ?_⟩
        split
        · rfl
        · exact (b4 y hy).2
  · intro x y u hx hy
    have hmem : ∀ z, u ∈ (lookup_comp (modify_at (fun _ => c1) c comp) z).current_tasks →
        (u = t ∧ z = c) ∨ (u ≠ t ∧ u ∈ (lookup_comp comp z).current_tasks) := by
      intro z hz
      rw [lookup_comp_modify_at] at hz
      split at hz
      · next hh =>
        rw [s3] at hz
        rcases List.mem_append.mp hz with hz1 | hz1
        · exact Or.inr ⟨fun e => hnotcur c (e ▸ hz1), hh.1 ▸ hz1⟩
        · simp only [List.mem_singleton] at hz1
          exact Or.inl ⟨hz1, hh.1⟩
      · exact Or.inr ⟨fun e => hnotcur z (e ▸ hz), hz⟩
    rcases hmem x hx with ⟨e1, e2⟩ | ⟨e1, e2⟩
    · rcases hmem y hy with ⟨_, e4⟩ | ⟨e3, _⟩
      · rw [e2, e4]
      · exact absurd e1 e3
    · rcases hmem y hy with ⟨e3, _⟩ | ⟨_, e4⟩
      · exact absurd e3 e1
      · exact hB x y u e2 e4
  · rw [hC, countP_modify_at incomplete _ t tasks ht]
    simp [incomplete, s1, Task.set_state]
  · intro j hj
    rw [hstate j] at hj
    split at hj
    · exact absurd hj (by simp)
    · rw [lookup_task_modify_at_proj Task.ticks_remaining
        (fun x => x.set_state TaskState.running) (fun _ => rfl)]
      exact hD j hj
  · exact lookup_task_modify_at_proj Task.deps
        (fun x => x.set_state TaskState.running) (fun _ => rfl) _ _ _

/-! ## The steps of `schedule_tasks` -/

/-- Step B gathers the runnable tasks of the job sequence, in order, and counts the
tasks that wait for a dependency. -/
theorem build_runnable_spec (tasks : List Task) :
    ∀ (js : List Nat) (acc : List Nat) (w : Nat),
      build_runnable tasks js (acc, w) =
        (acc ++ js.filter (runnable_now tasks), w + (js.filter (blocked_now tasks)).length) := by
  intro js
  induction js with
  | nil => intro acc w; simp [build_runnable]
  | cons i rest ih =>
    intro acc w
    simp only [build_runnable]
    by_cases hs : (lookup_task tasks i).state = TaskState.not_started
    · by_cases hd : dependencies_met tasks (lookup_task tasks i) = true
      · simp [hs, hd, ih, List.filter, runnable_now, blocked_now]
      · simp [hs, hd, ih, List.filter, runnable_now, blocked_now]
        omega
    · simp [hs, ih, List.filter, runnable_now, blocked_now]

/-- The walk over `comp_avail` takes the first node with enough cores, provided every
node before it has a core available. -/
theorem find_node_spec (comp : List Compute) (req : Nat) :
    ∀ (ca : List Nat) (w : Nat) (c : Nat) (w2 : Nat),
      find_node comp req ca w = (some c, w2) →
      ∃ pre post, ca = pre ++ c :: post ∧ w2 = w + pre.length ∧
        (req : Int) ≤ (lookup_comp comp c).cores_available ∧
        0 < (lookup_comp comp c).cores_available ∧
        ∀ x ∈ pre, 0 < (lookup_comp comp x).cores_available ∧
          (lookup_comp comp x).cores_available < (req : Int) := by
  intro ca
  induction ca with
  | nil => intro w c w2 h; simp [find_node] at h
  | cons x rest ih =>
    intro w c w2 h
    simp only [find_node] at h
    split at h
    · exact absurd h (by simp)
    · next hpos =>
      simp only [not_not] at hpos
      split at h
      · next hle =>
        simp only [Prod.mk.injEq, Option.some.injEq] at h
        obtain ⟨rfl, rfl⟩ := h
        exact ⟨[], rest, rfl, rfl, hle, hpos, by simp⟩
      · next hnle =>
        obtain ⟨pre, post, h1, h2, h3, h4, h5⟩ := ih (w + 1) c w2 h
        refine ⟨x :: pre, post, by rw [h1]; rfl, by rw [h2, List.length_cons]; omega, h3, h4, ?_⟩
        intro y hy
        rcases List.mem_cons.mp hy with rfl | hy2
        · exact ⟨hpos, not_le.mp hnle⟩
        · exact h5 y hy2

theorem lookup_comp_pos_lt (comp : List Compute) (c : Nat)
    (h : 0 < (lookup_comp comp c).cores_available) : c < comp.length := by
  by_contra hcon
  rw [lookup_comp, List.getD_eq_default _ _ (not_lt.mp hcon)] at h
  exact absurd h (by decide)

theorem dependencies_met_complete (tasks : List Task) (t : Task)
    (h : dependencies_met tasks t = true) :
    ∀ d ∈ t.deps, (lookup_task tasks d).state = TaskState.complete := by
  intro d hd
  simp only [dependencies_met, List.all_eq_true, decide_eq_true_eq] at h
  exact h d hd

/-- Steps A to C keep the invariant of the run. -/
theorem step_loop_head_inv (srt : StdSort) (s : SchedState) (hpc : s.pc = Control.loop_head)
    (h : SchedInv s) : SchedInv (step srt s) := by
  obtain ⟨h1, h2, h3, h4, _⟩ := h
  simp only [step, hpc]
  split
  · exact ⟨h1, h2, h3, h4, fun ca todo n hp => by simp at hp⟩
  · refine ⟨h1, h2, h3, h4, ?_⟩
    intro ca todo n hp t ht
    simp only [Control.placing.injEq] at hp
    obtain ⟨_, rfl, _⟩ := hp
    rw [List.mem_reverse] at ht
    have ht2 := (srt.perm _ _).subset ht
    rw [build_runnable_spec] at ht2
    simp only [List.nil_append, List.mem_filter, runnable_now, Bool.and_eq_true,
      decide_eq_true_eq] at ht2
    exact ⟨h4 t ht2.1, dependencies_met_complete _ _ ht2.2.2⟩

/-- Steps E to G keep the invariant of the run. -/
theorem step_advance_inv (srt : StdSort) (s : SchedState) (ca : List Nat) (n : Int)
    (hpc : s.pc = Control.placing ca [] n) (h : SchedInv s) : SchedInv (step srt s) := by
  obtain ⟨h1, h2, h3, h4, h5⟩ := h
  simp only [step, hpc]
  cases htick : tick_all (find_skip s.p.tasks s.running 0) (List.range s.p.comp.length)
      (s.p.comp, s.p.tasks, s.tasks_remaining) with
  | none => exact ⟨h1, h2, h3, h4, fun ca todo n hp => by simp at hp⟩
  | some r =>
    obtain ⟨comp1, tasks1, remaining1⟩ := r
    obtain ⟨q1, q2, q3, _, q5⟩ := tick_all_spec _ _ _ _ _ _ _ _ h1 (List.nodup_range _)
      (fun c hc => List.mem_range.mp hc) htick
    refine ⟨q1, ?_, ?_, ?_, fun ca todo n hp => by simp at hp⟩
    · intro c
      obtain ⟨r1, r2⟩ := q5 c
      simp only at r1 r2 ⊢
      rw [r2, r1, h2 c]
      by_cases hc : c < s.p.comp.length
      · simp only [List.mem_range, hc, if_true]
        push_cast
        ring
      · have hd : lookup_comp s.p.comp c = default :=
          List.getD_eq_default _ _ (not_lt.mp hc)
        simp only [List.mem_range, hc, if_false, hd, add_zero]
        simp [default]
    · intro t ht hst
      simp only at ht hst ⊢
      rw [q2.1] at ht
      exact h3 t ht (fun e => hst ((q2.2 t).2.2.1.mpr e))
    · intro v hv
      simp only at hv ⊢
      rw [q2.1]
      exact h4 v hv

/-- The body of the loop over the runnable tasks keeps the invariant of the run. -/
theorem step_place_inv (srt : StdSort) (s : SchedState) (ca : List Nat) (t : Nat)
    (rest : List Nat) (n : Int) (hpc : s.pc = Control.placing ca (t :: rest) n)
    (h : SchedInv s) : SchedInv (step srt s) := by
  obtain ⟨h1, h2, h3, h4, h5⟩ := h
  have hrest : ∀ u ∈ rest, u < s.p.tasks.length ∧ ∀ d ∈ (lookup_task s.p.tasks u).deps,
      (lookup_task s.p.tasks d).state = TaskState.complete :=
    fun u hu => h5 ca (t :: rest) n hpc u (List.mem_cons_of_mem _ hu)
  have ht : t < s.p.tasks.length := (h5 ca (t :: rest) n hpc t (List.mem_cons_self _ _)).1
  have hsame : ∀ todo, (∀ u ∈ todo, u ∈ rest) → ∀ ca2 todo2 n2,
      Control.placing ca todo n = Control.placing ca2 todo2 n2 →
      ∀ u ∈ todo2, u < s.p.tasks.length ∧ ∀ d ∈ (lookup_task s.p.tasks u).deps,
        (lookup_task s.p.tasks d).state = TaskState.complete := by
    intro todo hsub ca2 todo2 n2 hp u hu
    simp only [Control.placing.injEq] at hp
    obtain ⟨_, rfl, _⟩ := hp
    exact hrest u (hsub u hu)
  simp only [step, hpc]
  split
  · exact ⟨h1, h2, h3, h4, fun ca2 todo2 n2 hp => hsame rest (fun _ hu => hu) ca2 todo2 n2 hp⟩
  · cases hfind : (find_node s.p.comp (lookup_task s.p.tasks t).reqd_cores ca
        s.p.count_comp_unavail).1 with
    | none =>
      simp only
      split
      · exact ⟨h1, h2, h3, h4, fun ca2 todo2 n2 hp => hsame [] (by simp) ca2 todo2 n2 hp⟩
      · exact ⟨h1, h2, h3, h4, fun ca2 todo2 n2 hp => hsame rest (fun _ hu => hu) ca2 todo2 n2 hp⟩
    | some c =>
      simp only
      cases hassign : assign_task (lookup_comp s.p.comp c) s.p.tasks t with
      | none => exact ⟨h1, h2, h3, h4, fun ca2 todo2 n2 hp => by simp at hp⟩
      | some r =>
        obtain ⟨c1, tasks1⟩ := r
        obtain ⟨a1, a2, a3⟩ := assign_preserves _ _ _ c t c1 tasks1 h1 ht hassign
        obtain ⟨_, _, _, _, _, b6, b7, b8, _⟩ := assign_task_spec _ _ _ _ _ hassign
        have hcons : ∀ x, (((lookup_comp (modify_at (fun _ => c1) c s.p.comp) x).cumulative_busy_ticks +
            (lookup_comp (modify_at (fun _ => c1) c s.p.comp) x).cumulative_idle_ticks : Nat) : Int) =
            (lookup_comp (modify_at (fun _ => c1) c s.p.comp) x).cores_total *
              (s.p.required_ticks : Int) := by
          intro x
          rw [lookup_comp_modify_at]
          split
          · rw [b6, b7, b8]
            exact h2 c
          · exact h2 x
        have hsched : ∀ u, u < tasks1.length →
            (lookup_task tasks1 u).state ≠ TaskState.not_started →
            ∃ x, (u, x) ∈ s.p.schedule ++ [(t, c)] := by
          intro u hu hst
          by_cases hut : u = t
          · exact ⟨c, by simp [hut]⟩
          · rw [(a3 u).2.2, if_neg hut] at hst
            obtain ⟨x, hx⟩ := h3 u (a2 ▸ hu) hst
            exact ⟨x, List.mem_append_left _ hx⟩
        have hjs : ∀ v ∈ s.p.job_sequence, v < tasks1.length := fun v hv => by
          rw [a2]; exact h4 v hv
        have htodo : ∀ todo, (∀ u ∈ todo, u ∈ rest) → ∀ ca2 todo2 n2 n3,
            Control.placing ca todo n3 = Control.placing ca2 todo2 n2 →
            ∀ u ∈ todo2, u < tasks1.length ∧ ∀ d ∈ (lookup_task tasks1 u).deps,
              (lookup_task tasks1 d).state = TaskState.complete := by
          intro todo hsub ca2 todo2 n2 n3 hp u hu
          simp only [Control.placing.injEq] at hp
          obtain ⟨_, rfl, _⟩ := hp
          obtain ⟨r1, r2⟩ := hrest u (hsub u hu)
          refine ⟨a2 ▸ r1, ?_⟩
          intro d hd
          rw [(a3 u).2.1] at hd
          have hdc := r2 d hd
          rw [(a3 d).2.2]
          split
          · next hdt =>
            have := (assign_task_spec _ _ _ _ _ hassign).1
            rw [← hdt, hdc] at this
            exact absurd this (by simp)
          · exact hdc
        simp only
        generalize (if c1.cores_available = 0 then n - 1 else n) = n1
        split
        · exact ⟨a1, hcons, hsched, hjs,
            fun ca2 todo2 n2 hp => htodo [] (by simp) ca2 todo2 n2 _ hp⟩
        · exact ⟨a1, hcons, hsched, hjs,
            fun ca2 todo2 n2 hp => htodo rest (fun _ hu => hu) ca2 todo2 n2 _ hp⟩

/-- Every step of `schedule_tasks` keeps the invariant of the run. -/
theorem step_inv (srt : StdSort) (s : SchedState) (h : SchedInv s) : SchedInv (step srt s) := by
  cases hpc : s.pc with
  | loop_head => exact step_loop_head_inv srt s hpc h
  | returned =>
    have : step srt s = s := by simp only [step, hpc]
    rw [this]; exact h
  | aborted =>
    have : step srt s = s := by simp only [step, hpc]
    rw [this]; exact h
  | placing ca todo n =>
    cases todo with
    | nil => exact step_advance_inv srt s ca n hpc h
    | cons t rest => exact step_place_inv srt s ca t rest n hpc h

theorem lookup_read_compute (nodes : List (String × Nat)) (c : Nat) :
    lookup_comp (read_compute nodes) c = default ∨
      ∃ x ∈ nodes, lookup_comp (read_compute nodes) c = Compute.new x.1 x.2 := by
  by_cases hc : c < (read_compute nodes).length
  · right
    have hc2 : c < nodes.length := by simpa [read_compute] using hc
    refine ⟨nodes[c], List.getElem_mem _, ?_⟩
    simp [lookup_comp, read_compute, List.getD_eq_getElem?_getD, List.getElem?_map,
      List.getElem?_eq_getElem hc2]
  · left
    exact List.getD_eq_default _ _ (not_lt.mp hc)

/-- The invariant of the run holds on entry of `schedule_tasks` after a successful
validation. -/
theorem schedule_start_inv (nodes : List (String × Nat)) (tasks : List TaskInput)
    (p : Planner) (hv : Validated nodes tasks p) : SchedInv (schedule_start p) := by
  obtain ⟨v1, v2, v3, v4, v5, v6, _, v8, _, _⟩ := hv
  have hnode : ∀ c, (lookup_comp p.comp c).current_tasks = [] ∧
      (lookup_comp p.comp c).cores_available = (lookup_comp p.comp c).cores_total ∧
      0 ≤ (lookup_comp p.comp c).cores_available ∧
      (lookup_comp p.comp c).cumulative_busy_ticks = 0 ∧
      (lookup_comp p.comp c).cumulative_idle_ticks = 0 := by
    intro c
    rw [v1]
    rcases lookup_read_compute nodes c with h | ⟨x, _, h⟩
    · rw [h]; simp [default]
    · rw [h]; simp [Compute.new]
  have hcount : ∀ l : List Task, (∀ t ∈ l, t.state = TaskState.not_started) →
      l.countP incomplete = l.length := by
    intro l hl
    rw [List.countP_eq_length]
    intro t ht
    simp [incomplete, hl t ht]
  have hall : ∀ t ∈ p.tasks, t.state = TaskState.not_started := by
    intro t ht
    obtain ⟨i, hi, rfl⟩ := List.getElem_of_mem ht
    have := v6 i
    rw [lookup_task, List.getD_eq_getElem _ _ hi] at this
    exact this
  simp only [schedule_start, v4, if_true]
  refine ⟨⟨?_, ?_, ?_, ?_⟩, ?_, ?_, ?_, fun ca todo n hp => by simp at hp⟩
  · intro c
    obtain ⟨n1, n2, n3, _, _⟩ := hnode c
    exact ⟨by rw [n1, n2]; simp [cores_in_use], n3, by rw [n1]; exact List.nodup_nil,
      by rw [n1]; simp⟩
  · intro c1 c2 t ht
    rw [(hnode c1).1] at ht
    simp at ht
  · simp only
    rw [hcount p.tasks hall]
  · intro t ht
    rw [v6 t] at ht
    exact absurd ht (by simp)
  · intro c
    obtain ⟨_, _, _, n4, n5⟩ := hnode c
    simp only
    rw [n4, n5, v3]
    simp
  · intro t _ hst
    exact absurd (v6 t) hst
  · intro v hv
    simp only
    rw [v5]
    exact v8 v hv

/-- The invariant of the run holds after any number of steps. -/
theorem run_inv (srt : StdSort) (nodes : List (String × Nat)) (tasks : List TaskInput)
    (p : Planner) (hv : validate_tasks (Planner.of_input nodes tasks) = some (Status.ok, p)) :
    ∀ k, SchedInv (run srt p k)
  | 0 => schedule_start_inv nodes tasks p (validate_ok_validated nodes tasks p hv)
  | k + 1 => step_inv srt _ (run_inv srt nodes tasks p hv k)

/-! ## The claims on the run of `schedule_tasks` -/

/-- A step that makes a placement is a step of the loop over the runnable tasks, for a
task that is `not_started` and a node that `find_node` picks and `assign_task` accepts;
it appends the entry to the schedule. -/
theorem placement_spec (srt : StdSort) (s : SchedState) (t c : Nat)
    (h : placement s = some (t, c)) :
    ∃ ca rest n c1 tasks1, s.pc = Control.placing ca (t :: rest) n ∧
      (lookup_task s.p.tasks t).state = TaskState.not_started ∧
      (find_node s.p.comp (lookup_task s.p.tasks t).reqd_cores ca s.p.count_comp_unavail).1 =
        some c ∧
      assign_task (lookup_comp s.p.comp c) s.p.tasks t = some (c1, tasks1) ∧
      (step srt s).p.schedule = s.p.schedule ++ [(t, c)] ∧
      (step srt s).p.tasks = tasks1 ∧
      (step srt s).p.comp = modify_at (fun _ => c1) c s.p.comp := by
  simp only [placement] at h
  cases hpc : s.pc with
  | loop_head => simp [hpc] at h
  | returned => simp [hpc] at h
  | aborted => simp [hpc] at h
  | placing ca todo n =>
    cases todo with
    | nil => simp [hpc] at h
    | cons u rest =>
      simp only [hpc] at h
      split at h
      · exact absurd h (by simp)
      · next hst =>
        simp only [not_not] at hst
        cases hfind : (find_node s.p.comp (lookup_task s.p.tasks u).reqd_cores ca
            s.p.count_comp_unavail).1 with
        | none => simp [hfind] at h
        | some c0 =>
          simp only [hfind] at h
          cases hassign : assign_task (lookup_comp s.p.comp c0) s.p.tasks u with
          | none => simp [hassign] at h
          | some r =>
            obtain ⟨c1, tasks1⟩ := r
            simp only [hassign, Option.some.injEq, Prod.mk.injEq] at h
            obtain ⟨rfl, rfl⟩ := h
            refine ⟨ca, rest, n, c1, tasks1, rfl, hst, hfind, hassign, ?_⟩
            simp only [step, hpc, hst, hfind, hassign, ne_eq, not_true_eq_false, if_false]
            generalize (if c1.cores_available = 0 then n - 1 else n) = n1
            split <;> exact ⟨rfl, rfl, rfl⟩

/-- C1. For every input on which `validate_tasks` returns `ok`, at every placement made
by `schedule_tasks`: when the entry `(T, node)` is appended to the schedule, every
parent `P` among the resolved dependencies of `T` is in state `complete` and has an
entry in the schedule already, hence earlier than that of `T`. -/
theorem C1_dependency_ordering (srt : StdSort) (nodes : List (String × Nat))
    (tasks : List TaskInput) (p : Planner)
    (hv : validate_tasks (Planner.of_input nodes tasks) = some (Status.ok, p))
    (k T node : Nat) (hpl : placement (run srt p k) = some (T, node)) :
    (run srt p (k + 1)).p.schedule = (run srt p k).p.schedule ++ [(T, node)] ∧
    ∀ P ∈ (lookup_task (run srt p k).p.tasks T).deps,
      (lookup_task (run srt p k).p.tasks P).state = TaskState.complete ∧
      ∃ node2, (P, node2) ∈ (run srt p k).p.schedule := by
  obtain ⟨_, _, h3, _, h5⟩ := run_inv srt nodes tasks p hv k
  obtain ⟨ca, rest, n, c1, tasks1, hpc, _, _, _, hs, _, _⟩ :=
    placement_spec srt (run srt p k) T node hpl
  refine ⟨hs, ?_⟩
  intro P hP
  have hc := (h5 ca (T :: rest) n hpc T (List.mem_cons_self _ _)).2 P hP
  have hlt : P < (run srt p k).p.tasks.length := by
    by_contra hcon
    rw [lookup_task_beyond _ P (not_lt.mp hcon)] at hc
    exact absurd hc (by decide)
  exact ⟨hc, h3 P hlt (by rw [hc]; decide)⟩

theorem lookup_comp_of_mem (comp : List Compute) (c : Compute) (h : c ∈ comp) :
    ∃ i, lookup_comp comp i = c := by
  obtain ⟨i, hi, rfl⟩ := List.getElem_of_mem h
  exact ⟨i, by rw [lookup_comp, List.getD_eq_getElem _ _ hi]⟩

theorem lookup_task_of_mem (tasks : List Task) (t : Task) (h : t ∈ tasks) :
    ∃ i, i < tasks.length ∧ lookup_task tasks i = t := by
  obtain ⟨i, hi, rfl⟩ := List.getElem_of_mem h
  exact ⟨i, hi, by rw [lookup_task, List.getD_eq_getElem _ _ hi]⟩

/-- C2. For every input on which `validate_tasks` returns `ok`, in every state reached
during `schedule_tasks` and for every node, the sum of `cores_required` over the
current tasks of the node is at most `cores_total`, and
`0 <= cores_available <= cores_total`. -/
theorem C2_capacity (srt : StdSort) (nodes : List (String × Nat))
    (tasks : List TaskInput) (p : Planner)
    (hv : validate_tasks (Planner.of_input nodes tasks) = some (Status.ok, p))
    (k : Nat) (c : Compute) (hc : c ∈ (run srt p k).p.comp) :
    (cores_in_use (run srt p k).p.tasks c.current_tasks : Int) ≤ c.cores_total ∧
    0 ≤ c.cores_available ∧ c.cores_available ≤ c.cores_total := by
  obtain ⟨⟨hA, _, _, _⟩, _⟩ := run_inv srt nodes tasks p hv k
  obtain ⟨i, rfl⟩ := lookup_comp_of_mem _ c hc
  obtain ⟨a1, a2, _, _⟩ := hA i
  constructor
  · omega
  · constructor
    · exact a2
    · omega

/-- C5. For every input on which `validate_tasks` returns `ok`, after every step of
`schedule_tasks`, hence after every completed iteration of its loop and when it
returns, every node satisfies
`cumulative_busy_ticks + cumulative_idle_ticks == cores_total * required_ticks`. -/
theorem C5_conservation (srt : StdSort) (nodes : List (String × Nat))
    (tasks : List TaskInput) (p : Planner)
    (hv : validate_tasks (Planner.of_input nodes tasks) = some (Status.ok, p))
    (k : Nat) (c : Compute) (hc : c ∈ (run srt p k).p.comp) :
    ((c.cumulative_busy_ticks + c.cumulative_idle_ticks : Nat) : Int) =
      c.cores_total * ((run srt p k).p.required_ticks : Int) := by
  obtain ⟨_, hE, _⟩ := run_inv srt nodes tasks p hv k
  obtain ⟨i, rfl⟩ := lookup_comp_of_mem _ c hc
  exact hE i

/-- Where control is after a step taken inside the loop over the runnable tasks: the
run is aborted, or control stays in the loop, with the same `comp_avail`, to examine
the rest of the tasks or none. -/
theorem step_place_pc (srt : StdSort) (s : SchedState) (ca : List Nat) (t : Nat)
    (rest : List Nat) (n : Int) (hpc : s.pc = Control.placing ca (t :: rest) n) :
    (step srt s).pc = Control.aborted ∨
      ∃ n2, (step srt s).pc = Control.placing ca rest n2 ∨
        (step srt s).pc = Control.placing ca [] n2 := by
  simp only [step, hpc]
  split
  · exact Or.inr ⟨n, Or.inl rfl⟩
  · cases (find_node s.p.comp (lookup_task s.p.tasks t).reqd_cores ca
        s.p.count_comp_unavail).1 with
    | none =>
      simp only
      split
      · exact Or.inr ⟨n, Or.inr rfl⟩
      · exact Or.inr ⟨n, Or.inl rfl⟩
    | some c =>
      simp only
      cases assign_task (lookup_comp s.p.comp c) s.p.tasks t with
      | none => exact Or.inl rfl
      | some r =>
        obtain ⟨c1, tasks1⟩ := r
        simp only
        generalize (if c1.cores_available = 0 then n - 1 else n) = n1
        split
        · exact Or.inr ⟨n1, Or.inr rfl⟩
        · exact Or.inr ⟨n1, Or.inl rfl⟩

/-- Where control is after steps E to G: the run is aborted or control is back at the
loop head. -/
theorem step_advance_pc (srt : StdSort) (s : SchedState) (ca : List Nat) (n : Int)
    (hpc : s.pc = Control.placing ca [] n) :
    (step srt s).pc = Control.aborted ∨ (step srt s).pc = Control.loop_head := by
  simp only [step, hpc]
  split
  · exact Or.inl rfl
  · exact Or.inr rfl

/-- The run has returned only if no task remains. -/
theorem returned_remaining (srt : StdSort) (p : Planner) :
    ∀ k, (run srt p k).pc = Control.returned → (run srt p k).tasks_remaining = 0
  | 0 => by
    intro h
    simp only [run, schedule_start] at h
    split at h <;> simp at h
  | k + 1 => by
    intro h
    have ih := returned_remaining srt p k
    simp only [run] at h ⊢
    cases hpc : (run srt p k).pc with
    | returned =>
      have : step srt (run srt p k) = run srt p k := by simp only [step, hpc]
      rw [this]
      exact ih hpc
    | aborted =>
      have : step srt (run srt p k) = run srt p k := by simp only [step, hpc]
      rw [this, hpc] at h
      exact absurd h (by simp)
    | loop_head =>
      simp only [step, hpc] at h ⊢
      split
      · next hz => exact hz
      · next hz =>
        rw [if_neg hz] at h
        exact absurd h (by simp)
    | placing ca todo n =>
      exfalso
      cases todo with
      | nil =>
        rcases step_advance_pc srt _ ca n hpc with h1 | h1 <;> rw [h1] at h <;> simp at h
      | cons t rest =>
        rcases step_place_pc srt _ ca t rest n hpc with h1 | ⟨n2, h1 | h1⟩ <;>
          rw [h1] at h <;> simp at h

/-- C3. For every input on which `validate_tasks` returns `ok`, when `schedule_tasks`
returns, every task is in state `complete` with `ticks_remaining` 0, and every node
has `cores_available == cores_total` and an empty list of current tasks. -/
theorem C3_completion (srt : StdSort) (nodes : List (String × Nat))
    (tasks : List TaskInput) (p : Planner)
    (hv : validate_tasks (Planner.of_input nodes tasks) = some (Status.ok, p))
    (fuel : Nat) (schedule : List (Nat × Nat)) (p2 : Planner)
    (hret : schedule_tasks srt p fuel = some (schedule, p2)) :
    (∀ t ∈ p2.tasks, t.state = TaskState.complete ∧ t.ticks_remaining = 0) ∧
    ∀ c ∈ p2.comp, c.cores_available = c.cores_total ∧ c.current_tasks = [] := by
  obtain ⟨⟨hA, _, hC, hD⟩, _⟩ := run_inv srt nodes tasks p hv fuel
  simp only [schedule_tasks] at hret
  cases hpc : (run srt p fuel).pc with
  | loop_head => simp [hpc] at hret
  | aborted => simp [hpc] at hret
  | placing ca todo n => simp [hpc] at hret
  | returned =>
    simp only [hpc, Option.some.injEq, Prod.mk.injEq] at hret
    obtain ⟨_, rfl⟩ := hret
    have hz := returned_remaining srt p fuel hpc
    rw [hz] at hC
    have hcnt : (run srt p fuel).p.tasks.countP incomplete = 0 := by exact_mod_cast hC.symm
    have hall : ∀ t ∈ (run srt p fuel).p.tasks, t.state = TaskState.complete := by
      intro t ht
      have := (List.countP_eq_zero.mp hcnt) t ht
      simpa [incomplete] using this
    have hall2 : ∀ i, i < (run srt p fuel).p.tasks.length →
        (lookup_task (run srt p fuel).p.tasks i).state = TaskState.complete := by
      intro i hi
      apply hall
      rw [lookup_task, List.getD_eq_getElem _ _ hi]
      exact List.getElem_mem _
    constructor
    · intro t ht
      obtain ⟨i, _, rfl⟩ := lookup_task_of_mem _ t ht
      exact ⟨hall _ ht, hD i (hall _ ht)⟩
    · intro c hc
      obtain ⟨i, rfl⟩ := lookup_comp_of_mem _ c hc
      obtain ⟨a1, _, _, a4⟩ := hA i
      have hnil : (lookup_comp (run srt p fuel).p.comp i).current_tasks = [] := by
        apply List.eq_nil_iff_forall_not_mem.mpr
        intro t ht
        have h1 := a4 t ht
        rw [hall2 t h1.1] at h1
        exact absurd h1.2 (by simp)
      refine ⟨?_, hnil⟩
      rw [a1, hnil]
      simp [cores_in_use]

/-! ## A run that cannot return -/

theorem tick_zero (c : Compute) (tasks : List Task) : tick c tasks 0 = none := by
  simp [tick]

theorem tick_all_zero (m : Nat) (hm : 0 < m) (x : List Compute × List Task × Int) :
    tick_all 0 (List.range m) x = none := by
  obtain ⟨comp, tasks, remaining⟩ := x
  cases m with
  | zero => exact absurd hm (Nat.lt_irrefl 0)
  | succ m =>
    rw [List.range_succ_eq_map]
    simp only [tick_all, tick_zero]

/-- A step from a stuck state leads to a stuck state; from the end of the loop over
the runnable tasks it aborts the run, since `tick` is called with `0` ticks. -/
theorem step_stuck (srt : StdSort) (s : SchedState) (h : Stuck s) :
    Stuck (step srt s) ∧
      ((∃ ca n, s.pc = Control.placing ca [] n) ∨ s.pc = Control.aborted →
        (step srt s).pc = Control.aborted) := by
  obtain ⟨h1, h2, h3, h4, h5⟩ := h
  rcases h5 with hpc | hpc | ⟨ca, n, hpc⟩
  · have hrun : (srt.sort (fun a b => runnable_task_sort (lookup_task s.p.tasks a)
        (lookup_task s.p.tasks b)) (build_runnable s.p.tasks [] ([], s.p.count_dep_wait)).1) = [] :=
      (srt.perm _ _).eq_nil
    simp only [step, hpc, h3, if_false]
    refine ⟨⟨h1, h2, h3, h4, Or.inr (Or.inr ?_)⟩, fun hh => ?_⟩
    · simp only [h1, hrun, List.reverse_nil]
      exact ⟨_, _, rfl⟩
    · rcases hh with ⟨_, _, hh⟩ | hh <;> simp [hpc] at hh
  · have : step srt s = s := by simp only [step, hpc]
    rw [this]
    exact ⟨⟨h1, h2, h3, h4, Or.inr (Or.inl hpc)⟩, fun _ => hpc⟩
  · have hstep : step srt s = { s with pc := Control.aborted } := by
      simp only [step, hpc, h2, find_skip, tick_all_zero _ h4]
    rw [hstep]
    exact ⟨⟨h1, h2, h3, h4, Or.inr (Or.inl rfl)⟩, fun _ => rfl⟩

theorem run_stuck (srt : StdSort) (p : Planner) (h : Stuck (schedule_start p)) :
    ∀ k, Stuck (run srt p k) ∧ (2 ≤ k → (run srt p k).pc = Control.aborted)
  | 0 => ⟨h, fun hk => absurd hk (by decide)⟩
  | 1 => ⟨(step_stuck srt _ h).1, fun hk => absurd hk (by decide)⟩
  | k + 2 => by
    obtain ⟨i1, i2⟩ := run_stuck srt p h (k + 1)
    refine ⟨(step_stuck srt _ i1).1, fun _ => ?_⟩
    apply (step_stuck srt _ i1).2
    cases k with
    | zero =>
      obtain ⟨j1, _⟩ := run_stuck srt p h 0
      have hs := (step_stuck srt _ j1).1
      obtain ⟨_, _, _, _, h5⟩ := j1
      obtain ⟨_, _, _, _, g5⟩ := hs
      simp only [run] at h5 g5 ⊢
      rcases h5 with hpc | hpc | ⟨ca, n, hpc⟩
      · rcases g5 with g | g | g
        · exfalso
          simp only [step, hpc] at g
          split at g <;> simp at g
        · exact Or.inr g
        · exact Or.inl g
      · exact Or.inr ((step_stuck srt _ (run_stuck srt p h 0).1).2 (Or.inr hpc))
      · exact Or.inr ((step_stuck srt _ (run_stuck srt p h 0).1).2 (Or.inl ⟨ca, n, hpc⟩))
    | succ k => exact Or.inr (i2 (by omega))

/-- With an empty job sequence, a task to run and a node to tick, `schedule_tasks` never
returns: the run is aborted by the assertion `ticks > 0` of `compute::tick`. -/
theorem never_returns_of_empty_job_sequence (srt : StdSort) (p : Planner)
    (hval : p.tasks_validated = true) (hjs : p.job_sequence = []) (ht : p.tasks ≠ [])
    (hc : p.comp ≠ []) (fuel : Nat) :
    schedule_tasks srt p fuel = none ∧ (2 ≤ fuel → (run srt p fuel).pc = Control.aborted) := by
  have hstart : Stuck (schedule_start p) := by
    refine ⟨hjs, rfl, ?_, List.length_pos.mpr hc, Or.inl ?_⟩
    · simp only [schedule_start]
      have := List.length_pos.mpr ht
      omega
    · simp [schedule_start, hval]
  obtain ⟨⟨_, _, _, _, h5⟩, h6⟩ := run_stuck srt p hstart fuel
  refine ⟨?_, h6⟩
  simp only [schedule_tasks]
  rcases h5 with hpc | hpc | ⟨ca, n, hpc⟩ <;> simp [hpc]

/-- C4 fails on a single task. For the node `n1` with 1 core and the single task
`A(1,1)`, `validate_tasks` returns `ok` with an empty `_job_sequence`, and
`schedule_tasks` never returns, whatever `std::sort` does: from its second step on the
run is aborted by the assertion `ticks > 0` of `compute::tick`. -/
theorem C4_single_task_never_returns :
    ∃ p, validate_tasks (Planner.of_input [("n1", 1)] [⟨"A", 1, 1, ""⟩]) = some (Status.ok, p) ∧
      p.job_sequence = [] ∧
      ∀ (srt : StdSort) (fuel : Nat), schedule_tasks srt p fuel = none ∧
        (2 ≤ fuel → (run srt p fuel).pc = Control.aborted) := by
  refine ⟨_, rfl, by decide, ?_⟩
  intro srt fuel
  exact never_returns_of_empty_job_sequence srt _ (by decide) (by decide) (by decide)
    (by decide) fuel

/-! ## Best fit -/

/-- On entry of the loop over the runnable tasks, `comp_avail` is ascending in the
`cores_available` the nodes have at that moment. -/
theorem step_loop_head_sorted (srt : StdSort) (s : SchedState)
    (hpc : s.pc = Control.loop_head) (ca todo : List Nat) (n : Int)
    (h : (step srt s).pc = Control.placing ca todo n) :
    List.Pairwise (fun a b => (lookup_comp s.p.comp a).cores_available ≤
      (lookup_comp s.p.comp b).cores_available) ca := by
  simp only [step, hpc] at h
  split at h
  · simp at h
  · simp only [Control.placing.injEq] at h
    obtain ⟨rfl, _, _⟩ := h
    exact srt.sorted (fun c => (lookup_comp s.p.comp c).cores_available) (find_available s.p.comp)

/-- While control stays inside the loop over the runnable tasks, `comp_avail` is the
list built on entry of the loop. -/
theorem comp_avail_of_iteration (srt : StdSort) (p : Planner) (k : Nat) :
    ∀ j, (∀ i, i ≤ j → ∃ ca todo n, (run srt p (k + 1 + i)).pc = Control.placing ca todo n) →
      comp_avail_of (run srt p (k + 1 + j)) = comp_avail_of (run srt p (k + 1))
  | 0 => fun _ => rfl
  | j + 1 => by
    intro h
    have ih := comp_avail_of_iteration srt p k j (fun i hi => h i (by omega))
    obtain ⟨ca, todo, n, hpc⟩ := h j (by omega)
    obtain ⟨ca2, todo2, n2, hpc2⟩ := h (j + 1) (by omega)
    rw [← ih]
    have hstep : run srt p (k + 1 + (j + 1)) = step srt (run srt p (k + 1 + j)) := rfl
    rw [hstep] at hpc2 ⊢
    cases todo with
    | nil =>
      rcases step_advance_pc srt _ ca n hpc with h1 | h1 <;> rw [h1] at hpc2 <;> simp at hpc2
    | cons t rest =>
      rcases step_place_pc srt _ ca t rest n hpc with h1 | ⟨n3, h1 | h1⟩
      · rw [h1] at hpc2; simp at hpc2
      · simp only [comp_avail_of, h1, hpc]
      · simp only [comp_avail_of, h1, hpc]

/-- C6, amended. At every placement made by `schedule_tasks`, the node that takes task
`T` is a node of `comp_avail` with `cores_available >= cores_required(T)` at that
moment, and among all such nodes of `comp_avail` it has the smallest `cores_available`
as counted at the start of the iteration, when `comp_avail` was built and sorted. -/
theorem C6_best_fit_at_iteration_start (srt : StdSort) (p : Planner) (k j T node : Nat)
    (hhead : (run srt p k).pc = Control.loop_head)
    (hiter : ∀ i, i ≤ j →
      ∃ ca todo n, (run srt p (k + 1 + i)).pc = Control.placing ca todo n)
    (hpl : placement (run srt p (k + 1 + j)) = some (T, node)) :
    node ∈ comp_avail_of (run srt p (k + 1 + j)) ∧
    ((lookup_task (run srt p (k + 1 + j)).p.tasks T).reqd_cores : Int) ≤
      (lookup_comp (run srt p (k + 1 + j)).p.comp node).cores_available ∧
    ∀ c2 ∈ comp_avail_of (run srt p (k + 1 + j)),
      ((lookup_task (run srt p (k + 1 + j)).p.tasks T).reqd_cores : Int) ≤
        (lookup_comp (run srt p (k + 1 + j)).p.comp c2).cores_available →
      (lookup_comp (run srt p k).p.comp node).cores_available ≤
        (lookup_comp (run srt p k).p.comp c2).cores_available := by
  have hca := comp_avail_of_iteration srt p k j hiter
  obtain ⟨ca0, todo0, n0, hpc0⟩ := hiter 0 (Nat.zero_le _)
  have hsorted := step_loop_head_sorted srt (run srt p k) hhead ca0 todo0 n0 hpc0
  obtain ⟨ca, rest, n, c1, tasks1, hpc, _, hfind, _⟩ :=
    placement_spec srt (run srt p (k + 1 + j)) T node hpl
  have hca1 : comp_avail_of (run srt p (k + 1 + j)) = ca := by simp only [comp_avail_of, hpc]
  have hca0 : comp_avail_of (run srt p (k + 1)) = ca0 := by
    have : (run srt p (k + 1)).pc = Control.placing ca0 todo0 n0 := hpc0
    simp only [comp_avail_of, this]
  have heq : ca = ca0 := by rw [← hca1, hca, hca0]
  subst heq
  rw [hca1]
  cases hfn : find_node (run srt p (k + 1 + j)).p.comp
      (lookup_task (run srt p (k + 1 + j)).p.tasks T).reqd_cores ca
      (run srt p (k + 1 + j)).p.count_comp_unavail with
  | mk o w =>
    rw [hfn] at hfind
    simp only at hfind
    subst hfind
    obtain ⟨pre, post, f1, _, f3, _, f5⟩ := find_node_spec _ _ _ _ _ _ hfn
    refine ⟨by rw [f1]; simp, f3, ?_⟩
    intro c2 hc2 hle
    rw [f1] at hc2 hsorted
    rcases List.mem_append.mp hc2 with hin | hin
    · exact absurd hle (not_le.mpr (f5 c2 hin).2)
    · rcases List.mem_cons.mp hin with rfl | hin2
      · exact le_refl _
      · have hp := (List.pairwise_append.mp hsorted).2.1
        exact (List.pairwise_cons.mp hp).1 c2 hin2

/-! ## Runs on concrete inputs -/

/-- A run of C1 on the chain `A(1,2)`, `B(1,3)` with parent `A`, `C(1,1)` with parent `B`
on the node `n1` with 4 cores: the fifth step places `B`, whose parent `A` is complete
and scheduled. -/
theorem C1_dependency_ordering_witness :
    ∃ p, validate_tasks (Planner.of_input [("n1", 4)]
        [⟨"A", 1, 2, ""⟩, ⟨"B", 1, 3, "A"⟩, ⟨"C", 1, 1, "B"⟩]) = some (Status.ok, p) ∧
      placement (run insertion_sorter p 4) = some (1, 0) ∧
      (lookup_task (run insertion_sorter p 4).p.tasks 1).deps = [0] ∧
      ((run insertion_sorter p (4 + 1)).p.schedule =
        (run insertion_sorter p 4).p.schedule ++ [(1, 0)] ∧
      ∀ P ∈ (lookup_task (run insertion_sorter p 4).p.tasks 1).deps,
        (lookup_task (run insertion_sorter p 4).p.tasks P).state = TaskState.complete ∧
        ∃ node2, (P, node2) ∈ (run insertion_sorter p 4).p.schedule) := by
  refine ⟨_, rfl, by decide, by decide, ?_⟩
  exact C1_dependency_ordering insertion_sorter [("n1", 4)]
    [⟨"A", 1, 2, ""⟩, ⟨"B", 1, 3, "A"⟩, ⟨"C", 1, 1, "B"⟩] _ rfl 4 1 0 (by decide)

/-- A run of C2 on the same chain: after two steps task `A` runs on `n1`, which has 3
of its 4 cores available. -/
theorem C2_capacity_witness :
    ∃ p, validate_tasks (Planner.of_input [("n1", 4)]
        [⟨"A", 1, 2, ""⟩, ⟨"B", 1, 3, "A"⟩, ⟨"C", 1, 1, "B"⟩]) = some (Status.ok, p) ∧
      lookup_comp (run insertion_sorter p 2).p.comp 0 ∈ (run insertion_sorter p 2).p.comp ∧
      (lookup_comp (run insertion_sorter p 2).p.comp 0).current_tasks = [0] ∧
      ((cores_in_use (run insertion_sorter p 2).p.tasks
          (lookup_comp (run insertion_sorter p 2).p.comp 0).current_tasks : Int) ≤
        (lookup_comp (run insertion_sorter p 2).p.comp 0).cores_total ∧
      0 ≤ (lookup_comp (run insertion_sorter p 2).p.comp 0).cores_available ∧
      (lookup_comp (run insertion_sorter p 2).p.comp 0).cores_available ≤
        (lookup_comp (run insertion_sorter p 2).p.comp 0).cores_total) := by
  refine ⟨_, rfl, by decide, by decide, ?_⟩
  exact C2_capacity insertion_sorter [("n1", 4)]
    [⟨"A", 1, 2, ""⟩, ⟨"B", 1, 3, "A"⟩, ⟨"C", 1, 1, "B"⟩] _ rfl 2 _ (by decide)

/-- A run of C3 on the same chain: `schedule_tasks` returns within 12 steps with the
schedule `A`, `B`, `C` on `n1`. -/
theorem C3_completion_witness :
    ∃ p schedule p2, validate_tasks (Planner.of_input [("n1", 4)]
        [⟨"A", 1, 2, ""⟩, ⟨"B", 1, 3, "A"⟩, ⟨"C", 1, 1, "B"⟩]) = some (Status.ok, p) ∧
      schedule_tasks insertion_sorter p 12 = some (schedule, p2) ∧
      schedule = [(0, 0), (1, 0), (2, 0)] ∧
      ((∀ t ∈ p2.tasks, t.state = TaskState.complete ∧ t.ticks_remaining = 0) ∧
      ∀ c ∈ p2.comp, c.cores_available = c.cores_total ∧ c.current_tasks = []) := by
  refine ⟨_, _, _, rfl, rfl, by decide, ?_⟩
  exact C3_completion insertion_sorter [("n1", 4)]
    [⟨"A", 1, 2, ""⟩, ⟨"B", 1, 3, "A"⟩, ⟨"C", 1, 1, "B"⟩] _ rfl 12 _ _ rfl

/-- A run of C5 on the same chain: when `schedule_tasks` has returned, `n1` has been
busy for 6 and idle for 18 core ticks, which is 4 cores times 6 ticks. -/
theorem C5_conservation_witness :
    ∃ p, validate_tasks (Planner.of_input [("n1", 4)]
        [⟨"A", 1, 2, ""⟩, ⟨"B", 1, 3, "A"⟩, ⟨"C", 1, 1, "B"⟩]) = some (Status.ok, p) ∧
      lookup_comp (run insertion_sorter p 12).p.comp 0 ∈ (run insertion_sorter p 12).p.comp ∧
      (run insertion_sorter p 12).p.required_ticks = 6 ∧
      (lookup_comp (run insertion_sorter p 12).p.comp 0).cumulative_busy_ticks = 6 ∧
      (((lookup_comp (run insertion_sorter p 12).p.comp 0).cumulative_busy_ticks +
        (lookup_comp (run insertion_sorter p 12).p.comp 0).cumulative_idle_ticks : Nat) : Int) =
        (lookup_comp (run insertion_sorter p 12).p.comp 0).cores_total *
          ((run insertion_sorter p 12).p.required_ticks : Int) := by
  refine ⟨_, rfl, by decide, by decide, by decide, ?_⟩
  exact C5_conservation insertion_sorter [("n1", 4)]
    [⟨"A", 1, 2, ""⟩, ⟨"B", 1, 3, "A"⟩, ⟨"C", 1, 1, "B"⟩] _ rfl 12 _ (by decide)

/-- C6 fails as stated. Nodes `n1` with 4 cores and `n2` with 6, tasks `T1(5,1)` and
`T2(1,1)` without parents: the first iteration places `T1` on `n2`, which keeps 1 core
available, and then places `T2`, which needs 1 core, on `n1` with 4 cores available,
because `comp_avail` is still in the order `n1`, `n2` of the start of the iteration. -/
theorem C6_counterexample :
    ∃ p, validate_tasks (Planner.of_input [("n1", 4), ("n2", 6)]
        [⟨"T1", 5, 1, ""⟩, ⟨"T2", 1, 1, ""⟩]) = some (Status.ok, p) ∧
      (run insertion_sorter p 2).p.schedule = [(0, 1)] ∧
      placement (run insertion_sorter p 2) = some (1, 0) ∧
      (lookup_task (run insertion_sorter p 2).p.tasks 1).reqd_cores = 1 ∧
      (lookup_comp (run insertion_sorter p 2).p.comp 0).cores_available = 4 ∧
      (lookup_comp (run insertion_sorter p 2).p.comp 1).cores_available = 1 :=
  ⟨_, rfl, by decide, by decide, by decide, by decide, by decide⟩

/-- A run of the amended C6 on the input of the counterexample: `T2` goes to `n1`, the
node of `comp_avail` that had the fewest cores available, 4 against 6, when the
iteration started. -/
theorem C6_best_fit_at_iteration_start_witness :
    ∃ p, validate_tasks (Planner.of_input [("n1", 4), ("n2", 6)]
        [⟨"T1", 5, 1, ""⟩, ⟨"T2", 1, 1, ""⟩]) = some (Status.ok, p) ∧
      comp_avail_of (run insertion_sorter p (0 + 1 + 1)) = [0, 1] ∧
      (0 ∈ comp_avail_of (run insertion_sorter p (0 + 1 + 1)) ∧
      ((lookup_task (run insertion_sorter p (0 + 1 + 1)).p.tasks 1).reqd_cores : Int) ≤
        (lookup_comp (run insertion_sorter p (0 + 1 + 1)).p.comp 0).cores_available ∧
      ∀ c2 ∈ comp_avail_of (run insertion_sorter p (0 + 1 + 1)),
        ((lookup_task (run insertion_sorter p (0 + 1 + 1)).p.tasks 1).reqd_cores : Int) ≤
          (lookup_comp (run insertion_sorter p (0 + 1 + 1)).p.comp c2).cores_available →
        (lookup_comp (run insertion_sorter p 0).p.comp 0).cores_available ≤
          (lookup_comp (run insertion_sorter p 0).p.comp c2).cores_available) := by
  refine ⟨_, rfl, by decide, ?_⟩
  exact C6_best_fit_at_iteration_start insertion_sorter _ 0 1 1 0 (by decide)
    (fun i hi => match i, hi with
      | 0, _ => ⟨_, _, _, rfl⟩
      | 1, _ => ⟨_, _, _, rfl⟩) (by decide)

/-- C7 fails on the nodes `n1` with 3 cores and `n2` with 4 and the tasks `T1(3,1)` and
`T2(1,1)` without parents. The first iteration places `T1` on `n1`, which is then
full. When `T2` is examined, `n2` is in `comp_avail` with 4 cores available for the 1
core `T2` needs, yet the walk ends at `n1`, the first node of the list, because `n1`
has no core available: no placement is made, the loop over the runnable tasks ends
with `T2` not started, and `T2` is placed one iteration later, on `n1`, so that the
run takes 2 ticks. -/
theorem C7_walk_stops_at_full_node :
    ∃ p, validate_tasks (Planner.of_input [("n1", 3), ("n2", 4)]
        [⟨"T1", 3, 1, ""⟩, ⟨"T2", 1, 1, ""⟩]) = some (Status.ok, p) ∧
      (run insertion_sorter p 2).pc = Control.placing [0, 1] [1] 1 ∧
      (run insertion_sorter p 2).p.schedule = [(0, 0)] ∧
      (lookup_task (run insertion_sorter p 2).p.tasks 1).state = TaskState.not_started ∧
      (lookup_task (run insertion_sorter p 2).p.tasks 1).reqd_cores = 1 ∧
      (lookup_comp (run insertion_sorter p 2).p.comp 0).cores_available = 0 ∧
      (lookup_comp (run insertion_sorter p 2).p.comp 1).cores_available = 4 ∧
      placement (run insertion_sorter p 2) = none ∧
      (run insertion_sorter p 3).pc = Control.placing [0, 1] [] 1 ∧
      (run insertion_sorter p 3).p.schedule = [(0, 0)] ∧
      (lookup_task (run insertion_sorter p 3).p.tasks 1).state = TaskState.not_started ∧
      (∃ p2, schedule_tasks insertion_sorter p 9 = some ([(0, 0), (1, 0)], p2) ∧
        p2.required_ticks = 2) :=
  ⟨_, rfl, by decide, by decide, by decide, by decide, by decide, by decide, by decide,
    by decide, by decide, by decide, ⟨_, rfl, by decide⟩⟩

/-- C8 fails on the tasks `A` with parent `Y`, `D` without parent, `Y` with parent `D`,
in this order, each of 1 core, on the node `n1` with 1 core. Every parent name
resolves, the dependency relation is acyclic (`D` ranks below `Y`, `Y` below `A`) and
no task needs more cores than `n1` has; yet `validate_tasks` returns
`circular_dependency`. When `D` is examined, `Y` has not registered as its waiter yet,
so `D` counts as disconnected and gets the artificial edge `D -> A`, which closes the
cycle `A -> Y -> D -> A` in the graph. -/
theorem C8_acyclic_input_rejected :
    parents_resolve [⟨"A", 1, 1, "Y"⟩, ⟨"D", 1, 1, ""⟩, ⟨"Y", 1, 1, "D"⟩] ∧
    input_acyclic [⟨"A", 1, 1, "Y"⟩, ⟨"D", 1, 1, ""⟩, ⟨"Y", 1, 1, "D"⟩] ∧
    (∀ x ∈ [(⟨"A", 1, 1, "Y"⟩ : TaskInput), ⟨"D", 1, 1, ""⟩, ⟨"Y", 1, 1, "D"⟩],
      x.cores_required ≤ largest_cores_total [("n1", 1)]) ∧
    ∃ p, validate_tasks (Planner.of_input [("n1", 1)]
        [⟨"A", 1, 1, "Y"⟩, ⟨"D", 1, 1, ""⟩, ⟨"Y", 1, 1, "D"⟩]) =
        some (Status.circular_dependency, p) ∧
      p.edge = [(0, 2), (2, 1), (1, 0)] := by
  refine ⟨?_, ⟨fun nm => if nm = "A" then 2 else if nm = "Y" then 1 else 0, ?_⟩, by decide,
    ⟨_, rfl, by decide⟩⟩
  · unfold parents_resolve
    decide
  · decide

/-! ## Totality of validation, and the vertices of the graph -/

theorem graphClosed_add_edges : ∀ (edges : List (Nat × Nat)) (g : TaskGraph),
    GraphClosed g → GraphClosed (add_edges edges g)
  | [], _, hg => hg
  | e :: edges, g, hg => by
    simp only [add_edges, List.foldl_cons]
    exact graphClosed_add_edges edges _ (graphClosed_add_edge e.1 e.2 g hg)

theorem graphClosed_nil : GraphClosed ([] : TaskGraph) := by
  intro u w hw
  simp at hw

/-- The part of `validate_tasks` after its first loop always returns a status. -/
theorem validate_finish_total (p : Planner) (v : ValidateLoop) (h : GraphClosed p.tg) :
    validate_finish p v ≠ none := by
  simp only [validate_finish]
  have hne := topological_sort_fuel _ (graphClosed_add_edges
    (v.edge ++ artificial_edges v.tasks v.artificial_dep v.disconnected_nodes) p.tg h)
  cases htopo : topological_sort (add_edges
      (v.edge ++ artificial_edges v.tasks v.artificial_dep v.disconnected_nodes) p.tg) with
  | no_fuel => exact absurd htopo hne
  | not_a_dag => simp
  | done r => simp

theorem validate_loop_ne_bad_deref (mc : Compute) :
    ∀ (todo : List Nat) (v : ValidateLoop),
      validate_loop (some mc) todo v ≠ ValidateExit.bad_deref := by
  intro todo
  induction todo with
  | nil => intro v; simp [validate_loop]
  | cons itr rest ih =>
    intro v
    simp only [validate_loop]
    split
    · simp
    · split
      · simp
      · exact ih _

/-- With a node in the compute list, `validate_tasks` always returns a status. -/
theorem validate_tasks_total (p : Planner) (hc : p.comp ≠ []) (h : GraphClosed p.tg) :
    validate_tasks p ≠ none := by
  cases hcomp : p.comp with
  | nil => exact absurd hcomp hc
  | cons a l =>
    simp only [validate_tasks, hcomp, max_element]
    cases hloop : validate_loop
        (some (List.foldl (fun largest x => if sort_max_cores largest x then x else largest) a l))
        (List.range p.tasks.length) ⟨p.tasks, p.edge, [], none⟩ with
    | bad_deref => exact absurd hloop (validate_loop_ne_bad_deref _ _ _)
    | returned st last v => simp
    | finished v => exact validate_finish_total p v h

theorem validate_loop_append (mco : Option Compute) :
    ∀ (l1 l2 : List Nat) (v : ValidateLoop),
      validate_loop mco (l1 ++ l2) v =
        match validate_loop mco l1 v with
        | ValidateExit.finished v1 => validate_loop mco l2 v1
        | other => other := by
  intro l1
  induction l1 with
  | nil => intro l2 v; simp [validate_loop]
  | cons itr rest ih =>
    intro l2 v
    cases mco with
    | none => simp [validate_loop]
    | some mc =>
      simp only [List.cons_append, validate_loop]
      split
      · rfl
      · split
        · rfl
        · exact ih l2 _

/-- The anchor is the first task the loop examines. -/
theorem validate_loop_anchor (mco : Option Compute) :
    ∀ (todo : List Nat) (v v2 : ValidateLoop),
      validate_loop mco todo v = ValidateExit.finished v2 →
      v2.artificial_dep = (match v.artificial_dep with
        | some a => some a
        | none => todo.head?) := by
  intro todo
  induction todo with
  | nil =>
    intro v v2 h
    simp only [validate_loop, ValidateExit.finished.injEq] at h
    subst h
    cases v.artificial_dep <;> rfl
  | cons itr rest ih =>
    intro v v2 h
    cases mco with
    | none => simp [validate_loop] at h
    | some mc =>
      simp only [validate_loop] at h
      split at h
      · exact absurd h (by simp)
      · split at h
        · exact absurd h (by simp)
        · have := ih _ v2 h
          rw [this]
          cases v.artificial_dep <;> rfl

theorem map_deps_loop_waiters (self : Nat) :
    ∀ (names : List String) (b : Bool) (tasks : List Task), self < tasks.length →
      WaitersInv tasks → WaitersInv (map_deps_loop self names (b, tasks)).2 := by
  intro names
  induction names with
  | nil => intro b tasks _ h; exact h
  | cons nm rest ih =>
    intro b tasks hself h
    cases hl : lookup_task_name tasks nm with
    | none =>
      simp only [map_deps_loop, hl]
      exact ih false tasks hself h
    | some t =>
      simp only [map_deps_loop, hl]
      have hlen : (modify_at (_push_dep t) self (modify_at (_incr_waiters self) t tasks)).length =
          tasks.length := by rw [length_modify_at, length_modify_at]
      apply ih b _ (by rw [hlen]; exact hself)
      have hdeps : ∀ U, ∀ x ∈ (lookup_task tasks U).deps,
          x ∈ (lookup_task (modify_at (_push_dep t) self
            (modify_at (_incr_waiters self) t tasks)) U).deps := by
        intro U x hx
        rw [lookup_task_modify_at]
        have h0 : (lookup_task (modify_at (_incr_waiters self) t tasks) U).deps =
            (lookup_task tasks U).deps :=
          lookup_task_modify_at_proj Task.deps (_incr_waiters self) (fun _ => rfl) t tasks U
        split
        · next hh =>
          simp only [_push_dep, List.mem_append]
          left
          have hxs : x ∈ (lookup_task tasks self).deps := hh.1 ▸ hx
          rw [lookup_task_modify_at_proj Task.deps (_incr_waiters self) (fun _ => rfl) t tasks
            self]
          exact hxs
        · rw [h0]
          exact hx
      intro T hT
      by_cases hTt : T = t
      · refine ⟨self, ?_⟩
        rw [lookup_task_modify_at, if_pos ⟨rfl, by rw [length_modify_at]; exact hself⟩]
        simp [_push_dep, hTt]
      · have hw : (lookup_task (modify_at (_push_dep t) self
            (modify_at (_incr_waiters self) t tasks)) T).waiters = (lookup_task tasks T).waiters := by
          rw [lookup_task_modify_at_proj Task.waiters (_push_dep t) (fun _ => rfl),
            lookup_task_modify_at, if_neg (fun hh => hTt hh.1)]
        rw [hw] at hT
        obtain ⟨U, hU⟩ := h T hT
        exact ⟨U, hdeps U T hU⟩

theorem map_dependencies_waiters (tasks : List Task) (self : Nat) (hself : self < tasks.length)
    (h : WaitersInv tasks) : WaitersInv (map_dependencies tasks self).2 := by
  have h1 := map_deps_loop_waiters self (_get_dep_str (lookup_task tasks self)) true tasks hself h
  intro T hT
  simp only [map_dependencies] at hT ⊢
  rw [lookup_task_modify_at_proj Task.waiters _set_mapped (fun _ => rfl)] at hT
  obtain ⟨U, hU⟩ := h1 T hT
  exact ⟨U, by rw [lookup_task_modify_at_proj Task.deps _set_mapped (fun _ => rfl)]; exact hU⟩

theorem validate_loop_waiters (n : Nat) (mco : Option Compute) :
    ∀ (todo : List Nat) (v : ValidateLoop), v.tasks.length = n → WaitersInv v.tasks →
      (∀ i ∈ todo, i < n) →
      (∀ v2, validate_loop mco todo v = ValidateExit.finished v2 → WaitersInv v2.tasks) := by
  intro todo
  induction todo with
  | nil =>
    intro v _ hw _ v2 h
    simp only [validate_loop, ValidateExit.finished.injEq] at h
    exact h ▸ hw
  | cons itr rest ih =>
    intro v hlen hw htodo v2 h
    have hitr : itr < n := htodo itr (List.mem_cons_self _ _)
    cases mco with
    | none => simp [validate_loop] at h
    | some mc =>
      simp only [validate_loop] at h
      split at h
      · exact absurd h (by simp)
      · split at h
        · exact absurd h (by simp)
        · exact ih _ (by simp only; rw [(map_dependencies_spec v.tasks itr).1, hlen])
            (map_dependencies_waiters v.tasks itr (hlen ▸ hitr) hw)
            (fun i hi => htodo i (List.mem_cons_of_mem _ hi)) v2 h

theorem map_dependencies_mapped (tasks : List Task) (self : Nat) (hself : self < tasks.length) :
    (lookup_task (map_dependencies tasks self).2 self).mapped_deps = true := by
  simp only [map_dependencies]
  rw [lookup_task_modify_at, if_pos ⟨rfl, by
    rw [(map_deps_loop_spec self _ true tasks).1]; exact hself⟩]
  rfl

/-- With at least two tasks, the last task of the list is an end of some edge of the
final edge list: it has a dependency, or a waiter, or it is disconnected and gets the
artificial edge to the anchor. -/
theorem validate_loop_last_edge (xs : List TaskInput) (mco : Option Compute) (v2 : ValidateLoop)
    (hn : 2 ≤ xs.length)
    (h : validate_loop mco (List.range xs.length) ⟨read_tasks xs, [], [], none⟩ =
      ValidateExit.finished v2) :
    ∃ e ∈ v2.edge ++ artificial_edges v2.tasks v2.artificial_dep v2.disconnected_nodes,
      e.1 = xs.length - 1 ∨ e.2 = xs.length - 1 := by
  obtain ⟨m, hm⟩ : ∃ m, xs.length = m + 2 := ⟨xs.length - 2, by omega⟩
  have hinv2 := validate_loop_inv xs.length mco _ _ (validInv_read_tasks xs)
    (fun i hi => List.mem_range.mp hi) v2 h
  have hw0 : WaitersInv (read_tasks xs) := by
    intro T hT
    exfalso
    apply hT
    by_cases hTn : T < xs.length
    · rw [lookup_read_tasks xs T hTn]
      exact (of_input_fields _ _).2.2.2.2.2.2.2.1
    · rw [lookup_task_beyond _ T (by rw [length_read_tasks]; omega)]
      rfl
  rw [hm, List.range_succ, validate_loop_append] at h
  cases h1 : validate_loop mco (List.range (m + 1)) ⟨read_tasks xs, [], [], none⟩ with
  | bad_deref => simp [h1] at h
  | returned st last v => simp [h1] at h
  | finished v1 =>
    simp only [h1] at h
    have hinv1 := validate_loop_inv xs.length mco _ _ (validInv_read_tasks xs)
      (fun i hi => by have := List.mem_range.mp hi; omega) v1 h1
    have hw1 := validate_loop_waiters xs.length mco _ _ (length_read_tasks xs) hw0
      (fun i hi => by have := List.mem_range.mp hi; omega) v1 h1
    have hart1 : v1.artificial_dep = some 0 := by
      have := validate_loop_anchor mco _ _ v1 h1
      simpa [List.range_succ_eq_map] using this
    have hL : m + 1 < v1.tasks.length := by rw [hinv1.1]; omega
    cases mco with
    | none => simp [validate_loop] at h
    | some mc =>
      simp only [validate_loop] at h
      split at h
      · exact absurd h (by simp)
      · split at h
        · exact absurd h (by simp)
        · simp only [ValidateExit.finished.injEq] at h
          have hw2 := map_dependencies_waiters v1.tasks (m + 1) hL hw1
          have hmapped := map_dependencies_mapped v1.tasks (m + 1) hL
          obtain ⟨_, hid2, _, hdeps2, _, _, _⟩ := hinv2
          have hlast : xs.length - 1 = m + 1 := by omega
          rw [hlast]
          subst h
          simp only at hdeps2 hid2 ⊢
          by_cases hd : (lookup_task (map_dependencies v1.tasks (m + 1)).2 (m + 1)).deps = []
          · by_cases hwz : (lookup_task (map_dependencies v1.tasks (m + 1)).2 (m + 1)).waiters = 0
            · refine ⟨(m + 1, 0), List.mem_append_right _ ?_, Or.inl rfl⟩
              have hcnt : (lookup_task (map_dependencies v1.tasks (m + 1)).2
                  (m + 1)).get_dependency_count = 0 := by
                simp [Task.get_dependency_count, hmapped, hd]
              simp only [hwz, hcnt, and_self, if_true, hart1, artificial_edges, List.mem_map,
                List.mem_filter, List.mem_append, List.mem_singleton, decide_eq_true_eq]
              refine ⟨m + 1, ⟨Or.inr rfl, by omega⟩, ?_⟩
              rw [hid2 (m + 1) (by omega), hid2 0 (by omega)]
            · obtain ⟨U, hU⟩ := hw2 (m + 1) hwz
              exact ⟨(U, m + 1), List.mem_append_left _ (hdeps2 U (m + 1) hU).2, Or.inr rfl⟩
          · obtain ⟨T, hT⟩ := List.exists_mem_of_ne_nil _ hd
            exact ⟨(m + 1, T), List.mem_append_left _ (hdeps2 (m + 1) T hT).2, Or.inl rfl⟩

theorem first_failure_none (m : Nat) (tasks : List Task) :
    ∀ todo : List Nat, first_failure m tasks todo = none →
      ∀ i ∈ todo, (lookup_task tasks i).reqd_cores ≤ m := by
  intro todo
  induction todo with
  | nil => intro _ i hi; simp at hi
  | cons a rest ih =>
    intro h i hi
    simp only [first_failure] at h
    split at h
    · exact absurd h (by simp)
    · next hle =>
      split at h
      · exact absurd h (by simp)
      · rcases List.mem_cons.mp hi with rfl | hi2
        · exact not_lt.mp hle
        · exact ih h i hi2

theorem max_element_mem {α : Type} (comp : α → α → Bool) :
    ∀ (l : List α) (x : α), max_element comp l = some x → x ∈ l := by
  intro l x h
  cases l with
  | nil => simp [max_element] at h
  | cons a l =>
    simp only [max_element, Option.some.injEq] at h
    subst h
    have : ∀ (l : List α) (acc : α),
        List.foldl (fun largest x => if comp largest x then x else largest) acc l = acc ∨
        List.foldl (fun largest x => if comp largest x then x else largest) acc l ∈ l := by
      intro l
      induction l with
      | nil => intro acc; exact Or.inl rfl
      | cons b l ih =>
        intro acc
        simp only [List.foldl_cons]
        by_cases hc : comp acc b = true
        · simp only [hc, if_true]
          rcases ih b with h1 | h1
          · exact Or.inr (by rw [h1]; exact List.mem_cons_self _ _)
          · exact Or.inr (List.mem_cons_of_mem _ h1)
        · simp only [hc]
          rcases ih acc with h1 | h1
          · exact Or.inl h1
          · exact Or.inr (List.mem_cons_of_mem _ h1)
    rcases this l a with h1 | h1
    · rw [h1]; exact List.mem_cons_self _ _
    · exact List.mem_cons_of_mem _ h1

theorem validate_loop_proj {β : Type} (π : Task → β) (hπ : DepsFrame π) (mco : Option Compute) :
    ∀ (todo : List Nat) (v v2 : ValidateLoop),
      validate_loop mco todo v = ValidateExit.finished v2 →
      ∀ j, π (lookup_task v2.tasks j) = π (lookup_task v.tasks j) := by
  intro todo
  induction todo with
  | nil =>
    intro v v2 h j
    simp only [validate_loop, ValidateExit.finished.injEq] at h
    rw [h]
  | cons itr rest ih =>
    intro v v2 h j
    cases mco with
    | none => simp [validate_loop] at h
    | some mc =>
      simp only [validate_loop] at h
      split at h
      · exact absurd h (by simp)
      · split at h
        · exact absurd h (by simp)
        · rw [ih _ v2 h j]
          exact map_dependencies_proj π hπ v.tasks itr j

/-- A validation of the input that returns `ok` establishes `Schedulable`. -/
theorem validate_ok_schedulable (nodes : List (String × Nat)) (tasks : List TaskInput)
    (p : Planner) (h : validate_tasks (Planner.of_input nodes tasks) = some (Status.ok, p)) :
    Schedulable tasks p := by
  have hval := validate_ok_validated nodes tasks p h
  simp only [validate_tasks, Planner.of_input, Planner.new] at h
  cases hloop : validate_loop (max_element sort_max_cores (read_compute nodes))
      (List.range (read_tasks tasks).length) ⟨read_tasks tasks, [], [], none⟩ with
  | bad_deref => simp [hloop] at h
  | returned s last v =>
    exfalso
    have hst := congrArg ValidateExit.status hloop
    simp only [hloop, Option.some.injEq, Prod.mk.injEq] at h
    cases hm : max_element sort_max_cores (read_compute nodes) with
    | none =>
      rw [hm] at hloop
      cases htl : List.range (read_tasks tasks).length with
      | nil => simp [htl, validate_loop] at hloop
      | cons a l => simp [htl, validate_loop] at hloop
    | some mc =>
      rw [hm, validate_loop_status] at hst
      simp only [ValidateExit.status] at hst
      rcases first_failure_ne_ok _ _ _ _ hst with h1 | h1
      · rw [h1] at h; simp at h
      · rw [h1] at h; simp at h
  | finished v =>
    simp only [hloop] at h
    rw [length_read_tasks] at hloop
    have hinv := validate_loop_inv tasks.length _ _ _ (validInv_read_tasks tasks)
      (fun i hi => List.mem_range.mp hi) v hloop
    obtain ⟨f1, _, _, _, f5, _, _, _, f9, f10, f11⟩ :=
      validate_finish_ok tasks.length _ p v hinv rfl rfl h
    have hfield : ∀ i, ∀ hi : i < tasks.length,
        (lookup_task p.tasks i).reqd_cores = tasks[i].cores_required ∧
        (lookup_task p.tasks i).ticks_remaining = tasks[i].execution_time := by
      intro i hi
      rw [f5, validate_loop_proj Task.reqd_cores depsFrame_reqd_cores _ _ _ v hloop,
        validate_loop_proj Task.ticks_remaining depsFrame_ticks_remaining _ _ _ v hloop]
      simp only
      rw [lookup_read_tasks tasks i hi]
      exact ⟨(of_input_fields _ _).2.1, (of_input_fields _ _).2.2.2.2.2.2.1⟩
    refine ⟨?_, ?_, hfield⟩
    · intro hne i hi
      have hn2 : 2 ≤ tasks.length := by omega
      obtain ⟨e, he, hor⟩ := validate_loop_last_edge tasks _ v hn2 hloop
      have hall : ∀ e ∈ p.edge, e.1 < tasks.length ∧ e.2 < tasks.length := by
        intro e he
        rw [f10] at he
        rcases List.mem_append.mp he with h1 | h1
        · exact hinv.2.2.2.2.1 e h1
        · cases ha : v.artificial_dep with
          | none => simp [artificial_edges, ha] at h1
          | some a =>
            simp only [artificial_edges, ha, List.mem_map, List.mem_filter] at h1
            obtain ⟨d, ⟨hd, _⟩, rfl⟩ := h1
            simp only
            rw [hinv.2.1 d (hinv.2.2.2.2.2.1 d hd), hinv.2.1 a (hinv.2.2.2.2.2.2 a ha)]
            exact ⟨hinv.2.2.2.2.2.1 d hd, hinv.2.2.2.2.2.2 a ha⟩
      obtain ⟨_, _, _, _, _, g6⟩ := add_edges_spec tasks.length p.edge [] graphClosed_nil
        (Nat.zero_le _) hall
      rw [← f11] at g6
      have hlast := g6 e (f10 ▸ he)
      apply (f9 i).mpr
      rcases hor with h1 | h1 <;> omega
    · intro i hi
      cases hm : max_element sort_max_cores (read_compute nodes) with
      | none =>
        exfalso
        rw [hm] at hloop
        obtain ⟨m, hm2⟩ : ∃ m, tasks.length = m + 1 := ⟨tasks.length - 1, by omega⟩
        rw [hm2, List.range_succ_eq_map] at hloop
        simp [validate_loop] at hloop
      | some mc =>
        have hst := congrArg ValidateExit.status hloop
        rw [hm, validate_loop_status] at hst
        simp only [ValidateExit.status] at hst
        have hle := first_failure_none _ _ _ hst i (List.mem_range.mpr hi)
        simp only at hle
        have hmem := max_element_mem _ _ _ hm
        obtain ⟨c, hc⟩ := List.getElem_of_mem hmem
        obtain ⟨hc1, hc2⟩ := hc
        have hnn : 0 ≤ mc.cores_total := by
          simp only [read_compute, List.mem_map] at hmem
          obtain ⟨x, _, rfl⟩ := hmem
          simp [Compute.new]
        refine ⟨c, by rw [f1]; exact hc1, ?_⟩
        rw [(hfield i hi).1, f1]
        simp only [Planner.of_input, Planner.new, lookup_comp]
        rw [List.getD_eq_getElem _ _ hc1, hc2]
        rw [lookup_read_tasks tasks i hi, (of_input_fields _ _).2.1] at hle
        simp only [Compute.get_cores] at hle
        omega

/-! ## The assertions of `tick` and `assign_task` hold during scheduling -/

theorem tick_loop_ne_none (total : Int) (k : Nat) :
    ∀ (todo : List Nat) (a : TickLoop),
      a.cores_available + (cores_in_use a.tasks todo : Int) ≤ total →
      tick_loop total k todo a ≠ none := by
  intro todo
  induction todo with
  | nil => intro a _; simp [tick_loop]
  | cons t rest ih =>
    intro a h
    have hreq : ∀ j, (lookup_task (modify_at (fun _ => ((lookup_task a.tasks t).run_for k).2) t
        a.tasks) j).reqd_cores = (lookup_task a.tasks j).reqd_cores := by
      intro j
      rw [lookup_task_modify_at]
      split
      · next hh => rw [(run_for_spec _ k).2.2.2.2.2.1, hh.1]
      · rfl
    have hin : cores_in_use (modify_at (fun _ => ((lookup_task a.tasks t).run_for k).2) t
        a.tasks) rest = cores_in_use a.tasks rest :=
      cores_in_use_congr _ _ _ (fun j _ => hreq j)
    have hsum : cores_in_use a.tasks (t :: rest) =
        (lookup_task a.tasks t).reqd_cores + cores_in_use a.tasks rest := by
      simp [cores_in_use]
    rw [hsum] at h
    push_cast at h
    simp only [tick_loop, hreq]
    split
    · split
      · apply ih
        simp only
        rw [hin]
        omega
      · next hle =>
        exfalso
        apply hle
        have : (0 : Int) ≤ (cores_in_use a.tasks rest : Int) := Int.natCast_nonneg _
        omega
    · apply ih
      simp only
      rw [hin]
      have : (0 : Int) ≤ ((lookup_task a.tasks t).reqd_cores : Int) := Int.natCast_nonneg _
      omega

/-- On a node that satisfies its invariant, `tick(k)` with `k > 0` passes all its
assertions. -/
theorem tick_ne_none (c : Compute) (tasks : List Task) (k : Nat) (hk : 0 < k)
    (hinv : NodeInv tasks c) : tick c tasks k ≠ none := by
  obtain ⟨a1, a2, a3, a4⟩ := hinv
  simp only [tick, hk, gt_iff_lt, not_true_eq_false, if_false]
  have hne := tick_loop_ne_none c.cores_total k c.current_tasks
    ⟨tasks, 0, 0, 0, 0, c.cores_available, []⟩ (by simp only; omega)
  cases hloop : tick_loop c.cores_total k c.current_tasks
      ⟨tasks, 0, 0, 0, 0, c.cores_available, []⟩ with
  | none => exact absurd hloop hne
  | some a =>
    obtain ⟨_, _, _, _, _, g6, g7, _, _, _⟩ :=
      tick_loop_spec c.cores_total k c.current_tasks _ a a3 (fun t ht => (a4 t ht).1) hloop
    simp only [zero_add] at g6 g7
    have hused : c.cores_total ≥ a.cores_used := by rw [g6]; omega
    simp only [hused, not_true_eq_false, if_false]
    have hacc : c.cores_total * (k : Int) =
        ((((c.cores_total - a.cores_used) * (k : Int)).toNat + a.this_run_busy_ticks : Nat) : Int) := by
      have hnn : 0 ≤ (c.cores_total - a.cores_used) * (k : Int) :=
        mul_nonneg (by omega) (Int.natCast_nonneg _)
      push_cast
      rw [Int.toNat_of_nonneg hnn, g7, g6]
      push_cast
      ring
    simp [hacc]

theorem tick_all_ne_none (k : Nat) (hk : 0 < k) :
    ∀ (todo : List Nat) (comp : List Compute) (tasks : List Task) (remaining : Int),
      CoreInv comp tasks remaining → (∀ c ∈ todo, c < comp.length) →
      tick_all k todo (comp, tasks, remaining) ≠ none := by
  intro todo
  induction todo with
  | nil => intro comp tasks remaining _ _; simp [tick_all]
  | cons c rest ih =>
    intro comp tasks remaining hinv hlt
    have hc : c < comp.length := hlt c (List.mem_cons_self _ _)
    simp only [tick_all]
    cases htick : tick (lookup_comp comp c) tasks k with
    | none => exact absurd htick (tick_ne_none _ _ k hk (hinv.1 c))
    | some r =>
      obtain ⟨done, cn, tasksn⟩ := r
      simp only
      obtain ⟨p1, _⟩ := tick_preserves comp tasks remaining c k done cn tasksn hinv hc htick
      exact ih _ _ _ p1 (fun x hx => by
        rw [length_modify_at]; exact hlt x (List.mem_cons_of_mem _ hx))

/-- On a task that is `not_started` and a node with enough cores available,
`assign_task` passes its assertions. -/
theorem assign_task_ne_none (c : Compute) (tasks : List Task) (t : Nat)
    (hst : (lookup_task tasks t).state = TaskState.not_started)
    (hle : ((lookup_task tasks t).reqd_cores : Int) ≤ c.cores_available) :
    assign_task c tasks t ≠ none := by
  have hreq : (lookup_task (modify_at (fun x => x.set_state TaskState.running) t tasks)
      t).reqd_cores = (lookup_task tasks t).reqd_cores :=
    lookup_task_modify_at_proj Task.reqd_cores
      (fun x => x.set_state TaskState.running) (fun _ => rfl) _ _ _
  simp only [assign_task, hst, ne_eq, not_true_eq_false, if_false, hreq]
  split
  · next h => omega
  · simp

/-- What step F does, node by node and task by task: every task current on a ticked
node is run for `k` ticks, the other tasks are left alone; a ticked node keeps the
tasks that do not finish within `k` ticks. -/
theorem tick_all_exact (k : Nat) :
    ∀ (todo : List Nat) (comp : List Compute) (tasks : List Task) (remaining : Int)
      (comp1 : List Compute) (tasks1 : List Task) (remaining1 : Int),
      CoreInv comp tasks remaining → todo.Nodup → (∀ c ∈ todo, c < comp.length) →
      tick_all k todo (comp, tasks, remaining) = some (comp1, tasks1, remaining1) →
      (∀ t, lookup_task tasks1 t =
        if (∃ c ∈ todo, t ∈ (lookup_comp comp c).current_tasks) then
          ((lookup_task tasks t).run_for k).2 else lookup_task tasks t) ∧
      (∀ c, (lookup_comp comp1 c).current_tasks =
        if c ∈ todo then
          (lookup_comp comp c).current_tasks.filter (fun t => ! finishes_within tasks k t)
        else (lookup_comp comp c).current_tasks) := by
  intro todo
  induction todo with
  | nil =>
    intro comp tasks remaining comp1 tasks1 remaining1 _ _ _ h
    simp only [tick_all, Option.some.injEq, Prod.mk.injEq] at h
    obtain ⟨rfl, rfl, rfl⟩ := h
    simp
  | cons c rest ih =>
    intro comp tasks remaining comp1 tasks1 remaining1 hinv hnd hlt h
    have hc : c < comp.length := hlt c (List.mem_cons_self _ _)
    have hnd2 := List.nodup_cons.mp hnd
    simp only [tick_all] at h
    cases htick : tick (lookup_comp comp c) tasks k with
    | none => simp [htick] at h
    | some r =>
      obtain ⟨done, cn, tasksn⟩ := r
      simp only [htick] at h
      obtain ⟨p1, _⟩ := tick_preserves comp tasks remaining c k done cn tasksn hinv hc htick
      obtain ⟨hA, hB, _, _⟩ := hinv
      obtain ⟨_, _, s3, s4, _⟩ := tick_spec (lookup_comp comp c) tasks k done cn tasksn
        (hA c).2.2.1 (fun t ht => ((hA c).2.2.2 t ht).1) htick
      obtain ⟨q1, q2⟩ := ih (modify_at (fun _ => cn) c comp) tasksn _ comp1 tasks1 remaining1
        p1 hnd2.2 (fun x hx => by rw [length_modify_at]; exact hlt x (List.mem_cons_of_mem _ hx)) h
      have hcur : ∀ x, x ≠ c → (lookup_comp (modify_at (fun _ => cn) c comp) x).current_tasks =
          (lookup_comp comp x).current_tasks := by
        intro x hx
        rw [lookup_comp_modify_at, if_neg (fun hh => hx hh.1)]
      have hex : ∀ t, (∃ x ∈ rest, t ∈ (lookup_comp (modify_at (fun _ => cn) c comp)
          x).current_tasks) ↔ ∃ x ∈ rest, t ∈ (lookup_comp comp x).current_tasks := by
        intro t
        constructor
        · rintro ⟨x, hx, hm⟩
          exact ⟨x, hx, by rw [← hcur x (fun e => hnd2.1 (e ▸ hx))]; exact hm⟩
        · rintro ⟨x, hx, hm⟩
          exact ⟨x, hx, by rw [hcur x (fun e => hnd2.1 (e ▸ hx))]; exact hm⟩
      constructor
      · intro t
        rw [q1 t]
        by_cases htc : t ∈ (lookup_comp comp c).current_tasks
        · have hno : ¬ ∃ x ∈ rest, t ∈ (lookup_comp (modify_at (fun _ => cn) c comp)
              x).current_tasks := by
            rw [hex]
            rintro ⟨x, hx, hm⟩
            exact hnd2.1 ((hB x c t hm htc) ▸ hx)
          rw [if_neg hno, s3 t, if_pos htc, if_pos ⟨c, List.mem_cons_self _ _, htc⟩]
        · rw [s3 t, if_neg htc]
          by_cases hr : ∃ x ∈ rest, t ∈ (lookup_comp comp x).current_tasks
          · obtain ⟨x, hx, hm⟩ := hr
            rw [if_pos ((hex t).mpr ⟨x, hx, hm⟩),
              if_pos ⟨x, List.mem_cons_of_mem _ hx, hm⟩]
          · have hno2 : ¬ ∃ x ∈ c :: rest, t ∈ (lookup_comp comp x).current_tasks := by
              rintro ⟨x, hx, hm⟩
              rcases List.mem_cons.mp hx with rfl | hx2
              · exact htc hm
              · exact hr ⟨x, hx2, hm⟩
            rw [if_neg (fun hh => hr ((hex t).mp hh)), if_neg hno2]
      · intro x
        rw [q2 x]
        by_cases hxc : x = c
        · subst hxc
          rw [if_neg hnd2.1, if_pos (List.mem_cons_self _ _), lookup_comp_modify_at,
            if_pos ⟨rfl, hc⟩, s4]
        · rw [hcur x hxc]
          by_cases hxr : x ∈ rest
          · rw [if_pos hxr, if_pos (List.mem_cons_of_mem _ hxr)]
            apply List.filter_congr
            intro t ht
            have htc : t ∉ (lookup_comp comp c).current_tasks := fun hm => hxc (hB x c t ht hm)
            simp only [finishes_within, s3 t, if_neg htc]
          · rw [if_neg hxr, if_neg (fun hh => by
              rcases List.mem_cons.mp hh with h1 | h1
              · exact hxc h1
              · exact hxr h1)]

/-! ## Progress of the scheduler -/

/-- Step E on running tasks that all have a tick remaining, started with the skip `s`:
from `0` and a task it finds the least `ticks_remaining`, from a positive `s` the least
of `s` and the `ticks_remaining`. -/
theorem find_skip_spec (tasks : List Task) :
    ∀ (l : List Nat) (s : Nat), (∀ r ∈ l, 1 ≤ (lookup_task tasks r).ticks_remaining) →
      (s = 0 → l ≠ [] → 1 ≤ find_skip tasks l s ∧
        (∀ r ∈ l, find_skip tasks l s ≤ (lookup_task tasks r).ticks_remaining) ∧
        ∃ r ∈ l, (lookup_task tasks r).ticks_remaining = find_skip tasks l s) ∧
      (1 ≤ s → 1 ≤ find_skip tasks l s ∧ find_skip tasks l s ≤ s ∧
        (∀ r ∈ l, find_skip tasks l s ≤ (lookup_task tasks r).ticks_remaining) ∧
        (find_skip tasks l s = s ∨
          ∃ r ∈ l, (lookup_task tasks r).ticks_remaining = find_skip tasks l s)) := by
  intro l
  induction l with
  | nil =>
    intro s _
    exact ⟨fun _ h => absurd rfl h, fun hs => ⟨hs, le_refl _, by simp, Or.inl rfl⟩⟩
  | cons r rest ih =>
    intro s hpos
    have hr : 1 ≤ (lookup_task tasks r).ticks_remaining := hpos r (List.mem_cons_self _ _)
    have hrest : ∀ x ∈ rest, 1 ≤ (lookup_task tasks x).ticks_remaining :=
      fun x hx => hpos x (List.mem_cons_of_mem _ hx)
    constructor
    · intro hs _
      subst hs
      simp only [find_skip, Nat.zero_min, if_true]
      obtain ⟨i1, i2, i3, i4⟩ := (ih (lookup_task tasks r).ticks_remaining hrest).2 hr
      refine ⟨i1, ?_, ?_⟩
      · intro x hx
        rcases List.mem_cons.mp hx with rfl | hx2
        · exact i2
        · exact i3 x hx2
      · rcases i4 with h1 | ⟨x, hx, h1⟩
        · exact ⟨r, List.mem_cons_self _ _, h1.symm⟩
        · exact ⟨x, List.mem_cons_of_mem _ hx, h1⟩
    · intro hs
      have hmin : min s (lookup_task tasks r).ticks_remaining ≠ 0 := by omega
      simp only [find_skip, hmin, if_false]
      have hmm : min (min s (lookup_task tasks r).ticks_remaining)
          (lookup_task tasks r).ticks_remaining = min s (lookup_task tasks r).ticks_remaining := by
        omega
      rw [hmm]
      obtain ⟨i1, i2, i3, i4⟩ :=
        (ih (min s (lookup_task tasks r).ticks_remaining) hrest).2 (by omega)
      refine ⟨i1, by omega, ?_, ?_⟩
      · intro x hx
        rcases List.mem_cons.mp hx with rfl | hx2
        · omega
        · exact i3 x hx2
      · rcases i4 with h1 | ⟨x, hx, h1⟩
        · by_cases hle : s ≤ (lookup_task tasks r).ticks_remaining
          · left; omega
          · right
            exact ⟨r, List.mem_cons_self _ _, by omega⟩
        · exact Or.inr ⟨x, List.mem_cons_of_mem _ hx, h1⟩

theorem split_unique (t : Nat) :
    ∀ (a l1 c l2 : List Nat), t ∉ a → t ∉ l1 → a ++ t :: c = l1 ++ t :: l2 → a = l1 := by
  intro a
  induction a with
  | nil =>
    intro l1 c l2 _ h2 h
    cases l1 with
    | nil => rfl
    | cons y l1 =>
      simp only [List.nil_append, List.cons_append, List.cons.injEq] at h
      exact absurd (h.1 ▸ List.mem_cons_self _ _) h2
  | cons x a ih =>
    intro l1 c l2 h1 h2 h
    cases l1 with
    | nil =>
      simp only [List.nil_append, List.cons_append, List.cons.injEq] at h
      exact absurd (h.1 ▸ List.mem_cons_self _ _) h1
    | cons y l1 =>
      simp only [List.cons_append, List.cons.injEq] at h
      rw [h.1, ih l1 c l2 (fun hm => h1 (List.mem_cons_of_mem _ hm))
        (fun hm => h2 (List.mem_cons_of_mem _ hm)) h.2]

theorem first_with (q : Nat → Prop) [DecidablePred q] :
    ∀ l : List Nat, (∃ t ∈ l, q t) → ∃ l1 t l2, l = l1 ++ t :: l2 ∧ q t ∧ ∀ x ∈ l1, ¬ q x := by
  intro l
  induction l with
  | nil => rintro ⟨t, ht, _⟩; simp at ht
  | cons a l ih =>
    rintro ⟨t, ht, hq⟩
    by_cases ha : q a
    · exact ⟨[], a, l, rfl, ha, by simp⟩
    · rcases List.mem_cons.mp ht with rfl | ht2
      · exact absurd hq ha
      · obtain ⟨l1, u, l2, h1, h2, h3⟩ := ih ⟨t, ht2, hq⟩
        refine ⟨a :: l1, u, l2, by rw [h1]; rfl, h2, ?_⟩
        intro x hx
        rcases List.mem_cons.mp hx with rfl | hx2
        · exact ha
        · exact h3 x hx2

/-- When no task of the job sequence is running and one has not started, the first
task of the job sequence that has not started is runnable: its parents come earlier in
the sequence, so they are complete. -/
theorem exists_runnable (tasks : List Task) (js : List Nat) (hnd : js.Nodup)
    (hbefore : ∀ U T, T ∈ (lookup_task tasks U).deps → Before js T U)
    (hstates : ∀ t ∈ js, (lookup_task tasks t).state = TaskState.not_started ∨
      (lookup_task tasks t).state = TaskState.complete)
    (hex : ∃ t ∈ js, (lookup_task tasks t).state = TaskState.not_started) :
    ∃ t ∈ js, runnable_now tasks t = true := by
  obtain ⟨l1, t, l2, h1, h2, h3⟩ :=
    first_with (fun t => (lookup_task tasks t).state = TaskState.not_started) js hex
  have htjs : t ∈ js := by rw [h1]; simp
  refine ⟨t, htjs, ?_⟩
  simp only [runnable_now, h2, decide_True, Bool.true_and, dependencies_met, List.all_eq_true,
    decide_eq_true_eq]
  intro d hd
  obtain ⟨a, b, c, hsplit⟩ := hbefore t d hd
  have hnd1 : (l1 ++ t :: l2).Nodup := h1 ▸ hnd
  have hnd2 : ((a ++ d :: b) ++ t :: c).Nodup := by
    have : js = (a ++ d :: b) ++ t :: c := by rw [hsplit]
    exact this ▸ hnd
  have ht1 : t ∉ l1 := fun hm => (List.nodup_append.mp hnd1).2.2 hm (List.mem_cons_self _ _)
  have ht2 : t ∉ a ++ d :: b := fun hm =>
    (List.nodup_append.mp hnd2).2.2 hm (List.mem_cons_self _ _)
  have heq : a ++ d :: b = l1 := by
    apply split_unique t _ _ c l2 ht2 ht1
    rw [← h1, hsplit]
  have hdl1 : d ∈ l1 := by rw [← heq]; simp
  have hdjs : d ∈ js := by rw [h1]; exact List.mem_append_left _ hdl1
  rcases hstates d hdjs with h4 | h4
  · exact absurd h4 (h3 d hdl1)
  · exact h4

/-- The walk over nodes that all have a core available finds a node when one of them
has enough cores. -/
theorem find_node_some (comp : List Compute) (req : Nat) :
    ∀ (ca : List Nat) (w : Nat), (∀ x ∈ ca, 0 < (lookup_comp comp x).cores_available) →
      (∃ c ∈ ca, (req : Int) ≤ (lookup_comp comp c).cores_available) →
      (find_node comp req ca w).1 ≠ none := by
  intro ca
  induction ca with
  | nil => rintro w _ ⟨c, hc, _⟩; simp at hc
  | cons x rest ih =>
    intro w hpos hex
    have hx := hpos x (List.mem_cons_self _ _)
    simp only [find_node, hx, gt_iff_lt, not_true_eq_false, if_false]
    split
    · simp
    · next hnle =>
      apply ih (w + 1) (fun y hy => hpos y (List.mem_cons_of_mem _ hy))
      obtain ⟨c, hc, hle⟩ := hex
      rcases List.mem_cons.mp hc with rfl | hc2
      · exact absurd hle hnle
      · exact ⟨c, hc2, hle⟩

theorem countP_le_of_pointwise (q : Task → Bool) :
    ∀ (l1 l2 : List Task), l1.length = l2.length →
      (∀ j, q (lookup_task l2 j) = true → q (lookup_task l1 j) = true) →
      l2.countP q ≤ l1.countP q ∧
        ((∃ j, j < l1.length ∧ q (lookup_task l1 j) = true ∧ q (lookup_task l2 j) = false) →
          l2.countP q < l1.countP q) := by
  intro l1
  induction l1 with
  | nil =>
    intro l2 hlen _
    have : l2 = [] := List.length_eq_zero.mp hlen.symm
    subst this
    exact ⟨le_refl _, fun ⟨j, hj, _⟩ => absurd hj (by simp)⟩
  | cons a l1 ih =>
    intro l2 hlen himp
    cases l2 with
    | nil => simp at hlen
    | cons b l2 =>
      have hlen2 : l1.length = l2.length := by simpa using hlen
      have himp2 : ∀ j, q (lookup_task l2 j) = true → q (lookup_task l1 j) = true := by
        intro j hj
        have := himp (j + 1)
        simpa [lookup_task] using this (by simpa [lookup_task] using hj)
      have h0 : q b = true → q a = true := by
        have := himp 0
        simpa [lookup_task] using this
      obtain ⟨i1, i2⟩ := ih l2 hlen2 himp2
      simp only [List.countP_cons]
      by_cases ha : q a = true
      · by_cases hb : q b = true
        · simp only [ha, hb, if_true]
          refine ⟨by omega, ?_⟩
          rintro ⟨j, hj, hj1, hj2⟩
          cases j with
          | zero =>
            have hb2 : q b = false := by simpa [lookup_task] using hj2
            rw [hb] at hb2
            exact absurd hb2 (by simp)
          | succ j =>
            have := i2 ⟨j, by simpa using hj, by simpa [lookup_task] using hj1,
              by simpa [lookup_task] using hj2⟩
            omega
        · simp only [ha, hb, if_true, Bool.false_eq_true, if_false]
          exact ⟨by omega, fun _ => by omega⟩
      · have hb : ¬ q b = true := fun hb => ha (h0 hb)
        simp only [ha, hb, Bool.false_eq_true, if_false]
        refine ⟨by omega, ?_⟩
        rintro ⟨j, hj, hj1, hj2⟩
        cases j with
        | zero =>
          have ha2 : q a = true := by simpa [lookup_task] using hj1
          exact absurd ha2 ha
        | succ j =>
          have := i2 ⟨j, by simpa using hj, by simpa [lookup_task] using hj1,
            by simpa [lookup_task] using hj2⟩
          omega

theorem state_of_ge (tasks : List Task) (t : Nat) (h : tasks.length ≤ t) :
    (lookup_task tasks t).state = TaskState.not_started := by
  rw [lookup_task_beyond tasks t h]
  rfl

theorem cur_of_ge (comp : List Compute) (c : Nat) (h : comp.length ≤ c) :
    (lookup_comp comp c).current_tasks = [] := by
  rw [lookup_comp, List.getD_eq_default _ _ h]
  rfl

/-- Steps A to C keep the progress invariant and use up a step. -/
theorem term_step_loop_head (srt : StdSort) (s : SchedState) (hpc : s.pc = Control.loop_head)
    (h : TermInv s) :
    TermInv (step srt s) ∧ steps_left (step srt s) < steps_left s := by
  have hsi := step_loop_head_inv srt s hpc h.1
  obtain ⟨⟨hcore, _, _, hjs, _⟩, t2, t3, t4, t5, t6, t7, _, _⟩ := h
  simp only [step, hpc] at hsi ⊢
  by_cases hz : s.tasks_remaining = 0
  · simp only [hz, if_true] at hsi ⊢
    refine ⟨⟨hsi, t2, t3, t4, t5, t6, t7, fun ca todo m hp => by simp at hp, by simp⟩, ?_⟩
    simp [steps_left, hpc]
  · simp only [hz, if_false] at hsi ⊢
    have hR : (build_runnable s.p.tasks s.p.job_sequence ([], s.p.count_dep_wait)).1 =
        s.p.job_sequence.filter (runnable_now s.p.tasks) := by
      rw [build_runnable_spec]; simp
    have hperm := srt.perm (fun a b => runnable_task_sort (lookup_task s.p.tasks a)
      (lookup_task s.p.tasks b)) (build_runnable s.p.tasks s.p.job_sequence
        ([], s.p.count_dep_wait)).1
    have hpermc := srt.perm (fun a b => sort_max_cores (lookup_comp s.p.comp a)
      (lookup_comp s.p.comp b)) (find_available s.p.comp)
    constructor
    · refine ⟨hsi, t2, t3, t4, t5, t6, t7, ?_, by simp⟩
      intro ca todo m hp
      simp only [Control.placing.injEq] at hp
      obtain ⟨rfl, rfl, _⟩ := hp
      by_cases hrun : s.running = []
      · right
        have hnorun : ∀ t, (lookup_task s.p.tasks t).state ≠ TaskState.running := by
          intro t ht
          have := (t3 t).mpr ht
          rw [hrun] at this
          simp at this
        have hstates : ∀ t, (lookup_task s.p.tasks t).state = TaskState.not_started ∨
            (lookup_task s.p.tasks t).state = TaskState.complete := by
          intro t
          rcases t2 t with h1 | h1 | h1
          · exact Or.inl h1
          · exact absurd h1 (hnorun t)
          · exact Or.inr h1
        have hcnt : s.p.tasks.countP incomplete ≠ 0 := by
          intro hc
          apply hz
          rw [hcore.2.2.1, hc]
          rfl
        obtain ⟨x, hx, hxi⟩ := List.countP_pos_iff.mp (Nat.pos_of_ne_zero hcnt)
        obtain ⟨i, hi, rfl⟩ := lookup_task_of_mem _ x hx
        have hins : (lookup_task s.p.tasks i).state = TaskState.not_started := by
          rcases hstates i with h1 | h1
          · exact h1
          · simp [incomplete, h1] at hxi
        obtain ⟨u, hu, hur⟩ := exists_runnable s.p.tasks s.p.job_sequence t6.1 t6.2.2
          (fun t _ => hstates t) ⟨i, t6.2.1 i hi, hins⟩
        have huR : u ∈ (build_runnable s.p.tasks s.p.job_sequence
            ([], s.p.count_dep_wait)).1 := by
          rw [hR]; exact List.mem_filter.mpr ⟨hu, hur⟩
        have hutodo : u ∈ (srt.sort (fun a b => runnable_task_sort (lookup_task s.p.tasks a)
            (lookup_task s.p.tasks b)) (build_runnable s.p.tasks s.p.job_sequence
            ([], s.p.count_dep_wait)).1).reverse :=
          List.mem_reverse.mpr (hperm.mem_iff.mpr huR)
        cases htodo : (srt.sort (fun a b => runnable_task_sort (lookup_task s.p.tasks a)
            (lookup_task s.p.tasks b)) (build_runnable s.p.tasks s.p.job_sequence
            ([], s.p.count_dep_wait)).1).reverse with
        | nil => rw [htodo] at hutodo; simp at hutodo
        | cons t0 rest0 =>
          have ht0 : t0 ∈ (build_runnable s.p.tasks s.p.job_sequence
              ([], s.p.count_dep_wait)).1 := by
            apply hperm.mem_iff.mp
            apply List.mem_reverse.mp
            rw [htodo]
            exact List.mem_cons_self _ _
          rw [hR] at ht0
          obtain ⟨ht0js, ht0r⟩ := List.mem_filter.mp ht0
          simp only [runnable_now, Bool.and_eq_true, decide_eq_true_eq] at ht0r
          refine ⟨t0, rest0, rfl, ht0r.1, ?_⟩
          obtain ⟨hreq1, c, hc, hle⟩ := t7 t0 (hjs t0 ht0js)
          have hfree : ∀ x, (lookup_comp s.p.comp x).cores_available =
              (lookup_comp s.p.comp x).cores_total := by
            intro x
            obtain ⟨a1, _, _, a4⟩ := hcore.1 x
            have hnil : (lookup_comp s.p.comp x).current_tasks = [] := by
              apply List.eq_nil_iff_forall_not_mem.mpr
              intro y hy
              exact hnorun y (a4 y hy).2
            rw [a1, hnil]
            simp [cores_in_use]
          apply find_node_some
          · intro x hx
            have := hpermc.mem_iff.mp hx
            simp only [find_available, List.mem_filter, decide_eq_true_eq] at this
            exact this.2
          · refine ⟨c, hpermc.mem_iff.mpr ?_, by rw [hfree c]; exact hle⟩
            simp only [find_available, List.mem_filter, List.mem_range, decide_eq_true_eq]
            refine ⟨hc, ?_⟩
            rw [hfree c]
            omega
      · exact Or.inl hrun
    · have hlen := hperm.length_eq.trans (congrArg List.length hR)
      simp only [steps_left, hpc, List.length_reverse, hlen]
      have := List.length_filter_le (runnable_now s.p.tasks) s.p.job_sequence
      omega

theorem termInv_same (s s2 : SchedState) (h : TermInv s) (hsi : SchedInv s2)
    (hc : s2.p.comp = s.p.comp) (ht : s2.p.tasks = s.p.tasks)
    (hj : s2.p.job_sequence = s.p.job_sequence) (hr : s2.running = s.running)
    (h8 : s2.running ≠ [] ∨ ∀ ca todo m, s2.pc ≠ Control.placing ca todo m)
    (h9 : s2.pc ≠ Control.aborted) : TermInv s2 := by
  obtain ⟨_, t2, t3, t4, t5, t6, t7, _, _⟩ := h
  refine ⟨hsi, ?_, ?_, ?_, ?_, ?_, ?_, ?_, h9⟩
  · rw [ht]; exact t2
  · rw [ht, hr]; exact t3
  · rw [ht, hc]; exact t4
  · rw [ht]; exact t5
  · rw [ht, hj]; exact t6
  · rw [ht, hc]; exact t7
  · intro ca todo m hp
    rcases h8 with h8 | h8
    · exact Or.inl h8
    · exact absurd hp (h8 ca todo m)

/-- The body of the loop over the runnable tasks keeps the progress invariant and uses
up a step; in particular `assign_task` passes its assertions. -/
theorem term_step_place (srt : StdSort) (s : SchedState) (ca : List Nat) (t : Nat)
    (rest : List Nat) (m : Int) (hpc : s.pc = Control.placing ca (t :: rest) m)
    (h : TermInv s) :
    TermInv (step srt s) ∧ steps_left (step srt s) < steps_left s := by
  have hsi := step_place_inv srt s ca t rest m hpc h.1
  have h8 := h.2.2.2.2.2.2.2.1 ca (t :: rest) m hpc
  have hmeasure : ∀ (s2 : SchedState) (todo2 : List Nat) (m2 : Int),
      s2.pc = Control.placing ca todo2 m2 → s2.tasks_remaining = s.tasks_remaining →
      s2.p.job_sequence = s.p.job_sequence → todo2 = rest ∨ todo2 = [] →
      steps_left s2 < steps_left s := by
    intro s2 todo2 m2 hp hr hj htd
    simp only [steps_left, hp, hpc, hr, hj, List.length_cons]
    rcases htd with rfl | rfl
    · omega
    · simp only [List.length_nil]; omega
  simp only [step, hpc] at hsi ⊢
  by_cases hst : (lookup_task s.p.tasks t).state = TaskState.not_started
  · simp only [hst, ne_eq, not_true_eq_false, if_false] at hsi ⊢
    cases hfn : find_node s.p.comp (lookup_task s.p.tasks t).reqd_cores ca
        s.p.count_comp_unavail with
    | mk o w =>
      simp only [hfn] at hsi ⊢
      cases o with
      | none =>
        have hrun : s.running ≠ [] := by
          rcases h8 with h8 | ⟨t0, rest0, he, _, hne⟩
          · exact h8
          · simp only [List.cons.injEq] at he
            obtain ⟨rfl, _⟩ := he
            rw [hfn] at hne
            exact absurd rfl hne
        simp only at hsi ⊢
        split
        · next hz =>
          rw [if_pos hz] at hsi
          exact ⟨termInv_same s _ h hsi rfl rfl rfl rfl (Or.inl hrun) (by simp),
            hmeasure _ [] m rfl rfl rfl (Or.inr rfl)⟩
        · next hz =>
          rw [if_neg hz] at hsi
          exact ⟨termInv_same s _ h hsi rfl rfl rfl rfl (Or.inl hrun) (by simp),
            hmeasure _ rest m rfl rfl rfl (Or.inl rfl)⟩
      | some c =>
        obtain ⟨pre, post, _, _, f3, f4, _⟩ := find_node_spec _ _ _ _ _ _ hfn
        have hc : c < s.p.comp.length := lookup_comp_pos_lt _ _ f4
        simp only at hsi ⊢
        cases hassign : assign_task (lookup_comp s.p.comp c) s.p.tasks t with
        | none => exact absurd hassign (assign_task_ne_none _ _ _ hst f3)
        | some r =>
          obtain ⟨c1, tasks1⟩ := r
          simp only [hassign] at hsi ⊢
          obtain ⟨⟨_, _, _, hjs, h5⟩, t2, t3, t4, t5, t6, t7, _, _⟩ := h
          have ht : t < s.p.tasks.length := (h5 ca (t :: rest) m hpc t (List.mem_cons_self _ _)).1
          obtain ⟨_, a2, a3⟩ := assign_preserves _ _ _ c t c1 tasks1
            (by assumption : CoreInv s.p.comp s.p.tasks s.tasks_remaining) ht hassign
          obtain ⟨_, b2, b3, _, _, b6, _⟩ := assign_task_spec _ _ _ _ _ hassign
          have hrem : ∀ j, (lookup_task tasks1 j).ticks_remaining =
              (lookup_task s.p.tasks j).ticks_remaining := by
            intro j
            rw [b2]
            exact lookup_task_modify_at_proj Task.ticks_remaining
              (fun x => x.set_state TaskState.running) (fun _ => rfl) _ _ _
          have hT2 : ∀ j, (lookup_task tasks1 j).state = TaskState.not_started ∨
              (lookup_task tasks1 j).state = TaskState.running ∨
              (lookup_task tasks1 j).state = TaskState.complete := by
            intro j
            rw [(a3 j).2.2]
            split
            · exact Or.inr (Or.inl rfl)
            · exact t2 j
          have hT3 : ∀ j, j ∈ s.running ++ [t] ↔
              (lookup_task tasks1 j).state = TaskState.running := by
            intro j
            rw [(a3 j).2.2, List.mem_append, List.mem_singleton]
            by_cases hjt : j = t
            · simp [hjt]
            · simp only [hjt, or_false, if_false]
              exact t3 j
          have hT4 : ∀ j, (lookup_task tasks1 j).state = TaskState.running →
              ∃ x, j ∈ (lookup_comp (modify_at (fun _ => c1) c s.p.comp) x).current_tasks := by
            intro j hj
            rw [(a3 j).2.2] at hj
            by_cases hjt : j = t
            · refine ⟨c, ?_⟩
              rw [lookup_comp_modify_at, if_pos ⟨rfl, hc⟩, b3, hjt]
              simp
            · rw [if_neg hjt] at hj
              obtain ⟨x, hx⟩ := t4 j hj
              refine ⟨x, ?_⟩
              rw [lookup_comp_modify_at]
              split
              · next hh =>
                rw [b3]
                exact List.mem_append_left _ (hh.1 ▸ hx)
              · exact hx
          have hT5 : ∀ j, j < tasks1.length →
              (lookup_task tasks1 j).state ≠ TaskState.complete →
              1 ≤ (lookup_task tasks1 j).ticks_remaining := by
            intro j hj hjc
            rw [hrem j]
            apply t5 j (a2 ▸ hj)
            by_cases hjt : j = t
            · rw [hjt, hst]; simp
            · rw [(a3 j).2.2, if_neg hjt] at hjc
              exact hjc
          have hT6 : s.p.job_sequence.Nodup ∧ (∀ i, i < tasks1.length → i ∈ s.p.job_sequence) ∧
              ∀ U T, T ∈ (lookup_task tasks1 U).deps → Before s.p.job_sequence T U := by
            refine ⟨t6.1, fun i hi => t6.2.1 i (a2 ▸ hi), ?_⟩
            intro U T hT
            rw [(a3 U).2.1] at hT
            exact t6.2.2 U T hT
          have hT7 : ∀ j, j < tasks1.length → 1 ≤ (lookup_task tasks1 j).reqd_cores ∧
              ∃ x, x < (modify_at (fun _ => c1) c s.p.comp).length ∧
                ((lookup_task tasks1 j).reqd_cores : Int) ≤
                  (lookup_comp (modify_at (fun _ => c1) c s.p.comp) x).cores_total := by
            intro j hj
            rw [(a3 j).1]
            obtain ⟨r1, x, hx, hle⟩ := t7 j (a2 ▸ hj)
            refine ⟨r1, x, by rw [length_modify_at]; exact hx, ?_⟩
            rw [lookup_comp_modify_at]
            split
            · next hh =>
              rw [b6, ← hh.1]
              exact hle
            · exact hle
          have hrun2 : s.running ++ [t] ≠ [] := by simp
          generalize (if c1.cores_available = 0 then m - 1 else m) = n1 at hsi ⊢
          split
          · next hz =>
            rw [if_pos hz] at hsi
            exact ⟨⟨hsi, hT2, hT3, hT4, hT5, hT6, hT7, fun _ _ _ _ => Or.inl hrun2,
              by simp⟩, hmeasure _ [] n1 rfl rfl rfl (Or.inr rfl)⟩
          · next hz =>
            rw [if_neg hz] at hsi
            exact ⟨⟨hsi, hT2, hT3, hT4, hT5, hT6, hT7, fun _ _ _ _ => Or.inl hrun2,
              by simp⟩, hmeasure _ rest n1 rfl rfl rfl (Or.inl rfl)⟩
  · have hrun : s.running ≠ [] := by
      rcases h8 with h8 | ⟨t0, rest0, he, hs0, _⟩
      · exact h8
      · simp only [List.cons.injEq] at he
        obtain ⟨rfl, _⟩ := he
        exact absurd hs0 hst
    simp only [hst, ne_eq, not_false_eq_true, if_true] at hsi ⊢
    exact ⟨termInv_same s _ h hsi rfl rfl rfl rfl (Or.inl hrun) (by simp),
      hmeasure _ rest m rfl rfl rfl (Or.inl rfl)⟩

/-- Steps E to G keep the progress invariant and complete a task: `skip_ticks` is
positive, every assertion of `tick` holds, and `tasks_remaining` goes down. -/
theorem term_step_advance (srt : StdSort) (s : SchedState) (ca : List Nat) (m : Int)
    (hpc : s.pc = Control.placing ca [] m) (h : TermInv s) :
    TermInv (step srt s) ∧ steps_left (step srt s) < steps_left s := by
  have hsi := step_advance_inv srt s ca m hpc h.1
  obtain ⟨⟨hcore, _, _, hjs, _⟩, t2, t3, t4, t5, t6, t7, t8, _⟩ := h
  have hrun : s.running ≠ [] := by
    rcases t8 ca [] m hpc with h8 | ⟨t0, rest0, he, _⟩
    · exact h8
    · simp at he
  have hlt_of_running : ∀ r, (lookup_task s.p.tasks r).state = TaskState.running →
      r < s.p.tasks.length := by
    intro r hr
    by_contra hcon
    rw [state_of_ge _ r (not_lt.mp hcon)] at hr
    exact absurd hr (by simp)
  have hpos : ∀ r ∈ s.running, 1 ≤ (lookup_task s.p.tasks r).ticks_remaining := by
    intro r hr
    have hst := (t3 r).mp hr
    exact t5 r (hlt_of_running r hst) (by rw [hst]; simp)
  obtain ⟨k1, k2, r0, hr0, hr0k⟩ := (find_skip_spec s.p.tasks s.running 0 hpos).1 rfl hrun
  have hne := tick_all_ne_none (find_skip s.p.tasks s.running 0) k1 (List.range s.p.comp.length)
    s.p.comp s.p.tasks s.tasks_remaining hcore (fun c hc => List.mem_range.mp hc)
  simp only [step, hpc] at hsi ⊢
  cases htick : tick_all (find_skip s.p.tasks s.running 0) (List.range s.p.comp.length)
      (s.p.comp, s.p.tasks, s.tasks_remaining) with
  | none => exact absurd htick hne
  | some r =>
    obtain ⟨comp1, tasks1, remaining1⟩ := r
    simp only [htick] at hsi ⊢
    obtain ⟨q1, q2, q3, _, q5⟩ := tick_all_spec _ _ _ _ _ _ _ _ hcore (List.nodup_range _)
      (fun c hc => List.mem_range.mp hc) htick
    obtain ⟨e1, e2⟩ := tick_all_exact _ _ _ _ _ _ _ _ hcore (List.nodup_range _)
      (fun c hc => List.mem_range.mp hc) htick
    have hon : ∀ t, (∃ c ∈ List.range s.p.comp.length,
        t ∈ (lookup_comp s.p.comp c).current_tasks) ↔
        (lookup_task s.p.tasks t).state = TaskState.running := by
      intro t
      constructor
      · rintro ⟨c, _, hc⟩
        exact ((hcore.1 c).2.2.2 t hc).2
      · intro ht
        obtain ⟨c, hc⟩ := t4 t ht
        refine ⟨c, List.mem_range.mpr ?_, hc⟩
        by_contra hcon
        rw [cur_of_ge _ c (not_lt.mp hcon)] at hc
        simp at hc
    have hstate1 : ∀ t, (lookup_task tasks1 t).state =
        (if (lookup_task s.p.tasks t).state = TaskState.running then
          (if (lookup_task s.p.tasks t).ticks_remaining ≤ find_skip s.p.tasks s.running 0 then
            TaskState.complete else TaskState.running)
        else (lookup_task s.p.tasks t).state) := by
      intro t
      rw [e1 t]
      by_cases ht : (lookup_task s.p.tasks t).state = TaskState.running
      · rw [if_pos ((hon t).mpr ht), if_pos ht, (run_for_spec _ _).2.2.2.2.1, ht]
      · rw [if_neg (fun hh => ht ((hon t).mp hh)), if_neg ht]
    have hrem1 : ∀ t, (lookup_task tasks1 t).ticks_remaining =
        (if (lookup_task s.p.tasks t).state = TaskState.running then
          (lookup_task s.p.tasks t).ticks_remaining - find_skip s.p.tasks s.running 0
        else (lookup_task s.p.tasks t).ticks_remaining) := by
      intro t
      rw [e1 t]
      by_cases ht : (lookup_task s.p.tasks t).state = TaskState.running
      · rw [if_pos ((hon t).mpr ht), if_pos ht, (run_for_spec _ _).2.2.2.1]
      · rw [if_neg (fun hh => ht ((hon t).mp hh)), if_neg ht]
    have hr0state : (lookup_task s.p.tasks r0).state = TaskState.running := (t3 r0).mp hr0
    have hdec : tasks1.countP incomplete < s.p.tasks.countP incomplete := by
      apply (countP_le_of_pointwise incomplete s.p.tasks tasks1 q2.1.symm ?_).2
      · refine ⟨r0, hlt_of_running r0 hr0state, by simp [incomplete, hr0state], ?_⟩
        simp [incomplete, hstate1 r0, hr0state, hr0k]
      · intro j hj
        simp only [incomplete, decide_eq_true_eq] at hj ⊢
        intro hc
        exact hj ((q2.2 j).2.2.2 hc)
    constructor
    · refine ⟨hsi, ?_, ?_, ?_, ?_, ?_, ?_, fun _ _ _ hp => by simp at hp, by simp⟩
      · intro t
        simp only
        rw [hstate1 t]
        split
        · split
          · exact Or.inr (Or.inr rfl)
          · exact Or.inr (Or.inl rfl)
        · exact t2 t
      · intro t
        simp only [harvest, List.mem_filter, decide_eq_true_eq]
        rw [t3 t, hstate1 t]
        by_cases ht : (lookup_task s.p.tasks t).state = TaskState.running
        · simp only [ht, if_true, true_and]
          split <;> simp
        · simp only [ht, if_false, false_and]
      · intro t ht
        simp only at ht ⊢
        rw [hstate1 t] at ht
        by_cases hrn : (lookup_task s.p.tasks t).state = TaskState.running
        · rw [if_pos hrn] at ht
          by_cases hfin : (lookup_task s.p.tasks t).ticks_remaining ≤
              find_skip s.p.tasks s.running 0
          · rw [if_pos hfin] at ht
            exact absurd ht (by simp)
          · obtain ⟨c, hcr, hc⟩ := (hon t).mpr hrn
            refine ⟨c, ?_⟩
            rw [e2 c, if_pos hcr]
            exact List.mem_filter.mpr ⟨hc, by simp [finishes_within, hfin]⟩
        · rw [if_neg hrn] at ht
          exact absurd ht hrn
      · intro t ht hnc
        simp only at ht hnc ⊢
        rw [hrem1 t]
        rw [hstate1 t] at hnc
        by_cases hrn : (lookup_task s.p.tasks t).state = TaskState.running
        · rw [if_pos hrn] at hnc ⊢
          by_cases hfin : (lookup_task s.p.tasks t).ticks_remaining ≤
              find_skip s.p.tasks s.running 0
          · rw [if_pos hfin] at hnc
            exact absurd rfl hnc
          · omega
        · rw [if_neg hrn] at hnc ⊢
          exact t5 t (q2.1 ▸ ht) hnc
      · refine ⟨t6.1, fun i hi => t6.2.1 i (q2.1 ▸ hi), ?_⟩
        intro U T hT
        simp only at hT ⊢
        rw [(q2.2 U).2.1] at hT
        exact t6.2.2 U T hT
      · intro t ht
        simp only at ht ⊢
        rw [(q2.2 t).1]
        obtain ⟨r1, c, hc, hle⟩ := t7 t (q2.1 ▸ ht)
        exact ⟨r1, c, by rw [q3]; exact hc, by rw [(q5 c).1]; exact hle⟩
    · simp only [steps_left, hpc, List.length_nil, add_zero]
      rw [q1.2.2.1, hcore.2.2.1]
      simp only [Int.toNat_ofNat]
      have hmul := Nat.mul_le_mul_right (s.p.job_sequence.length + 2) (Nat.succ_le_of_lt hdec)
      rw [Nat.succ_mul] at hmul
      omega

/-- A step of a run that has not returned keeps the progress invariant and uses up
one of the steps left. -/
theorem term_step (srt : StdSort) (s : SchedState) (h : TermInv s)
    (hnr : s.pc ≠ Control.returned) :
    TermInv (step srt s) ∧ steps_left (step srt s) < steps_left s := by
  cases hpc : s.pc with
  | loop_head => exact term_step_loop_head srt s hpc h
  | returned => exact absurd hpc hnr
  | aborted => exact absurd hpc h.2.2.2.2.2.2.2.2
  | placing ca todo m =>
    cases todo with
    | nil => exact term_step_advance srt s ca m hpc h
    | cons t rest => exact term_step_place srt s ca t rest m hpc h

/-! ## The contracts of `run_for`, `assign_task` and `tick` -/

/-- C15. For a task with `ticks_remaining = r` and every `k`, `run_for(k)` returns
`{0, k, 0}` when `r = k` and `{0, k, k - r}` when `r < k`, and in both cases the state
becomes `complete` and `ticks_remaining` becomes 0; when `r > k` it returns
`{r - k, k, 0}`, sets `ticks_remaining` to `r - k` and leaves the state unchanged. -/
theorem C15_run_for_cases (t : Task) (k : Nat) :
    (t.ticks_remaining = k →
      (t.run_for k).1 = ⟨0, k, 0⟩ ∧ (t.run_for k).2.state = TaskState.complete ∧
      (t.run_for k).2.ticks_remaining = 0) ∧
    (t.ticks_remaining < k →
      (t.run_for k).1 = ⟨0, k, k - t.ticks_remaining⟩ ∧
      (t.run_for k).2.state = TaskState.complete ∧ (t.run_for k).2.ticks_remaining = 0) ∧
    (t.ticks_remaining > k →
      (t.run_for k).1 = ⟨t.ticks_remaining - k, k, 0⟩ ∧
      (t.run_for k).2.ticks_remaining = t.ticks_remaining - k ∧
      (t.run_for k).2.state = t.state) := by
  refine ⟨?_, ?_, ?_⟩
  · intro h
    simp [Task.run_for, h]
  · intro h
    have h1 : ¬ t.ticks_remaining = k := by omega
    simp [Task.run_for, h, h1]
  · intro h
    have h1 : ¬ t.ticks_remaining = k := by omega
    have h2 : ¬ t.ticks_remaining < k := by omega
    simp [Task.run_for, h1, h2]

/-- A run of C15 on the task `A(1, 3)`: `run_for(3)` and `run_for(5)` complete it, the
second with 2 idle ticks, and `run_for(2)` leaves 1 tick and the state unchanged. -/
theorem C15_run_for_cases_witness :
    (((Task.new "A" 1 3 0).run_for 3).1 = ⟨0, 3, 0⟩ ∧
      ((Task.new "A" 1 3 0).run_for 3).2.state = TaskState.complete ∧
      ((Task.new "A" 1 3 0).run_for 3).2.ticks_remaining = 0) ∧
    (((Task.new "A" 1 3 0).run_for 5).1 = ⟨0, 5, 5 - (Task.new "A" 1 3 0).ticks_remaining⟩ ∧
      ((Task.new "A" 1 3 0).run_for 5).2.state = TaskState.complete ∧
      ((Task.new "A" 1 3 0).run_for 5).2.ticks_remaining = 0) ∧
    (((Task.new "A" 1 3 0).run_for 2).1 = ⟨(Task.new "A" 1 3 0).ticks_remaining - 2, 2, 0⟩ ∧
      ((Task.new "A" 1 3 0).run_for 2).2.ticks_remaining =
        (Task.new "A" 1 3 0).ticks_remaining - 2 ∧
      ((Task.new "A" 1 3 0).run_for 2).2.state = (Task.new "A" 1 3 0).state) :=
  ⟨(C15_run_for_cases (Task.new "A" 1 3 0) 3).1 rfl,
    (C15_run_for_cases (Task.new "A" 1 3 0) 5).2.1 (by decide),
    (C15_run_for_cases (Task.new "A" 1 3 0) 2).2.2 (by decide)⟩

/-- C19. For a node `c` and a task `t` of the table in state `not_started` with
`cores_required <= cores_available`, `assign_task` passes its assertions, sets the state
of `t` to `running`, appends `t` to `current_tasks`, takes `cores_required` off
`cores_available`, adds 1 to `assign_count`, and leaves `cores_total`, the two tick
counters and the `ticks_remaining` of `t` unchanged. -/
theorem C19_assign_task_effect (c : Compute) (tasks : List Task) (t : Nat)
    (ht : t < tasks.length)
    (hst : (lookup_task tasks t).state = TaskState.not_started)
    (hle : ((lookup_task tasks t).reqd_cores : Int) ≤ c.cores_available) :
    ∃ c1 tasks1, assign_task c tasks t = some (c1, tasks1) ∧
      (lookup_task tasks1 t).state = TaskState.running ∧
      c1.current_tasks = c.current_tasks ++ [t] ∧
      c1.cores_available = c.cores_available - ((lookup_task tasks t).reqd_cores : Int) ∧
      c1.assign_count = c.assign_count + 1 ∧
      c1.cores_total = c.cores_total ∧
      c1.cumulative_busy_ticks = c.cumulative_busy_ticks ∧
      c1.cumulative_idle_ticks = c.cumulative_idle_ticks ∧
      (lookup_task tasks1 t).ticks_remaining = (lookup_task tasks t).ticks_remaining := by
  cases h : assign_task c tasks t with
  | none => exact absurd h (assign_task_ne_none c tasks t hst hle)
  | some r =>
    obtain ⟨c1, tasks1⟩ := r
    obtain ⟨_, s2, s3, s4, _, s6, s7, s8, s9, _⟩ := assign_task_spec c tasks t c1 tasks1 h
    refine ⟨c1, tasks1, rfl, ?_, s3, s4, s9, s6, s7, s8, ?_⟩
    · rw [s2, lookup_task_modify_at, if_pos ⟨rfl, ht⟩]
      rfl
    · rw [s2]
      exact lookup_task_modify_at_proj Task.ticks_remaining
        (fun x => x.set_state TaskState.running) (fun _ => rfl) _ _ _

/-- A run of C19: the task `A(2, 5)` is assigned to the fresh node `n1` with 4 cores. -/
theorem C19_assign_task_effect_witness :
    ∃ c1 tasks1, assign_task (Compute.new "n1" 4) [Task.new "A" 2 5 0] 0 = some (c1, tasks1) ∧
      (lookup_task tasks1 0).state = TaskState.running ∧
      c1.current_tasks = (Compute.new "n1" 4).current_tasks ++ [0] ∧
      c1.cores_available = (Compute.new "n1" 4).cores_available -
        ((lookup_task [Task.new "A" 2 5 0] 0).reqd_cores : Int) ∧
      c1.assign_count = (Compute.new "n1" 4).assign_count + 1 ∧
      c1.cores_total = (Compute.new "n1" 4).cores_total ∧
      c1.cumulative_busy_ticks = (Compute.new "n1" 4).cumulative_busy_ticks ∧
      c1.cumulative_idle_ticks = (Compute.new "n1" 4).cumulative_idle_ticks ∧
      (lookup_task tasks1 0).ticks_remaining =
        (lookup_task [Task.new "A" 2 5 0] 0).ticks_remaining :=
  C19_assign_task_effect (Compute.new "n1" 4) [Task.new "A" 2 5 0] 0 (by decide) (by decide)
    (by decide)

/-- What the loop of `compute::tick` adds up over the tasks `todo`, also when a task
is listed more than once: no task changes its cores, every task counts its cores into
`cores_used` and `k` times its cores into the busy ticks, and the cores of a task go
either back to `cores_available` or stay with the kept tasks. -/
theorem tick_loop_totals (total : Int) (k : Nat) :
    ∀ (todo : List Nat) (a r : TickLoop), tick_loop total k todo a = some r →
      (∀ j, (lookup_task r.tasks j).reqd_cores = (lookup_task a.tasks j).reqd_cores) ∧
      r.cores_used = a.cores_used + (cores_in_use a.tasks todo : Int) ∧
      r.this_run_busy_ticks = a.this_run_busy_ticks + k * cores_in_use a.tasks todo ∧
      r.cores_available + (cores_in_use a.tasks r.kept : Int) =
        a.cores_available + (cores_in_use a.tasks a.kept : Int) +
          (cores_in_use a.tasks todo : Int) ∧
      a.cores_available ≤ r.cores_available := by
  intro todo
  induction todo with
  | nil =>
    intro a r h
    simp only [tick_loop, Option.some.injEq] at h
    subst h
    simp [cores_in_use]
  | cons t rest ih =>
    intro a r h
    have hreq : ∀ j, (lookup_task (modify_at (fun _ => ((lookup_task a.tasks t).run_for k).2) t
        a.tasks) j).reqd_cores = (lookup_task a.tasks j).reqd_cores := by
      intro j
      rw [lookup_task_modify_at]
      split
      · next hh => rw [(run_for_spec _ k).2.2.2.2.2.1, hh.1]
      · rfl
    have hin : ∀ l : List Nat, cores_in_use (modify_at
        (fun _ => ((lookup_task a.tasks t).run_for k).2) t a.tasks) l = cores_in_use a.tasks l :=
      fun l => cores_in_use_congr _ _ _ (fun j _ => hreq j)
    have hsum : cores_in_use a.tasks (t :: rest) =
        (lookup_task a.tasks t).reqd_cores + cores_in_use a.tasks rest := by
      simp [cores_in_use]
    have hbusy : ((lookup_task a.tasks t).run_for k).1.busy_ticks = k := (run_for_spec _ k).2.1
    have hnn : (0 : Int) ≤ ((lookup_task a.tasks t).reqd_cores : Int) := Int.natCast_nonneg _
    simp only [tick_loop, hreq, hbusy] at h
    split at h
    · split at h
      · obtain ⟨g1, g2, g3, g4, g5⟩ := ih _ r h
        simp only [hin] at g2 g3 g4 g5
        refine ⟨fun j => (g1 j).trans (hreq j), ?_, ?_, ?_, ?_⟩
        · rw [g2, hsum]; push_cast; ring
        · rw [g3, hsum]; ring
        · rw [g4, hsum]; push_cast; ring
        · omega
      · exact absurd h (by simp)
    · obtain ⟨g1, g2, g3, g4, g5⟩ := ih _ r h
      simp only [hin, cores_in_use_append] at g2 g3 g4 g5
      refine ⟨fun j => (g1 j).trans (hreq j), ?_, ?_, ?_, ?_⟩
      · rw [g2, hsum]; push_cast; ring
      · rw [g3, hsum]; ring
      · rw [g4, hsum]
        simp only [cores_in_use, List.map_cons, List.map_nil, List.sum_cons, List.sum_nil]
        push_cast
        ring
      · exact g5

/-- On a node whose cores are accounted for and whose `cores_available` is not
negative, `tick(k)` with `k > 0` passes its assertions; afterwards the cores are still
accounted for, `cores_total` is unchanged, and the busy and idle ticks of the call are
`k` times the cores in use and `k` times the cores not in use. -/
theorem tick_total (c : Compute) (tasks : List Task) (k : Nat) (hk : 0 < k)
    (hacc : cores_accounted tasks c) (hnn : 0 ≤ c.cores_available) :
    ∃ done c1 tasks1, tick c tasks k = some (done, c1, tasks1) ∧
      cores_accounted tasks1 c1 ∧ 0 ≤ c1.cores_available ∧ c1.cores_total = c.cores_total ∧
      c1.cumulative_busy_ticks = c.cumulative_busy_ticks + k * cores_in_use tasks c.current_tasks ∧
      (c1.cumulative_idle_ticks : Int) = (c.cumulative_idle_ticks : Int) +
        (c.cores_total - (cores_in_use tasks c.current_tasks : Int)) * (k : Int) := by
  unfold cores_accounted at hacc
  have hne := tick_loop_ne_none c.cores_total k c.current_tasks
    ⟨tasks, 0, 0, 0, 0, c.cores_available, []⟩ (by simp only; omega)
  cases hloop : tick_loop c.cores_total k c.current_tasks
      ⟨tasks, 0, 0, 0, 0, c.cores_available, []⟩ with
  | none => exact absurd hloop hne
  | some a =>
    obtain ⟨g1, g2, g3, g4, g5⟩ := tick_loop_totals c.cores_total k c.current_tasks _ a hloop
    simp only [zero_add, cores_in_use, List.map_nil, List.sum_nil, Nat.cast_zero, add_zero]
      at g2 g3 g4 g5
    have hused : c.cores_total ≥ a.cores_used := by
      rw [g2]; simp only [cores_in_use] at hacc; omega
    have hnn2 : 0 ≤ (c.cores_total - a.cores_used) * (k : Int) :=
      mul_nonneg (by omega) (Int.natCast_nonneg _)
    have hacc2 : c.cores_total * (k : Int) =
        ((((c.cores_total - a.cores_used) * (k : Int)).toNat + a.this_run_busy_ticks : Nat) : Int) := by
      push_cast
      rw [Int.toNat_of_nonneg hnn2, g3, g2]
      push_cast
      ring
    have htick : tick c tasks k = some (a.tasks_completed,
        { c with cores_available := a.cores_available, current_tasks := a.kept,
                 cumulative_idle_ticks := c.cumulative_idle_ticks +
                   ((c.cores_total - a.cores_used) * (k : Int)).toNat,
                 cumulative_busy_ticks := c.cumulative_busy_ticks + a.this_run_busy_ticks,
                 completed_tasks := c.completed_tasks + a.tasks_completed.toNat },
        a.tasks) := by
      simp only [tick, hk, gt_iff_lt, not_true_eq_false, if_false, hloop, hused, hacc2]
    refine ⟨_, _, _, htick, ?_, ?_, rfl, ?_, ?_⟩
    · unfold cores_accounted
      simp only
      have := cores_in_use_congr tasks a.tasks a.kept (fun j _ => g1 j)
      simp only [cores_in_use] at this hacc ⊢
      rw [this]
      omega
    · simp only
      omega
    · simp only [g3, cores_in_use]
    · simp only
      push_cast
      rw [Int.toNat_of_nonneg hnn2, g2]
      simp only [cores_in_use]

theorem reported_idle_eq (tasks : List Task) (k : Nat) (cur : List Nat) :
    reported_idle tasks k cur = idle_reported tasks k cur := by
  simp only [reported_idle, idle_reported, (run_for_spec _ k).2.2.1]

/-- C16. On a node whose cores are accounted for, whose current tasks are distinct
tasks of the table, `tick(k)` with `k > 0` returns the number of current tasks with
`ticks_remaining <= k` at the start of the call; exactly those tasks leave
`current_tasks`, the others stay in their order with `ticks_remaining` reduced by `k`,
and `cores_available` grows by the sum of `cores_required` over the tasks that left. -/
theorem C16_tick_completions (c : Compute) (tasks : List Task) (k : Nat) (hk : 0 < k)
    (hacc : cores_accounted tasks c) (hnn : 0 ≤ c.cores_available)
    (hnd : c.current_tasks.Nodup) (hlt : ∀ t ∈ c.current_tasks, t < tasks.length) :
    ∃ done c1 tasks1, tick c tasks k = some (done, c1, tasks1) ∧
      done = ((c.current_tasks.filter (finishes_within tasks k)).length : Int) ∧
      c1.current_tasks = c.current_tasks.filter (fun t => ! finishes_within tasks k t) ∧
      (∀ t ∈ c1.current_tasks, (lookup_task tasks1 t).ticks_remaining =
        (lookup_task tasks t).ticks_remaining - k) ∧
      c1.cores_available = c.cores_available +
        (cores_in_use tasks (c.current_tasks.filter (finishes_within tasks k)) : Int) := by
  obtain ⟨done, c1, tasks1, h, _⟩ := tick_total c tasks k hk hacc hnn
  obtain ⟨_, _, s3, s4, s5, s6, _⟩ := tick_spec c tasks k done c1 tasks1 hnd hlt h
  refine ⟨done, c1, tasks1, h, s5, s4, ?_, s6⟩
  intro t ht
  rw [s4] at ht
  rw [s3 t, if_pos (List.mem_of_mem_filter ht)]
  exact (run_for_spec _ k).2.2.2.1

/-- A run of C16: `tick(2)` on the node with `A(1, 2)` and `B(2, 5)`. -/
theorem C16_tick_completions_witness :
    ∃ done c1 tasks1, tick node_with_two_tasks two_running_tasks 2 = some (done, c1, tasks1) ∧
      done = ((node_with_two_tasks.current_tasks.filter
        (finishes_within two_running_tasks 2)).length : Int) ∧
      c1.current_tasks = node_with_two_tasks.current_tasks.filter
        (fun t => ! finishes_within two_running_tasks 2 t) ∧
      (∀ t ∈ c1.current_tasks, (lookup_task tasks1 t).ticks_remaining =
        (lookup_task two_running_tasks t).ticks_remaining - 2) ∧
      c1.cores_available = node_with_two_tasks.cores_available +
        (cores_in_use two_running_tasks (node_with_two_tasks.current_tasks.filter
          (finishes_within two_running_tasks 2)) : Int) :=
  C16_tick_completions node_with_two_tasks two_running_tasks 2 (by decide)
    (by unfold cores_accounted; decide) (by decide) (by decide) (by decide)

/-- C17. On a node whose cores are accounted for and whose current tasks need
`u <= cores_total` cores, `tick(k)` with `k > 0` passes its assertions and adds `u * k`
to `cumulative_busy_ticks` and `(cores_total - u) * k` to `cumulative_idle_ticks`,
whatever the `ticks_remaining` of the tasks; the two additions sum to
`cores_total * k`. -/
theorem C17_tick_accounting (c : Compute) (tasks : List Task) (k : Nat) (hk : 0 < k)
    (hacc : cores_accounted tasks c)
    (hu : (cores_in_use tasks c.current_tasks : Int) ≤ c.cores_total) :
    ∃ done c1 tasks1, tick c tasks k = some (done, c1, tasks1) ∧
      c1.cumulative_busy_ticks =
        c.cumulative_busy_ticks + cores_in_use tasks c.current_tasks * k ∧
      (c1.cumulative_idle_ticks : Int) = (c.cumulative_idle_ticks : Int) +
        (c.cores_total - (cores_in_use tasks c.current_tasks : Int)) * (k : Int) ∧
      c.cores_total * (k : Int) =
        ((c1.cumulative_busy_ticks : Int) - (c.cumulative_busy_ticks : Int)) +
          ((c1.cumulative_idle_ticks : Int) - (c.cumulative_idle_ticks : Int)) := by
  have hnn : 0 ≤ c.cores_available := by
    unfold cores_accounted at hacc
    omega
  obtain ⟨done, c1, tasks1, h, _, _, _, hb, hi⟩ := tick_total c tasks k hk hacc hnn
  refine ⟨done, c1, tasks1, h, ?_, hi, ?_⟩
  · rw [hb, Nat.mul_comm]
  · rw [hi, hb]
    push_cast
    ring

/-- A run of C17: `tick(3)` on the node with `A(1, 2)` and `B(2, 5)`; `A` finishes
after 2 of the 3 ticks. -/
theorem C17_tick_accounting_witness :
    ∃ done c1 tasks1, tick node_with_two_tasks two_running_tasks 3 = some (done, c1, tasks1) ∧
      c1.cumulative_busy_ticks = node_with_two_tasks.cumulative_busy_ticks +
        cores_in_use two_running_tasks node_with_two_tasks.current_tasks * 3 ∧
      (c1.cumulative_idle_ticks : Int) = (node_with_two_tasks.cumulative_idle_ticks : Int) +
        (node_with_two_tasks.cores_total -
          (cores_in_use two_running_tasks node_with_two_tasks.current_tasks : Int)) *
            ((3 : Nat) : Int) ∧
      node_with_two_tasks.cores_total * ((3 : Nat) : Int) =
        ((c1.cumulative_busy_ticks : Int) - (node_with_two_tasks.cumulative_busy_ticks : Int)) +
          ((c1.cumulative_idle_ticks : Int) -
            (node_with_two_tasks.cumulative_idle_ticks : Int)) :=
  C17_tick_accounting node_with_two_tasks two_running_tasks 3 (by decide)
    (by unfold cores_accounted; decide) (by decide)

/-- C18 fails as stated. The node `n1` with 4 cores runs `A(1, 2)` and `B(2, 5)`, both
placed by `assign_task`. In `tick(3)` the call `run_for(3)` of `A` reports 1 idle tick,
so the sum of the reported idle ticks times `cores_required` is 1, and 1 core is
unused, which gives `1 + 1 * 3 = 4` idle ticks by the claim; `tick` adds 3. -/
theorem C18_counterexample :
    (assign_task (Compute.new "n1" 4) [Task.new "A" 1 2 0, Task.new "B" 2 5 1] 0).bind
        (fun r => assign_task r.1 r.2 1) = some (node_with_two_tasks, two_running_tasks) ∧
    ∃ done c1 tasks1, tick node_with_two_tasks two_running_tasks 3 = some (done, c1, tasks1) ∧
      reported_idle two_running_tasks 3 node_with_two_tasks.current_tasks = 1 ∧
      node_with_two_tasks.cores_total -
        (cores_in_use two_running_tasks node_with_two_tasks.current_tasks : Int) = 1 ∧
      c1.cumulative_idle_ticks = node_with_two_tasks.cumulative_idle_ticks + 3 ∧
      (c1.cumulative_idle_ticks : Int) ≠ (node_with_two_tasks.cumulative_idle_ticks : Int) +
        ((reported_idle two_running_tasks 3 node_with_two_tasks.current_tasks : Int) +
          (node_with_two_tasks.cores_total -
            (cores_in_use two_running_tasks node_with_two_tasks.current_tasks : Int)) * 3) :=
  ⟨by decide, _, _, _, rfl, by decide, by decide, by decide, by decide⟩

/-- C18, amended. On a node whose cores are accounted for and whose current tasks are
distinct tasks of the table, the loop of `tick(k)`, `k > 0`, sums up the idle ticks
reported by `run_for(k)` times `cores_required`, but what `tick(k)` adds to
`cumulative_idle_ticks` is `unused_cores * k` alone, where `unused_cores` is
`cores_total` less the `cores_required` of the tasks current at the start of the call;
the sum of the loop is overwritten, and the claim's total is what is added exactly
when that sum is 0. -/
theorem C18_idle_ticks_unused_cores (c : Compute) (tasks : List Task) (k : Nat) (hk : 0 < k)
    (hacc : cores_accounted tasks c) (hnn : 0 ≤ c.cores_available)
    (hnd : c.current_tasks.Nodup) (hlt : ∀ t ∈ c.current_tasks, t < tasks.length) :
    ∃ a done c1 tasks1,
      tick_loop c.cores_total k c.current_tasks ⟨tasks, 0, 0, 0, 0, c.cores_available, []⟩ =
        some a ∧
      a.this_run_idle_ticks = reported_idle tasks k c.current_tasks ∧
      tick c tasks k = some (done, c1, tasks1) ∧
      (c1.cumulative_idle_ticks : Int) = (c.cumulative_idle_ticks : Int) +
        (c.cores_total - (cores_in_use tasks c.current_tasks : Int)) * (k : Int) ∧
      ((c1.cumulative_idle_ticks : Int) = (c.cumulative_idle_ticks : Int) +
          ((reported_idle tasks k c.current_tasks : Int) +
            (c.cores_total - (cores_in_use tasks c.current_tasks : Int)) * (k : Int)) ↔
        reported_idle tasks k c.current_tasks = 0) := by
  obtain ⟨done, c1, tasks1, h, _, _, _, _, hi⟩ := tick_total c tasks k hk hacc hnn
  cases hloop : tick_loop c.cores_total k c.current_tasks
      ⟨tasks, 0, 0, 0, 0, c.cores_available, []⟩ with
  | none => simp [tick, hk, hloop] at h
  | some a =>
    obtain ⟨_, _, _, _, _, _, _, g8, _, _⟩ :=
      tick_loop_spec c.cores_total k c.current_tasks _ a hnd hlt hloop
    refine ⟨a, done, c1, tasks1, rfl, ?_, h, hi, ?_⟩
    · rw [g8, reported_idle_eq]
      simp
    · rw [hi]
      constructor
      · intro he
        omega
      · intro he
        rw [he]
        simp

/-- A run of the amended C18 on the input of the counterexample. -/
theorem C18_idle_ticks_unused_cores_witness :
    ∃ a done c1 tasks1,
      tick_loop node_with_two_tasks.cores_total 3 node_with_two_tasks.current_tasks
        ⟨two_running_tasks, 0, 0, 0, 0, node_with_two_tasks.cores_available, []⟩ = some a ∧
      a.this_run_idle_ticks =
        reported_idle two_running_tasks 3 node_with_two_tasks.current_tasks ∧
      tick node_with_two_tasks two_running_tasks 3 = some (done, c1, tasks1) ∧
      (c1.cumulative_idle_ticks : Int) = (node_with_two_tasks.cumulative_idle_ticks : Int) +
        (node_with_two_tasks.cores_total -
          (cores_in_use two_running_tasks node_with_two_tasks.current_tasks : Int)) *
            ((3 : Nat) : Int) ∧
      ((c1.cumulative_idle_ticks : Int) = (node_with_two_tasks.cumulative_idle_ticks : Int) +
          ((reported_idle two_running_tasks 3 node_with_two_tasks.current_tasks : Int) +
            (node_with_two_tasks.cores_total -
              (cores_in_use two_running_tasks node_with_two_tasks.current_tasks : Int)) *
                ((3 : Nat) : Int)) ↔
        reported_idle two_running_tasks 3 node_with_two_tasks.current_tasks = 0) :=
  C18_idle_ticks_unused_cores node_with_two_tasks two_running_tasks 3 (by decide)
    (by unfold cores_accounted; decide) (by decide) (by decide) (by decide)

/-- C20. The node predicate `cores_available = cores_total - sum of cores_required over
current_tasks` holds for a node fresh from its constructor; `assign_task` of a task that
is `not_started` and fits the available cores passes its assertions and keeps the
predicate; `tick(k)` with `k > 0` passes its assertions when `cores_available` is not
negative and keeps the predicate; and every call of `tick` that returns keeps it.
`cores_available` stays non-negative throughout. -/
theorem C20_cores_accounted_invariant :
    (∀ (name : String) (cores : Nat) (tasks : List Task),
      cores_accounted tasks (Compute.new name cores) ∧
      0 ≤ (Compute.new name cores).cores_available) ∧
    (∀ (c : Compute) (tasks : List Task) (t : Nat), cores_accounted tasks c →
      (lookup_task tasks t).state = TaskState.not_started →
      ((lookup_task tasks t).reqd_cores : Int) ≤ c.cores_available →
      ∃ c1 tasks1, assign_task c tasks t = some (c1, tasks1) ∧ cores_accounted tasks1 c1 ∧
        0 ≤ c1.cores_available) ∧
    (∀ (c : Compute) (tasks : List Task) (k : Nat), cores_accounted tasks c →
      0 ≤ c.cores_available → 0 < k →
      ∃ done c1 tasks1, tick c tasks k = some (done, c1, tasks1) ∧ cores_accounted tasks1 c1 ∧
        0 ≤ c1.cores_available) ∧
    (∀ (c : Compute) (tasks : List Task) (k : Nat) (done : Int) (c1 : Compute)
      (tasks1 : List Task), cores_accounted tasks c →
      tick c tasks k = some (done, c1, tasks1) → cores_accounted tasks1 c1) := by
  refine ⟨?_, ?_, ?_, ?_⟩
  · intro name cores tasks
    simp [cores_accounted, Compute.new, cores_in_use]
  · intro c tasks t hacc hst hle
    cases h : assign_task c tasks t with
    | none => exact absurd h (assign_task_ne_none c tasks t hst hle)
    | some r =>
      obtain ⟨c1, tasks1⟩ := r
      obtain ⟨_, s2, s3, s4, s5, s6, _⟩ := assign_task_spec c tasks t c1 tasks1 h
      refine ⟨c1, tasks1, rfl, ?_, s5⟩
      have hreq : ∀ j, (lookup_task tasks1 j).reqd_cores = (lookup_task tasks j).reqd_cores := by
        intro j
        rw [s2]
        exact lookup_task_modify_at_proj Task.reqd_cores
          (fun x => x.set_state TaskState.running) (fun _ => rfl) _ _ _
      unfold cores_accounted at hacc ⊢
      rw [s4, s6, s3, cores_in_use_congr tasks tasks1 _ (fun j _ => hreq j), cores_in_use_append,
        hacc]
      simp only [cores_in_use, List.map_cons, List.map_nil, List.sum_cons, List.sum_nil,
        add_zero, Nat.cast_add]
      ring
  · intro c tasks k hacc hnn hk
    obtain ⟨done, c1, tasks1, h, h1, h2, _⟩ := tick_total c tasks k hk hacc hnn
    exact ⟨done, c1, tasks1, h, h1, h2⟩
  · intro c tasks k done c1 tasks1 hacc h
    have hk : 0 < k := by
      by_contra hk
      simp [tick, hk] at h
    have hnn : 0 ≤ c.cores_available := by
      simp only [tick, hk, gt_iff_lt, not_true_eq_false, if_false] at h
      cases hloop : tick_loop c.cores_total k c.current_tasks
          ⟨tasks, 0, 0, 0, 0, c.cores_available, []⟩ with
      | none => simp [hloop] at h
      | some a =>
        obtain ⟨_, g2, _⟩ := tick_loop_totals c.cores_total k c.current_tasks _ a hloop
        simp only [hloop] at h
        split at h
        · exact absurd h (by simp)
        · next hused =>
          simp only [not_not, zero_add] at hused g2
          unfold cores_accounted at hacc
          omega
    obtain ⟨done2, c2, tasks2, h2, hr, _⟩ := tick_total c tasks k hk hacc hnn
    rw [h] at h2
    simp only [Option.some.injEq, Prod.mk.injEq] at h2
    obtain ⟨_, rfl, rfl⟩ := h2
    exact hr

/-- A run of C20: the predicate holds for the fresh node `n1` with 4 cores, after the
assignment of `A(1, 2)`, and after `tick(2)` on the node with `A` and `B(2, 5)`. -/
theorem C20_cores_accounted_invariant_witness :
    cores_accounted [Task.new "A" 1 2 0] (Compute.new "n1" 4) ∧
    (∃ c1 tasks1, assign_task (Compute.new "n1" 4) [Task.new "A" 1 2 0] 0 = some (c1, tasks1) ∧
      cores_accounted tasks1 c1 ∧ 0 ≤ c1.cores_available) ∧
    ∃ done c1 tasks1, tick node_with_two_tasks two_running_tasks 2 = some (done, c1, tasks1) ∧
      cores_accounted tasks1 c1 ∧ 0 ≤ c1.cores_available :=
  ⟨(C20_cores_accounted_invariant.1 "n1" 4 [Task.new "A" 1 2 0]).1,
    C20_cores_accounted_invariant.2.1 (Compute.new "n1" 4) [Task.new "A" 1 2 0] 0
      (C20_cores_accounted_invariant.1 "n1" 4 [Task.new "A" 1 2 0]).1 (by decide) (by decide),
    C20_cores_accounted_invariant.2.2.1 node_with_two_tasks two_running_tasks 2
      (by unfold cores_accounted; decide) (by decide) (by decide)⟩

/-! ## Validation that fails -/

/-- The first loop of `validate_tasks` returns `missing_dependency` with `last_task` set
to the first task that has a parent name without a task, when that task and the tasks
before it fit the largest node. -/
theorem validate_loop_missing (mc : Compute) :
    ∀ (pre : List Nat) (t : Nat) (post : List Nat) (v : ValidateLoop),
      (∀ j ∈ pre, (lookup_task v.tasks j).reqd_cores ≤ mc.get_cores ∧
        resolves v.tasks j = true) →
      (lookup_task v.tasks t).reqd_cores ≤ mc.get_cores → resolves v.tasks t = false →
      ∃ v2, validate_loop (some mc) (pre ++ t :: post) v =
        ValidateExit.returned Status.missing_dependency (some t) v2 := by
  intro pre
  induction pre with
  | nil =>
    intro t post v _ hfit hres
    obtain ⟨_, _, _, _, m5⟩ := map_dependencies_spec v.tasks t
    refine ⟨{ v with tasks := (map_dependencies v.tasks t).2 }, ?_⟩
    simp only [List.nil_append, validate_loop, gt_iff_lt, not_lt.mpr hfit, if_false, m5, hres,
      Bool.false_eq_true, not_false_eq_true, if_true]
  | cons j pre ih =>
    intro t post v hpre hfit hres
    obtain ⟨hj1, hj2⟩ := hpre j (List.mem_cons_self _ _)
    obtain ⟨_, m2, _, _, m5⟩ := map_dependencies_spec v.tasks j
    have hreq : ∀ i, (lookup_task (map_dependencies v.tasks j).2 i).reqd_cores =
        (lookup_task v.tasks i).reqd_cores :=
      map_dependencies_proj Task.reqd_cores depsFrame_reqd_cores v.tasks j
    have hres2 : ∀ i, resolves (map_dependencies v.tasks j).2 i = resolves v.tasks i :=
      fun i => resolves_congr _ _ i m2
        (map_dependencies_proj Task.dep_str depsFrame_dep_str v.tasks j i)
    simp only [List.cons_append, validate_loop, gt_iff_lt, not_lt.mpr hj1, if_false, m5, hj2,
      not_true_eq_false]
    apply ih
    · intro i hi
      simp only [hreq, hres2]
      exact hpre i (List.mem_cons_of_mem _ hi)
    · simp only [hreq]
      exact hfit
    · simp only [hres2]
      exact hres

theorem range_split (n t : Nat) (h : t < n) :
    ∃ post, List.range n = List.range t ++ t :: post := by
  obtain ⟨m, rfl⟩ : ∃ m, n = t + 1 + m := ⟨n - (t + 1), by omega⟩
  refine ⟨(List.range m).map (fun i => t + 1 + i), ?_⟩
  rw [List.range_add, List.range_succ, List.append_assoc, List.singleton_append]

/-- C11. On a non-empty node list, when `t` is the first task of the list, in list
order, with a parent name that is the name of no task, and neither `t` nor a task
before it needs more cores than the largest `cores_total`, `validate_tasks` returns
`missing_dependency` and leaves `t` in `last_task`. -/
theorem C11_missing_dependency (nodes : List (String × Nat)) (tasks : List TaskInput)
    (hne : nodes ≠ []) (t : Nat) (ht : t < tasks.length)
    (hmiss : has_unresolved_parent tasks tasks[t])
    (hfirst : ∀ j, ∀ hj : j < t, ¬ has_unresolved_parent tasks tasks[j])
    (hfit : ∀ j, ∀ hj : j ≤ t, tasks[j].cores_required ≤ largest_cores_total nodes) :
    ∃ p, validate_tasks (Planner.of_input nodes tasks) = some (Status.missing_dependency, p) ∧
      p.last_task = some t := by
  obtain ⟨mc, hmc, hcores⟩ := max_element_read_compute nodes hne
  obtain ⟨post, hpost⟩ := range_split tasks.length t ht
  have hreq : ∀ j, ∀ hj : j < tasks.length,
      (lookup_task (read_tasks tasks) j).reqd_cores = tasks[j].cores_required := by
    intro j hj
    rw [lookup_read_tasks tasks j hj]
    exact (of_input_fields _ _).2.1
  obtain ⟨v2, hv2⟩ := validate_loop_missing mc (List.range t) t post
    ⟨read_tasks tasks, [], [], none⟩
    (by
      intro j hj
      have hjt : j < t := List.mem_range.mp hj
      refine ⟨?_, ?_⟩
      · simp only
        rw [hreq j (by omega), hcores]
        exact hfit j (by omega)
      · exact (resolves_read_tasks tasks j (by omega)).mpr (hfirst j hjt))
    (by
      simp only
      rw [hreq t ht, hcores]
      exact hfit t (le_refl t))
    (by
      simp only
      cases hr : resolves (read_tasks tasks) t with
      | false => rfl
      | true => exact absurd hmiss ((resolves_read_tasks tasks t ht).mp hr))
  refine ⟨{ Planner.of_input nodes tasks with
    tasks := v2.tasks, edge := v2.edge, last_task := some t }, ?_, rfl⟩
  simp only [validate_tasks, Planner.of_input, Planner.new, hmc, length_read_tasks, hpost, hv2]

/-- A run of C11: the one task `A(1, 1)` with parent `Z` on the node `n1` with 4 cores;
no task is called `Z`. -/
theorem C11_missing_dependency_witness :
    ∃ p, validate_tasks (Planner.of_input [("n1", 4)] [⟨"A", 1, 1, "Z"⟩]) =
        some (Status.missing_dependency, p) ∧
      p.last_task = some 0 :=
  C11_missing_dependency [("n1", 4)] [⟨"A", 1, 1, "Z"⟩] (by simp) 0 (by decide)
    ⟨"Z", by decide, by decide⟩ (fun j hj => absurd hj (Nat.not_lt_zero j))
    (fun j hj => by
      have hj0 : j = 0 := Nat.le_zero.mp hj
      subst hj0
      simp [largest_cores_total])

/-! ## Runs under every behaviour of `std::sort` -/

theorem mem_insert_all (a : Nat) : ∀ (l1 l2 : List Nat), l1 ++ a :: l2 ∈ insert_all a (l1 ++ l2)
  | [], [] => by simp [insert_all]
  | [], b :: l2 => by simp [insert_all]
  | b :: l1, l2 => by
    simp only [List.cons_append, insert_all, List.mem_cons, List.mem_map]
    exact Or.inr ⟨_, mem_insert_all a l1 l2, rfl⟩

/-- Every rearrangement of a list is listed by `rearrangements`. -/
theorem mem_rearrangements : ∀ (l l1 : List Nat), l1.Perm l → l1 ∈ rearrangements l
  | [], l1, h => by
    rw [List.perm_nil.mp h]
    simp [rearrangements]
  | a :: l, l1, h => by
    have ha : a ∈ l1 := h.symm.subset (List.mem_cons_self a l)
    obtain ⟨m1, m2, rfl⟩ := List.append_of_mem ha
    have hp : (m1 ++ m2).Perm l :=
      (List.perm_cons a).mp ((List.perm_middle.symm).trans h)
    simp only [rearrangements, List.mem_flatMap]
    exact ⟨m1 ++ m2, mem_rearrangements l _ hp, mem_insert_all a m1 m2⟩

/-- Away from the loop head a step does not sort. -/
theorem step_no_sort (srt : StdSort) (s : SchedState) (h : s.pc ≠ Control.loop_head) :
    step srt s = step insertion_sorter s := by
  unfold step
  split
  · rfl
  · rfl
  · next hpc => exact absurd hpc h
  · rfl
  · rfl

/-- At the loop head with tasks remaining, a step enters the loop over the runnable
tasks with the two lists as `std::sort` left them. -/
theorem step_loop_head_enter (srt : StdSort) (s : SchedState) (hpc : s.pc = Control.loop_head)
    (hrem : s.tasks_remaining ≠ 0) :
    step srt s = enter_placing
      (srt.sort (fun a b => sort_max_cores (lookup_comp s.p.comp a) (lookup_comp s.p.comp b))
        (find_available s.p.comp))
      (srt.sort
        (fun a b => runnable_task_sort (lookup_task s.p.tasks a) (lookup_task s.p.tasks b))
        (build_runnable s.p.tasks s.p.job_sequence ([], s.p.count_dep_wait)).1) s := by
  simp only [step, hpc, hrem, if_false, enter_placing]

/-- When `all_runs q k s` holds, `q` holds after `k` steps from `s` for every
implementation of `std::sort`. -/
theorem all_runs_sound (q : SchedState → Bool) (srt : StdSort) :
    ∀ (k : Nat) (s : SchedState), all_runs q k s = true → q ((step srt)^[k] s) = true := by
  intro k
  induction k with
  | zero => intro s h; exact h
  | succ k ih =>
    intro s h
    rw [Function.iterate_succ_apply]
    by_cases hpc : s.pc = Control.loop_head
    · by_cases hrem : s.tasks_remaining = 0
      · have hstep : step srt s = { s with pc := Control.returned } := by
          simp only [step, hpc, hrem, if_true]
        rw [hstep]
        apply ih
        simpa only [all_runs, hpc, hrem, if_true] using h
      · rw [step_loop_head_enter srt s hpc hrem]
        apply ih
        simp only [all_runs, hpc, hrem, if_false, List.all_eq_true] at h
        exact h _ (mem_rearrangements _ _ (srt.perm _ _)) _
          (mem_rearrangements _ _ (srt.perm _ _))
    · rw [step_no_sort srt s hpc]
      apply ih
      cases hc : s.pc with
      | loop_head => exact absurd hc hpc
      | placing ca todo m => simpa only [all_runs, hc] using h
      | returned => simpa only [all_runs, hc] using h
      | aborted => simpa only [all_runs, hc] using h

theorem run_eq_iterate (srt : StdSort) (p : Planner) :
    ∀ k, run srt p k = (step srt)^[k] (schedule_start p)
  | 0 => rfl
  | k + 1 => by
    rw [Function.iterate_succ_apply', ← run_eq_iterate srt p k]
    rfl

/-- When the check `all_runs` finds the run returned after `k` steps with schedule `sch`
and `required_ticks = ticks` under every order of the sorted lists, `schedule_tasks`
returns that with every implementation of `std::sort`. -/
theorem schedule_tasks_of_all_runs (srt : StdSort) (p : Planner) (k : Nat)
    (sch : List (Nat × Nat)) (ticks : Nat)
    (h : all_runs (fun s => decide (s.pc = Control.returned ∧ s.p.schedule = sch ∧
      s.p.required_ticks = ticks)) k (schedule_start p) = true) :
    ∃ p2, schedule_tasks srt p k = some (sch, p2) ∧ p2.required_ticks = ticks := by
  have h2 := all_runs_sound _ srt k _ h
  rw [← run_eq_iterate] at h2
  simp only [decide_eq_true_eq] at h2
  obtain ⟨h1, h2, h3⟩ := h2
  refine ⟨_, ?_, h3⟩
  simp only [schedule_tasks, h1, h2]

/-- C13. Scenario S1: on the node `n1` with 4 cores and the tasks `A(1, 2)`, `B(1, 3)`
with parent `A`, `C(1, 1)` with parent `B`, in this order, `validate_tasks` returns `ok`
and `schedule_tasks` returns, within 12 steps and with every implementation of
`std::sort`, exactly the schedule `(A, n1)`, `(B, n1)`, `(C, n1)` with
`required_ticks = 6`. -/
theorem C13_scenario_S1 (srt : StdSort) :
    ∃ p, validate_tasks (Planner.of_input [("n1", 4)]
        [⟨"A", 1, 2, ""⟩, ⟨"B", 1, 3, "A"⟩, ⟨"C", 1, 1, "B"⟩]) = some (Status.ok, p) ∧
      ∃ p2, schedule_tasks srt p 12 = some ([(0, 0), (1, 0), (2, 0)], p2) ∧
        p2.required_ticks = 6 := by
  refine ⟨_, rfl, ?_⟩
  exact schedule_tasks_of_all_runs srt _ 12 _ 6 (by decide)

/-- When `all_runs q k` holds at the start state, `q` holds of the run after `k` steps
with every implementation of `std::sort`. -/
theorem run_of_all_runs (q : SchedState → Bool) (srt : StdSort) (p : Planner) (k : Nat)
    (h : all_runs q k (schedule_start p) = true) : q (run srt p k) = true := by
  rw [run_eq_iterate]
  exact all_runs_sound q srt k _ h

theorem at_loop_end_pc (s : SchedState) (h : at_loop_end s = true) :
    ∃ ca m, s.pc = Control.placing ca [] m := by
  unfold at_loop_end at h
  split at h
  · next ca m hpc => exact ⟨ca, m, hpc⟩
  · exact absurd h (by simp)

/-- What the checks of the runs from `p` after 4, 5 and 13 steps give for every
implementation of `std::sort`. -/
theorem one_placement_runs (srt : StdSort) (p : Planner)
    (h4 : all_runs (fun s => at_loop_end s && decide (s.p.schedule.length = 1 ∧
      s.p.tasks.countP (fun t => decide (t.state = TaskState.not_started)) = 2 ∧
      s.p.comp.countP (fun c => decide (c.cores_available = 2)) = 1)) 4
        (schedule_start p) = true)
    (h5 : all_runs (fun s => decide (s.pc = Control.loop_head ∧ s.p.schedule.length = 1 ∧
      s.p.required_ticks = 5)) 5 (schedule_start p) = true)
    (h13 : all_runs (fun s => decide (s.pc = Control.returned ∧ s.p.schedule.length = 3 ∧
      s.p.required_ticks = 15)) 13 (schedule_start p) = true) :
    ((∃ ca m, (run srt p 4).pc = Control.placing ca [] m) ∧
      (run srt p 4).p.schedule.length = 1 ∧
      (run srt p 4).p.tasks.countP (fun t => decide (t.state = TaskState.not_started)) = 2 ∧
      (run srt p 4).p.comp.countP (fun c => decide (c.cores_available = 2)) = 1) ∧
    ((run srt p 5).pc = Control.loop_head ∧ (run srt p 5).p.schedule.length = 1 ∧
      (run srt p 5).p.required_ticks = 5) ∧
    ∃ sch p2, schedule_tasks srt p 13 = some (sch, p2) ∧ sch.length = 3 ∧
      p2.required_ticks = 15 := by
  have g4 := run_of_all_runs _ srt p 4 h4
  have g5 := run_of_all_runs _ srt p 5 h5
  have g13 := run_of_all_runs _ srt p 13 h13
  simp only [Bool.and_eq_true, decide_eq_true_eq] at g4 g5 g13
  refine ⟨⟨at_loop_end_pc _ g4.1, g4.2⟩, g5, _, _, ?_, g13.2.1, g13.2.2⟩
  simp only [schedule_tasks, g13.1]

/-- C14 fails on scenario S2, the nodes `n1` and `n2` with 2 cores each and the tasks
`A(2, 5)`, `B(2, 5)`, `C(2, 5)` without parents, with every implementation of
`std::sort`. `validate_tasks` returns `ok`. After 4 steps the loop over the runnable
tasks of the first iteration is over: one task is placed, two tasks are `not_started`
and one node has both its cores available, because the walk over `comp_avail` ends at
its first node, which the first placement filled. The first iteration then advances 5
ticks with one task running, and `schedule_tasks` returns after three iterations with
`required_ticks = 15`. -/
theorem C14_scenario_S2_takes_15_ticks (srt : StdSort) :
    ∃ p, validate_tasks (Planner.of_input [("n1", 2), ("n2", 2)]
        [⟨"A", 2, 5, ""⟩, ⟨"B", 2, 5, ""⟩, ⟨"C", 2, 5, ""⟩]) = some (Status.ok, p) ∧
      ((∃ ca m, (run srt p 4).pc = Control.placing ca [] m) ∧
        (run srt p 4).p.schedule.length = 1 ∧
        (run srt p 4).p.tasks.countP (fun t => decide (t.state = TaskState.not_started)) = 2 ∧
        (run srt p 4).p.comp.countP (fun c => decide (c.cores_available = 2)) = 1) ∧
      ((run srt p 5).pc = Control.loop_head ∧ (run srt p 5).p.schedule.length = 1 ∧
        (run srt p 5).p.required_ticks = 5) ∧
      ∃ sch p2, schedule_tasks srt p 13 = some (sch, p2) ∧ sch.length = 3 ∧
        p2.required_ticks = 15 := by
  refine ⟨_, rfl, ?_⟩
  exact one_placement_runs srt _ (by decide) (by decide) (by decide)

/-! ## A cycle of dependencies -/

/-- In a list without repetition, `Before` orders the positions. -/
theorem before_indexOf (l : List Nat) (a b : Nat) (hnd : l.Nodup) (h : Before l a b) :
    l.indexOf a < l.indexOf b := by
  obtain ⟨l1, l2, l3, rfl⟩ := h
  rw [List.append_assoc] at hnd ⊢
  have h1 := List.nodup_append.mp hnd
  have ha1 : a ∉ l1 := fun hm => h1.2.2 hm (List.mem_cons_self _ _)
  have hb1 : b ∉ l1 := fun hm => h1.2.2 hm (by simp)
  have h2 := List.nodup_cons.mp h1.2.1
  have hba : b ≠ a := fun e => h2.1 (by simp [e])
  have hb2 : b ∉ l2 := by
    intro hm
    have h3 := List.nodup_append.mp h2.2
    exact h3.2.2 hm (List.mem_cons_self _ _)
  rw [List.indexOf_append_of_not_mem ha1, List.indexOf_append_of_not_mem hb1,
    List.cons_append, List.indexOf_cons_self, List.indexOf_cons_ne _ hba.symm,
    List.indexOf_append_of_not_mem hb2, List.indexOf_cons_self]
  omega

/-- The depth-first search does not finish on a graph with a cycle. -/
theorem topological_sort_cycle (g : TaskGraph) (hg : GraphClosed g) (x : Nat)
    (hcyc : Relation.TransGen (fun u v => v ∈ g.getD u []) x x) (r : DfsState) :
    topological_sort g ≠ DfsResult.done r := by
  intro h
  obtain ⟨t1, _, t3⟩ := topological_sort_spec g hg r h
  have hlt : ∀ a b, Relation.TransGen (fun u v => v ∈ g.getD u []) a b →
      r.out.indexOf b < r.out.indexOf a := by
    intro a b hab
    induction hab with
    | single hstep => exact before_indexOf _ _ _ t1 (t3 _ _ hstep)
    | tail _ hstep ih => exact lt_trans (before_indexOf _ _ _ t1 (t3 _ _ hstep)) ih
  exact lt_irrefl _ (hlt x x hcyc)

/-- The search `by_name.find` returns the first task of the table with the name. -/
theorem lookup_name_from_first (nm : String) :
    ∀ (l : List Task) (i j : Nat), j < l.length → (lookup_task l j).name = nm →
      (∀ k, k < j → (lookup_task l k).name ≠ nm) → lookup_name_from nm l i = some (i + j)
  | [], _, _, h, _, _ => by simp at h
  | a :: l, i, 0, _, hj, _ => by
    simp only [lookup_task, List.getD_cons_zero] at hj
    simp [lookup_name_from, hj]
  | a :: l, i, j + 1, h, hj, hk => by
    have ha : a.name ≠ nm := by
      have := hk 0 (Nat.succ_pos j)
      simpa only [lookup_task, List.getD_cons_zero] using this
    have h2 : j < l.length := by simpa using h
    have := lookup_name_from_first nm l (i + 1) j h2
      (by simpa only [lookup_task, List.getD_cons_succ] using hj)
      (fun k hk2 => by
        have := hk (k + 1) (by omega)
        simpa only [lookup_task, List.getD_cons_succ] using this)
    simp only [lookup_name_from, ha, if_false, this]
    congr 1
    omega

/-- A name that resolves to position `j` of the input is looked up as the task pointer
`j` in the table read from the input. -/
theorem lookup_task_name_read_tasks (tasks : List TaskInput) (nm : String) (j : Nat)
    (h : resolves_to tasks nm j) : lookup_task_name (read_tasks tasks) nm = some j := by
  obtain ⟨hj, hnm, hfirst⟩ := h
  have := lookup_name_from_first nm (read_tasks tasks) 0 j
    (by rw [length_read_tasks]; exact hj)
    (by rw [lookup_read_tasks tasks j hj, (of_input_fields _ _).1]; exact hnm)
    (fun k hk => by
      rw [lookup_read_tasks tasks k (by omega), (of_input_fields _ _).1]
      exact hfirst k hk)
  simpa only [lookup_task_name, Nat.zero_add] using this

/-- The loop of `map_dependencies` keeps the dependencies the task has and adds the
task of every name that resolves. -/
theorem map_deps_loop_complete (self : Nat) :
    ∀ (names : List String) (b : Bool) (tasks : List Task), self < tasks.length →
      (∀ T ∈ (lookup_task tasks self).deps,
        T ∈ (lookup_task (map_deps_loop self names (b, tasks)).2 self).deps) ∧
      (∀ nm ∈ names, ∀ j, lookup_task_name tasks nm = some j →
        j ∈ (lookup_task (map_deps_loop self names (b, tasks)).2 self).deps) := by
  intro names
  induction names with
  | nil =>
    intro b tasks _
    exact ⟨fun T hT => hT, fun nm hnm => absurd hnm (List.not_mem_nil nm)⟩
  | cons nm rest ih =>
    intro b tasks hself
    cases hl : lookup_task_name tasks nm with
    | none =>
      simp only [map_deps_loop, hl]
      obtain ⟨i1, i2⟩ := ih false tasks hself
      refine ⟨i1, ?_⟩
      intro nm2 hnm2 j hj
      rcases List.mem_cons.mp hnm2 with rfl | hin
      · rw [hl] at hj
        exact absurd hj (by simp)
      · exact i2 nm2 hin j hj
    | some t =>
      simp only [map_deps_loop, hl]
      have hlen : (modify_at (_push_dep t) self (modify_at (_incr_waiters self) t tasks)).length =
          tasks.length := by
        rw [length_modify_at, length_modify_at]
      have hnames : (modify_at (_push_dep t) self
          (modify_at (_incr_waiters self) t tasks)).map Task.name = tasks.map Task.name := by
        rw [map_name_modify_at (_push_dep t) (fun _ => rfl),
          map_name_modify_at (_incr_waiters self) (fun _ => rfl)]
      have hdeps : (lookup_task (modify_at (_push_dep t) self
          (modify_at (_incr_waiters self) t tasks)) self).deps =
          (lookup_task tasks self).deps ++ [t] := by
        rw [lookup_task_modify_at, if_pos ⟨rfl, by rw [length_modify_at]; exact hself⟩]
        simp only [_push_dep]
        rw [lookup_task_modify_at_proj Task.deps (_incr_waiters self) (fun _ => rfl)]
      obtain ⟨i1, i2⟩ := ih b _ (hlen ▸ hself)
      refine ⟨?_, ?_⟩
      · intro T hT
        exact i1 T (by rw [hdeps]; exact List.mem_append_left _ hT)
      · intro nm2 hnm2 j hj
        rcases List.mem_cons.mp hnm2 with rfl | hin
        · rw [hl] at hj
          have hjt : t = j := Option.some.inj hj
          exact i1 j (by rw [hdeps, hjt]; simp)
        · apply i2 nm2 hin j
          simp only [lookup_task_name] at hj ⊢
          rw [lookup_name_from_congr nm2 _ tasks 0 hnames]
          exact hj

/-- The method `map_dependencies` keeps the dependencies the task has and adds the task
of every parent name that resolves. -/
theorem map_dependencies_complete (tasks : List Task) (self : Nat) (hself : self < tasks.length) :
    (∀ T ∈ (lookup_task tasks self).deps,
      T ∈ (lookup_task (map_dependencies tasks self).2 self).deps) ∧
    (∀ nm ∈ _get_dep_str (lookup_task tasks self), ∀ j, lookup_task_name tasks nm = some j →
      j ∈ (lookup_task (map_dependencies tasks self).2 self).deps) := by
  obtain ⟨i1, i2⟩ := map_deps_loop_complete self (_get_dep_str (lookup_task tasks self)) true
    tasks hself
  have hd : ∀ l : List Task, (lookup_task (modify_at _set_mapped self l) self).deps =
      (lookup_task l self).deps :=
    fun l => lookup_task_modify_at_proj Task.deps _set_mapped (fun _ => rfl) _ _ _
  simp only [map_dependencies, hd]
  exact ⟨i1, i2⟩

/-- The first loop of `validate_tasks` keeps the dependencies of every task and, for
every task it examines, adds the task of every parent name that resolves. -/
theorem validate_loop_deps_complete (n : Nat) (mco : Option Compute) :
    ∀ (todo : List Nat) (v v2 : ValidateLoop), v.tasks.length = n → (∀ i ∈ todo, i < n) →
      validate_loop mco todo v = ValidateExit.finished v2 →
      (∀ U T, T ∈ (lookup_task v.tasks U).deps → T ∈ (lookup_task v2.tasks U).deps) ∧
      (∀ i ∈ todo, ∀ nm ∈ _get_dep_str (lookup_task v.tasks i), ∀ j,
        lookup_task_name v.tasks nm = some j → j ∈ (lookup_task v2.tasks i).deps) := by
  intro todo
  induction todo with
  | nil =>
    intro v v2 _ _ h
    simp only [validate_loop, ValidateExit.finished.injEq] at h
    subst h
    exact ⟨fun _ _ hT => hT, fun i hi => absurd hi (List.not_mem_nil i)⟩
  | cons itr rest ih =>
    intro v v2 hlen htodo h
    have hitr : itr < v.tasks.length := hlen ▸ htodo itr (List.mem_cons_self _ _)
    cases mco with
    | none => simp [validate_loop] at h
    | some mc =>
    simp only [validate_loop] at h
    split at h
    · exact absurd h (by simp)
    · split at h
      · exact absurd h (by simp)
      · obtain ⟨m1, m2, m3, _, _⟩ := map_dependencies_spec v.tasks itr
        obtain ⟨c1, c2⟩ := map_dependencies_complete v.tasks itr hitr
        obtain ⟨i1, i2⟩ := ih _ v2 (m1.trans hlen)
          (fun i hi => htodo i (List.mem_cons_of_mem _ hi)) h
        simp only at i1 i2
        have hmono : ∀ U T, T ∈ (lookup_task v.tasks U).deps →
            T ∈ (lookup_task (map_dependencies v.tasks itr).2 U).deps := by
          intro U T hT
          by_cases hU : U = itr
          · rw [hU] at hT ⊢
            exact c1 T hT
          · rw [m3 U hU]
            exact hT
        refine ⟨fun U T hT => i1 U T (hmono U T hT), ?_⟩
        intro i hi nm hnm j hj
        rcases List.mem_cons.mp hi with rfl | hin
        · exact i1 _ _ (c2 nm hnm j hj)
        · apply i2 i hin nm
          · rw [get_dep_str_congr _ _
              (map_dependencies_proj Task.dep_str depsFrame_dep_str v.tasks itr i)]
            exact hnm
          · simp only [lookup_task_name] at hj ⊢
            rw [lookup_name_from_congr nm _ v.tasks 0 m2]
            exact hj

theorem first_failure_eq_none (m : Nat) (tasks : List Task) :
    ∀ todo : List Nat,
      (∀ i ∈ todo, (lookup_task tasks i).reqd_cores ≤ m ∧ resolves tasks i = true) →
      first_failure m tasks todo = none := by
  intro todo
  induction todo with
  | nil => intro _; rfl
  | cons i rest ih =>
    intro h
    obtain ⟨h1, h2⟩ := h i (List.mem_cons_self _ _)
    simp only [first_failure, gt_iff_lt, not_lt.mpr h1, if_false, h2, not_true_eq_false]
    exact ih (fun j hj => h j (List.mem_cons_of_mem _ hj))

/-- The edges of the graph stay inside the task table. -/
theorem edges_in_table (n : Nat) (v : ValidateLoop) (hv : ValidInv n v) :
    ∀ e ∈ v.edge ++ artificial_edges v.tasks v.artificial_dep v.disconnected_nodes,
      e.1 < n ∧ e.2 < n := by
  obtain ⟨_, hid, _, _, hedge, hdis, hart⟩ := hv
  intro e he
  rcases List.mem_append.mp he with h1 | h1
  · exact hedge e h1
  · cases ha : v.artificial_dep with
    | none => simp [artificial_edges, ha] at h1
    | some a =>
      simp only [artificial_edges, ha, List.mem_map, List.mem_filter] at h1
      obtain ⟨d, ⟨hd, _⟩, rfl⟩ := h1
      simp only
      rw [hid d (hdis d hd), hid a (hart a ha)]
      exact ⟨hdis d hd, hart a ha⟩

/-- When every task fits the largest node and every parent name resolves, the first
loop of `validate_tasks` runs to its end. -/
theorem validate_loop_finishes (nodes : List (String × Nat)) (tasks : List TaskInput)
    (mc : Compute) (hcores : mc.get_cores = largest_cores_total nodes)
    (hres : parents_resolve tasks)
    (hfit : ∀ x ∈ tasks, x.cores_required ≤ largest_cores_total nodes) :
    ∃ v2, validate_loop (some mc) (List.range tasks.length)
      ⟨read_tasks tasks, [], [], none⟩ = ValidateExit.finished v2 := by
  have hst := validate_loop_status mc (List.range tasks.length) ⟨read_tasks tasks, [], [], none⟩
  rw [first_failure_eq_none] at hst
  · cases hloop : validate_loop (some mc) (List.range tasks.length)
        ⟨read_tasks tasks, [], [], none⟩ with
    | finished v2 => exact ⟨v2, rfl⟩
    | bad_deref => exact absurd hloop (validate_loop_ne_bad_deref mc _ _)
    | returned st last v =>
      rw [hloop] at hst
      simp [ValidateExit.status] at hst
  · intro i hi
    have hil : i < tasks.length := List.mem_range.mp hi
    refine ⟨?_, ?_⟩
    · simp only
      rw [lookup_read_tasks tasks i hil, (of_input_fields _ _).2.1, hcores]
      exact hfit _ (List.getElem_mem hil)
    · apply (resolves_read_tasks tasks i hil).mpr
      rintro ⟨nm, hnm, hno⟩
      obtain ⟨y, hy, hyn⟩ := hres _ (List.getElem_mem hil) nm hnm
      exact hno y hy hyn

/-- C12. On a non-empty node list and a task list in which every parent name resolves
and no task needs more cores than the largest `cores_total`, when the dependency
relation has a directed cycle (some task depends on itself through one or more
parents), `validate_tasks` returns `circular_dependency`. -/
theorem C12_cycle_rejected (nodes : List (String × Nat)) (tasks : List TaskInput)
    (hne : nodes ≠ []) (hres : parents_resolve tasks)
    (hfit : ∀ x ∈ tasks, x.cores_required ≤ largest_cores_total nodes)
    (x : Nat) (hcyc : Relation.TransGen (depends_on tasks) x x) :
    ∃ p, validate_tasks (Planner.of_input nodes tasks) =
      some (Status.circular_dependency, p) := by
  obtain ⟨mc, hmc, hcores⟩ := max_element_read_compute nodes hne
  obtain ⟨v2, hloop⟩ := validate_loop_finishes nodes tasks mc hcores hres hfit
  have hrange : ∀ i ∈ List.range tasks.length, i < tasks.length :=
    fun i hi => List.mem_range.mp hi
  have hinv := validate_loop_inv tasks.length _ _ _ (validInv_read_tasks tasks) hrange v2 hloop
  obtain ⟨_, hcomplete⟩ := validate_loop_deps_complete tasks.length _ _ _ v2
    (length_read_tasks tasks) hrange hloop
  obtain ⟨g1, _, _, g4, _, _⟩ := add_edges_spec tasks.length _ [] graphClosed_nil
    (Nat.zero_le _) (edges_in_table tasks.length v2 hinv)
  have hedge : ∀ u v, depends_on tasks u v →
      v ∈ (add_edges (v2.edge ++
        artificial_edges v2.tasks v2.artificial_dep v2.disconnected_nodes) []).getD u [] := by
    rintro u v ⟨hu, nm, hnm, hto⟩
    have hdep : v ∈ (lookup_task v2.tasks u).deps := by
      apply hcomplete u (List.mem_range.mpr hu) nm
      · simp only
        rw [lookup_read_tasks tasks u hu, get_dep_str_of_input]
        exact hnm
      · exact lookup_task_name_read_tasks tasks nm v hto
    exact g4 (u, v) (List.mem_append_left _ (hinv.2.2.2.1 u v hdep).2)
  have hcyc2 := Relation.TransGen.mono hedge hcyc
  simp only [validate_tasks, Planner.of_input, Planner.new, hmc, length_read_tasks, hloop,
    validate_finish]
  cases htopo : topological_sort (add_edges (v2.edge ++
      artificial_edges v2.tasks v2.artificial_dep v2.disconnected_nodes) []) with
  | no_fuel => exact absurd htopo (topological_sort_fuel _ g1)
  | done r => exact absurd htopo (topological_sort_cycle _ g1 x hcyc2 r)
  | not_a_dag => exact ⟨_, rfl⟩

/-- A run of C12 on scenario S5: `A` with parent `B` and `B` with parent `A`, on the
node `n1` with 4 cores. -/
theorem C12_cycle_rejected_witness :
    ∃ p, validate_tasks (Planner.of_input [("n1", 4)]
        [⟨"A", 1, 1, "B"⟩, ⟨"B", 1, 1, "A"⟩]) = some (Status.circular_dependency, p) :=
  C12_cycle_rejected [("n1", 4)] [⟨"A", 1, 1, "B"⟩, ⟨"B", 1, 1, "A"⟩] (by simp)
    (by unfold parents_resolve; decide) (by decide) 0
    (Relation.TransGen.tail
      (Relation.TransGen.single
        (show depends_on [⟨"A", 1, 1, "B"⟩, ⟨"B", 1, 1, "A"⟩] 0 1 from
          ⟨by decide, "B", by decide, by decide, rfl, fun i hi => by
            have hi0 : i = 0 := by omega
            subst hi0
            simp⟩))
      (show depends_on [⟨"A", 1, 1, "B"⟩, ⟨"B", 1, 1, "A"⟩] 1 0 from
        ⟨by decide, "A", by decide, by decide, rfl,
          fun i hi => absurd hi (Nat.not_lt_zero i)⟩))

/-! ## Termination of `schedule_tasks` -/

/-- After a successful validation of an input that is not a single task, with tasks
that need a core and a tick, the progress invariant holds on entry of
`schedule_tasks`. -/
theorem termInv_start (nodes : List (String × Nat)) (tasks : List TaskInput) (p : Planner)
    (hv : validate_tasks (Planner.of_input nodes tasks) = some (Status.ok, p))
    (hlen : tasks.length ≠ 1)
    (hpos : ∀ x ∈ tasks, 1 ≤ x.cores_required ∧ 1 ≤ x.execution_time) :
    TermInv (schedule_start p) := by
  have hval := validate_ok_validated nodes tasks p hv
  obtain ⟨s1, s2, s3⟩ := validate_ok_schedulable nodes tasks p hv
  have hinv := schedule_start_inv nodes tasks p hval
  obtain ⟨_, _, _, v4, v5, v6, _, _, v9, v10⟩ := hval
  have hpc : (schedule_start p).pc = Control.loop_head := by
    simp only [schedule_start, v4, if_true]
  refine ⟨hinv, ?_, ?_, ?_, ?_, ⟨v9, ?_, ?_⟩, ?_, ?_, ?_⟩
  · intro t
    exact Or.inl (v6 t)
  · intro t
    simp only [schedule_start, List.not_mem_nil, false_iff]
    rw [v6 t]
    simp
  · intro t ht
    simp only [schedule_start] at ht
    rw [v6 t] at ht
    exact absurd ht (by simp)
  · intro t ht _
    simp only [schedule_start] at ht ⊢
    rw [v5] at ht
    rw [(s3 t ht).2]
    exact (hpos _ (List.getElem_mem ht)).2
  · intro i hi
    simp only [schedule_start] at hi ⊢
    exact s1 hlen i (v5 ▸ hi)
  · intro U T hT
    exact (v10 U T hT).2
  · intro t ht
    simp only [schedule_start] at ht ⊢
    rw [v5] at ht
    refine ⟨?_, s2 t ht⟩
    rw [(s3 t ht).1]
    exact (hpos _ (List.getElem_mem ht)).1
  · intro ca todo m h
    rw [hpc] at h
    exact absurd h (by simp)
  · rw [hpc]
    simp

/-- From a state with the progress invariant the run returns within `steps_left`
steps. -/
theorem returns_within (srt : StdSort) :
    ∀ (n : Nat) (s : SchedState), TermInv s → steps_left s ≤ n →
      ∃ k, k ≤ n ∧ ((step srt)^[k] s).pc = Control.returned := by
  intro n
  induction n with
  | zero =>
    intro s h hn
    by_cases hr : s.pc = Control.returned
    · exact ⟨0, le_refl 0, hr⟩
    · have := (term_step srt s h hr).2
      omega
  | succ n ih =>
    intro s h hn
    by_cases hr : s.pc = Control.returned
    · exact ⟨0, Nat.zero_le _, hr⟩
    · obtain ⟨h1, h2⟩ := term_step srt s h hr
      obtain ⟨k, hk, hret⟩ := ih (step srt s) h1 (by omega)
      exact ⟨k + 1, by omega, by rw [Function.iterate_succ_apply]; exact hret⟩

/-- After a successful validation of an input that is not a single task, with tasks
that need a core and a tick, `schedule_tasks` passes every assertion and returns, with
every implementation of `std::sort`, within `steps_left` steps of its entry. -/
theorem schedule_tasks_returns (srt : StdSort) (nodes : List (String × Nat))
    (tasks : List TaskInput) (p : Planner)
    (hv : validate_tasks (Planner.of_input nodes tasks) = some (Status.ok, p))
    (hlen : tasks.length ≠ 1)
    (hpos : ∀ x ∈ tasks, 1 ≤ x.cores_required ∧ 1 ≤ x.execution_time) :
    ∃ fuel schedule p2, fuel ≤ steps_left (schedule_start p) ∧
      schedule_tasks srt p fuel = some (schedule, p2) := by
  obtain ⟨k, hk, hret⟩ := returns_within srt _ (schedule_start p)
    (termInv_start nodes tasks p hv hlen hpos) (le_refl _)
  rw [← run_eq_iterate] at hret
  refine ⟨k, (run srt p k).p.schedule, (run srt p k).p, hk, ?_⟩
  simp only [schedule_tasks, hret]

/-- A run of `schedule_tasks_returns` on the chain `A`, `B`, `C` of scenario S1. -/
theorem schedule_tasks_returns_chain :
    ∃ p, validate_tasks (Planner.of_input [("n1", 4)]
        [⟨"A", 1, 2, ""⟩, ⟨"B", 1, 3, "A"⟩, ⟨"C", 1, 1, "B"⟩]) = some (Status.ok, p) ∧
      ∃ fuel schedule p2, fuel ≤ steps_left (schedule_start p) ∧
        schedule_tasks insertion_sorter p fuel = some (schedule, p2) := by
  refine ⟨_, rfl, ?_⟩
  exact schedule_tasks_returns insertion_sorter [("n1", 4)]
    [⟨"A", 1, 2, ""⟩, ⟨"B", 1, 3, "A"⟩, ⟨"C", 1, 1, "B"⟩] _ rfl (by decide) (by decide)

/-! ## The state of a node and the ticks of a task -/

/-- C21 fails: `get_state` returns the member `_state`, which the constructor sets to
`free` and neither `assign_task` nor `tick` changes. On the node `n1` with 4 cores,
after `assign_task` of `A(2, 5)` 2 of the 4 cores are available and `get_state`
returns `free`, not `partially_available`; after `assign_task` of `B(4, 5)` no core is
available and `get_state` returns `free`, not `busy`. -/
theorem C21_get_state_stays_free :
    (∀ (name : String) (cores : Nat), (Compute.new name cores).get_state = ComputeState.free) ∧
    (∀ (c : Compute) (tasks : List Task) (t : Nat) (c1 : Compute) (tasks1 : List Task),
      assign_task c tasks t = some (c1, tasks1) → c1.get_state = c.get_state) ∧
    (∀ (c : Compute) (tasks : List Task) (k : Nat) (done : Int) (c1 : Compute)
      (tasks1 : List Task), tick c tasks k = some (done, c1, tasks1) →
      c1.get_state = c.get_state) ∧
    (∃ c1 tasks1, assign_task (Compute.new "n1" 4) [Task.new "A" 2 5 0] 0 = some (c1, tasks1) ∧
      c1.cores_available = 2 ∧ c1.cores_total = 4 ∧ c1.get_state = ComputeState.free) ∧
    ∃ c1 tasks1, assign_task (Compute.new "n1" 4) [Task.new "B" 4 5 0] 0 = some (c1, tasks1) ∧
      c1.cores_available = 0 ∧ c1.cores_total = 4 ∧ c1.get_state = ComputeState.free := by
  refine ⟨fun _ _ => rfl, ?_, ?_, ⟨_, _, rfl, by decide, by decide, by decide⟩,
    ⟨_, _, rfl, by decide, by decide, by decide⟩⟩
  · intro c tasks t c1 tasks1 h
    exact (assign_task_spec c tasks t c1 tasks1 h).2.2.2.2.2.2.2.2.2.2.1
  · intro c tasks k done c1 tasks1 h
    simp only [tick] at h
    split at h
    · exact absurd h (by simp)
    · split at h
      · exact absurd h (by simp)
      · split at h
        · exact absurd h (by simp)
        · split at h
          · exact absurd h (by simp)
          · simp only [Option.some.injEq, Prod.mk.injEq] at h
            obtain ⟨_, rfl, _⟩ := h
            rfl

/-- C25. A task constructed with `ticks_required >= 1` satisfies the predicate
`ticks_remaining = 0 iff state = complete` together with
`ticks_remaining <= ticks_required`; `run_for(k)` keeps the predicate for every `k`; and
`assign_task` of a task of the table that is `not_started` and fits the available cores
returns and keeps the predicate on every task of the table. -/
theorem C25_ticks_consistent_invariant :
    (∀ (name : String) (cores ticks id : Nat), 1 ≤ ticks →
      ticks_consistent (Task.new name cores ticks id)) ∧
    (∀ (t : Task) (k : Nat), ticks_consistent t → ticks_consistent (t.run_for k).2) ∧
    (∀ (c : Compute) (tasks : List Task) (t : Nat),
      (lookup_task tasks t).state = TaskState.not_started →
      ((lookup_task tasks t).reqd_cores : Int) ≤ c.cores_available →
      (∀ j, j < tasks.length → ticks_consistent (lookup_task tasks j)) →
      ∃ c1 tasks1, assign_task c tasks t = some (c1, tasks1) ∧
        tasks1.length = tasks.length ∧
        ∀ j, j < tasks.length → ticks_consistent (lookup_task tasks1 j)) := by
  refine ⟨?_, ?_, ?_⟩
  · intro name cores ticks id h
    simp only [ticks_consistent, Task.new, le_refl, and_true, reduceCtorEq, iff_false]
    omega
  · intro t k ⟨h1, h2⟩
    unfold ticks_consistent
    by_cases he : t.ticks_remaining = k
    · simp [Task.run_for, he]
    · by_cases hl : t.ticks_remaining < k
      · simp [Task.run_for, he, hl]
      · have hne : ¬ t.ticks_remaining = 0 := by omega
        have hst : ¬ t.state = TaskState.complete := fun e => hne (h1.mpr e)
        simp only [Task.run_for, he, hl, if_false, hst, iff_false]
        omega
  · intro c tasks t hst hle hall
    cases h : assign_task c tasks t with
    | none => exact absurd h (assign_task_ne_none c tasks t hst hle)
    | some r =>
      obtain ⟨c1, tasks1⟩ := r
      obtain ⟨_, s2, _⟩ := assign_task_spec c tasks t c1 tasks1 h
      refine ⟨c1, tasks1, rfl, by rw [s2, length_modify_at], ?_⟩
      intro j hj
      obtain ⟨h1, h2⟩ := hall j hj
      rw [s2, lookup_task_modify_at]
      split
      · next hh =>
        obtain ⟨rfl, _⟩ := hh
        rw [hst] at h1
        simp only [ticks_consistent, Task.set_state, reduceCtorEq, iff_false] at h1 ⊢
        exact ⟨h1, h2⟩
      · exact ⟨h1, h2⟩

/-- A run of C25: the predicate holds for the fresh task `A(1, 3)`, after `run_for(2)`
and `run_for(5)` of it, and after its assignment to the node `n1` with 4 cores. -/
theorem C25_ticks_consistent_invariant_witness :
    ticks_consistent (Task.new "A" 1 3 0) ∧
    ticks_consistent ((Task.new "A" 1 3 0).run_for 2).2 ∧
    ticks_consistent ((Task.new "A" 1 3 0).run_for 5).2 ∧
    ∃ c1 tasks1, assign_task (Compute.new "n1" 4) [Task.new "A" 1 3 0] 0 = some (c1, tasks1) ∧
      tasks1.length = [Task.new "A" 1 3 0].length ∧
      ∀ j, j < [Task.new "A" 1 3 0].length → ticks_consistent (lookup_task tasks1 j) :=
  ⟨C25_ticks_consistent_invariant.1 "A" 1 3 0 (by decide),
    C25_ticks_consistent_invariant.2.1 _ 2
      (C25_ticks_consistent_invariant.1 "A" 1 3 0 (by decide)),
    C25_ticks_consistent_invariant.2.1 _ 5
      (C25_ticks_consistent_invariant.1 "A" 1 3 0 (by decide)),
    C25_ticks_consistent_invariant.2.2 (Compute.new "n1" 4) [Task.new "A" 1 3 0] 0
      (by decide) (by decide) (fun j hj => by
        have hj0 : j = 0 := by simpa using hj
        subst hj0
        exact C25_ticks_consistent_invariant.1 "A" 1 3 0 (by decide))⟩

/-! ## Parsing of the parent names -/

/-- The pieces of `split_commas` are the pieces between the commas. -/
theorem split_commas_eq_splitOn : ∀ s : List Char, split_commas s = s.splitOn ','
  | [] => by simp [split_commas]
  | c :: cs => by
    have ih := split_commas_eq_splitOn cs
    have hne : cs.splitOn ',' ≠ [] := List.splitOnP_ne_nil _ cs
    rw [List.splitOn, List.splitOnP_cons, ← List.splitOn, ← ih]
    rw [← ih] at hne
    by_cases hc : c = ','
    · simp [split_commas, hc]
    · have hb : (c == ',') = false := by simpa using hc
      simp only [split_commas, hc, if_false, hb, Bool.false_eq_true]
      cases hs : split_commas cs with
      | nil => exact absurd hs hne
      | cons w ws => simp [List.modifyHead]

theorem split_commas_no_comma : ∀ (s : List Char), ∀ w ∈ split_commas s, ',' ∉ w
  | [], w, hw => by
    simp only [split_commas, List.mem_singleton] at hw
    simp [hw]
  | c :: cs, w, hw => by
    have ih := split_commas_no_comma cs
    by_cases hc : c = ','
    · simp only [split_commas, hc, if_true, List.mem_cons] at hw
      rcases hw with rfl | hw
      · simp
      · exact ih w hw
    · simp only [split_commas, hc, if_false] at hw
      cases hs : split_commas cs with
      | nil =>
        simp only [hs, List.mem_singleton] at hw
        simp only [hw, List.mem_singleton]
        exact fun e => hc e.symm
      | cons w1 ws =>
        simp only [hs, List.mem_cons] at hw
        rcases hw with rfl | hw
        · have h1 := ih w1 (by rw [hs]; exact List.mem_cons_self _ _)
          simp only [List.mem_cons, not_or]
          exact ⟨fun e => hc e.symm, h1⟩
        · exact ih w (by rw [hs]; exact List.mem_cons_of_mem _ hw)

/-- What `trim` removes is white space at the two ends, and what it leaves neither
starts nor ends with white space. -/
theorem trim_spec (w : List Char) :
    ∃ a b, w = a ++ trim w ++ b ∧ (∀ c ∈ a, is_space c = true) ∧ (∀ c ∈ b, is_space c = true) ∧
      (∀ c, (trim w).head? = some c → is_space c = false) ∧
      (∀ c, (trim w).getLast? = some c → is_space c = false) := by
  have h1 := List.takeWhile_append_dropWhile is_space w
  have h2 := List.takeWhile_append_dropWhile is_space (w.dropWhile is_space).reverse
  have h3 : w.dropWhile is_space = trim w ++
      ((w.dropWhile is_space).reverse.takeWhile is_space).reverse := by
    have := congrArg List.reverse h2
    simp only [List.reverse_append, List.reverse_reverse] at this
    exact this.symm
  refine ⟨w.takeWhile is_space, ((w.dropWhile is_space).reverse.takeWhile is_space).reverse,
    ?_, ?_, ?_, ?_, ?_⟩
  · rw [List.append_assoc, ← h3, h1]
  · intro c hc
    exact List.mem_takeWhile_imp hc
  · intro c hc
    exact List.mem_takeWhile_imp (List.mem_reverse.mp hc)
  · intro c hc
    have hd : (w.dropWhile is_space).head? = some c := by
      rw [h3]
      cases ht : trim w with
      | nil => rw [ht] at hc; simp at hc
      | cons x xs => rw [ht] at hc; simpa using hc
    have := List.head?_dropWhile_not is_space w
    rw [hd] at this
    exact this
  · intro c hc
    have hd : ((w.dropWhile is_space).reverse.dropWhile is_space).head? = some c := by
      simpa only [trim, List.getLast?_reverse] using hc
    have := List.head?_dropWhile_not is_space (w.dropWhile is_space).reverse
    rw [hd] at this
    exact this

/-- C24. The empty `dep_str` yields no parent name, and `map_dependencies` then returns
true and adds no dependency. Any other `dep_str` is split at every comma (the pieces,
joined by commas, give the string back and hold no comma) and every piece is trimmed:
white space is taken off its two ends, and what is left neither starts nor ends with
white space. The string `"A , B"` yields the names `A` and `B`. -/
theorem C24_dep_spec_parsing :
    (∀ t : Task, t.dep_str = "" → _get_dep_str t = []) ∧
    (∀ (tasks : List Task) (self : Nat), (lookup_task tasks self).dep_str = "" →
      (map_dependencies tasks self).1 = true ∧
      (lookup_task (map_dependencies tasks self).2 self).deps = (lookup_task tasks self).deps) ∧
    (∀ t : Task, t.dep_str ≠ "" →
      _get_dep_str t = (t.dep_str.data.splitOn ',').map (fun w => String.mk (trim w))) ∧
    (∀ s : List Char, [','].intercalate (s.splitOn ',') = s ∧ ∀ w ∈ s.splitOn ',', ',' ∉ w) ∧
    (∀ w : List Char, ∃ a b, w = a ++ trim w ++ b ∧ (∀ c ∈ a, is_space c = true) ∧
      (∀ c ∈ b, is_space c = true) ∧
      (∀ c, (trim w).head? = some c → is_space c = false) ∧
      (∀ c, (trim w).getLast? = some c → is_space c = false)) ∧
    _get_dep_str ((Task.new "T" 1 1 0).set_dep_str "A , B") = ["A", "B"] := by
  refine ⟨?_, ?_, ?_, ?_, trim_spec, by decide⟩
  · intro t h
    simp [_get_dep_str, h]
  · intro tasks self h
    have hn : _get_dep_str (lookup_task tasks self) = [] := by simp [_get_dep_str, h]
    simp only [map_dependencies, hn, map_deps_loop, true_and]
    exact lookup_task_modify_at_proj Task.deps _set_mapped (fun _ => rfl) _ _ _
  · intro t h
    have hd : ¬ t.dep_str.data = [] := fun e => h (String.ext e)
    simp only [_get_dep_str, hd, if_false, split_commas_eq_splitOn]
  · intro s
    refine ⟨List.intercalate_splitOn s ',', ?_⟩
    rw [← split_commas_eq_splitOn]
    exact split_commas_no_comma s

/-! ## Dependencies and waiters -/

/-- The loop of `map_dependencies` appends to the dependencies of the task, in the order
of the names, the task of every name that resolves. -/
theorem map_deps_loop_exact (self : Nat) :
    ∀ (names : List String) (b : Bool) (tasks : List Task), self < tasks.length →
      (lookup_task (map_deps_loop self names (b, tasks)).2 self).deps =
        (lookup_task tasks self).deps ++ names.filterMap (lookup_task_name tasks) := by
  intro names
  induction names with
  | nil => intro b tasks _; simp [map_deps_loop]
  | cons nm rest ih =>
    intro b tasks hself
    cases hl : lookup_task_name tasks nm with
    | none =>
      simp only [map_deps_loop, hl, List.filterMap_cons]
      exact ih false tasks hself
    | some t =>
      have hlen : (modify_at (_push_dep t) self (modify_at (_incr_waiters self) t tasks)).length =
          tasks.length := by
        rw [length_modify_at, length_modify_at]
      have hnames : (modify_at (_push_dep t) self
          (modify_at (_incr_waiters self) t tasks)).map Task.name = tasks.map Task.name := by
        rw [map_name_modify_at (_push_dep t) (fun _ => rfl),
          map_name_modify_at (_incr_waiters self) (fun _ => rfl)]
      have hdeps : (lookup_task (modify_at (_push_dep t) self
          (modify_at (_incr_waiters self) t tasks)) self).deps =
          (lookup_task tasks self).deps ++ [t] := by
        rw [lookup_task_modify_at, if_pos ⟨rfl, by rw [length_modify_at]; exact hself⟩]
        simp only [_push_dep]
        rw [lookup_task_modify_at_proj Task.deps (_incr_waiters self) (fun _ => rfl)]
      have hlook : ∀ nm2, lookup_task_name (modify_at (_push_dep t) self
          (modify_at (_incr_waiters self) t tasks)) nm2 = lookup_task_name tasks nm2 := by
        intro nm2
        simp only [lookup_task_name]
        exact lookup_name_from_congr nm2 _ tasks 0 hnames
      simp only [map_deps_loop, hl, List.filterMap_cons]
      rw [ih b _ (hlen ▸ hself), hdeps, List.append_assoc, List.singleton_append]
      congr 2
      exact List.filterMap_congr (fun nm2 _ => hlook nm2)

/-- C22. For a task of the table, `map_dependencies` returns true if and only if every
name parsed from `dep_str` is the name of a task; in either case it sets `mapped_deps`,
appends to the dependencies, in the order of `dep_str`, the tasks of the names that
resolve, and `get_dependency_count` is afterwards the length of the dependencies. -/
theorem C22_map_dependencies (tasks : List Task) (self : Nat) (hself : self < tasks.length) :
    ((map_dependencies tasks self).1 = true ↔
      ∀ nm ∈ _get_dep_str (lookup_task tasks self), ∃ j, lookup_task_name tasks nm = some j) ∧
    (lookup_task (map_dependencies tasks self).2 self).mapped_deps = true ∧
    (lookup_task (map_dependencies tasks self).2 self).deps =
      (lookup_task tasks self).deps ++
        (_get_dep_str (lookup_task tasks self)).filterMap (lookup_task_name tasks) ∧
    (lookup_task (map_dependencies tasks self).2 self).get_dependency_count =
      (lookup_task (map_dependencies tasks self).2 self).deps.length := by
  have hm := map_dependencies_mapped tasks self hself
  refine ⟨?_, hm, ?_, ?_⟩
  · rw [(map_dependencies_spec tasks self).2.2.2.2]
    simp only [resolves, List.all_eq_true, Option.isSome_iff_exists]
  · have hd : ∀ l : List Task, (lookup_task (modify_at _set_mapped self l) self).deps =
        (lookup_task l self).deps :=
      fun l => lookup_task_modify_at_proj Task.deps _set_mapped (fun _ => rfl) _ _ _
    simp only [map_dependencies, hd]
    exact map_deps_loop_exact self _ true tasks hself
  · simp only [Task.get_dependency_count, hm, if_true]

/-- A run of C22 on the table `A`, `B`, `C` with `C` naming `B`, `Z` and `A` as parents:
`Z` does not resolve. -/
theorem C22_map_dependencies_witness :
    ((map_dependencies (read_tasks [⟨"A", 1, 1, ""⟩, ⟨"B", 1, 1, ""⟩, ⟨"C", 1, 1, "B, Z ,A"⟩])
        2).1 = true ↔
      ∀ nm ∈ _get_dep_str (lookup_task
          (read_tasks [⟨"A", 1, 1, ""⟩, ⟨"B", 1, 1, ""⟩, ⟨"C", 1, 1, "B, Z ,A"⟩]) 2),
        ∃ j, lookup_task_name
          (read_tasks [⟨"A", 1, 1, ""⟩, ⟨"B", 1, 1, ""⟩, ⟨"C", 1, 1, "B, Z ,A"⟩]) nm = some j) ∧
    (lookup_task (map_dependencies
      (read_tasks [⟨"A", 1, 1, ""⟩, ⟨"B", 1, 1, ""⟩, ⟨"C", 1, 1, "B, Z ,A"⟩]) 2).2
        2).mapped_deps = true ∧
    (lookup_task (map_dependencies
      (read_tasks [⟨"A", 1, 1, ""⟩, ⟨"B", 1, 1, ""⟩, ⟨"C", 1, 1, "B, Z ,A"⟩]) 2).2 2).deps =
      (lookup_task (read_tasks [⟨"A", 1, 1, ""⟩, ⟨"B", 1, 1, ""⟩, ⟨"C", 1, 1, "B, Z ,A"⟩])
        2).deps ++
        (_get_dep_str (lookup_task
          (read_tasks [⟨"A", 1, 1, ""⟩, ⟨"B", 1, 1, ""⟩, ⟨"C", 1, 1, "B, Z ,A"⟩]) 2)).filterMap
          (lookup_task_name
            (read_tasks [⟨"A", 1, 1, ""⟩, ⟨"B", 1, 1, ""⟩, ⟨"C", 1, 1, "B, Z ,A"⟩])) ∧
    (lookup_task (map_dependencies
      (read_tasks [⟨"A", 1, 1, ""⟩, ⟨"B", 1, 1, ""⟩, ⟨"C", 1, 1, "B, Z ,A"⟩]) 2).2
        2).get_dependency_count =
      (lookup_task (map_dependencies
        (read_tasks [⟨"A", 1, 1, ""⟩, ⟨"B", 1, 1, ""⟩, ⟨"C", 1, 1, "B, Z ,A"⟩]) 2).2
          2).deps.length :=
  C22_map_dependencies
    (read_tasks [⟨"A", 1, 1, ""⟩, ⟨"B", 1, 1, ""⟩, ⟨"C", 1, 1, "B, Z ,A"⟩]) 2 (by decide)

/-- A validation of the input that returns `ok` has run its first loop to the end; the
planner holds the task table of the loop and the edge list with the artificial edges. -/
theorem validate_ok_finished (nodes : List (String × Nat)) (tasks : List TaskInput)
    (p : Planner) (h : validate_tasks (Planner.of_input nodes tasks) = some (Status.ok, p)) :
    ∃ v, validate_loop (max_element sort_max_cores (read_compute nodes))
        (List.range tasks.length) ⟨read_tasks tasks, [], [], none⟩ = ValidateExit.finished v ∧
      ValidInv tasks.length v ∧ p.tasks = v.tasks ∧
      p.edge = v.edge ++ artificial_edges v.tasks v.artificial_dep v.disconnected_nodes ∧
      p.tg = add_edges p.edge [] ∧ (∀ x, x ∈ p.job_sequence ↔ x < p.tg.length) := by
  simp only [validate_tasks, Planner.of_input, Planner.new] at h
  cases hloop : validate_loop (max_element sort_max_cores (read_compute nodes))
      (List.range (read_tasks tasks).length) ⟨read_tasks tasks, [], [], none⟩ with
  | bad_deref => simp [hloop] at h
  | returned s last v =>
    exfalso
    have hst := congrArg ValidateExit.status hloop
    simp only [hloop, Option.some.injEq, Prod.mk.injEq] at h
    cases hm : max_element sort_max_cores (read_compute nodes) with
    | none =>
      rw [hm] at hloop
      cases htl : List.range (read_tasks tasks).length with
      | nil => simp [htl, validate_loop] at hloop
      | cons a l => simp [htl, validate_loop] at hloop
    | some mc =>
      rw [hm, validate_loop_status] at hst
      simp only [ValidateExit.status] at hst
      rcases first_failure_ne_ok _ _ _ _ hst with h1 | h1
      · rw [h1] at h; simp at h
      · rw [h1] at h; simp at h
  | finished v =>
    simp only [hloop] at h
    rw [length_read_tasks] at hloop
    have hinv := validate_loop_inv tasks.length _ _ _ (validInv_read_tasks tasks)
      (fun i hi => List.mem_range.mp hi) v hloop
    obtain ⟨_, _, _, _, f5, _, _, _, f9, f10, f11⟩ :=
      validate_finish_ok tasks.length _ p v hinv rfl rfl h
    exact ⟨v, hloop, hinv, f5, f10, f11, f9⟩

theorem map_deps_loop_match (self : Nat) :
    ∀ (names : List String) (b : Bool) (tasks : List Task), self < tasks.length →
      waiters_match tasks → waiters_match (map_deps_loop self names (b, tasks)).2 := by
  intro names
  induction names with
  | nil => intro b tasks _ h; exact h
  | cons nm rest ih =>
    intro b tasks hself h
    cases hl : lookup_task_name tasks nm with
    | none =>
      simp only [map_deps_loop, hl]
      exact ih false tasks hself h
    | some t =>
      simp only [map_deps_loop, hl]
      have ht : t < tasks.length := lookup_task_name_lt tasks nm t hl
      have hlen1 : (modify_at (_incr_waiters self) t tasks).length = tasks.length :=
        length_modify_at _ _ _
      apply ih b _ (by rw [length_modify_at, hlen1]; exact hself)
      have hwl : ∀ X, (lookup_task (modify_at (_push_dep t) self
          (modify_at (_incr_waiters self) t tasks)) X).waiter_list =
          if X = t then (lookup_task tasks t).waiter_list ++ [self]
          else (lookup_task tasks X).waiter_list := by
        intro X
        rw [lookup_task_modify_at_proj Task.waiter_list (_push_dep t) (fun _ => rfl),
          lookup_task_modify_at]
        by_cases hX : X = t
        · simp [hX, ht, _incr_waiters]
        · simp [hX]
      have hwn : ∀ X, (lookup_task (modify_at (_push_dep t) self
          (modify_at (_incr_waiters self) t tasks)) X).waiters =
          if X = t then (lookup_task tasks t).waiters + 1 else (lookup_task tasks X).waiters := by
        intro X
        rw [lookup_task_modify_at_proj Task.waiters (_push_dep t) (fun _ => rfl),
          lookup_task_modify_at]
        by_cases hX : X = t
        · simp [hX, ht, _incr_waiters]
        · simp [hX]
      have hdp : ∀ X, (lookup_task (modify_at (_push_dep t) self
          (modify_at (_incr_waiters self) t tasks)) X).deps =
          if X = self then (lookup_task tasks self).deps ++ [t]
          else (lookup_task tasks X).deps := by
        intro X
        rw [lookup_task_modify_at]
        by_cases hX : X = self
        · rw [if_pos ⟨hX, by rw [hlen1]; exact hself⟩, if_pos hX]
          simp only [_push_dep]
          rw [lookup_task_modify_at_proj Task.deps (_incr_waiters self) (fun _ => rfl)]
        · rw [if_neg (fun hh => hX hh.1), if_neg hX,
            lookup_task_modify_at_proj Task.deps (_incr_waiters self) (fun _ => rfl)]
      intro T U
      obtain ⟨h1, h2⟩ := h T U
      rw [hwl T, hwn T, hdp U]
      by_cases hT : T = t
      · by_cases hU : U = self
        · subst hT hU
          simp only [if_true, List.count_append, List.count_singleton, beq_self_eq_true,
            List.length_append, List.length_singleton, h1, h2, and_self]
        · subst hT
          have hUs : ¬ self = U := fun e => hU e.symm
          simp only [if_true, hU, if_false, List.count_append, List.count_singleton,
            beq_iff_eq, hUs, List.length_append, List.length_singleton, h1, h2, add_zero,
            and_self]
      · by_cases hU : U = self
        · subst hU
          have hTt : ¬ t = T := fun e => hT e.symm
          simp only [hT, if_false, if_true, List.count_append, List.count_singleton,
            beq_iff_eq, hTt, h1, h2, add_zero, and_self]
        · simp only [hT, hU, if_false, h1, h2, and_self]

theorem map_dependencies_match (tasks : List Task) (self : Nat) (hself : self < tasks.length)
    (h : waiters_match tasks) : waiters_match (map_dependencies tasks self).2 := by
  have h1 := map_deps_loop_match self (_get_dep_str (lookup_task tasks self)) true tasks hself h
  intro T U
  simp only [map_dependencies]
  rw [lookup_task_modify_at_proj Task.waiter_list _set_mapped (fun _ => rfl),
    lookup_task_modify_at_proj Task.waiters _set_mapped (fun _ => rfl),
    lookup_task_modify_at_proj Task.deps _set_mapped (fun _ => rfl)]
  exact h1 T U

theorem validate_loop_match (n : Nat) (mco : Option Compute) :
    ∀ (todo : List Nat) (v : ValidateLoop), v.tasks.length = n → waiters_match v.tasks →
      (∀ i ∈ todo, i < n) →
      (∀ v2, validate_loop mco todo v = ValidateExit.finished v2 → waiters_match v2.tasks) := by
  intro todo
  induction todo with
  | nil =>
    intro v _ hw _ v2 h
    simp only [validate_loop, ValidateExit.finished.injEq] at h
    exact h ▸ hw
  | cons itr rest ih =>
    intro v hlen hw htodo v2 h
    have hitr : itr < n := htodo itr (List.mem_cons_self _ _)
    cases mco with
    | none => simp [validate_loop] at h
    | some mc =>
      simp only [validate_loop] at h
      split at h
      · exact absurd h (by simp)
      · split at h
        · exact absurd h (by simp)
        · exact ih _ (by simp only; rw [(map_dependencies_spec v.tasks itr).1, hlen])
            (map_dependencies_match v.tasks itr (hlen ▸ hitr) hw)
            (fun i hi => htodo i (List.mem_cons_of_mem _ hi)) v2 h

theorem waiters_match_read_tasks (xs : List TaskInput) : waiters_match (read_tasks xs) := by
  have hf : ∀ i, (lookup_task (read_tasks xs) i).waiter_list = [] ∧
      (lookup_task (read_tasks xs) i).deps = [] ∧ (lookup_task (read_tasks xs) i).waiters = 0 := by
    intro i
    by_cases hi : i < xs.length
    · rw [lookup_read_tasks xs i hi]
      obtain ⟨_, _, _, _, h5, _, _, h8, h9, _⟩ := of_input_fields xs[i] i
      exact ⟨h9, h5, h8⟩
    · rw [lookup_task_beyond _ i (by rw [length_read_tasks]; exact not_lt.mp hi)]
      exact ⟨rfl, rfl, rfl⟩
  intro T U
  rw [(hf T).1, (hf U).2.1, (hf T).2.2]
  simp

/-- C23. After `validate_tasks` returns `ok` on tasks fresh from the input, for all
tasks `T` and `U`: `U` occurs in the waiter list of `T` as often as `T` occurs in the
dependencies of `U`, so `U` is a waiter of `T` if and only if `T` is a dependency of `U`;
and `get_waiter_count` of `T` is the length of its waiter list. -/
theorem C23_waiters_mirror_dependencies (nodes : List (String × Nat)) (tasks : List TaskInput)
    (p : Planner) (h : validate_tasks (Planner.of_input nodes tasks) = some (Status.ok, p))
    (T U : Nat) :
    (lookup_task p.tasks T).get_waiter_list.count U = (lookup_task p.tasks U).deps.count T ∧
    (U ∈ (lookup_task p.tasks T).get_waiter_list ↔ T ∈ (lookup_task p.tasks U).deps) ∧
    (lookup_task p.tasks T).get_waiter_count = (lookup_task p.tasks T).get_waiter_list.length := by
  obtain ⟨v, hloop, _, htasks, _⟩ := validate_ok_finished nodes tasks p h
  have hm := validate_loop_match tasks.length _ _ _ (length_read_tasks tasks)
    (waiters_match_read_tasks tasks) (fun i hi => List.mem_range.mp hi) v hloop
  rw [htasks]
  obtain ⟨h1, h2⟩ := hm T U
  refine ⟨h1, ?_, h2⟩
  simp only [Task.get_waiter_list]
  rw [← List.count_pos_iff, ← List.count_pos_iff, h1]

/-- A run of C23 on the chain `A`, `B` (parent `A`), `C` (parent `B`): `B` is the one
waiter of `A`. -/
theorem C23_waiters_mirror_dependencies_witness :
    ∃ p, validate_tasks (Planner.of_input [("n1", 4)]
        [⟨"A", 1, 2, ""⟩, ⟨"B", 1, 3, "A"⟩, ⟨"C", 1, 1, "B"⟩]) = some (Status.ok, p) ∧
      (lookup_task p.tasks 0).get_waiter_list = [1] ∧
      ((lookup_task p.tasks 0).get_waiter_list.count 1 = (lookup_task p.tasks 1).deps.count 0 ∧
      (1 ∈ (lookup_task p.tasks 0).get_waiter_list ↔ 0 ∈ (lookup_task p.tasks 1).deps) ∧
      (lookup_task p.tasks 0).get_waiter_count =
        (lookup_task p.tasks 0).get_waiter_list.length) := by
  refine ⟨_, rfl, by decide, ?_⟩
  exact C23_waiters_mirror_dependencies [("n1", 4)]
    [⟨"A", 1, 2, ""⟩, ⟨"B", 1, 3, "A"⟩, ⟨"C", 1, 1, "B"⟩] _ rfl 0 1

/-! ## Steps B and E of an iteration -/

/-- C26. At Step E of an iteration in which `running` is not empty and every running
task has `ticks_remaining >= 1`, the `skip_ticks` the loop computes is the minimum of
`ticks_remaining` over `running`; the iteration passes the assertions of `tick` and
advances `required_ticks` by that minimum. -/
theorem C26_skip_ticks_is_minimum (srt : StdSort) (s : SchedState) (ca : List Nat) (m : Int)
    (hpc : s.pc = Control.placing ca [] m) (hinv : SchedInv s) (hne : s.running ≠ [])
    (hpos : ∀ r ∈ s.running, 1 ≤ (lookup_task s.p.tasks r).ticks_remaining) :
    (s.running.map (fun r => (lookup_task s.p.tasks r).ticks_remaining)).min? =
      some (find_skip s.p.tasks s.running 0) ∧
    (step srt s).pc = Control.loop_head ∧
    (step srt s).p.required_ticks = s.p.required_ticks + find_skip s.p.tasks s.running 0 := by
  obtain ⟨k1, k2, r0, hr0, hr0k⟩ := (find_skip_spec s.p.tasks s.running 0 hpos).1 rfl hne
  refine ⟨?_, ?_⟩
  · rw [List.min?_eq_some_iff']
    refine ⟨List.mem_map.mpr ⟨r0, hr0, hr0k⟩, ?_⟩
    intro b hb
    obtain ⟨r, hr, rfl⟩ := List.mem_map.mp hb
    exact k2 r hr
  · have hnone := tick_all_ne_none (find_skip s.p.tasks s.running 0) k1
      (List.range s.p.comp.length) s.p.comp s.p.tasks s.tasks_remaining hinv.1
      (fun c hc => List.mem_range.mp hc)
    simp only [step, hpc]
    cases htick : tick_all (find_skip s.p.tasks s.running 0) (List.range s.p.comp.length)
        (s.p.comp, s.p.tasks, s.tasks_remaining) with
    | none => exact absurd htick hnone
    | some r =>
      obtain ⟨comp1, tasks1, remaining1⟩ := r
      exact ⟨rfl, rfl⟩

/-- A run of C26 on the chain `A(1, 2)`, `B(1, 3)`, `C(1, 1)`: after two steps `A` runs
alone and the jump is 2 ticks. -/
theorem C26_skip_ticks_is_minimum_witness :
    ∃ p, validate_tasks (Planner.of_input [("n1", 4)]
        [⟨"A", 1, 2, ""⟩, ⟨"B", 1, 3, "A"⟩, ⟨"C", 1, 1, "B"⟩]) = some (Status.ok, p) ∧
      (run insertion_sorter p 2).running = [0] ∧
      find_skip (run insertion_sorter p 2).p.tasks (run insertion_sorter p 2).running 0 = 2 ∧
      (((run insertion_sorter p 2).running.map
        (fun r => (lookup_task (run insertion_sorter p 2).p.tasks r).ticks_remaining)).min? =
        some (find_skip (run insertion_sorter p 2).p.tasks
          (run insertion_sorter p 2).running 0) ∧
      (step insertion_sorter (run insertion_sorter p 2)).pc = Control.loop_head ∧
      (step insertion_sorter (run insertion_sorter p 2)).p.required_ticks =
        (run insertion_sorter p 2).p.required_ticks +
          find_skip (run insertion_sorter p 2).p.tasks (run insertion_sorter p 2).running 0) := by
  refine ⟨_, rfl, by decide, by decide, ?_⟩
  exact C26_skip_ticks_is_minimum insertion_sorter _ [0] 1 (by decide)
    (run_inv insertion_sorter [("n1", 4)]
      [⟨"A", 1, 2, ""⟩, ⟨"B", 1, 3, "A"⟩, ⟨"C", 1, 1, "B"⟩] _ rfl 2) (by decide) (by decide)

theorem runnable_now_iff (tasks : List Task) (i : Nat) :
    runnable_now tasks i = true ↔ (lookup_task tasks i).state = TaskState.not_started ∧
      ∀ d ∈ (lookup_task tasks i).deps, (lookup_task tasks d).state = TaskState.complete := by
  simp [runnable_now, dependencies_met]

theorem blocked_now_iff (tasks : List Task) (i : Nat) :
    blocked_now tasks i = true ↔ (lookup_task tasks i).state = TaskState.not_started ∧
      ∃ d ∈ (lookup_task tasks i).deps, (lookup_task tasks d).state ≠ TaskState.complete := by
  simp [blocked_now, dependencies_met]

/-- C28. In an iteration of `schedule_tasks` (control at the loop head, tasks remaining),
the runnable list Step B builds is the sub-sequence of `_job_sequence` of the tasks that
are `not_started` with every dependency `complete`; `_count_dep_wait` grows by the number
of entries of `_job_sequence` that are `not_started` with a dependency that is not
`complete`; and the loop over the runnable tasks gets a rearrangement of that list. -/
theorem C28_runnable_list (srt : StdSort) (s : SchedState) (hpc : s.pc = Control.loop_head)
    (hrem : s.tasks_remaining ≠ 0) :
    (build_runnable s.p.tasks s.p.job_sequence ([], s.p.count_dep_wait)).1 =
      s.p.job_sequence.filter (fun i =>
        decide ((lookup_task s.p.tasks i).state = TaskState.not_started ∧
          ∀ d ∈ (lookup_task s.p.tasks i).deps,
            (lookup_task s.p.tasks d).state = TaskState.complete)) ∧
    (step srt s).p.count_dep_wait = s.p.count_dep_wait +
      s.p.job_sequence.countP (fun i =>
        decide ((lookup_task s.p.tasks i).state = TaskState.not_started ∧
          ∃ d ∈ (lookup_task s.p.tasks i).deps,
            (lookup_task s.p.tasks d).state ≠ TaskState.complete)) ∧
    ∃ comp_avail todo n, (step srt s).pc = Control.placing comp_avail todo n ∧
      todo.Perm (build_runnable s.p.tasks s.p.job_sequence ([], s.p.count_dep_wait)).1 := by
  have hspec := build_runnable_spec s.p.tasks s.p.job_sequence [] s.p.count_dep_wait
  have hf1 : s.p.job_sequence.filter (runnable_now s.p.tasks) =
      s.p.job_sequence.filter (fun i =>
        decide ((lookup_task s.p.tasks i).state = TaskState.not_started ∧
          ∀ d ∈ (lookup_task s.p.tasks i).deps,
            (lookup_task s.p.tasks d).state = TaskState.complete)) := by
    apply List.filter_congr
    intro i _
    rw [Bool.eq_iff_iff, runnable_now_iff, decide_eq_true_eq]
  have hf2 : (s.p.job_sequence.filter (blocked_now s.p.tasks)).length =
      s.p.job_sequence.countP (fun i =>
        decide ((lookup_task s.p.tasks i).state = TaskState.not_started ∧
          ∃ d ∈ (lookup_task s.p.tasks i).deps,
            (lookup_task s.p.tasks d).state ≠ TaskState.complete)) := by
    rw [← List.countP_eq_length_filter]
    apply List.countP_congr
    intro i _
    rw [blocked_now_iff, decide_eq_true_eq]
  rw [hspec]
  simp only [List.nil_append]
  refine ⟨hf1, ?_, ?_⟩
  · simp only [step, hpc, hrem, if_false, hspec, hf2]
  · simp only [step, hpc, hrem, if_false, hspec, List.nil_append]
    exact ⟨_, _, _, rfl, (List.reverse_perm _).trans (srt.perm _ _)⟩

/-- A run of C28 on the chain `A`, `B` (parent `A`), `C` (parent `B`) at the entry of
`schedule_tasks`: `A` is runnable, `B` and `C` wait for a dependency. -/
theorem C28_runnable_list_witness :
    ∃ p, validate_tasks (Planner.of_input [("n1", 4)]
        [⟨"A", 1, 2, ""⟩, ⟨"B", 1, 3, "A"⟩, ⟨"C", 1, 1, "B"⟩]) = some (Status.ok, p) ∧
      (build_runnable p.tasks p.job_sequence ([], p.count_dep_wait)) = ([0], 2) ∧
      ((build_runnable (schedule_start p).p.tasks (schedule_start p).p.job_sequence
          ([], (schedule_start p).p.count_dep_wait)).1 =
        (schedule_start p).p.job_sequence.filter (fun i =>
          decide ((lookup_task (schedule_start p).p.tasks i).state = TaskState.not_started ∧
            ∀ d ∈ (lookup_task (schedule_start p).p.tasks i).deps,
              (lookup_task (schedule_start p).p.tasks d).state = TaskState.complete)) ∧
      (step insertion_sorter (schedule_start p)).p.count_dep_wait =
        (schedule_start p).p.count_dep_wait +
        (schedule_start p).p.job_sequence.countP (fun i =>
          decide ((lookup_task (schedule_start p).p.tasks i).state = TaskState.not_started ∧
            ∃ d ∈ (lookup_task (schedule_start p).p.tasks i).deps,
              (lookup_task (schedule_start p).p.tasks d).state ≠ TaskState.complete)) ∧
      ∃ comp_avail todo n,
        (step insertion_sorter (schedule_start p)).pc = Control.placing comp_avail todo n ∧
        todo.Perm (build_runnable (schedule_start p).p.tasks (schedule_start p).p.job_sequence
          ([], (schedule_start p).p.count_dep_wait)).1) := by
  refine ⟨_, rfl, by decide, ?_⟩
  exact C28_runnable_list insertion_sorter _ (by decide) (by decide)

/-! ## The job sequence and the artificial edges -/

/-- C30 fails for `n = 1`. For every task list that is not a single task, a validation
that returns `ok` leaves in `_job_sequence` a rearrangement of the ids `0 .. n-1`. For
the single task `A(1, 1)` on the node `n1` with 1 core `validate_tasks` returns `ok`
with no edge and an empty `_job_sequence`, in which the id 0 of `A` does not occur: the
only task is the anchor, which gets no artificial edge, so the graph has no vertex. -/
theorem C30_job_sequence_misses_single_task :
    (∀ (nodes : List (String × Nat)) (tasks : List TaskInput) (p : Planner),
      validate_tasks (Planner.of_input nodes tasks) = some (Status.ok, p) →
      tasks.length ≠ 1 → p.job_sequence.Perm (List.range tasks.length)) ∧
    ∃ p, validate_tasks (Planner.of_input [("n1", 1)] [⟨"A", 1, 1, ""⟩]) =
        some (Status.ok, p) ∧
      p.tasks.length = 1 ∧ (lookup_task p.tasks 0).id = 0 ∧ p.edge = [] ∧
      p.job_sequence = [] := by
  refine ⟨?_, ⟨_, rfl, by decide, by decide, by decide, by decide⟩⟩
  intro nodes tasks p h hlen
  obtain ⟨_, _, _, _, _, _, _, v8, v9, _⟩ := validate_ok_validated nodes tasks p h
  obtain ⟨s1, _, _⟩ := validate_ok_schedulable nodes tasks p h
  rw [List.perm_ext_iff_of_nodup v9 (List.nodup_range _)]
  intro a
  rw [List.mem_range]
  exact ⟨v8 a, s1 hlen a⟩

/-- C29 fails on the tasks `X`, `A`, `B` with parent `A`, in this order, each of 1 core,
on the node `n1` with 1 core. `validate_tasks` returns `ok`. The anchor is `X`; in the
fully resolved relation `A` has the waiter `B` and `B` has the dependency `A`, so no task
other than the anchor has zero dependencies and zero waiters, and the claim allows no
artificial edge. The loop examines `A` before `B` has registered as its waiter, counts
`A` as disconnected and adds the artificial edge `A -> X`. -/
theorem C29_artificial_edge_for_task_with_waiter :
    ∃ p v, validate_tasks (Planner.of_input [("n1", 1)]
        [⟨"X", 1, 1, ""⟩, ⟨"A", 1, 1, ""⟩, ⟨"B", 1, 1, "A"⟩]) = some (Status.ok, p) ∧
      validate_loop (max_element sort_max_cores (read_compute [("n1", 1)]))
        (List.range 3)
        ⟨read_tasks [⟨"X", 1, 1, ""⟩, ⟨"A", 1, 1, ""⟩, ⟨"B", 1, 1, "A"⟩], [], [], none⟩ =
        ValidateExit.finished v ∧
      p.tasks = v.tasks ∧ v.artificial_dep = some 0 ∧ v.edge = [(2, 1)] ∧
      artificial_edges v.tasks v.artificial_dep v.disconnected_nodes = [(1, 0)] ∧
      p.edge = [(2, 1), (1, 0)] ∧
      (lookup_task p.tasks 1).get_waiter_list = [2] ∧
      (lookup_task p.tasks 1).get_waiter_count = 1 ∧
      (lookup_task p.tasks 2).deps = [1] ∧
      ∀ t, t < 3 → t ≠ 0 →
        ¬ ((lookup_task p.tasks t).get_dependency_count = 0 ∧
          (lookup_task p.tasks t).get_waiter_count = 0) :=
  ⟨_, _, rfl, rfl, by decide, by decide, by decide, by decide, by decide, by decide,
    by decide, by decide, by decide⟩

/-! ## The tick jump -/

/-- The progress invariant holds along the run on a validated input that is not a single
task, with tasks that need a core and a tick. -/
theorem run_termInv (srt : StdSort) (nodes : List (String × Nat)) (tasks : List TaskInput)
    (p : Planner) (hv : validate_tasks (Planner.of_input nodes tasks) = some (Status.ok, p))
    (hlen : tasks.length ≠ 1)
    (hpos : ∀ x ∈ tasks, 1 ≤ x.cores_required ∧ 1 ≤ x.execution_time) :
    ∀ k, TermInv (run srt p k)
  | 0 => termInv_start nodes tasks p hv hlen hpos
  | k + 1 => by
    have ih := run_termInv srt nodes tasks p hv hlen hpos k
    by_cases hr : (run srt p k).pc = Control.returned
    · have hs : step srt (run srt p k) = run srt p k := by
        simp only [step, hr]
      simp only [run, hs]
      exact ih
    · exact (term_step srt _ ih hr).1

/-- At Step E of a state with the progress invariant, the jump `skip_ticks` is at least
1, at most the `ticks_remaining` of every task current on a node and equal to it for
one of them; no `run_for` of the jump reports an idle tick; and the jump completes a
task. -/
theorem jump_hits_completion (srt : StdSort) (s : SchedState) (ca : List Nat) (m : Int)
    (hpc : s.pc = Control.placing ca [] m) (h : TermInv s) :
    1 ≤ find_skip s.p.tasks s.running 0 ∧
    (∀ c t, t ∈ (lookup_comp s.p.comp c).current_tasks →
      find_skip s.p.tasks s.running 0 ≤ (lookup_task s.p.tasks t).ticks_remaining ∧
      ((lookup_task s.p.tasks t).run_for (find_skip s.p.tasks s.running 0)).1.idle_ticks = 0) ∧
    (∃ c t, t ∈ (lookup_comp s.p.comp c).current_tasks ∧
      (lookup_task s.p.tasks t).ticks_remaining = find_skip s.p.tasks s.running 0) ∧
    (step srt s).pc = Control.loop_head ∧
    (step srt s).tasks_remaining < s.tasks_remaining := by
  obtain ⟨hT, hlt⟩ := term_step_advance srt s ca m hpc h
  obtain ⟨⟨hcore, _⟩, _, t3, t4, t5, _, _, t8, _⟩ := h
  have hrun : s.running ≠ [] := by
    rcases t8 ca [] m hpc with h8 | ⟨t0, rest0, he, _⟩
    · exact h8
    · simp at he
  have hlt_of_running : ∀ r, (lookup_task s.p.tasks r).state = TaskState.running →
      r < s.p.tasks.length := by
    intro r hr
    by_contra hcon
    rw [state_of_ge _ r (not_lt.mp hcon)] at hr
    exact absurd hr (by simp)
  have hpos : ∀ r ∈ s.running, 1 ≤ (lookup_task s.p.tasks r).ticks_remaining := by
    intro r hr
    have hst := (t3 r).mp hr
    exact t5 r (hlt_of_running r hst) (by rw [hst]; simp)
  obtain ⟨k1, k2, r0, hr0, hr0k⟩ := (find_skip_spec s.p.tasks s.running 0 hpos).1 rfl hrun
  have hnone := tick_all_ne_none (find_skip s.p.tasks s.running 0) k1
    (List.range s.p.comp.length) s.p.comp s.p.tasks s.tasks_remaining hcore
    (fun c hc => List.mem_range.mp hc)
  refine ⟨k1, ?_, ?_, ?_⟩
  · intro c t ht
    have hst := ((hcore.1 c).2.2.2 t ht).2
    have hle := k2 t ((t3 t).mpr hst)
    refine ⟨hle, ?_⟩
    rw [(run_for_spec _ _).2.2.1]
    omega
  · obtain ⟨c, hc⟩ := t4 r0 ((t3 r0).mp hr0)
    exact ⟨c, r0, hc, hr0k⟩
  · have hnn : (0 : Int) ≤ (step srt s).tasks_remaining := by
      rw [hT.1.1.2.2.1]
      exact Int.natCast_nonneg _
    simp only [step, hpc] at hlt hnn ⊢
    cases htick : tick_all (find_skip s.p.tasks s.running 0) (List.range s.p.comp.length)
        (s.p.comp, s.p.tasks, s.tasks_remaining) with
    | none => exact absurd htick hnone
    | some r =>
      obtain ⟨comp1, tasks1, remaining1⟩ := r
      simp only [htick, steps_left, hpc, List.length_nil, add_zero] at hlt hnn ⊢
      refine ⟨trivial, ?_⟩
      by_contra hcon
      have h1 : s.tasks_remaining.toNat ≤ remaining1.toNat :=
        Int.toNat_le_toNat (not_lt.mp hcon)
      have h2 := Nat.mul_le_mul_right (s.p.job_sequence.length + 2) h1
      omega

/-- What the checks of the runs from `p` after 1 and 2 steps give for every
implementation of `std::sort`, when no task becomes runnable. -/
theorem no_jump_runs (srt : StdSort) (p : Planner)
    (h1 : all_runs (fun s => decide (s.pc = Control.placing [0] [] 1 ∧ s.running = [] ∧
      (∀ c ∈ s.p.comp, c.current_tasks = []) ∧ find_skip s.p.tasks s.running 0 = 0)) 1
        (schedule_start p) = true)
    (h2 : all_runs (fun s => decide (s.pc = Control.aborted)) 2 (schedule_start p) = true) :
    (run srt p 1).pc = Control.placing [0] [] 1 ∧ (run srt p 1).running = [] ∧
    (∀ c ∈ (run srt p 1).p.comp, c.current_tasks = []) ∧
    find_skip (run srt p 1).p.tasks (run srt p 1).running 0 = 0 ∧
    (run srt p 2).pc = Control.aborted := by
  have g1 := run_of_all_runs _ srt p 1 h1
  have g2 := run_of_all_runs _ srt p 2 h2
  simp only [decide_eq_true_eq] at g1 g2
  exact ⟨g1.1, g1.2.1, g1.2.2.1, g1.2.2.2, g2⟩

/-- C27 fails for a single task. On a validated input that is not a single task, with
tasks that need a core and a tick, every jump is at least 1 tick, at most the
`ticks_remaining` of every task on a node and equal to it for one of them, no `run_for`
reports an idle tick and a task completes. For the single task `A(1, 1)` on the node `n1`
with 1 core, `validate_tasks` returns `ok` with an empty `_job_sequence`; in the first
iteration no task is runnable, no task is on a node, `skip_ticks` is 0, equal to the
`ticks_remaining` of no task, and the jump `tick(0)` fails the assertion `ticks > 0`. -/
theorem C27_no_jump_for_single_task (srt : StdSort) :
    (∀ (nodes : List (String × Nat)) (tasks : List TaskInput) (p : Planner) (k : Nat)
      (ca : List Nat) (m : Int),
      validate_tasks (Planner.of_input nodes tasks) = some (Status.ok, p) →
      tasks.length ≠ 1 → (∀ x ∈ tasks, 1 ≤ x.cores_required ∧ 1 ≤ x.execution_time) →
      (run srt p k).pc = Control.placing ca [] m →
      1 ≤ find_skip (run srt p k).p.tasks (run srt p k).running 0 ∧
      (∀ c t, t ∈ (lookup_comp (run srt p k).p.comp c).current_tasks →
        find_skip (run srt p k).p.tasks (run srt p k).running 0 ≤
          (lookup_task (run srt p k).p.tasks t).ticks_remaining ∧
        ((lookup_task (run srt p k).p.tasks t).run_for
          (find_skip (run srt p k).p.tasks (run srt p k).running 0)).1.idle_ticks = 0) ∧
      (∃ c t, t ∈ (lookup_comp (run srt p k).p.comp c).current_tasks ∧
        (lookup_task (run srt p k).p.tasks t).ticks_remaining =
          find_skip (run srt p k).p.tasks (run srt p k).running 0) ∧
      (run srt p (k + 1)).pc = Control.loop_head ∧
      (run srt p (k + 1)).tasks_remaining < (run srt p k).tasks_remaining) ∧
    ∃ p, validate_tasks (Planner.of_input [("n1", 1)] [⟨"A", 1, 1, ""⟩]) =
        some (Status.ok, p) ∧
      p.job_sequence = [] ∧
      (run srt p 1).pc = Control.placing [0] [] 1 ∧ (run srt p 1).running = [] ∧
      (∀ c ∈ (run srt p 1).p.comp, c.current_tasks = []) ∧
      find_skip (run srt p 1).p.tasks (run srt p 1).running 0 = 0 ∧
      (run srt p 2).pc = Control.aborted := by
  refine ⟨?_, ⟨_, rfl, by decide, ?_⟩⟩
  · intro nodes tasks p k ca m hv hlen hpos hpc
    exact jump_hits_completion srt _ ca m hpc (run_termInv srt nodes tasks p hv hlen hpos k)
  · exact no_jump_runs srt _ (by decide) (by decide)

/-! ## The entries of the schedule -/

/-- Every step of `schedule_tasks` keeps the invariant of the schedule. -/
theorem step_scheduleInv (srt : StdSort) (n : Nat) (s : SchedState) (h : SchedInv s)
    (hs : ScheduleInv n s) : ScheduleInv n (step srt s) := by
  obtain ⟨h1, _, _, _, h5⟩ := h
  obtain ⟨s1, s2, s3⟩ := hs
  cases hpc : s.pc with
  | returned => simp only [step, hpc]; exact ⟨s1, s2, s3⟩
  | aborted => simp only [step, hpc]; exact ⟨s1, s2, s3⟩
  | loop_head =>
    simp only [step, hpc]
    split
    · exact ⟨s1, s2, s3⟩
    · exact ⟨s1, s2, s3⟩
  | placing ca todo m =>
    cases todo with
    | nil =>
      simp only [step, hpc]
      cases htick : tick_all (find_skip s.p.tasks s.running 0) (List.range s.p.comp.length)
          (s.p.comp, s.p.tasks, s.tasks_remaining) with
      | none => exact ⟨s1, s2, s3⟩
      | some r =>
        obtain ⟨comp1, tasks1, remaining1⟩ := r
        obtain ⟨_, q2, _⟩ := tick_all_spec _ _ _ _ _ _ _ _ h1 (List.nodup_range _)
          (fun c hc => List.mem_range.mp hc) htick
        refine ⟨q2.1.trans s1, s2, ?_⟩
        intro e he
        refine ⟨(s3 e he).1, ?_⟩
        intro hst
        exact (s3 e he).2 ((q2.2 e.1).2.2.1.mp hst)
    | cons t rest =>
      have ht : t < s.p.tasks.length := (h5 ca (t :: rest) m hpc t (List.mem_cons_self _ _)).1
      simp only [step, hpc]
      split
      · exact ⟨s1, s2, s3⟩
      · cases hfind : (find_node s.p.comp (lookup_task s.p.tasks t).reqd_cores ca
            s.p.count_comp_unavail).1 with
        | none =>
          simp only
          split
          · exact ⟨s1, s2, s3⟩
          · exact ⟨s1, s2, s3⟩
        | some c =>
          simp only
          cases hassign : assign_task (lookup_comp s.p.comp c) s.p.tasks t with
          | none => exact ⟨s1, s2, s3⟩
          | some r =>
            obtain ⟨c1, tasks1⟩ := r
            obtain ⟨_, a2, a3⟩ := assign_preserves _ _ _ c t c1 tasks1 h1 ht hassign
            have hns := (assign_task_spec _ _ _ _ _ hassign).1
            have hnew : ScheduleInv n
                { s with p := { s.p with schedule := s.p.schedule ++ [(t, c)],
                                         comp := modify_at (fun _ => c1) c s.p.comp,
                                         tasks := tasks1 } } := by
              refine ⟨a2.trans s1, ?_, ?_⟩
              · simp only [List.map_append, List.map_cons, List.map_nil]
                refine List.nodup_append.mpr ⟨s2, List.nodup_singleton t, ?_⟩
                intro x hx hx2
                simp only [List.mem_singleton] at hx2
                subst hx2
                obtain ⟨e, he, rfl⟩ := List.mem_map.mp hx
                exact (s3 e he).2 hns
              · intro e he
                simp only at he ⊢
                rw [(a3 e.1).2.2]
                rcases List.mem_append.mp he with h1 | h1
                · refine ⟨(s3 e h1).1, ?_⟩
                  split
                  · simp
                  · exact (s3 e h1).2
                · simp only [List.mem_singleton] at h1
                  subst h1
                  exact ⟨s1 ▸ ht, by simp⟩
            simp only
            generalize (if c1.cores_available = 0 then m - 1 else m) = m1
            split
            · exact hnew
            · exact hnew

/-- The invariant of the schedule holds along the run on a validated input. -/
theorem run_scheduleInv (srt : StdSort) (nodes : List (String × Nat)) (tasks : List TaskInput)
    (p : Planner) (hv : validate_tasks (Planner.of_input nodes tasks) = some (Status.ok, p)) :
    ∀ k, ScheduleInv tasks.length (run srt p k)
  | 0 => by
    obtain ⟨_, v2, _, _, v5, _⟩ := validate_ok_validated nodes tasks p hv
    refine ⟨v5, ?_, ?_⟩
    · simp [run, schedule_start, v2]
    · intro e he
      simp [run, schedule_start, v2] at he
  | k + 1 => step_scheduleInv srt _ _ (run_inv srt nodes tasks p hv k)
      (run_scheduleInv srt nodes tasks p hv k)

/-- When the run has returned, the tasks of the schedule entries are the tasks of the
table, each once. -/
theorem returned_schedule_perm (srt : StdSort) (nodes : List (String × Nat))
    (tasks : List TaskInput) (p : Planner)
    (hv : validate_tasks (Planner.of_input nodes tasks) = some (Status.ok, p)) (k : Nat)
    (hpc : (run srt p k).pc = Control.returned) :
    ((run srt p k).p.schedule.map Prod.fst).Perm (List.range tasks.length) := by
  obtain ⟨⟨_, _, hC, _⟩, _, h3, _⟩ := run_inv srt nodes tasks p hv k
  obtain ⟨s1, s2, s3⟩ := run_scheduleInv srt nodes tasks p hv k
  have hz := returned_remaining srt p k hpc
  rw [hz] at hC
  have hcnt : (run srt p k).p.tasks.countP incomplete = 0 := by exact_mod_cast hC.symm
  have hall : ∀ i, i < (run srt p k).p.tasks.length →
      (lookup_task (run srt p k).p.tasks i).state = TaskState.complete := by
    intro i hi
    have hm : lookup_task (run srt p k).p.tasks i ∈ (run srt p k).p.tasks := by
      rw [lookup_task, List.getD_eq_getElem _ _ hi]
      exact List.getElem_mem _
    simpa [incomplete] using (List.countP_eq_zero.mp hcnt) _ hm
  rw [List.perm_ext_iff_of_nodup s2 (List.nodup_range _)]
  intro a
  rw [List.mem_range]
  constructor
  · intro ha
    obtain ⟨e, he, rfl⟩ := List.mem_map.mp ha
    exact (s3 e he).1
  · intro ha
    have hlt : a < (run srt p k).p.tasks.length := s1 ▸ ha
    obtain ⟨c, hc⟩ := h3 a hlt (by rw [hall a hlt]; simp)
    exact List.mem_map.mpr ⟨(a, c), hc, rfl⟩

/-- C31. On a validated input, at every point of the run of `schedule_tasks` no task
occurs in two entries of the schedule, and when `schedule_tasks` returns the tasks of
the entries are the tasks of the task list, each exactly once. It does return when the
input is not a single task and every task needs a core and a tick. -/
theorem C31_one_entry_per_task (srt : StdSort) (nodes : List (String × Nat))
    (tasks : List TaskInput) (p : Planner)
    (hv : validate_tasks (Planner.of_input nodes tasks) = some (Status.ok, p)) :
    (∀ k, ((run srt p k).p.schedule.map Prod.fst).Nodup) ∧
    (∀ fuel schedule p2, schedule_tasks srt p fuel = some (schedule, p2) →
      (schedule.map Prod.fst).Perm (List.range tasks.length)) ∧
    (tasks.length ≠ 1 → (∀ x ∈ tasks, 1 ≤ x.cores_required ∧ 1 ≤ x.execution_time) →
      ∃ fuel schedule p2, schedule_tasks srt p fuel = some (schedule, p2) ∧
        (schedule.map Prod.fst).Perm (List.range tasks.length)) := by
  have hret : ∀ fuel schedule p2, schedule_tasks srt p fuel = some (schedule, p2) →
      (schedule.map Prod.fst).Perm (List.range tasks.length) := by
    intro fuel schedule p2 h
    simp only [schedule_tasks] at h
    cases hpc : (run srt p fuel).pc with
    | loop_head => simp [hpc] at h
    | aborted => simp [hpc] at h
    | placing ca todo n => simp [hpc] at h
    | returned =>
      simp only [hpc, Option.some.injEq, Prod.mk.injEq] at h
      obtain ⟨rfl, _⟩ := h
      exact returned_schedule_perm srt nodes tasks p hv fuel hpc
  refine ⟨fun k => (run_scheduleInv srt nodes tasks p hv k).2.1, hret, ?_⟩
  intro hlen hpos
  obtain ⟨fuel, schedule, p2, _, h⟩ := schedule_tasks_returns srt nodes tasks p hv hlen hpos
  exact ⟨fuel, schedule, p2, h, hret fuel schedule p2 h⟩

/-- A run of C31 on the nodes `n1`, `n2` with 2 cores each and the tasks `A(2, 5)`,
`B(2, 5)`, `C(2, 5)`: `schedule_tasks` returns within 13 steps with the entries
`(C, n1)`, `(B, n1)`, `(A, n1)`, one for each task. -/
theorem C31_one_entry_per_task_witness :
    ∃ p, validate_tasks (Planner.of_input [("n1", 2), ("n2", 2)]
        [⟨"A", 2, 5, ""⟩, ⟨"B", 2, 5, ""⟩, ⟨"C", 2, 5, ""⟩]) = some (Status.ok, p) ∧
      (∃ p2, schedule_tasks insertion_sorter p 13 = some ([(2, 0), (1, 0), (0, 0)], p2)) ∧
      ((∀ k, ((run insertion_sorter p k).p.schedule.map Prod.fst).Nodup) ∧
      (∀ fuel schedule p2, schedule_tasks insertion_sorter p fuel = some (schedule, p2) →
        (schedule.map Prod.fst).Perm (List.range
          [(⟨"A", 2, 5, ""⟩ : TaskInput), ⟨"B", 2, 5, ""⟩, ⟨"C", 2, 5, ""⟩].length)) ∧
      ([(⟨"A", 2, 5, ""⟩ : TaskInput), ⟨"B", 2, 5, ""⟩, ⟨"C", 2, 5, ""⟩].length ≠ 1 →
        (∀ x ∈ [(⟨"A", 2, 5, ""⟩ : TaskInput), ⟨"B", 2, 5, ""⟩, ⟨"C", 2, 5, ""⟩],
          1 ≤ x.cores_required ∧ 1 ≤ x.execution_time) →
        ∃ fuel schedule p2, schedule_tasks insertion_sorter p fuel = some (schedule, p2) ∧
          (schedule.map Prod.fst).Perm (List.range
            [(⟨"A", 2, 5, ""⟩ : TaskInput), ⟨"B", 2, 5, ""⟩, ⟨"C", 2, 5, ""⟩].length))) := by
  refine ⟨_, rfl, ⟨_, rfl⟩, ?_⟩
  exact C31_one_entry_per_task insertion_sorter [("n1", 2), ("n2", 2)]
    [⟨"A", 2, 5, ""⟩, ⟨"B", 2, 5, ""⟩, ⟨"C", 2, 5, ""⟩] _ rfl

/-! ## The assertions during scheduling -/

/-- A call of `tick` aborts exactly when one of its assertions is violated. -/
theorem tick_violation_none_iff (c : Compute) (tasks : List Task) (k : Nat) :
    tick_violation c tasks k = none ↔ tick c tasks k ≠ none := by
  simp only [tick_violation, tick]
  split
  · simp
  · cases tick_loop c.cores_total k c.current_tasks
        ⟨tasks, 0, 0, 0, 0, c.cores_available, []⟩ with
    | none => simp
    | some a =>
      simp only
      split
      · simp
      · split
        · simp
        · simp

/-- On a node that satisfies its invariant a call of `tick(k)` passes its assertions
when `k > 0`, and fails the assertion `ticks>0` when `k = 0`. -/
theorem tick_violation_nodeInv (c : Compute) (tasks : List Task) (k : Nat)
    (hinv : NodeInv tasks c) :
    tick_violation c tasks k = if 0 < k then none else some TickAssertion.ticks_positive := by
  by_cases hk : 0 < k
  · rw [if_pos hk]
    exact (tick_violation_none_iff c tasks k).mpr (tick_ne_none c tasks k hk hinv)
  · rw [if_neg hk]
    simp [tick_violation, hk]

/-- Under the invariant of nodes and tasks, the only assertion Step F can fail is
`ticks>0`, and it fails it exactly when `skip_ticks` is 0 and there is a node to tick. -/
theorem tick_all_violation_spec (k : Nat) :
    ∀ (todo : List Nat) (comp : List Compute) (tasks : List Task) (remaining : Int),
      CoreInv comp tasks remaining → (∀ c ∈ todo, c < comp.length) →
      tick_all_violation k todo (comp, tasks, remaining) =
        (if 0 < k ∨ todo = [] then none else some TickAssertion.ticks_positive) ∧
      (tick_all k todo (comp, tasks, remaining) = none ↔ ¬ (0 < k ∨ todo = [])) := by
  intro todo
  induction todo with
  | nil =>
    intro comp tasks remaining _ _
    simp [tick_all_violation, tick_all]
  | cons c rest ih =>
    intro comp tasks remaining hinv hlt
    have hc : c < comp.length := hlt c (List.mem_cons_self _ _)
    have hv := tick_violation_nodeInv (lookup_comp comp c) tasks k (hinv.1 c)
    simp only [tick_all_violation, tick_all]
    cases htick : tick (lookup_comp comp c) tasks k with
    | none =>
      have hk : ¬ 0 < k := fun hk => tick_ne_none _ _ k hk (hinv.1 c) htick
      rw [if_neg hk] at hv
      simp only [hv, hk, false_or, reduceCtorEq, if_false, not_false_eq_true, and_self]
    | some r =>
      obtain ⟨done, cn, tasksn⟩ := r
      obtain ⟨p1, _, p3, _⟩ := tick_preserves comp tasks remaining c k done cn tasksn
        hinv hc htick
      obtain ⟨i1, i2⟩ := ih (modify_at (fun _ => cn) c comp) tasksn (remaining - done) p1
        (fun x hx => by rw [length_modify_at]; exact hlt x (List.mem_cons_of_mem _ hx))
      simp only [i1, i2, p3, true_or, if_true, not_true_eq_false, and_self]

/-- The call of `assign_task` a step makes satisfies its precondition and passes its
assertions: the guard of the loop body gives the state `not_started`, the test of the
walk gives `cores_required <= cores_available`. -/
theorem assign_call_ok (s : SchedState) (ca : List Nat) (t c : Nat)
    (hst : (lookup_task s.p.tasks t).state = TaskState.not_started)
    (hfind : (find_node s.p.comp (lookup_task s.p.tasks t).reqd_cores ca
      s.p.count_comp_unavail).1 = some c) :
    ((lookup_task s.p.tasks t).reqd_cores : Int) ≤ (lookup_comp s.p.comp c).cores_available ∧
    ∃ c1 tasks1, assign_task (lookup_comp s.p.comp c) s.p.tasks t = some (c1, tasks1) := by
  obtain ⟨_, _, _, _, hle, _⟩ := find_node_spec s.p.comp _ ca s.p.count_comp_unavail c
    (find_node s.p.comp (lookup_task s.p.tasks t).reqd_cores ca s.p.count_comp_unavail).2
    (Prod.ext hfind rfl)
  refine ⟨hle, ?_⟩
  cases h : assign_task (lookup_comp s.p.comp c) s.p.tasks t with
  | none => exact absurd h (assign_task_ne_none _ _ t hst hle)
  | some r => exact ⟨r.1, r.2, rfl⟩

/-- A step aborts only at Step F, with `skip_ticks = 0`, on the assertion `ticks>0` of
`tick`. -/
theorem step_abort_cause (srt : StdSort) (s : SchedState) (h : SchedInv s)
    (hna : s.pc ≠ Control.aborted) (hab : (step srt s).pc = Control.aborted) :
    ∃ ca n, s.pc = Control.placing ca [] n ∧ find_skip s.p.tasks s.running 0 = 0 ∧
      tick_all_violation (find_skip s.p.tasks s.running 0) (List.range s.p.comp.length)
        (s.p.comp, s.p.tasks, s.tasks_remaining) = some TickAssertion.ticks_positive := by
  cases hpc : s.pc with
  | aborted => exact absurd hpc hna
  | returned =>
    simp only [step, hpc] at hab
    exact absurd hab (by simp)
  | loop_head =>
    simp only [step, hpc] at hab
    split at hab
    · exact absurd hab (by simp)
    · exact absurd hab (by simp)
  | placing ca todo n =>
    cases todo with
    | nil =>
      obtain ⟨v1, v2⟩ := tick_all_violation_spec (find_skip s.p.tasks s.running 0)
        (List.range s.p.comp.length) s.p.comp s.p.tasks s.tasks_remaining h.1
        (fun c hc => List.mem_range.mp hc)
      have hnone : tick_all (find_skip s.p.tasks s.running 0) (List.range s.p.comp.length)
          (s.p.comp, s.p.tasks, s.tasks_remaining) = none := by
        simp only [step, hpc] at hab
        cases htick : tick_all (find_skip s.p.tasks s.running 0) (List.range s.p.comp.length)
            (s.p.comp, s.p.tasks, s.tasks_remaining) with
        | none => rfl
        | some r =>
          rw [htick] at hab
          exact absurd hab (by simp)
      have hcond := v2.mp hnone
      rw [if_neg hcond] at v1
      exact ⟨ca, n, rfl, by omega, v1⟩
    | cons t rest =>
      exfalso
      simp only [step, hpc] at hab
      split at hab
      · exact absurd hab (by simp)
      · next hst =>
        simp only [ne_eq, not_not] at hst
        cases hfind : (find_node s.p.comp (lookup_task s.p.tasks t).reqd_cores ca
            s.p.count_comp_unavail).1 with
        | none =>
          simp only [hfind] at hab
          split at hab
          · exact absurd hab (by simp)
          · exact absurd hab (by simp)
        | some c =>
          obtain ⟨_, c1, tasks1, hassign⟩ := assign_call_ok s ca t c hst hfind
          simp only [hfind, hassign] at hab
          split at hab <;> split at hab <;> exact absurd hab (by simp)

/-- C32. On a validated input, at every point of the run of `schedule_tasks` and with
every implementation of `std::sort`: the call of `assign_task` a step makes is for a task
in state `not_started` and a node whose `cores_available` is at least the
`cores_required` of the task, and it passes both assertions of `assign_task`; the calls
of `tick` at Step F violate neither `_cores_available <= _cores_total` nor
`_cores_total >= cores_used` nor the accounting assertion (the only assertion of `tick`
that can fail is `ticks>0`); and a step that aborts the run does so at Step F with
`skip_ticks = 0`, on the assertion `ticks>0`. -/
theorem C32_assertions_hold (srt : StdSort) (nodes : List (String × Nat))
    (tasks : List TaskInput) (p : Planner)
    (hv : validate_tasks (Planner.of_input nodes tasks) = some (Status.ok, p)) (k : Nat) :
    (∀ ca t rest n c, (run srt p k).pc = Control.placing ca (t :: rest) n →
      (lookup_task (run srt p k).p.tasks t).state = TaskState.not_started →
      (find_node (run srt p k).p.comp (lookup_task (run srt p k).p.tasks t).reqd_cores ca
        (run srt p k).p.count_comp_unavail).1 = some c →
      ((lookup_task (run srt p k).p.tasks t).reqd_cores : Int) ≤
        (lookup_comp (run srt p k).p.comp c).cores_available ∧
      ∃ c1 tasks1, assign_task (lookup_comp (run srt p k).p.comp c) (run srt p k).p.tasks t =
        some (c1, tasks1)) ∧
    (∀ ca n, (run srt p k).pc = Control.placing ca [] n →
      tick_all_violation (find_skip (run srt p k).p.tasks (run srt p k).running 0)
        (List.range (run srt p k).p.comp.length)
        ((run srt p k).p.comp, (run srt p k).p.tasks, (run srt p k).tasks_remaining) = none ∨
      tick_all_violation (find_skip (run srt p k).p.tasks (run srt p k).running 0)
        (List.range (run srt p k).p.comp.length)
        ((run srt p k).p.comp, (run srt p k).p.tasks, (run srt p k).tasks_remaining) =
          some TickAssertion.ticks_positive) ∧
    ((run srt p k).pc ≠ Control.aborted → (run srt p (k + 1)).pc = Control.aborted →
      ∃ ca n, (run srt p k).pc = Control.placing ca [] n ∧
        find_skip (run srt p k).p.tasks (run srt p k).running 0 = 0 ∧
        tick_all_violation (find_skip (run srt p k).p.tasks (run srt p k).running 0)
          (List.range (run srt p k).p.comp.length)
          ((run srt p k).p.comp, (run srt p k).p.tasks, (run srt p k).tasks_remaining) =
            some TickAssertion.ticks_positive) := by
  have hinv := run_inv srt nodes tasks p hv k
  refine ⟨?_, ?_, ?_⟩
  · intro ca t rest n c _ hst hfind
    exact assign_call_ok (run srt p k) ca t c hst hfind
  · intro ca n _
    obtain ⟨v1, _⟩ := tick_all_violation_spec
      (find_skip (run srt p k).p.tasks (run srt p k).running 0)
      (List.range (run srt p k).p.comp.length) (run srt p k).p.comp (run srt p k).p.tasks
      (run srt p k).tasks_remaining hinv.1 (fun c hc => List.mem_range.mp hc)
    rw [v1]
    split
    · exact Or.inl rfl
    · exact Or.inr rfl
  · intro hna hab
    exact step_abort_cause srt (run srt p k) hinv hna hab

/-- A run of C32 on the nodes `n1` with 3 cores and `n2` with 4 and the tasks `T1(3, 1)`,
`T2(1, 1)`: after one step the loop over the runnable tasks is about to place `T1`,
after three steps control is at Step F with `T1` running. -/
theorem C32_assertions_hold_witness :
    ∃ p, validate_tasks (Planner.of_input [("n1", 3), ("n2", 4)]
        [⟨"T1", 3, 1, ""⟩, ⟨"T2", 1, 1, ""⟩]) = some (Status.ok, p) ∧
      (run insertion_sorter p 1).pc = Control.placing [0, 1] [0, 1] 2 ∧
      ((∀ ca t rest n c, (run insertion_sorter p 1).pc = Control.placing ca (t :: rest) n →
        (lookup_task (run insertion_sorter p 1).p.tasks t).state = TaskState.not_started →
        (find_node (run insertion_sorter p 1).p.comp
          (lookup_task (run insertion_sorter p 1).p.tasks t).reqd_cores ca
          (run insertion_sorter p 1).p.count_comp_unavail).1 = some c →
        ((lookup_task (run insertion_sorter p 1).p.tasks t).reqd_cores : Int) ≤
          (lookup_comp (run insertion_sorter p 1).p.comp c).cores_available ∧
        ∃ c1 tasks1, assign_task (lookup_comp (run insertion_sorter p 1).p.comp c)
          (run insertion_sorter p 1).p.tasks t = some (c1, tasks1)) ∧
      (∀ ca n, (run insertion_sorter p 1).pc = Control.placing ca [] n →
        tick_all_violation
          (find_skip (run insertion_sorter p 1).p.tasks (run insertion_sorter p 1).running 0)
          (List.range (run insertion_sorter p 1).p.comp.length)
          ((run insertion_sorter p 1).p.comp, (run insertion_sorter p 1).p.tasks,
            (run insertion_sorter p 1).tasks_remaining) = none ∨
        tick_all_violation
          (find_skip (run insertion_sorter p 1).p.tasks (run insertion_sorter p 1).running 0)
          (List.range (run insertion_sorter p 1).p.comp.length)
          ((run insertion_sorter p 1).p.comp, (run insertion_sorter p 1).p.tasks,
            (run insertion_sorter p 1).tasks_remaining) =
            some TickAssertion.ticks_positive) ∧
      ((run insertion_sorter p 1).pc ≠ Control.aborted →
        (run insertion_sorter p (1 + 1)).pc = Control.aborted →
        ∃ ca n, (run insertion_sorter p 1).pc = Control.placing ca [] n ∧
          find_skip (run insertion_sorter p 1).p.tasks (run insertion_sorter p 1).running 0 = 0 ∧
          tick_all_violation
            (find_skip (run insertion_sorter p 1).p.tasks (run insertion_sorter p 1).running 0)
            (List.range (run insertion_sorter p 1).p.comp.length)
            ((run insertion_sorter p 1).p.comp, (run insertion_sorter p 1).p.tasks,
              (run insertion_sorter p 1).tasks_remaining) =
              some TickAssertion.ticks_positive)) := by
  refine ⟨_, rfl, by decide, ?_⟩
  exact C32_assertions_hold insertion_sorter [("n1", 3), ("n2", 4)]
    [⟨"T1", 3, 1, ""⟩, ⟨"T2", 1, 1, ""⟩] _ rfl 1

end PlannerModel
